import Mathlib

/-!
# Proof-of-work core of the Thought node: Cuckoo Cycle and difficulty retargeting

A shallow embedding of `src/crypto/cuckoo/cuckoo.cpp`, `src/crypto/cuckoo/verify.cpp`,
`src/cuckoosolver.cpp` and `src/pow.cpp`, with the fee rate of `src/policy/feerate.cpp` and
the registration validators of `src/evo`, followed by the properties proved about it.

Machine integers are natural numbers reduced modulo `2 ^ 32` or `2 ^ 64` at every place
where the C++ type truncates.  Loops are structural recursions on an iteration budget; a
budget that runs out is reported as `none`, never as a result of the program.
-/

set_option autoImplicit false
set_option linter.unusedVariables false
set_option maxRecDepth 1000000

namespace cuckoo

/-! ## `crypto/cuckoo/cuckoo.h`, `crypto/cuckoo/cuckoo.cpp` -/

/-- Number of nonces in a cuckoo proof. -/
def PROOFSIZE : Nat := 42

/-- Size in bytes of the header blob used to generate siphash keys. -/
def HEADERSIZE : Nat := 80

/-- Truncation to `uint32_t`. -/
def u32 (x : Nat) : Nat := x % 2 ^ 32

/-- Truncation to `uint64_t`. -/
def u64 (x : Nat) : Nat := x % 2 ^ 64

/-- The four 64-bit words of a siphash key. -/
structure siphash_keys where
  k0 : Nat
  k1 : Nat
  k2 : Nat
  k3 : Nat
deriving DecidableEq, Repr

/-- The macro `ROTL(x,b)`: rotation of a 64-bit word to the left by `b` bits. -/
def ROTL (x b : Nat) : Nat := u64 ((x <<< b) ||| (x >>> (64 - b)))

/-- The macro `SIPROUND`, on the four state words `v0 v1 v2 v3`. -/
def SIPROUND (v0 v1 v2 v3 : Nat) : Nat × Nat × Nat × Nat :=
  let a0 := u64 (v0 + v1)
  let a2 := u64 (v2 + v3)
  let a1 := ROTL v1 13
  let a3 := ROTL v3 16
  let b1 := a1 ^^^ a0
  let b3 := a3 ^^^ a2
  let b0 := ROTL a0 32
  let b2 := u64 (a2 + b1)
  let c0 := u64 (b0 + b3)
  let c1 := ROTL b1 17
  let c3 := ROTL b3 21
  let d1 := c1 ^^^ b2
  let d3 := c3 ^^^ c0
  let d2 := ROTL b2 32
  (c0, d1, d2, d3)

/-- Apply `SIPROUND` to a state held as a tuple. -/
def sipround (s : Nat × Nat × Nat × Nat) : Nat × Nat × Nat × Nat :=
  SIPROUND s.1 s.2.1 s.2.2.1 s.2.2.2

/-- SipHash-2-4 specialised to a precomputed key and an 8 byte nonce. -/
def siphash24 (keys : siphash_keys) (nonce : Nat) : Nat :=
  let s2 := sipround (sipround (keys.k0, keys.k1, keys.k2, keys.k3 ^^^ nonce))
  let s3 := (s2.1 ^^^ nonce, s2.2.1, s2.2.2.1 ^^^ 0xff, s2.2.2.2)
  let s7 := sipround (sipround (sipround (sipround s3)))
  (s7.1 ^^^ s7.2.1) ^^^ (s7.2.2.1 ^^^ s7.2.2.2)

/-- Little-endian value of a list of bytes. -/
def le_bytes : List Nat → Nat
  | [] => 0
  | b :: bs => b % 256 + 256 * le_bytes bs

/-- The 64-bit word `((uint64_t *)keybuf)[i]` after `htole64`: bytes `8i .. 8i+7`, little-endian. -/
def le64 (keybuf : List Nat) (i : Nat) : Nat :=
  le_bytes ((keybuf.drop (8 * i)).take 8)

/-- Set siphash keys from a byte array. -/
def siphash_setkeys (keybuf : List Nat) : siphash_keys :=
  { k0 := le64 keybuf 0, k1 := le64 keybuf 1, k2 := le64 keybuf 2, k3 := le64 keybuf 3 }

/-- The node of edge `nonce` on side `uorv`:
`(siphash24(keys, 2*nonce + uorv) & edgemask) << 1 | uorv`, the argument `2*nonce + uorv`
computed in `uint32_t` and the result returned as `uint32_t`. -/
def sipnode (keys : siphash_keys) (nonce uorv edgemask : Nat) : Nat :=
  u32 (((siphash24 keys (u32 (2 * nonce + uorv)) &&& edgemask) <<< 1) ||| uorv)

/-! ## `crypto/cuckoo/verify.h`, `crypto/cuckoo/verify.cpp` -/

/-- Result of cuckoo proof verification. -/
inductive verify_code where
  | POW_OK
  | POW_TOO_BIG
  | POW_TOO_SMALL
  | POW_NON_MATCHING
  | POW_BRANCH
  | POW_DEAD_END
  | POW_SHORT_CYCLE
deriving DecidableEq, Repr

open verify_code

/-- The first loop of `verify`, from index `n` with `k` iterations left: range and order
checks, the endpoint array `uvs` (written in index order, here appended) and the two
running xors.  An early `return` is `Except.error`. -/
def verify_scan (keys : siphash_keys) (nnodes edgemask : Nat) (nonces : List Nat) :
    Nat → Nat → List Nat → Nat → Nat → Except verify_code (List Nat × Nat × Nat)
  | 0, _, uvs, xor0, xor1 => .ok (uvs, xor0, xor1)
  | k + 1, n, uvs, xor0, xor1 =>
    if nonces.getD n 0 > nnodes then .error POW_TOO_BIG
    else if n ≠ 0 ∧ nonces.getD n 0 ≤ nonces.getD (n - 1) 0 then .error POW_TOO_SMALL
    else
      let u := sipnode keys (nonces.getD n 0) 0 edgemask
      let v := sipnode keys (nonces.getD n 0) 1 edgemask
      verify_scan keys nnodes edgemask nonces k (n + 1) (uvs ++ [u, v]) (xor0 ^^^ u) (xor1 ^^^ v)

/-- The inner `for` loop of the cycle trace, with `fuel` evaluations of its condition left:
`k` steps by two around the `2*PROOFSIZE` slots until it is back at `i`; `j` is the slot
found so far (`j = i` when none).  `Except.error` is the `return POW_BRANCH`; `none` is an
exhausted budget. -/
def find_other (uvs : List Nat) (i : Nat) : Nat → Nat → Nat → Option (Except verify_code Nat)
  | 0, _, _ => none
  | fuel + 1, k, j =>
    let k1 := (k + 2) % (2 * PROOFSIZE)
    if k1 = i then some (.ok j)
    else if uvs.getD k1 0 = uvs.getD i 0 then
      if j ≠ i then some (.error POW_BRANCH) else find_other uvs i fuel k1 k1
    else find_other uvs i fuel k1 j

/-- The `do ... while (i != 0)` loop of the cycle trace, with `fuel` iterations left. -/
def follow_cycle (uvs : List Nat) : Nat → Nat → Nat → Option verify_code
  | 0, _, _ => none
  | fuel + 1, i, n =>
    match find_other uvs i PROOFSIZE i i with
    | none => none
    | some (.error c) => some c
    | some (.ok j) =>
      if j = i then some POW_DEAD_END
      else
        let i1 := j ^^^ 1
        let n1 := n + 1
        if i1 ≠ 0 then follow_cycle uvs fuel i1 n1
        else some (if n1 = PROOFSIZE then POW_OK else POW_SHORT_CYCLE)

/-- The local `nnodes = (uint32_t)1 << graphSize`. -/
def nnodes_of (graphSize : Nat) : Nat := u32 (1 <<< graphSize)

/-- The local `nedges = (uint32_t)1 << (graphSize - 1)`. -/
def nedges_of (graphSize : Nat) : Nat := u32 (1 <<< (graphSize - 1))

/-- The local `edgemask = (uint32_t)nedges - 1`. -/
def edgemask_of (graphSize : Nat) : Nat := u32 (nedges_of graphSize + 2 ^ 32 - 1)

/-- Verify a cuckoo proof given the proof nonces, the key buffer and the graph size.
`graphSize` is a `uint32_t`; the shifts are those of the source for `1 ≤ graphSize ≤ 31`. -/
def verify (nonces : List Nat) (buf : List Nat) (graphSize : Nat) : Option verify_code :=
  let nnodes := nnodes_of graphSize
  let edgemask := edgemask_of graphSize
  let keys := siphash_setkeys buf
  match verify_scan keys nnodes edgemask nonces PROOFSIZE 0 [] 0 0 with
  | .error c => some c
  | .ok (uvs, xor0, xor1) =>
    if (xor0 ||| xor1) ≠ 0 then some POW_NON_MATCHING
    else follow_cycle uvs (2 * PROOFSIZE) 0 0

end cuckoo

/-! ## Collaborators of `pow.cpp` that are not part of the sources -/

/-- Truncation to the 256 bits of `arith_uint256`. -/
def u256 (x : Nat) : Nat := x % 2 ^ 256

/-- Bit length by halving, with `fuel` halvings available. -/
def bits_aux : Nat → Nat → Nat
  | 0, _ => 0
  | fuel + 1, x => if x = 0 then 0 else bits_aux fuel (x / 2) + 1

/-- Modelled from the spec: `base_uint::bits` (arith_uint256.cpp is not under src/), the
position of the highest set bit plus one, zero for zero. -/
def bits (x : Nat) : Nat := bits_aux 256 x

/-- Modelled from the spec: `arith_uint256::SetCompact` (arith_uint256.cpp is not under
src/), the decoding of the 32-bit exponent+mantissa encoding of a 256-bit target.  The top
byte is the size in bytes, the low 23 bits the mantissa, bit 23 the sign.  Returns the
decoded value and the flags `fNegative` and `fOverflow`. -/
def SetCompact (nCompact : Nat) : Nat × Bool × Bool :=
  let nSize := nCompact >>> 24
  let nWord := if nSize ≤ 3 then (nCompact &&& 0x007fffff) >>> (8 * (3 - nSize))
    else nCompact &&& 0x007fffff
  let value := if nSize ≤ 3 then nWord else u256 (nWord <<< (8 * (nSize - 3)))
  let fNegative := decide (nWord ≠ 0 ∧ nCompact &&& 0x00800000 ≠ 0)
  let fOverflow := decide (nWord ≠ 0 ∧
    (nSize > 34 ∨ (nWord > 0xff ∧ nSize > 33) ∨ (nWord > 0xffff ∧ nSize > 32)))
  (value, fNegative, fOverflow)

/-- Modelled from the spec: `arith_uint256::GetCompact` (arith_uint256.cpp is not under
src/), the encoding of a 256-bit target as size byte and three-byte mantissa; a mantissa
with bit 23 set is shifted down one byte and the size increased, so the sign bit stays
clear. -/
def GetCompact (x : Nat) : Nat :=
  let nSize := (bits x + 7) / 8
  let nCompact := if nSize ≤ 3 then cuckoo.u32 (cuckoo.u64 x <<< (8 * (3 - nSize)))
    else cuckoo.u32 (cuckoo.u64 (x >>> (8 * (nSize - 3))))
  if nCompact &&& 0x00800000 ≠ 0 then (nCompact >>> 8) ||| ((nSize + 1) <<< 24)
  else nCompact ||| (nSize <<< 24)

/-- Modelled from the spec: the fields of `Consensus::Params` (consensus/params.h is not
under src/) that `pow.cpp` reads.  The two ceilings are 256-bit numbers, the times and
heights are signed. -/
structure Params where
  powLimit : Nat
  cuckooPowLimit : Nat
  cuckooGraphSize : Nat
  nPowTargetTimespan : Int
  nPowTargetSpacing : Int
  fPowAllowMinDifficultyBlocks : Bool
  fPowNoRetargeting : Bool
  nPowDGWHeight : Int
  midasStartHeight : Int
  nMinimumDifficultyBlocks : Int
  CuckooHardForkBlockHeight : Int
  genesisBlockTime : Int

/-- Modelled from the spec: `Params::DifficultyAdjustmentInterval()`,
`nPowTargetTimespan / nPowTargetSpacing` in `int64_t`; `none` is the division by zero. -/
def Params.DifficultyAdjustmentInterval (params : Params) : Option Int :=
  if params.nPowTargetSpacing = 0 then none
  else some (Int.tdiv params.nPowTargetTimespan params.nPowTargetSpacing)

/-- Modelled from the spec: a block summary of the ancestor chain (chain.h is not under
src/): height, timestamp and compact target.  A `const CBlockIndex*` is the list of the
block it points to followed by its ancestors, most recent first; `[]` is `nullptr` and the
tail of the list is `pprev`. -/
structure CBlockIndex where
  nHeight : Int
  nTime : Nat
  nBits : Nat
deriving DecidableEq, Repr

/-- `GetBlockTime()`: the 32-bit timestamp as `int64_t`. -/
def CBlockIndex.GetBlockTime (b : CBlockIndex) : Int := (b.nTime : Int)

/-- Modelled from the spec: `CBlockIndex::GetAncestor(height)`, the random-access ancestor
lookup by height: `nullptr` when the height is negative or above the block's own, else the
ancestor that many links back. -/
def GetAncestor (pindex : List CBlockIndex) (height : Int) : List CBlockIndex :=
  match pindex with
  | [] => []
  | b :: _ =>
    if height > b.nHeight ∨ height < 0 then [] else pindex.drop (b.nHeight - height).toNat

/-- Modelled from the spec: a block header (primitives/block.h is not under src/): the
fields `pow.cpp` and the solver read, the attached 42-entry proof, and the flag
`isCuckooPow()` that tells which primitive the header uses. -/
structure CBlockHeader where
  nVersion : Nat
  nTime : Nat
  nBits : Nat
  nNonce : Nat
  cuckooProof : List Nat
  isCuckooPow : Bool
deriving DecidableEq, Repr

/-- `GetBlockTime()`: the 32-bit timestamp as `int64_t`. -/
def CBlockHeader.GetBlockTime (h : CBlockHeader) : Int := (h.nTime : Int)

/-- Modelled from the spec: the digests computed by code outside src/.  `serialize` is the
network serialisation of a header, `sha256` is `CSHA256` and `hash256` is `CHash256`
(bytes to 32 bytes), `GetHash` is `CBlockHeader::GetHash()` read as a 256-bit number. -/
structure Digests where
  serialize : CBlockHeader → List Nat
  sha256 : List Nat → List Nat
  hash256 : List Nat → List Nat
  GetHash : CBlockHeader → Nat

namespace cuckoo

/-- `resize(n)` of a byte vector: truncate, or pad with zero bytes. -/
def resize (v : List Nat) (n : Nat) : List Nat := (v ++ List.replicate n 0).take n

/-- Hashes the given block header for use as a `siphash_keys` structure: the SHA-256 of
the first `HEADERSIZE` bytes of its serialisation. -/
def hash_blockheader (D : Digests) (header : CBlockHeader) : List Nat :=
  D.sha256 (resize (D.serialize header) HEADERSIZE)

end cuckoo

/-- The bytes of a `uint32_t` in memory (little-endian host). -/
def le32_bytes (x : Nat) : List Nat :=
  [x % 256, x / 256 % 256, x / 65536 % 256, x / 16777216 % 256]

/-! ## `pow.cpp` -/

/-- The sums and averages kept by `avgRecentTimestamps`. -/
structure Averages where
  avgOf5 : Int
  avgOf7 : Int
  avgOf9 : Int
  avgOf17 : Int
deriving DecidableEq, Repr

/-- The loop of `avgRecentTimestamps` with `k` iterations left, at `blockoffset`. -/
def avgRecentTimestamps_loop (params : Params) :
    Nat → Nat → List CBlockIndex → Int → Averages → Averages
  | 0, _, _, _, acc => acc
  | k + 1, blockoffset, pindexLast, blocktime, acc =>
    let oldblocktime := blocktime
    let next : List CBlockIndex × Int :=
      match pindexLast with
      | _ :: prev =>
        (prev, match prev with
          | b :: _ => b.GetBlockTime
          | [] => 0)
      | [] => ([], blocktime - params.nPowTargetSpacing)
    let d := oldblocktime - next.2
    avgRecentTimestamps_loop params k (blockoffset + 1) next.1 next.2
      { avgOf5 := if blockoffset < 5 then acc.avgOf5 + d else acc.avgOf5
        avgOf7 := if blockoffset < 7 then acc.avgOf7 + d else acc.avgOf7
        avgOf9 := if blockoffset < 9 then acc.avgOf9 + d else acc.avgOf9
        avgOf17 := acc.avgOf17 + d }

/-- Average intervals over the last 5, 7, 9 and 17 blocks. -/
def avgRecentTimestamps (pindexLast : List CBlockIndex) (params : Params) : Averages :=
  let blocktime : Int :=
    match pindexLast with
    | b :: _ => b.GetBlockTime
    | [] => 0
  let sums := avgRecentTimestamps_loop params 17 0 pindexLast blocktime ⟨0, 0, 0, 0⟩
  { avgOf5 := Int.tdiv sums.avgOf5 5
    avgOf7 := Int.tdiv sums.avgOf7 7
    avgOf9 := Int.tdiv sums.avgOf9 9
    avgOf17 := Int.tdiv sums.avgOf17 17 }

/-- The ceiling selected by height in `DarkGravityWave`, `Midas` and `GetNextWorkRequired`:
`cuckooPowLimit` from the fork height on, else `powLimit`. -/
def usedPowLimit (params : Params) (currentBlockHeight : Int) : Nat :=
  if currentBlockHeight ≥ params.CuckooHardForkBlockHeight then params.cuckooPowLimit
  else params.powLimit

/-- The desired interval computed alike in `DarkGravityWave` and `Midas` from the time `now`
of the previous block and its scheduled time; `none` is a division by zero in
`DifficultyAdjustmentInterval()`. -/
def desiredInterval (params : Params) (now BlockHeightTime : Int) : Option Int :=
  let nFastInterval := Int.tdiv (params.nPowTargetSpacing * 9) 10
  let nSlowInterval := Int.tdiv (params.nPowTargetSpacing * 11) 10
  match params.DifficultyAdjustmentInterval with
  | none => none
  | some interval =>
    if now < BlockHeightTime + interval ∧ now > BlockHeightTime then
      some (Int.tdiv ((interval - (now - BlockHeightTime)) * params.nPowTargetSpacing +
        (now - BlockHeightTime) * nFastInterval) interval)
    else if now + interval > BlockHeightTime ∧ now < BlockHeightTime then
      some (Int.tdiv ((interval - (BlockHeightTime - now)) * params.nPowTargetSpacing +
        (BlockHeightTime - now) * nSlowInterval) interval)
    else if now < BlockHeightTime then some nSlowInterval
    else some nFastInterval

/-- The averaging loop of `DarkGravityWave` with `k` iterations left, at `nCountBlocks`:
returns the accumulated `bnPastTargetAvg` and the last `pindex`; `none` is the failed
`assert(pindex->pprev)`. -/
def DarkGravityWave_loop : Nat → Nat → List CBlockIndex → Nat → Option (Nat × List CBlockIndex)
  | 0, _, pindex, avg => some (avg, pindex)
  | k + 1, nCountBlocks, pindex, avg =>
    match pindex with
    | [] => none
    | b :: prev =>
      let bnTarget := (SetCompact b.nBits).1
      let avg1 := if nCountBlocks = 1 then bnTarget / 24 else u256 (avg + bnTarget / 24)
      if nCountBlocks ≠ 24 then
        match prev with
        | [] => none
        | _ :: _ => DarkGravityWave_loop k (nCountBlocks + 1) prev avg1
      else DarkGravityWave_loop k (nCountBlocks + 1) pindex avg1

/-- The value of an `int64_t` converted to `uint64_t`. -/
def int_u64 (x : Int) : Nat := (x % 2 ^ 64).toNat

/-- The value of an `int64_t` converted to `uint32_t`. -/
def int_u32 (x : Int) : Nat := (x % 2 ^ 32).toNat

/-- DarkGravity v3.  `none` is a run that does not return: a null `pindexLast`, a failed
assertion, or a division by zero. -/
def DarkGravityWave (pindexLast : List CBlockIndex) (pblock : CBlockHeader) (params : Params) :
    Option Nat :=
  match pindexLast with
  | [] => none
  | last :: _ =>
    let currentBlockHeight := last.nHeight + 1
    let bnPowLimit := usedPowLimit params currentBlockHeight
    let nPastBlocks : Int := 24
    if last.nHeight < nPastBlocks then some (GetCompact bnPowLimit)
    else if params.fPowAllowMinDifficultyBlocks ∧
        pblock.GetBlockTime > last.GetBlockTime + 2 * 60 * 60 then
      some (GetCompact bnPowLimit)
    else if params.fPowAllowMinDifficultyBlocks ∧
        pblock.GetBlockTime > last.GetBlockTime + params.nPowTargetSpacing * 4 then
      let bnNew := u256 ((SetCompact last.nBits).1 * 10)
      some (GetCompact (if bnNew > bnPowLimit then bnPowLimit else bnNew))
    else
      match DarkGravityWave_loop 24 1 pindexLast 0 with
      | none => none
      | some (bnPastTargetAvg, pindex) =>
        let now := last.GetBlockTime
        let BlockHeightTime := params.genesisBlockTime + last.nHeight * params.nPowTargetSpacing
        match desiredInterval params now BlockHeightTime, pindex with
        | none, _ => none
        | some _, [] => none
        | some nIntervalDesired, first :: _ =>
          let nActualTimespan0 := last.GetBlockTime - first.GetBlockTime
          let nTargetTimespan := nPastBlocks * nIntervalDesired
          let nActualTimespan1 :=
            if nActualTimespan0 < Int.tdiv nTargetTimespan 3 then Int.tdiv nTargetTimespan 3
            else nActualTimespan0
          let nActualTimespan :=
            if nActualTimespan1 > nTargetTimespan * 3 then nTargetTimespan * 3
            else nActualTimespan1
          if int_u64 nTargetTimespan = 0 then none
          else
            let bnNew := u256 (bnPastTargetAvg / int_u64 nTargetTimespan * int_u32 nActualTimespan)
            some (GetCompact (if bnNew > bnPowLimit then bnPowLimit else bnNew))

/-- The walk back over min-difficulty blocks,
`while (pindex->pprev && pindex->nHeight % interval != 0 && pindex->nBits == nProofOfWorkLimit)
pindex = pindex->pprev;` followed by `return pindex->nBits`.  `none` is a null `pindex` or a
remainder by zero. -/
def walk_back (interval : Int) (nProofOfWorkLimit : Nat) : List CBlockIndex → Option Nat
  | [] => none
  | [b] => some b.nBits
  | b :: p :: rest =>
    if interval = 0 then none
    else if Int.tmod b.nHeight interval ≠ 0 ∧ b.nBits = nProofOfWorkLimit then
      walk_back interval nProofOfWorkLimit (p :: rest)
    else some b.nBits

/-- The factor chosen by `Midas` from the four averages and the desired interval, before
the clamp to `[5000, 20000]`; `none` is a division by zero. -/
def midas_factor (a : Averages) (nIntervalDesired : Int) : Option Int :=
  let difficultyfactor : Int := 10000
  let toofast := Int.tdiv (nIntervalDesired * 2) 3
  let tooslow := Int.tdiv (nIntervalDesired * 3) 2
  if a.avgOf5 < toofast ∧ a.avgOf9 < toofast ∧ a.avgOf17 < toofast then
    some (Int.tdiv (difficultyfactor * 8) 5)
  else if a.avgOf5 > tooslow ∧ a.avgOf7 > tooslow ∧ a.avgOf9 > tooslow then
    some (Int.tdiv (difficultyfactor * 5) 8)
  else if ((a.avgOf5 > nIntervalDesired ∨ a.avgOf7 > nIntervalDesired) ∧
        a.avgOf9 > nIntervalDesired ∧ a.avgOf17 > nIntervalDesired) ∨
      ((a.avgOf5 < nIntervalDesired ∨ a.avgOf7 < nIntervalDesired) ∧
        a.avgOf9 < nIntervalDesired ∧ a.avgOf17 < nIntervalDesired) then
    if a.avgOf17 + 5 * nIntervalDesired = 0 then none
    else some (Int.tdiv (difficultyfactor * (6 * nIntervalDesired))
      (a.avgOf17 + 5 * nIntervalDesired))
  else some difficultyfactor

/-- The limit to doubling or halving in `Midas`:
`if (difficultyfactor > 20000) difficultyfactor = 20000;`
`if (difficultyfactor < 5000) difficultyfactor = 5000;`. -/
def midas_limit_factor (difficultyfactor : Int) : Int :=
  let factor1 := if difficultyfactor > 20000 then 20000 else difficultyfactor
  if factor1 < 5000 then 5000 else factor1

/-- The end of `Midas`: the old target re-encoded when the factor is 10000, else
`bnOld / difficultyfactor * 10000` clamped to the ceiling and encoded. -/
def midas_retarget (bnOld usedLimit : Nat) (difficultyfactor : Int) : Nat :=
  if difficultyfactor = 10000 then GetCompact bnOld
  else
    let bnNew := u256 (bnOld / int_u64 difficultyfactor * 10000)
    GetCompact (if bnNew > usedLimit then usedLimit else bnNew)

/-- Midas GetNextWorkRequired.  `none` is a run that does not return: a null `pindexLast`
or a division by zero. -/
def Midas (pindexLast : List CBlockIndex) (pblock : CBlockHeader) (params : Params) :
    Option Nat :=
  match pindexLast with
  | [] => none
  | last :: _ =>
    let currentBlockHeight := last.nHeight + 1
    let usedLimit := usedPowLimit params currentBlockHeight
    let nProofOfWorkLimit := GetCompact usedLimit
    if currentBlockHeight > params.CuckooHardForkBlockHeight ∧
        currentBlockHeight < params.CuckooHardForkBlockHeight + 50 then
      some nProofOfWorkLimit
    else if params.fPowAllowMinDifficultyBlocks then
      if (pblock.nTime : Int) > (last.nTime : Int) + params.nPowTargetSpacing * 2 then
        some nProofOfWorkLimit
      else walk_back params.nPowTargetSpacing nProofOfWorkLimit pindexLast
    else
      let now := last.GetBlockTime
      let BlockHeightTime := params.genesisBlockTime + last.nHeight * params.nPowTargetSpacing
      match desiredInterval params now BlockHeightTime with
      | none => none
      | some nIntervalDesired =>
        match midas_factor (avgRecentTimestamps pindexLast params) nIntervalDesired with
        | none => none
        | some factor0 =>
          some (midas_retarget (SetCompact last.nBits).1 usedLimit (midas_limit_factor factor0))

/-- The classical retarget (`for DIFF_BTC only`).  `none` is a null `pindexLast` or the
division by a zero timespan. -/
def CalculateNextWorkRequired (pindexLast : List CBlockIndex) (nFirstBlockTime : Int)
    (params : Params) : Option Nat :=
  match pindexLast with
  | [] => none
  | last :: _ =>
    if params.fPowNoRetargeting then some last.nBits
    else
      let nActualTimespan0 := last.GetBlockTime - nFirstBlockTime
      let nActualTimespan1 :=
        if nActualTimespan0 < Int.tdiv params.nPowTargetTimespan 4 then
          Int.tdiv params.nPowTargetTimespan 4
        else nActualTimespan0
      let nActualTimespan :=
        if nActualTimespan1 > params.nPowTargetTimespan * 4 then params.nPowTargetTimespan * 4
        else nActualTimespan1
      let bnPowLimit := params.powLimit
      let bnNew0 := u256 ((SetCompact last.nBits).1 * int_u32 nActualTimespan)
      if int_u64 params.nPowTargetTimespan = 0 then none
      else
        let bnNew := bnNew0 / int_u64 params.nPowTargetTimespan
        some (GetCompact (if bnNew > bnPowLimit then bnPowLimit else bnNew))

/-- The fixed-interval algorithm.  `none` is a failed assertion or a division by zero. -/
def GetNextWorkRequiredBTC (pindexLast : List CBlockIndex) (pblock : CBlockHeader)
    (params : Params) : Option Nat :=
  match pindexLast with
  | [] => none
  | last :: _ =>
    let nProofOfWorkLimit := GetCompact params.powLimit
    match params.DifficultyAdjustmentInterval with
    | none => none
    | some interval =>
      if interval = 0 then none
      else if Int.tmod (last.nHeight + 1) interval ≠ 0 then
        if params.fPowAllowMinDifficultyBlocks then
          if pblock.GetBlockTime > last.GetBlockTime + params.nPowTargetSpacing * 2 then
            some nProofOfWorkLimit
          else walk_back interval nProofOfWorkLimit pindexLast
        else some last.nBits
      else
        let nHeightFirst := last.nHeight - (interval - 1)
        if nHeightFirst < 0 then none
        else
          match GetAncestor pindexLast nHeightFirst with
          | [] => none
          | first :: _ => CalculateNextWorkRequired pindexLast first.GetBlockTime params

/-- The required compact target of the block after `pindexLast`. -/
def GetNextWorkRequired (pindexLast : List CBlockIndex) (pblock : CBlockHeader)
    (params : Params) : Option Nat :=
  match pindexLast with
  | [] => none
  | last :: _ =>
    let currentBlockHeight := last.nHeight + 1
    if last.nHeight < params.nMinimumDifficultyBlocks then
      some (if currentBlockHeight ≥ params.CuckooHardForkBlockHeight then
        GetCompact params.cuckooPowLimit else GetCompact params.powLimit)
    else if last.nHeight + 1 ≥ params.nPowDGWHeight then
      DarkGravityWave pindexLast pblock params
    else if last.nHeight + 1 ≥ params.midasStartHeight then
      Midas pindexLast pblock params
    else GetNextWorkRequiredBTC pindexLast pblock params

/-- Check whether a cuckoo proof is valid: `verify` on the attached proof with the key
bytes of the header returns `POW_OK`. -/
def CheckCuckooProofOfWork (D : Digests) (blockHeader : CBlockHeader) (params : Params) : Bool :=
  decide (cuckoo.verify blockHeader.cuckooProof (cuckoo.hash_blockheader D blockHeader)
    params.cuckooGraphSize = some cuckoo.verify_code.POW_OK)

/-- The digest of the 42-entry proof that is compared with the target: `CHash256` over the
`42 * sizeof(uint32_t)` bytes of the proof, read as a 256-bit number. -/
def cuckoo_pow_hash (D : Digests) (blockHeader : CBlockHeader) : Nat :=
  cuckoo.le_bytes (cuckoo.resize
    (D.hash256 ((blockHeader.cuckooProof.take 42).flatMap le32_bytes)) 32)

/-- CheckProofOfWork, SHA and Cuckoo.  The argument `hash` is not read by the body. -/
def CheckProofOfWork (D : Digests) (blockHeader : CBlockHeader) (hash : Nat) (nBits : Nat)
    (params : Params) : Bool :=
  let decoded := SetCompact nBits
  let bnTarget := decoded.1
  let fNegative := decoded.2.1
  let fOverflow := decoded.2.2
  if fNegative ∨ bnTarget = 0 ∨ fOverflow then false
  else if blockHeader.isCuckooPow then
    if bnTarget > params.cuckooPowLimit ∨ ¬ CheckCuckooProofOfWork D blockHeader params then false
    else if cuckoo_pow_hash D blockHeader > bnTarget then false
    else true
  else
    if D.GetHash blockHeader > bnTarget ∨ bnTarget > params.powLimit then false
    else true

/-! ## The classical retarget, step by step -/

/-- The elapsed time of `CalculateNextWorkRequired` after the two `if`s of
"Limit adjustment step". -/
def limitedTimespan (last : CBlockIndex) (nFirstBlockTime : Int) (params : Params) : Int :=
  let nActualTimespan0 := last.GetBlockTime - nFirstBlockTime
  let nActualTimespan1 :=
    if nActualTimespan0 < Int.tdiv params.nPowTargetTimespan 4 then
      Int.tdiv params.nPowTargetTimespan 4
    else nActualTimespan0
  if nActualTimespan1 > params.nPowTargetTimespan * 4 then params.nPowTargetTimespan * 4
  else nActualTimespan1

/-- The value of `bnNew` in `CalculateNextWorkRequired` after `bnNew /= nPowTargetTimespan`,
before the comparison with `bnPowLimit`. -/
def retargetBeforeClamp (last : CBlockIndex) (nFirstBlockTime : Int) (params : Params) : Nat :=
  u256 ((SetCompact last.nBits).1 * int_u32 (limitedTimespan last nFirstBlockTime params)) /
    int_u64 params.nPowTargetTimespan

namespace cuckoo

/-! ## `cuckoosolver.h`, `cuckoosolver.cpp` -/

/-- The bound on the length of a traced path. -/
def MAXPATHLEN : Nat := 8192

/-- The two exceptions thrown by `path`. -/
inductive path_error where
  | maximum_path_length_exceeded
  | illegal_cycle
deriving DecidableEq, Repr

/-- The solver context: graph parameters, keys, the back-pointer array `cuckoo` (a map
from node to node, 0 being nil) and the next nonce to try.  The path buffers `us` and `vs`
are scratch space, written before they are read in every iteration. -/
structure CContext where
  nnodes : Nat
  nedges : Nat
  edgemask : Nat
  easiness : Nat
  sip_keys : siphash_keys
  cuckoo : Nat → Nat
  nonce : Nat

/-- The constructor `CContext(graphSize)`.  The array allocated by `new` and the keys are
not yet set; `SetHeader` sets both before they are read. -/
def CContext.create (graphSize : Nat) : CContext :=
  let nedges := u32 (1 <<< (graphSize - 1))
  let nnodes := u32 (2 * nedges)
  { nnodes := nnodes
    nedges := nedges
    edgemask := u32 (nedges + 2 ^ 32 - 1)
    easiness := nnodes
    sip_keys := ⟨0, 0, 0, 0⟩
    cuckoo := fun _ => 0
    nonce := 0 }

/-- The solver's own edge generator: `siphash24(&sip_keys, 2*edge + uorv) & edgemask`. -/
def CContext._sipnode (ctx : CContext) (edge uorv : Nat) : Nat :=
  u32 (siphash24 ctx.sip_keys (u32 (2 * edge + uorv)) &&& ctx.edgemask)

/-- The U endpoint `2*_sipnode(nonce, 0)` of an edge, as the solver computes it. -/
def CContext.node_u (ctx : CContext) (nonce : Nat) : Nat := u32 (2 * ctx._sipnode nonce 0)

/-- The V endpoint `2*_sipnode(nonce, 1)+1` of an edge, as the solver computes it. -/
def CContext.node_v (ctx : CContext) (nonce : Nat) : Nat := u32 (2 * ctx._sipnode nonce 1 + 1)

/-- The loop of `path`: follow the back-pointers from `u` to nil, appending each node to the
buffer `us` (which holds `us[0..nu]`), with room for `fuel` more nodes before
`++nu >= MAXPATHLEN`.  Then the throw chosen by the search of the buffer for `u`. -/
def path (cuckoo : Nat → Nat) : Nat → Nat → List Nat → Except path_error (List Nat)
  | _, 0, us => .ok us
  | 0, u + 1, us =>
    if u + 1 ∈ us then .error path_error.illegal_cycle
    else .error path_error.maximum_path_length_exceeded
  | fuel + 1, u + 1, us => path cuckoo fuel (cuckoo (u + 1)) (us ++ [u + 1])

/-- The array `cuckoo` after the assignment `cuckoo[a] = b`. -/
def store (cuckoo : Nat → Nat) (a b : Nat) : Nat → Nat :=
  fun x => if x = a then b else cuckoo x

/-- The loop `while (nu--) cuckoo[us[nu+1]] = us[nu];` with `nu` iterations left. -/
def reverse_path (us : List Nat) : Nat → (Nat → Nat) → (Nat → Nat)
  | 0, cuckoo => cuckoo
  | nu + 1, cuckoo => reverse_path us nu (store cuckoo (us.getD (nu + 1) 0) (us.getD nu 0))

/-- The loop `for (nu -= min, nv -= min; us[nu] != vs[nv]; nu++, nv++) ;` with `fuel`
steps available; returns the final `nu` and `nv`. -/
def trim_paths (us vs : List Nat) : Nat → Nat → Nat → Option (Nat × Nat)
  | 0, _, _ => none
  | fuel + 1, nu, nv =>
    if us.getD nu 0 ≠ vs.getD nv 0 then trim_paths us vs fuel (nu + 1) (nv + 1)
    else some (nu, nv)

/-- The `std::set<edge>` after `insert`. -/
def set_insert (cycle : List (Nat × Nat)) (e : Nat × Nat) : List (Nat × Nat) :=
  if e ∈ cycle then cycle else e :: cycle

/-- The loop `while (nu--) cycle.insert(edge(us[(nu+1)&~1], us[nu|1]));` with `nu`
iterations left (u's in even position, v's in odd). -/
def insert_us (us : List Nat) : Nat → List (Nat × Nat) → List (Nat × Nat)
  | 0, cycle => cycle
  | nu + 1, cycle =>
    insert_us us nu (set_insert cycle (us.getD (2 * ((nu + 1) / 2)) 0, us.getD (2 * (nu / 2) + 1) 0))

/-- The loop `while (nv--) cycle.insert(edge(vs[nv|1], vs[(nv+1)&~1]));` with `nv`
iterations left (u's in odd position, v's in even). -/
def insert_vs (vs : List Nat) : Nat → List (Nat × Nat) → List (Nat × Nat)
  | 0, cycle => cycle
  | nv + 1, cycle =>
    insert_vs vs nv (set_insert cycle (vs.getD (2 * (nv / 2) + 1) 0, vs.getD (2 * ((nv + 1) / 2)) 0))

/-- The nonce scan of `solution` with `fuel` nonces left below `easiness`: every nonce whose
edge is in `cycle` is appended and its edge erased; the scan returns at the 42nd. -/
def solution_scan (ctx : CContext) :
    Nat → Nat → List (Nat × Nat) → List Nat → Nat → List Nat
  | 0, _, _, nonces, _ => nonces
  | fuel + 1, nonce_, cycle, nonces, found =>
    let e := (ctx.node_u nonce_, ctx.node_v nonce_)
    if e ∈ cycle then
      if found + 1 = PROOFSIZE then nonces ++ [nonce_]
      else solution_scan ctx fuel (nonce_ + 1) (cycle.erase e) (nonces ++ [nonce_]) (found + 1)
    else solution_scan ctx fuel (nonce_ + 1) cycle nonces found

/-- The nonces of the edges of the cycle closed by `us[0..nu]` and `vs[0..nv]`. -/
def CContext.solution (ctx : CContext) (us : List Nat) (nu : Nat) (vs : List Nat) (nv : Nat) :
    List Nat :=
  let cycle := insert_vs vs nv (insert_us us nu [(us.getD 0 0, vs.getD 0 0)])
  solution_scan ctx ctx.easiness 0 cycle [] 0

/-- Set the block header to be solved: keys from the header, array cleared, nonce 0. -/
def CContext.SetHeader (ctx : CContext) (D : Digests) (header : CBlockHeader) : CContext :=
  { ctx with
    sip_keys := siphash_setkeys (hash_blockheader D header)
    cuckoo := fun _ => 0
    nonce := 0 }

/-- What a call of `GetNextSolution` ends with. -/
inductive solve_result where
  | proof (nonces : List Nat)
  | nullptr
  | thrown (e : path_error)
deriving DecidableEq, Repr

/-- The loop of `GetNextSolution` with `fuel` nonces left below `easiness`.  Returns the
result together with the array and the member `nonce` as the call leaves them; `none` is
an exhausted budget of the path-trimming loop. -/
def GetNextSolution_loop (ctx : CContext) :
    Nat → (Nat → Nat) → Nat → Option (solve_result × (Nat → Nat) × Nat)
  | 0, cuckoo, nonce => some (solve_result.nullptr, cuckoo, nonce)
  | fuel + 1, cuckoo, nonce =>
    let u0 := ctx.node_u nonce
    if u0 = 0 then GetNextSolution_loop ctx fuel cuckoo (nonce + 1)
    else
      let v0 := ctx.node_v nonce
      match path cuckoo (MAXPATHLEN - 1) (cuckoo u0) [u0] with
      | .error e => some (solve_result.thrown e, cuckoo, nonce)
      | .ok us =>
        match path cuckoo (MAXPATHLEN - 1) (cuckoo v0) [v0] with
        | .error e => some (solve_result.thrown e, cuckoo, nonce)
        | .ok vs =>
          let nu := us.length - 1
          let nv := vs.length - 1
          if us.getD nu 0 = vs.getD nv 0 then
            let m := if nu < nv then nu else nv
            match trim_paths us vs (m + 1) (nu - m) (nv - m) with
            | none => none
            | some (nu1, nv1) =>
              if nu1 + nv1 + 1 = PROOFSIZE then
                some (solve_result.proof (ctx.solution us nu1 vs nv1), cuckoo, nonce)
              else GetNextSolution_loop ctx fuel cuckoo (nonce + 1)
          else if nu < nv then
            GetNextSolution_loop ctx fuel (store (reverse_path us nu cuckoo) u0 v0) (nonce + 1)
          else
            GetNextSolution_loop ctx fuel (store (reverse_path vs nv cuckoo) v0 u0) (nonce + 1)

/-- Get the next solution for the current header, or `nullptr` if there isn't any. -/
def CContext.GetNextSolution (ctx : CContext) : Option (solve_result × CContext) :=
  (GetNextSolution_loop ctx (ctx.easiness - ctx.nonce) ctx.cuckoo ctx.nonce).map
    (fun r => (r.1, { ctx with cuckoo := r.2.1, nonce := r.2.2 }))

end cuckoo

namespace cuckoo

/-! ## Notions used to state the properties of `verify` -/

/-- Slot `j` is the one other slot on the side of slot `i` that holds the node of slot `i`. -/
def Linked (uvs : List Nat) (i j : Nat) : Prop :=
  j ≠ i ∧ j < 84 ∧ j % 2 = i % 2 ∧ uvs.getD j 0 = uvs.getD i 0 ∧
    ∀ k, k < 84 → k % 2 = i % 2 → uvs.getD k 0 = uvs.getD i 0 → k = i ∨ k = j

/-- One iteration of the trace: from slot `i` to the sibling `j ^ 1` of its partner `j`. -/
def TraceStep (uvs : List Nat) (i i1 : Nat) : Prop :=
  ∃ j, Linked uvs i j ∧ i1 = j ^^^ 1

/-- A closed trace of 42 steps from slot 0 back to slot 0. -/
structure ClosedTrace (uvs : List Nat) (s : Nat → Nat) : Prop where
  start : s 0 = 0
  close : s 42 = 0
  step : ∀ t, t ≤ 41 → TraceStep uvs (s t) (s (t + 1))
  nonzero : ∀ t, 1 ≤ t → t ≤ 41 → s t ≠ 0

/-- Every node of the family occurs at exactly two of the 42 edges. -/
def ExactlyTwo (W : Fin 42 → Nat) : Prop :=
  ∀ a, ∃ b, b ≠ a ∧ ∀ c, W c = W a ↔ (c = a ∨ c = b)

/-- The 42 edges can be put in one cyclic order `e 0, e 1, ..., e 41, e 0` in which
consecutive edges share an endpoint, on the U side after an even position and on the V side
after an odd one. -/
def AlternatingCycle (U V : Fin 42 → Nat) : Prop :=
  ∃ e : Fin 42 → Fin 42, Function.Bijective e ∧
    ∀ t : Fin 42, if t.val % 2 = 0 then U (e t) = U (e (t + 1)) else V (e t) = V (e (t + 1))

/-- The U endpoints held in the even slots of `uvs`. -/
def slots_u (uvs : List Nat) : Fin 42 → Nat := fun a => uvs.getD (2 * a.val) 0

/-- The V endpoints held in the odd slots of `uvs`. -/
def slots_v (uvs : List Nat) : Fin 42 → Nat := fun a => uvs.getD (2 * a.val + 1) 0

/-- The edge visited at step `t` of a trace `s`: the slot halved. -/
def trace_edge (s : Nat → Nat) (t : Fin 42) : Fin 42 :=
  ⟨s t.val / 2 % 42, Nat.mod_lt _ (by omega)⟩

/-- Position `t mod 42` of the cyclic order. -/
def cyc_pos (t : Nat) : Fin 42 := ⟨t % 42, Nat.mod_lt _ (by omega)⟩

/-- The U endpoint of the edge at index `a` of a proof. -/
def edge_u (keys : siphash_keys) (edgemask : Nat) (nonces : List Nat) (a : Fin 42) : Nat :=
  sipnode keys (nonces.getD a.val 0) 0 edgemask

/-- The V endpoint of the edge at index `a` of a proof. -/
def edge_v (keys : siphash_keys) (edgemask : Nat) (nonces : List Nat) (a : Fin 42) : Nat :=
  sipnode keys (nonces.getD a.val 0) 1 edgemask

/-- The endpoint array written by `k` iterations of the first loop from index `n`. -/
def scan_uvs (keys : siphash_keys) (edgemask : Nat) (nonces : List Nat) : Nat → Nat → List Nat
  | _, 0 => []
  | n, k + 1 =>
    sipnode keys (nonces.getD n 0) 0 edgemask :: sipnode keys (nonces.getD n 0) 1 edgemask ::
      scan_uvs keys edgemask nonces (n + 1) k

/-- The endpoints on side `uorv` of the edges at indices `n, ..., n + k - 1`. -/
def scan_side (keys : siphash_keys) (edgemask : Nat) (nonces : List Nat) (uorv : Nat) :
    Nat → Nat → List Nat
  | _, 0 => []
  | n, k + 1 =>
    sipnode keys (nonces.getD n 0) uorv edgemask :: scan_side keys edgemask nonces uorv (n + 1) k

/-- The range and order checks on the entries `n, ..., n + k - 1`. -/
def InRangeAscending (nnodes : Nat) (nonces : List Nat) (n k : Nat) : Prop :=
  ∀ m, n ≤ m → m < n + k →
    nonces.getD m 0 ≤ nnodes ∧ (m ≠ 0 → nonces.getD (m - 1) 0 < nonces.getD m 0)

/-- The 42 edges can be put in one cyclic order in which consecutive edges share an
endpoint (on either side). -/
def SingleCycle (U V : Fin 42 → Nat) : Prop :=
  ∃ e : Fin 42 → Fin 42, Function.Bijective e ∧
    ∀ t : Fin 42, U (e t) = U (e (t + 1)) ∨ V (e t) = V (e (t + 1))

end cuckoo

namespace cuckoo

/-! ## Notions used to state the properties of the solver -/

/-- The list `l` is the chain of back-pointers from `u` to nil: `u, f u, f (f u), ...`, all
of them non-zero, the last one pointing to 0. -/
def IsPath (f : Nat → Nat) : Nat → List Nat → Prop
  | u, [] => u = 0
  | u, x :: l => x = u ∧ u ≠ 0 ∧ IsPath f (f u) l

/-- The invariant of the array `cuckoo` once the nonces below `N` have been tried: nil
points to nil, and every back-pointer joins the two endpoints of the edge of one of those
nonces, whose U endpoint is not nil. -/
def ForestOfEdges (ctx : CContext) (cuckoo : Nat → Nat) (N : Nat) : Prop :=
  cuckoo 0 = 0 ∧
  ∀ x, cuckoo x ≠ 0 → ∃ m, m < N ∧ ctx.node_u m ≠ 0 ∧
    ((x = ctx.node_u m ∧ cuckoo x = ctx.node_v m) ∨
     (x = ctx.node_v m ∧ cuckoo x = ctx.node_u m))

/-- The endpoints of the edge of a nonce, as the pair the solver looks up. -/
def CContext.edge_of (ctx : CContext) (nonce : Nat) : Nat × Nat :=
  (ctx.node_u nonce, ctx.node_v nonce)

end cuckoo

namespace cuckoo

/-- The nodes of the cycle closed by the paths `us[0..nu1]` and `vs[0..nv1]` (which meet at
`us[nu1] = vs[nv1]`, with `nu1 + nv1 = 41`), in cyclic order: up the U path, then down the
V path. -/
def cycle_node (us vs : List Nat) (nu1 : Nat) (t : Nat) : Nat :=
  if t ≤ nu1 then us.getD t 0 else vs.getD (41 - t) 0

/-- The edge that `solution` inserts for the step from node `t` of the cycle to the next
one, as the pair (U node, V node). -/
def cycle_pair (us vs : List Nat) (nu1 : Nat) (t : Nat) : Nat × Nat :=
  if t < nu1 then (us.getD (2 * ((t + 1) / 2)) 0, us.getD (2 * (t / 2) + 1) 0)
  else if t < 41 then
    (vs.getD (2 * ((40 - t) / 2) + 1) 0, vs.getD (2 * ((40 - t + 1) / 2)) 0)
  else (us.getD 0 0, vs.getD 0 0)

/-- What makes a list of nonces a proof that `verify` accepts, in the solver's terms: 42
ascending nonces below `easiness` whose edges form one cycle with every node on exactly two
edges. -/
def GoodProof (ctx : CContext) (sol : List Nat) : Prop :=
  sol.length = 42 ∧ sol.Pairwise (· < ·) ∧ (∀ n ∈ sol, n < ctx.easiness) ∧
  ExactlyTwo (fun a : Fin 42 => ctx.node_u (sol.getD a.val 0)) ∧
  ExactlyTwo (fun a : Fin 42 => ctx.node_v (sol.getD a.val 0)) ∧
  SingleCycle (fun a : Fin 42 => ctx.node_u (sol.getD a.val 0))
    (fun a : Fin 42 => ctx.node_v (sol.getD a.val 0))

end cuckoo

/-! ## Fixtures: a solved header on a 7-bit graph, parameter sets, chains -/

namespace fixture

/-- The 32 key bytes of the fixture header: the SHA-256 of its 80 serialised bytes
(version 0x40000002, zero previous hash and merkle root, time 1600000000, bits 0x2100a000,
nonce 4831). -/
def keybuf : List Nat :=
  [77, 107, 236, 235, 6, 4, 174, 122, 176, 168, 13, 39, 65, 160, 81, 247, 155, 148, 160, 186,
   176, 84, 83, 146, 8, 139, 46, 190, 221, 168, 128, 145]

/-- The 42-cycle the solver finds for the fixture header on the 7-bit graph. -/
def proof : List Nat :=
  [8, 10, 15, 23, 26, 27, 28, 29, 35, 37, 39, 42, 43, 44, 48, 49, 50, 55, 56, 57, 59, 60, 61,
   62, 63, 68, 70, 71, 75, 81, 83, 84, 85, 95, 97, 98, 99, 100, 103, 104, 112, 120]

/-- The double SHA-256 of the 168 bytes of `proof`. -/
def proof_digest : List Nat :=
  [228, 53, 15, 102, 76, 194, 146, 164, 232, 107, 10, 236, 95, 103, 96, 24, 22, 135, 54, 36,
   183, 122, 134, 246, 96, 125, 31, 18, 44, 50, 87, 30]

/-- For each edge of `proof`, the other edge with the same U node. -/
def partner_u : List Nat :=
  [22, 39, 28, 32, 12, 37, 19, 14, 23, 35, 31, 38, 4, 41, 7, 21, 27, 24, 25, 6, 29, 15, 0, 8,
   17, 18, 40, 16, 2, 20, 34, 10, 3, 36, 30, 9, 33, 5, 11, 1, 26, 13]

/-- For each edge of `proof`, the other edge with the same V node. -/
def partner_v : List Nat :=
  [40, 21, 23, 38, 20, 11, 33, 18, 22, 24, 17, 5, 15, 28, 41, 12, 36, 10, 7, 34, 4, 1, 8, 2, 9,
   35, 39, 32, 13, 37, 31, 30, 27, 6, 19, 25, 16, 29, 3, 26, 0, 14]

/-- The edges of `proof` in the order of the cycle, starting at edge 0 on its U side. -/
def cycle_order : List Nat :=
  [0, 22, 8, 23, 2, 28, 13, 41, 14, 7, 18, 25, 35, 9, 24, 17, 10, 31, 30, 34, 19, 6, 33, 36,
   16, 27, 32, 3, 38, 11, 5, 37, 29, 20, 4, 12, 15, 21, 1, 39, 26, 40]

/-- An index of `Fin 42` read from a table. -/
def fin_of (table : List Nat) (a : Fin 42) : Fin 42 :=
  ⟨table.getD a.val 0 % 42, Nat.mod_lt _ (by omega)⟩

/-- The digests of the fixture header: its key bytes and the digest of its proof. -/
def digests : Digests :=
  { serialize := fun _ => []
    sha256 := fun _ => keybuf
    hash256 := fun _ => proof_digest
    GetHash := fun _ => 0 }

/-- The fixture header, flagged cycle-based, with its proof attached. -/
def header : CBlockHeader :=
  { nVersion := 0x40000002, nTime := 1600000000, nBits := 0x2100a000, nNonce := 4831,
    cuckooProof := proof, isCuckooPow := true }

/-- The regtest ceilings and heights, with a 7-bit graph. -/
def params7 : Params :=
  { powLimit := 0x7fffffffffffffffffffffffffffffffffffffffffffffffffffffffffffffff
    cuckooPowLimit := 0xefffffffffffffffffffffffffffffffffffffffffffffffffffffffffffffff
    cuckooGraphSize := 7
    nPowTargetTimespan := 86400
    nPowTargetSpacing := 97
    fPowAllowMinDifficultyBlocks := true
    fPowNoRetargeting := true
    nPowDGWHeight := 642605
    midasStartHeight := 2
    nMinimumDifficultyBlocks := 0
    CuckooHardForkBlockHeight := 2010
    genesisBlockTime := 1512658235 }

/-- The main network parameters of `chainparams.cpp`. -/
def params_main : Params :=
  { powLimit := 0x00000000ffffffffffffffffffffffffffffffffffffffffffffffffffffffff
    cuckooPowLimit := 0x00ffffffffffffffffffffffffffffffffffffffffffffffffffffffffffffff
    cuckooGraphSize := 24
    nPowTargetTimespan := 139795
    nPowTargetSpacing := 97
    fPowAllowMinDifficultyBlocks := false
    fPowNoRetargeting := false
    nPowDGWHeight := 642605
    midasStartHeight := 1
    nMinimumDifficultyBlocks := 0
    CuckooHardForkBlockHeight := 246500
    genesisBlockTime := 1521039602 }

/-- The test network parameters of `chainparams.cpp`. -/
def params_test : Params :=
  { powLimit := 0x00000000ffffffffffffffffffffffffffffffffffffffffffffffffffffffff
    cuckooPowLimit := 0x00ffffffffffffffffffffffffffffffffffffffffffffffffffffffffffffff
    cuckooGraphSize := 24
    nPowTargetTimespan := 139795
    nPowTargetSpacing := 97
    fPowAllowMinDifficultyBlocks := true
    fPowNoRetargeting := false
    nPowDGWHeight := 208000
    midasStartHeight := 2
    nMinimumDifficultyBlocks := 0
    CuckooHardForkBlockHeight := 44
    genesisBlockTime := 1521039602 }

/-- A header not flagged cycle-based whose own hash is the double SHA-256 of its 80
serialised bytes (version 2, time 1600000000, bits 0x1d00ffff, nonce 7). -/
def classical_header : CBlockHeader :=
  { nVersion := 2, nTime := 1600000000, nBits := 0x1d00ffff, nNonce := 7,
    cuckooProof := [], isCuckooPow := false }

/-- The digests of `classical_header`. -/
def classical_digests : Digests :=
  { serialize := fun _ => []
    sha256 := fun _ => []
    hash256 := fun _ => []
    GetHash := fun _ =>
      0xbf7bc3c72e8fee33277289e1f2a939dc534321674fdcb7941b956c7075391dd0 }

/-- A chain of `n + 1` blocks on schedule: heights `h0 + n` down to `h0`, one block every
`spacing` seconds, all with the same bits. -/
def regular_chain (h0 : Int) (t0 spacing n bits : Nat) : List CBlockIndex :=
  (List.range (n + 1)).reverse.map
    (fun (i : Nat) => { nHeight := h0 + (i : Int), nTime := t0 + spacing * i, nBits := bits })

/-- A candidate header at time `t`. -/
def candidate (t : Nat) : CBlockHeader :=
  { nVersion := 2, nTime := t, nBits := 0, nNonce := 0, cuckooProof := [], isCuckooPow := false }

end fixture

namespace fixture

/-- The regtest parameters with retargeting switched on. -/
def params_retarget : Params := { params7 with fPowNoRetargeting := false }

/-- The regtest parameters (no retargeting) with the later algorithms activated far in the
future and no minimum-difficulty blocks, so that the fixed-interval algorithm is selected. -/
def params_fixed : Params :=
  { params7 with
    fPowAllowMinDifficultyBlocks := false
    nPowDGWHeight := 1000000
    midasStartHeight := 1000000 }

/-- The fixture proof with its first two entries swapped. -/
def proof_swapped : List Nat :=
  [10, 8, 15, 23, 26, 27, 28, 29, 35, 37, 39, 42, 43, 44, 48, 49, 50, 55, 56, 57, 59, 60, 61,
   62, 63, 68, 70, 71, 75, 81, 83, 84, 85, 95, 97, 98, 99, 100, 103, 104, 112, 120]

/-- The fixture proof with its second entry replaced by a copy of the first. -/
def proof_repeated : List Nat :=
  [8, 8, 15, 23, 26, 27, 28, 29, 35, 37, 39, 42, 43, 44, 48, 49, 50, 55, 56, 57, 59, 60, 61,
   62, 63, 68, 70, 71, 75, 81, 83, 84, 85, 95, 97, 98, 99, 100, 103, 104, 112, 120]

end fixture

namespace fixture

/-- A chain given by the timestamps of its blocks, most recent first: the block at height
`h` has the first timestamp, its predecessors follow one height down each, all with the same
bits. -/
def chain_at (h : Int) (bits : Nat) (times : List Nat) : List CBlockIndex :=
  (List.range times.length).map
    (fun (i : Nat) => { nHeight := h - (i : Int), nTime := times.getD i 0, nBits := bits })

/-- The timestamps `t, t - d, t - 2 d, ...`: `n + 1` blocks, one every `d` seconds, most
recent first. -/
def steady (t d n : Nat) : List Nat := (List.range (n + 1)).map (fun (i : Nat) => t - d * i)

/-- The main network's parameters with the ceilings of the regtest and devnet networks. -/
def params_wide : Params :=
  { params_main with
    powLimit := 0x7fffffffffffffffffffffffffffffffffffffffffffffffffffffffffffffff
    cuckooPowLimit := 0xefffffffffffffffffffffffffffffffffffffffffffffffffffffffffffffff }

/-- The devnet parameters of `chainparams.cpp` that `DarkGravityWave` reads (min-difficulty
rule on, retargeting on, Algorithm D from height 1), with the fork height of the regtest
network. -/
def params_dev : Params :=
  { params7 with
    cuckooGraphSize := 24
    fPowNoRetargeting := false
    nPowDGWHeight := 1
    genesisBlockTime := 1521040440 }

end fixture

namespace cuckoo

/-! ## Notions used to state the termination of the cycle trace and the solver's forest -/

/-- A trace of `m` iterations of the cycle-following loop from slot 0 that has not come back
to slot 0: `s t` is the slot `i` at the start of iteration `t`. -/
structure OpenTrace (uvs : List Nat) (s : Nat → Nat) (m : Nat) : Prop where
  start : s 0 = 0
  step : ∀ t, t < m → TraceStep uvs (s t) (s (t + 1))
  nonzero : ∀ t, 1 ≤ t → t ≤ m → s t ≠ 0

/-- The back-pointer array is a forest rooted at nil: nil points to nil, every back-pointer
that is not nil leads from an even (U) node to an odd (V) node or from an odd node to an
even one, and the chain of back-pointers from every node reaches nil without passing
through a node twice. -/
def IsForest (cuckoo : Nat → Nat) : Prop :=
  cuckoo 0 = 0 ∧
  (∀ x, cuckoo x ≠ 0 → (x % 2 = 0 → cuckoo x % 2 = 1) ∧ (x % 2 = 1 → cuckoo x % 2 = 0)) ∧
  ∀ x, ∃ n, cuckoo^[n] x = 0 ∧ ∀ a b, a < b → b < n → cuckoo^[a] x ≠ cuckoo^[b] x

/-! ## `cuckoosolver.cpp`: `solve` -/

/-- What a run of `solve` ends with: the returned `bool`, an exception of `path` passing
through, or the failed `assert(sol->size() == PROOFSIZE)`. -/
inductive solve_outcome where
  | returned (b : Bool)
  | thrown (e : path_error)
  | assertion_failed
deriving DecidableEq, Repr

/-- The `for` loop of `solve` with `fuel` iterations left, on the header as it stands at the
loop condition `header.nNonce <= std::numeric_limits<uint32_t>::max()`; the header is passed
by reference, so the result carries it as the run leaves it.  `none` is a run that has not
ended within the budget. -/
def solve_loop (D : Digests) (params : Params) :
    Nat → CContext → CBlockHeader → Option (solve_outcome × CBlockHeader)
  | 0, _, _ => none
  | fuel + 1, ctx, header =>
    if header.nNonce ≤ 2 ^ 32 - 1 then
      match (ctx.SetHeader D header).GetNextSolution with
      | none => none
      | some (solve_result.thrown e, _) => some (solve_outcome.thrown e, header)
      | some (solve_result.nullptr, ctx1) =>
        solve_loop D params fuel ctx1 { header with nNonce := u32 (header.nNonce + 1) }
      | some (solve_result.proof sol, ctx1) =>
        if sol.length ≠ PROOFSIZE then some (solve_outcome.assertion_failed, header)
        else
          let header1 := { header with cuckooProof := sol }
          if CheckProofOfWork D header1 (D.GetHash header1) header1.nBits params then
            some (solve_outcome.returned true, header1)
          else
            solve_loop D params fuel ctx1 { header1 with nNonce := u32 (header1.nNonce + 1) }
    else some (solve_outcome.returned false, header)

/-- Solve the block header: `CContext ctx(params.cuckooGraphSize)`, then the loop.  The
initialiser of the loop is the expression `header.nNonce == 0`, a comparison whose value is
discarded, so the loop starts on the header as it comes in. -/
def solve (D : Digests) (header : CBlockHeader) (params : Params) (fuel : Nat) :
    Option (solve_outcome × CBlockHeader) :=
  solve_loop D params fuel (CContext.create params.cuckooGraphSize) header

end cuckoo

/-! ## `policy/feerate.h`, `policy/feerate.cpp` -/

/-- The values of `int64_t`. -/
def fits_int64 (x : Int) : Bool := decide (-(2 : Int) ^ 63 ≤ x ∧ x < (2 : Int) ^ 63)

/-- Fee rate in notions per kilobyte: `CAmount / kB`. -/
structure CFeeRate where
  nNotionsPerK : Int
deriving DecidableEq, Repr

/-- The constructor `CFeeRate(nFeePaid, nBytes_)`.  `none` is the failed assertion on the
size, or a product that leaves `int64_t` (undefined in the source). -/
def CFeeRate.from_fee (nFeePaid : Int) (nBytes_ : Nat) : Option CFeeRate :=
  if nBytes_ ≤ 2 ^ 63 - 1 then
    let nSize : Int := (nBytes_ : Int)
    if nSize > 0 then
      if fits_int64 (nFeePaid * 1000) then some ⟨Int.tdiv (nFeePaid * 1000) nSize⟩ else none
    else some ⟨0⟩
  else none

/-- Return the fee in notions for the given size in bytes.  `none` is the failed assertion
on the size, or a product that leaves `int64_t` (undefined in the source). -/
def CFeeRate.GetFee (r : CFeeRate) (nBytes_ : Nat) : Option Int :=
  if nBytes_ ≤ 2 ^ 63 - 1 then
    let nSize : Int := (nBytes_ : Int)
    if fits_int64 (r.nNotionsPerK * nSize) then
      let nFee := Int.tdiv (r.nNotionsPerK * nSize) 1000
      if nFee = 0 ∧ nSize ≠ 0 then
        let nFee1 := if r.nNotionsPerK > 0 then 1 else nFee
        some (if r.nNotionsPerK < 0 then -1 else nFee1)
      else some nFee
    else none
  else none

/-! ## `evo/mcptx.cpp`, `evo/nuancetx.cpp`, `evo/concepttx.cpp` -/

/-- Modelled from the spec: `CService` of netaddress.h, which is not under src/.  The
validators below read of the service address only the answers of `IsIPv4()` and
`IsIPv6()`. -/
structure CService where
  IsIPv4 : Bool
  IsIPv6 : Bool
deriving DecidableEq, Repr

/-- Modelled from the spec: a transaction (primitives/transaction.h is not under src/): its
special type `nType` and the bytes of its extra payload. -/
structure CTransaction where
  nType : Nat
  vExtraPayload : List Nat
deriving DecidableEq, Repr

/-- Modelled from the spec: the codes of the special transaction types named by the
validators below (primitives/transaction.h is not under src/). -/
structure TxTypes where
  TRANSACTION_MCP_REGISTER : Nat
  TRANSACTION_NUANCE_REGISTER : Nat
  TRANSACTION_CONCEPT_REGISTER : Nat
deriving DecidableEq, Repr

/-- What a validator ends with: `true`, or `return state.DoS(level, false, REJECT_INVALID,
reason)`, which returns `false` and records the score and the reason. -/
inductive tx_check where
  | accepted
  | DoS (level : Nat) (reason : String)
deriving DecidableEq, Repr

/-- The payload of an MCP registration. -/
structure CMcpRegTx where
  ipAddress : CService
  mcpId : List Nat
  version : Nat
  name : List Nat
deriving DecidableEq, Repr

/-- `CMcpRegTx::CURRENT_VERSION`. -/
def CMcpRegTx.CURRENT_VERSION : Nat := 1

/-- The payload of a Nuance registration. -/
structure CNuRegTx where
  ipAddress : CService
  mcpId : List Nat
  version : Nat
  name : List Nat
  conceptId : List Nat
  hash : Nat
deriving DecidableEq, Repr

/-- `CNuRegTx::CURRENT_VERSION`. -/
def CNuRegTx.CURRENT_VERSION : Nat := 1

/-- The payload of a Concept registration. -/
structure CConRegTx where
  ipAddress : CService
  mcpId : List Nat
  version : Nat
  name : List Nat
  conceptId : List Nat
  conceptHash : Nat
  conceptParentId : List Nat
  conceptVersion : List Nat
  codeLocation : List Nat
deriving DecidableEq, Repr

/-- `CConRegTx::CURRENT_VERSION`. -/
def CConRegTx.CURRENT_VERSION : Nat := 1

/-- Validate an MCP registration.  `GetTxPayload` is the decoder of specialtx.h, which is
not under src/; `none` is its `false`. -/
def CheckMcpRegTx (T : TxTypes) (GetTxPayload : CTransaction → Option CMcpRegTx)
    (tx : CTransaction) : tx_check :=
  if tx.nType ≠ T.TRANSACTION_MCP_REGISTER then tx_check.DoS 100 "bad-mcptx-type"
  else
    match GetTxPayload tx with
    | none => tx_check.DoS 100 "bad-mcptx-payload"
    | some mcptx =>
      if !mcptx.ipAddress.IsIPv4 || !mcptx.ipAddress.IsIPv6 then
        tx_check.DoS 10 "bad-mcptx-ip-invalid"
      else if mcptx.version = 0 ∨ mcptx.version > CMcpRegTx.CURRENT_VERSION then
        tx_check.DoS 100 "bad-mcptx-version"
      else if mcptx.name.length = 0 then tx_check.DoS 100 "bad-mcptx-name"
      else tx_check.accepted

/-- Validate a Nuance registration. -/
def CheckNuRegTx (T : TxTypes) (GetTxPayload : CTransaction → Option CNuRegTx)
    (tx : CTransaction) : tx_check :=
  if tx.nType ≠ T.TRANSACTION_NUANCE_REGISTER then tx_check.DoS 100 "bad-nuancetx-type"
  else
    match GetTxPayload tx with
    | none => tx_check.DoS 100 "bad-nuancetx-payload"
    | some ntx =>
      if !ntx.ipAddress.IsIPv4 || !ntx.ipAddress.IsIPv6 then
        tx_check.DoS 10 "bad-nuancetx-ip-invalid"
      else if ntx.version = 0 ∨ ntx.version > CNuRegTx.CURRENT_VERSION then
        tx_check.DoS 100 "bad-nuancetx-version"
      else if ntx.name.length = 0 then tx_check.DoS 100 "bad-nuancetx-name"
      else tx_check.accepted

/-- The pieces of a byte string between its dots (byte 46). -/
def split_dots : List Nat → List (List Nat)
  | [] => [[]]
  | c :: rest =>
    if c = 46 then [] :: split_dots rest
    else
      match split_dots rest with
      | [] => [[c]]
      | p :: ps => (c :: p) :: ps

/-- A match of `0|[1-9]\d*`: the digit 0 alone, or digits that do not start with 0. -/
def version_number (l : List Nat) : Bool :=
  match l with
  | [] => false
  | c :: rest =>
    (c = 48 && rest.isEmpty) || (decide (49 ≤ c ∧ c ≤ 57) && rest.all (fun d => decide (48 ≤ d ∧ d ≤ 57)))

/-- The test `std::regex_match(version_string, pattern)` against the pattern
`(0|[1-9]\d*)\.(0|[1-9]\d*)\.(0|[1-9]\d*)`: three such numbers joined by two dots. -/
def version_match (version_string : List Nat) : Bool :=
  match split_dots version_string with
  | [a, b, c] => version_number a && version_number b && version_number c
  | _ => false

/-- Validate a Concept registration. -/
def CheckConRegTx (T : TxTypes) (GetTxPayload : CTransaction → Option CConRegTx)
    (tx : CTransaction) : tx_check :=
  if tx.nType ≠ T.TRANSACTION_CONCEPT_REGISTER then tx_check.DoS 100 "bad-concepttx-type"
  else
    match GetTxPayload tx with
    | none => tx_check.DoS 100 "bad-concepttx-payload"
    | some ctx =>
      if !ctx.ipAddress.IsIPv4 || !ctx.ipAddress.IsIPv6 then
        tx_check.DoS 10 "bad-concepttx-ip-invalid"
      else if ctx.version = 0 ∨ ctx.version > CConRegTx.CURRENT_VERSION then
        tx_check.DoS 100 "bad-concepttx-version"
      else if ctx.name.length = 0 then tx_check.DoS 100 "bad-concepttx-name"
      else if !version_match ctx.conceptVersion then
        tx_check.DoS 10 "bad-concepttx-conceptVersion-invalid"
      else tx_check.accepted

namespace fixture

/-- A service address that is an IPv4 address only. -/
def ipv4_only : CService := { IsIPv4 := true, IsIPv6 := false }

/-- Type codes for the three registrations. -/
def tx_types : TxTypes :=
  { TRANSACTION_MCP_REGISTER := 10, TRANSACTION_NUANCE_REGISTER := 20,
    TRANSACTION_CONCEPT_REGISTER := 30 }

/-- An MCP registration at version 1 with a name, from an IPv4 address. -/
def mcp_reg : CMcpRegTx :=
  { ipAddress := ipv4_only, mcpId := [109], version := 1, name := [110] }

/-- A transaction of the MCP registration type. -/
def mcp_tx : CTransaction := { nType := 10, vExtraPayload := [1] }

end fixture

/-! # Theorems -/
namespace cuckoo
open verify_code

theorem find_other_step (uvs : List Nat) (i n k j : Nat) :
    find_other uvs i (n + 1) k j =
      if (k + 2) % 84 = i then some (.ok j)
      else if uvs.getD ((k + 2) % 84) 0 = uvs.getD i 0 then
        if j ≠ i then some (.error POW_BRANCH)
        else find_other uvs i n ((k + 2) % 84) ((k + 2) % 84)
      else find_other uvs i n ((k + 2) % 84) j := by
  simp only [find_other, PROOFSIZE]

theorem find_other_no_match (uvs : List Nat) (i : Nat) (hi : i < 84) :
    ∀ n t j0, t + n = 41 →
      (∀ s, t < s → s ≤ 41 → uvs.getD ((i + 2 * s) % 84) 0 ≠ uvs.getD i 0) →
      find_other uvs i (n + 1) ((i + 2 * t) % 84) j0 = some (.ok j0) := by
  intro n
  induction n with
  | zero =>
    intro t j0 ht _
    rw [find_other_step]
    have : ((i + 2 * t) % 84 + 2) % 84 = i := by omega
    simp [this]
  | succ n ih =>
    intro t j0 ht hno
    rw [find_other_step]
    have hk : ((i + 2 * t) % 84 + 2) % 84 = (i + 2 * (t + 1)) % 84 := by omega
    have hne : (i + 2 * (t + 1)) % 84 ≠ i := by omega
    rw [hk, if_neg hne, if_neg (hno (t + 1) (by omega) (by omega))]
    exact ih (t + 1) j0 (by omega) (fun s hs hs2 => hno s (by omega) hs2)

end cuckoo
namespace cuckoo
open verify_code

theorem find_other_complete (uvs : List Nat) (i : Nat) (hi : i < 84) :
    ∀ n t s0, t + n = 41 → t < s0 → s0 ≤ 41 →
      uvs.getD ((i + 2 * s0) % 84) 0 = uvs.getD i 0 →
      (∀ s, t < s → s ≤ 41 → uvs.getD ((i + 2 * s) % 84) 0 = uvs.getD i 0 → s = s0) →
      find_other uvs i (n + 1) ((i + 2 * t) % 84) i = some (.ok ((i + 2 * s0) % 84)) := by
  intro n
  induction n with
  | zero => intro t s0 ht h1 h2; omega
  | succ n ih =>
    intro t s0 ht h1 h2 hm huniq
    rw [find_other_step]
    have hk : ((i + 2 * t) % 84 + 2) % 84 = (i + 2 * (t + 1)) % 84 := by omega
    have hne : (i + 2 * (t + 1)) % 84 ≠ i := by omega
    rw [hk, if_neg hne]
    by_cases hs : t + 1 = s0
    · subst hs
      rw [if_pos hm, if_neg (by simp)]
      exact find_other_no_match uvs i hi n (t + 1) _ (by omega)
        (fun s hs hs2 hw => by have := huniq s (by omega) hs2 hw; omega)
    · have hw : uvs.getD ((i + 2 * (t + 1)) % 84) 0 ≠ uvs.getD i 0 :=
        fun hw => hs (huniq (t + 1) (by omega) (by omega) hw)
      rw [if_neg hw]
      exact ih (t + 1) s0 (by omega) (by omega) h2 hm
        (fun s hs hs2 hw => huniq s (by omega) hs2 hw)

theorem find_other_sound (uvs : List Nat) (i : Nat) (hi : i < 84) :
    ∀ n t j0 j, t + n = 41 →
      find_other uvs i (n + 1) ((i + 2 * t) % 84) j0 = some (.ok j) →
      (j0 ≠ i → j = j0 ∧
        ∀ s, t < s → s ≤ 41 → uvs.getD ((i + 2 * s) % 84) 0 ≠ uvs.getD i 0) ∧
      (j0 = i → (j = i ∧
          ∀ s, t < s → s ≤ 41 → uvs.getD ((i + 2 * s) % 84) 0 ≠ uvs.getD i 0) ∨
        ∃ s0, t < s0 ∧ s0 ≤ 41 ∧ j = (i + 2 * s0) % 84 ∧ uvs.getD j 0 = uvs.getD i 0 ∧
          ∀ s, t < s → s ≤ 41 → uvs.getD ((i + 2 * s) % 84) 0 = uvs.getD i 0 → s = s0) := by
  intro n
  induction n with
  | zero =>
    intro t j0 j ht h
    rw [find_other_step] at h
    have : ((i + 2 * t) % 84 + 2) % 84 = i := by omega
    simp only [this, if_true, Option.some.injEq, Except.ok.injEq] at h
    subst h
    refine ⟨fun _ => ⟨rfl, fun s hs hs2 => by omega⟩, fun h0 => Or.inl ⟨h0, fun s hs hs2 => by omega⟩⟩
  | succ n ih =>
    intro t j0 j ht h
    rw [find_other_step] at h
    have hk : ((i + 2 * t) % 84 + 2) % 84 = (i + 2 * (t + 1)) % 84 := by omega
    have hne : (i + 2 * (t + 1)) % 84 ≠ i := by omega
    rw [hk, if_neg hne] at h
    by_cases hw : uvs.getD ((i + 2 * (t + 1)) % 84) 0 = uvs.getD i 0
    · rw [if_pos hw] at h
      by_cases hj : j0 = i
      · rw [if_neg (by simpa using hj)] at h
        have := (ih (t + 1) _ j (by omega) h).1 hne
        refine ⟨fun h0 => absurd hj h0, fun _ => Or.inr ⟨t + 1, by omega, by omega, this.1, ?_, ?_⟩⟩
        · rw [this.1]; exact hw
        · intro s hs hs2 hws
          by_contra hne2
          exact this.2 s (by omega) hs2 hws
      · rw [if_pos hj] at h
        simp at h
    · rw [if_neg hw] at h
      have := ih (t + 1) j0 j (by omega) h
      refine ⟨fun h0 => ⟨(this.1 h0).1, fun s hs hs2 => ?_⟩, fun h0 => ?_⟩
      · by_cases hs3 : s = t + 1
        · subst hs3; exact hw
        · exact (this.1 h0).2 s (by omega) hs2
      · rcases this.2 h0 with ⟨h1, h2⟩ | ⟨s0, h1, h2, h3, h4, h5⟩
        · refine Or.inl ⟨h1, fun s hs hs2 => ?_⟩
          by_cases hs3 : s = t + 1
          · subst hs3; exact hw
          · exact h2 s (by omega) hs2
        · refine Or.inr ⟨s0, by omega, h2, h3, h4, fun s hs hs2 hws => ?_⟩
          by_cases hs3 : s = t + 1
          · subst hs3; exact absurd hws hw
          · exact h5 s (by omega) hs2 hws

/-- The inner loop from slot `i` finds `j ≠ i` exactly when `j` is the one other slot of the
same side holding the same node. -/
theorem find_other_ok_iff (uvs : List Nat) (i j : Nat) (hi : i < 84) (hj : j ≠ i) :
    find_other uvs i PROOFSIZE i i = some (.ok j) ↔
      (j < 84 ∧ j % 2 = i % 2 ∧ uvs.getD j 0 = uvs.getD i 0 ∧
        ∀ k, k < 84 → k % 2 = i % 2 → uvs.getD k 0 = uvs.getD i 0 → k = i ∨ k = j) := by
  have h0 : i = (i + 2 * 0) % 84 := by omega
  constructor
  · intro h
    have h1 : find_other uvs i (41 + 1) ((i + 2 * 0) % 84) i = some (.ok j) := by
      rw [← h0]; exact h
    rcases (find_other_sound uvs i hi 41 0 i j (by omega) h1).2 rfl with
      ⟨h2, _⟩ | ⟨s0, h2, h3, h4, h5, h6⟩
    · exact absurd h2 hj
    · refine ⟨by omega, by omega, h5, fun k hk hpar hw => ?_⟩
      by_cases hki : k = i
      · exact Or.inl hki
      · right
        have hs : k = (i + 2 * ((k + 84 - i) % 84 / 2)) % 84 := by omega
        rw [hs] at hw
        have := h6 ((k + 84 - i) % 84 / 2) (by omega) (by omega) hw
        omega
  · rintro ⟨h1, h2, h3, h4⟩
    have hs : j = (i + 2 * ((j + 84 - i) % 84 / 2)) % 84 := by omega
    have := find_other_complete uvs i hi 41 0 ((j + 84 - i) % 84 / 2) (by omega) (by omega)
      (by omega) (by rw [← hs]; exact h3) (fun s hs1 hs2 hw => by
        rcases h4 _ (by omega) (by omega) hw with h | h <;> omega)
    rw [← hs, ← h0] at this
    exact this

end cuckoo
namespace cuckoo
open verify_code

theorem find_other_error (uvs : List Nat) (i : Nat) :
    ∀ n k j c, find_other uvs i n k j = some (.error c) → c = POW_BRANCH := by
  intro n
  induction n with
  | zero => intro k j c h; simp [find_other] at h
  | succ n ih =>
    intro k j c h
    rw [find_other_step] at h
    split at h
    · simp at h
    · split at h
      · split at h
        · simp at h; exact h.symm
        · exact ih _ _ _ h
      · exact ih _ _ _ h

theorem Linked.symm {uvs : List Nat} {i j : Nat} (h : Linked uvs i j) (hi : i < 84) :
    Linked uvs j i := by
  obtain ⟨h1, h2, h3, h4, h5⟩ := h
  refine ⟨fun h => h1 h.symm, hi, h3.symm, h4.symm, fun k hk hp hw => ?_⟩
  rcases h5 k hk (by omega) (by rw [hw, h4]) with h | h
  · exact Or.inr h
  · exact Or.inl h

theorem Linked.unique {uvs : List Nat} {i j j2 : Nat} (h : Linked uvs i j)
    (h2 : Linked uvs i j2) : j = j2 := by
  rcases h2.2.2.2.2 j h.2.1 h.2.2.1 h.2.2.2.1 with h3 | h3
  · exact absurd h3 h.1
  · exact h3

theorem xor_one_eq : ∀ j, j < 84 → j ^^^ 1 = if j % 2 = 0 then j + 1 else j - 1 := by
  decide

theorem follow_cycle_step (uvs : List Nat) (fuel i n : Nat) :
    follow_cycle uvs (fuel + 1) i n =
      match find_other uvs i PROOFSIZE i i with
      | none => none
      | some (.error c) => some c
      | some (.ok j) =>
        if j = i then some POW_DEAD_END
        else if j ^^^ 1 ≠ 0 then follow_cycle uvs fuel (j ^^^ 1) (n + 1)
        else some (if n + 1 = PROOFSIZE then POW_OK else POW_SHORT_CYCLE) := by
  simp only [follow_cycle]

theorem TraceStep.lt {uvs : List Nat} {i i1 : Nat} (h : TraceStep uvs i i1) : i1 < 84 := by
  obtain ⟨j, hj, rfl⟩ := h
  have h1 := xor_one_eq j hj.2.1
  have h2 := hj.2.1
  rw [h1]
  split <;> omega

theorem follow_cycle_ok_trace (uvs : List Nat) :
    ∀ fuel i n, i < 84 → follow_cycle uvs fuel i n = some POW_OK →
      ∃ s : Nat → Nat, ∃ m, n + m + 1 = 42 ∧ s 0 = i ∧ s (m + 1) = 0 ∧
        (∀ t, t ≤ m → TraceStep uvs (s t) (s (t + 1))) ∧
        (∀ t, 1 ≤ t → t ≤ m → s t ≠ 0) := by
  intro fuel
  induction fuel with
  | zero => intro i n _ h; simp [follow_cycle] at h
  | succ fuel ih =>
    intro i n hi h
    rw [follow_cycle_step] at h
    cases hf : find_other uvs i PROOFSIZE i i with
    | none => rw [hf] at h; simp at h
    | some r =>
      cases r with
      | error c =>
        rw [hf] at h
        have := find_other_error uvs i _ _ _ _ hf
        simp at h
        rw [h] at this
        cases this
      | ok j =>
        rw [hf] at h
        simp only at h
        by_cases hji : j = i
        · rw [if_pos hji] at h; simp at h
        · rw [if_neg hji] at h
          have hl : Linked uvs i j := ⟨hji, (find_other_ok_iff uvs i j hi hji).1 hf⟩
          have hstep : TraceStep uvs i (j ^^^ 1) := ⟨j, hl, rfl⟩
          by_cases h0 : j ^^^ 1 = 0
          · rw [if_neg (by simpa using h0)] at h
            have hn : n + 1 = 42 := by
              by_contra hne
              simp [PROOFSIZE, hne] at h
            refine ⟨fun t => if t = 0 then i else 0, 0, by omega, by simp, by simp, ?_, ?_⟩
            · intro t ht
              have : t = 0 := by omega
              subst this
              simpa [h0] using hstep
            · intro t h1 h2; omega
          · rw [if_pos h0] at h
            obtain ⟨s, m, hm, hs0, hsm, hst, hnz⟩ := ih (j ^^^ 1) (n + 1) hstep.lt h
            refine ⟨fun t => if t = 0 then i else s (t - 1), m + 1, by omega, by simp,
              by simpa using hsm, ?_, ?_⟩
            · intro t ht
              by_cases ht0 : t = 0
              · subst ht0
                simpa [hs0] using hstep
              · have := hst (t - 1) (by omega)
                have e1 : t - 1 + 1 = t := by omega
                rw [e1] at this
                simpa [ht0] using this
            · intro t h1 h2
              have ht0 : t ≠ 0 := by omega
              simp only [ht0, if_false]
              by_cases ht1 : t = 1
              · subst ht1; simpa [hs0] using h0
              · exact hnz (t - 1) (by omega) (by omega)

theorem follow_cycle_of_trace (uvs : List Nat) :
    ∀ m fuel i n (s : Nat → Nat), m < fuel → i < 84 → n + m + 1 = 42 → s 0 = i →
      s (m + 1) = 0 → (∀ t, t ≤ m → TraceStep uvs (s t) (s (t + 1))) →
      (∀ t, 1 ≤ t → t ≤ m → s t ≠ 0) → follow_cycle uvs fuel i n = some POW_OK := by
  intro m
  induction m with
  | zero =>
    intro fuel i n s hf hi hn hs0 hs1 hst _
    obtain ⟨fuel, rfl⟩ : ∃ f, fuel = f + 1 := ⟨fuel - 1, by omega⟩
    obtain ⟨j, hl, hj⟩ := hst 0 (by omega)
    rw [hs0] at hl
    rw [follow_cycle_step, (find_other_ok_iff uvs i j hi hl.1).2 hl.2]
    simp only [zero_add] at hj
    rw [hs1] at hj
    simp only [if_neg hl.1, ← hj]
    simp [PROOFSIZE]; omega
  | succ m ih =>
    intro fuel i n s hf hi hn hs0 hs1 hst hnz
    obtain ⟨fuel, rfl⟩ : ∃ f, fuel = f + 1 := ⟨fuel - 1, by omega⟩
    obtain ⟨j, hl, hj⟩ := hst 0 (by omega)
    rw [hs0] at hl
    rw [follow_cycle_step, (find_other_ok_iff uvs i j hi hl.1).2 hl.2]
    simp only [zero_add] at hj
    have h1 : s 1 ≠ 0 := hnz 1 (by omega) (by omega)
    simp only [if_neg hl.1, ← hj, if_pos h1]
    have hlt : s 1 < 84 := (hst 0 (by omega)).lt
    exact ih fuel (s 1) (n + 1) (fun t => s (t + 1)) (by omega) hlt (by omega) rfl hs1
      (fun t ht => hst (t + 1) (by omega)) (fun t h1 h2 => hnz (t + 1) (by omega) (by omega))

end cuckoo
namespace cuckoo
open verify_code

theorem xor_one_cases (x : Nat) (hx : x < 84) :
    (x % 2 = 0 ∧ x ^^^ 1 = x + 1) ∨ (x % 2 = 1 ∧ x ^^^ 1 = x - 1) := by
  have h := xor_one_eq x hx
  by_cases h0 : x % 2 = 0
  · rw [if_pos h0] at h; exact Or.inl ⟨h0, h⟩
  · rw [if_neg h0] at h; exact Or.inr ⟨by omega, h⟩

theorem TraceStep.det {uvs : List Nat} {i a b : Nat} (h1 : TraceStep uvs i a)
    (h2 : TraceStep uvs i b) : a = b := by
  obtain ⟨j, hj, rfl⟩ := h1
  obtain ⟨j2, hj2, rfl⟩ := h2
  rw [hj.unique hj2]

theorem TraceStep.rev {uvs : List Nat} {i i1 : Nat} (h : TraceStep uvs i i1) (hi : i < 84) :
    TraceStep uvs (i1 ^^^ 1) (i ^^^ 1) := by
  obtain ⟨j, hj, rfl⟩ := h
  have hx : (j ^^^ 1) ^^^ 1 = j := by
    rw [Nat.xor_assoc]; simp
  rw [hx]
  exact ⟨i, hj.symm hi, rfl⟩

theorem TraceStep.inj {uvs : List Nat} {a b c : Nat} (h1 : TraceStep uvs a c)
    (h2 : TraceStep uvs b c) (ha : a < 84) (hb : b < 84) : a = b := by
  have r1 := h1.rev ha
  have r2 := h2.rev hb
  have := r1.det r2
  rcases xor_one_cases a ha with h | h <;> rcases xor_one_cases b hb with h' | h' <;> omega

theorem TraceStep.parity {uvs : List Nat} {i i1 : Nat} (h : TraceStep uvs i i1) :
    i1 % 2 = (i + 1) % 2 := by
  obtain ⟨j, hj, rfl⟩ := h
  rcases xor_one_cases j hj.2.1 with h | h <;> have := hj.2.2.1 <;> omega

theorem TraceStep.ne_flip {uvs : List Nat} {i i1 : Nat} (h : TraceStep uvs i i1) (hi : i < 84) :
    i1 ≠ i ^^^ 1 := by
  obtain ⟨j, hj, rfl⟩ := h
  have := hj.1
  rcases xor_one_cases j hj.2.1 with h | h <;> rcases xor_one_cases i hi with h' | h' <;> omega

namespace ClosedTrace

variable {uvs : List Nat} {s : Nat → Nat}

theorem slot_lt (h : ClosedTrace uvs s) : ∀ t, t ≤ 42 → s t < 84 := by
  intro t ht
  cases t with
  | zero => rw [h.start]; omega
  | succ t => exact (h.step t (by omega)).lt

theorem slot_parity (h : ClosedTrace uvs s) : ∀ t, t ≤ 42 → s t % 2 = t % 2 := by
  intro t
  induction t with
  | zero => intro _; rw [h.start]
  | succ t ih =>
    intro ht
    have := (h.step t (by omega)).parity
    have := ih (by omega)
    omega

theorem slots_ne (h : ClosedTrace uvs s) : ∀ a b, a < b → b ≤ 41 → s a ≠ s b := by
  intro a
  induction a with
  | zero =>
    intro b hab hb
    rw [h.start]
    exact fun e => h.nonzero b (by omega) hb e.symm
  | succ a ih =>
    intro b hab hb e
    obtain ⟨b, rfl⟩ : ∃ c, b = c + 1 := ⟨b - 1, by omega⟩
    have h1 := h.step a (by omega)
    have h2 := h.step b (by omega)
    rw [e] at h1
    exact ih b (by omega) (by omega) (h1.inj h2 (h.slot_lt a (by omega)) (h.slot_lt b (by omega)))

theorem flips_ne (h : ClosedTrace uvs s) :
    ∀ d a b, b = a + d → b ≤ 41 → s b ≠ s a ^^^ 1 := by
  intro d
  induction d using Nat.strong_induction_on with
  | _ d ih =>
    intro a b hb hb41 e
    have ha := h.slot_lt a (by omega)
    rcases Nat.lt_or_ge d 2 with hd | hd
    · interval_cases d
      · simp only [add_zero] at hb
        subst hb
        rcases xor_one_cases (s b) ha with h' | h' <;> omega
      · subst hb
        exact (h.step a (by omega)).ne_flip ha e
    · obtain ⟨b, rfl⟩ : ∃ c, b = c + 1 := ⟨b - 1, by omega⟩
      have h1 := (h.step b (by omega)).rev (h.slot_lt b (by omega))
      have hx : (s a ^^^ 1) ^^^ 1 = s a := by rw [Nat.xor_assoc]; simp
      rw [e, hx] at h1
      have h2 := h1.det (h.step a (by omega))
      have hx2 : s b = s (a + 1) ^^^ 1 := by
        rw [← h2, Nat.xor_assoc]; simp
      exact ih (d - 2) (by omega) (a + 1) b (by omega) (by omega) hx2

theorem edges_inj (h : ClosedTrace uvs s) :
    ∀ a b, a ≤ 41 → b ≤ 41 → s a / 2 = s b / 2 → a = b := by
  have key : ∀ a b, a < b → b ≤ 41 → s a / 2 ≠ s b / 2 := by
    intro a b hab hb e
    have h1 := h.slots_ne a b hab hb
    have h2 := h.flips_ne (b - a) a b (by omega) hb
    rcases xor_one_cases (s a) (h.slot_lt a (by omega)) with h' | h' <;> omega
  intro a b ha hb e
  rcases Nat.lt_trichotomy a b with hlt | heq | hgt
  · exact absurd e (key a b hlt hb)
  · exact heq
  · exact absurd e.symm (key b a hgt ha)

end ClosedTrace
end cuckoo
namespace cuckoo
open verify_code

namespace ClosedTrace

variable {uvs : List Nat} {s : Nat → Nat}

theorem edge_val (h : ClosedTrace uvs s) (t : Fin 42) : (trace_edge s t).val = s t.val / 2 := by
  have := h.slot_lt t.val (by omega)
  simp only [trace_edge]
  omega

theorem edge_bijective (h : ClosedTrace uvs s) : Function.Bijective (trace_edge s) := by
  rw [← Finite.injective_iff_bijective]
  intro a b e
  have e2 : s a.val / 2 = s b.val / 2 := by
    have := congrArg Fin.val e
    rwa [h.edge_val, h.edge_val] at this
  exact Fin.ext (h.edges_inj a.val b.val (by omega) (by omega) e2)

theorem linked_all (h : ClosedTrace uvs s) : ∀ x, x < 84 → ∃ y, Linked uvs x y := by
  intro x hx
  obtain ⟨t, ht⟩ := h.edge_bijective.2 ⟨x / 2, by omega⟩
  have e2 : s t.val / 2 = x / 2 := by
    have := congrArg Fin.val ht
    rwa [h.edge_val] at this
  have hlt := h.slot_lt t.val (by omega)
  by_cases hsx : s t.val = x
  · obtain ⟨j, hj, _⟩ := h.step t.val (by omega)
    exact ⟨j, hsx ▸ hj⟩
  · -- slot `x` is the sibling of `s t`
    have key : ∀ u, u ≤ 41 → s (u + 1) = s t.val → ∃ y, Linked uvs x y := by
      intro u hu e
      obtain ⟨j, hj, hj2⟩ := h.step u hu
      have : j = x := by
        rw [e] at hj2
        rcases xor_one_cases j hj.2.1 with h' | h' <;> omega
      exact ⟨s u, this ▸ hj.symm (h.slot_lt u (by omega))⟩
    by_cases ht0 : t.val = 0
    · exact key 41 (by omega) (by rw [ht0, h.start]; exact h.close)
    · exact key (t.val - 1) (by omega) (by congr 1; omega)

theorem exactlyTwo_u (h : ClosedTrace uvs s) : ExactlyTwo (slots_u uvs) := by
  intro a
  obtain ⟨y, hy1, hy2, hy3, hy4, hy5⟩ := h.linked_all (2 * a.val) (by omega)
  refine ⟨⟨y / 2, by omega⟩, ?_, fun c => ⟨fun hc => ?_, fun hc => ?_⟩⟩
  · intro e
    have := congrArg Fin.val e
    simp at this
    omega
  · rcases hy5 (2 * c.val) (by omega) (by omega) hc with h' | h'
    · exact Or.inl (Fin.ext (by omega))
    · exact Or.inr (Fin.ext (by simp; omega))
  · rcases hc with rfl | rfl
    · rfl
    · have : 2 * (y / 2) = y := by omega
      simp only [slots_u, this]
      exact hy4

theorem exactlyTwo_v (h : ClosedTrace uvs s) : ExactlyTwo (slots_v uvs) := by
  intro a
  obtain ⟨y, hy1, hy2, hy3, hy4, hy5⟩ := h.linked_all (2 * a.val + 1) (by omega)
  refine ⟨⟨y / 2, by omega⟩, ?_, fun c => ⟨fun hc => ?_, fun hc => ?_⟩⟩
  · intro e
    have := congrArg Fin.val e
    simp at this
    omega
  · rcases hy5 (2 * c.val + 1) (by omega) (by omega) hc with h' | h'
    · exact Or.inl (Fin.ext (by omega))
    · exact Or.inr (Fin.ext (by simp; omega))
  · rcases hc with rfl | rfl
    · rfl
    · have : 2 * (y / 2) + 1 = y := by omega
      simp only [slots_v, this]
      exact hy4

theorem is_alternating (h : ClosedTrace uvs s) : AlternatingCycle (slots_u uvs) (slots_v uvs) := by
  refine ⟨trace_edge s, h.edge_bijective, fun t => ?_⟩
  have hnext : s ((t + 1 : Fin 42)).val / 2 = s (t.val + 1) / 2 := by
    by_cases ht : t.val = 41
    · have : (t + 1 : Fin 42) = 0 := by
        apply Fin.ext
        simp [Fin.val_add, ht]
      rw [this, ht]
      simp [h.start, h.close]
    · have : (t + 1 : Fin 42).val = t.val + 1 := by
        simp [Fin.val_add]
        omega
      rw [this]
  obtain ⟨j, hj, hj2⟩ := h.step t.val (by omega)
  have hp := h.slot_parity t.val (by omega)
  have hlt := h.slot_lt t.val (by omega)
  obtain ⟨hj1, hjlt, hjp, hjw, _⟩ := hj
  have hjc := xor_one_cases j hjlt
  split
  · rename_i h0
    have e1 : 2 * (s t.val / 2) = s t.val := by omega
    have e2 : 2 * (s (t.val + 1) / 2) = j := by omega
    simp only [slots_u, h.edge_val, hnext, e1, e2]
    exact hjw.symm
  · rename_i h0
    have e1 : 2 * (s t.val / 2) + 1 = s t.val := by omega
    have e2 : 2 * (s (t.val + 1) / 2) + 1 = j := by omega
    simp only [slots_v, h.edge_val, hnext, e1, e2]
    exact hjw.symm

end ClosedTrace
end cuckoo
namespace cuckoo
open verify_code

/-- An alternating cycle can be read starting at edge 0, in one of its two directions. -/
theorem AlternatingCycle.normalize {U V : Fin 42 → Nat} (h : AlternatingCycle U V) :
    ∃ e : Fin 42 → Fin 42, Function.Bijective e ∧ e 0 = 0 ∧
      ∀ t : Fin 42, if t.val % 2 = 0 then U (e t) = U (e (t + 1)) else V (e t) = V (e (t + 1)) := by
  obtain ⟨e, he, halt⟩ := h
  obtain ⟨t0, ht0⟩ := he.2 0
  by_cases hpar : t0.val % 2 = 0
  · refine ⟨fun t => e (t0 + t), ?_, by simpa using ht0, fun t => ?_⟩
    · exact he.comp (AddGroup.addLeft_bijective t0)
    · have h1 := halt (t0 + t)
      have hv : (t0 + t).val % 2 = t.val % 2 := by
        rw [Fin.val_add]; omega
      rw [hv] at h1
      have e1 : t0 + t + 1 = t0 + (t + 1) := by ring
      rw [e1] at h1
      exact h1
  · refine ⟨fun t => e (t0 - t), ?_, by simpa using ht0, fun t => ?_⟩
    · have : Function.Bijective (fun t : Fin 42 => t0 - t) := by
        rw [← Finite.injective_iff_bijective]
        intro a b hab
        simpa using hab
      exact he.comp this
    · have h1 := halt (t0 - (t + 1))
      have hv : (t0 - (t + 1)).val % 2 = t.val % 2 := by
        rw [Fin.coe_sub, Fin.val_add]
        have : (1 : Fin 42).val = 1 := rfl
        rw [this]
        omega
      rw [hv] at h1
      have e1 : t0 - (t + 1) + 1 = t0 - t := by ring
      rw [e1] at h1
      simp only
      split
      · rename_i h0; rw [if_pos h0] at h1; exact h1.symm
      · rename_i h0; rw [if_neg h0] at h1; exact h1.symm

theorem cyc_pos_succ (t : Nat) : cyc_pos t + 1 = cyc_pos (t + 1) := by
  apply Fin.ext
  simp only [cyc_pos, Fin.val_add]
  have : (1 : Fin 42).val = 1 := rfl
  rw [this]
  omega

theorem closedTrace_of_cycle (uvs : List Nat) (hu : ExactlyTwo (slots_u uvs))
    (hv : ExactlyTwo (slots_v uvs)) (hc : AlternatingCycle (slots_u uvs) (slots_v uvs)) :
    ∃ s, ClosedTrace uvs s := by
  obtain ⟨e, he, he0, halt⟩ := hc.normalize
  have hval : ∀ t, 1 ≤ t → t ≤ 41 → (e (cyc_pos t)).val ≠ 0 := by
    intro t h1 h2 h0
    have : e (cyc_pos t) = e 0 := by rw [he0]; exact Fin.ext h0
    have := congrArg Fin.val (he.1 this)
    simp [cyc_pos] at this
    omega
  refine ⟨fun t => 2 * (e (cyc_pos t)).val + t % 2, ?_, ?_, ?_, ?_⟩
  · have : cyc_pos 0 = 0 := rfl
    simp [this, he0]
  · have : cyc_pos 42 = 0 := rfl
    simp [this, he0]
  · intro t ht
    have hne : e (cyc_pos (t + 1)) ≠ e (cyc_pos t) := by
      intro h
      have := congrArg Fin.val (he.1 h)
      simp [cyc_pos] at this
      omega
    have hne2 : (e (cyc_pos (t + 1))).val ≠ (e (cyc_pos t)).val := fun h => hne (Fin.ext h)
    have ha := (e (cyc_pos t)).isLt
    have hb := (e (cyc_pos (t + 1))).isLt
    have hsh := halt (cyc_pos t)
    rw [cyc_pos_succ] at hsh
    have hpv : (cyc_pos t).val % 2 = t % 2 := by simp only [cyc_pos]; omega
    rw [hpv] at hsh
    refine ⟨2 * (e (cyc_pos (t + 1))).val + t % 2, ⟨by omega, by omega, by omega, ?_, ?_⟩, ?_⟩
    · -- same node
      by_cases h0 : t % 2 = 0
      · rw [if_pos h0] at hsh
        simp only [h0, add_zero]
        exact hsh.symm
      · rw [if_neg h0] at hsh
        have h1 : t % 2 = 1 := by omega
        simp only [h1]
        exact hsh.symm
    · -- no third slot
      intro k hk hkp hkw
      by_cases h0 : t % 2 = 0
      · rw [if_pos h0] at hsh
        obtain ⟨b, hb1, hb2⟩ := hu (e (cyc_pos t))
        have hb3 : e (cyc_pos (t + 1)) = b := by
          rcases (hb2 (e (cyc_pos (t + 1)))).1 hsh.symm with h | h
          · exact absurd h hne
          · exact h
        have hk2 : slots_u uvs ⟨k / 2, by omega⟩ = slots_u uvs (e (cyc_pos t)) := by
          have : 2 * (k / 2) = k := by omega
          simp only [slots_u, this]
          simp only [h0, add_zero] at hkw
          exact hkw
        rcases (hb2 _).1 hk2 with h | h
        · left
          have := congrArg Fin.val h
          simp at this
          omega
        · right
          rw [← hb3] at h
          have := congrArg Fin.val h
          simp at this
          omega
      · rw [if_neg h0] at hsh
        have h1 : t % 2 = 1 := by omega
        obtain ⟨b, hb1, hb2⟩ := hv (e (cyc_pos t))
        have hb3 : e (cyc_pos (t + 1)) = b := by
          rcases (hb2 (e (cyc_pos (t + 1)))).1 hsh.symm with h | h
          · exact absurd h hne
          · exact h
        have hk2 : slots_v uvs ⟨k / 2, by omega⟩ = slots_v uvs (e (cyc_pos t)) := by
          have : 2 * (k / 2) + 1 = k := by omega
          simp only [slots_v, this]
          simp only [h1] at hkw
          exact hkw
        rcases (hb2 _).1 hk2 with h | h
        · left
          have := congrArg Fin.val h
          simp at this
          omega
        · right
          rw [← hb3] at h
          have := congrArg Fin.val h
          simp at this
          omega
    · -- the sibling of the partner is the next slot
      have hlt : 2 * (e (cyc_pos (t + 1))).val + t % 2 < 84 := by omega
      rcases xor_one_cases _ hlt with h' | h' <;> omega
  · intro t h1 h2
    have := hval t h1 h2
    omega

/-- The trace loop accepts exactly when the slots hold one alternating cycle through all
42 edges in which every node occurs exactly twice. -/
theorem follow_cycle_ok_iff (uvs : List Nat) :
    follow_cycle uvs (2 * PROOFSIZE) 0 0 = some POW_OK ↔
      (ExactlyTwo (slots_u uvs) ∧ ExactlyTwo (slots_v uvs) ∧
        AlternatingCycle (slots_u uvs) (slots_v uvs)) := by
  constructor
  · intro h
    obtain ⟨s, m, hm, hs0, hsm, hst, hnz⟩ := follow_cycle_ok_trace uvs _ 0 0 (by omega) h
    have hm41 : m = 41 := by omega
    subst hm41
    have ht : ClosedTrace uvs s := ⟨hs0, hsm, hst, hnz⟩
    exact ⟨ht.exactlyTwo_u, ht.exactlyTwo_v, ht.is_alternating⟩
  · rintro ⟨hu, hv, hc⟩
    obtain ⟨s, hs⟩ := closedTrace_of_cycle uvs hu hv hc
    exact follow_cycle_of_trace uvs 41 _ 0 0 s (by simp [PROOFSIZE]) (by omega) (by omega)
      hs.start hs.close hs.step hs.nonzero

end cuckoo
namespace cuckoo
open verify_code

theorem verify_scan_ok_iff (keys : siphash_keys) (nnodes edgemask : Nat) (nonces : List Nat) :
    ∀ k n uvs xor0 xor1 r,
      verify_scan keys nnodes edgemask nonces k n uvs xor0 xor1 = .ok r ↔
        (InRangeAscending nnodes nonces n k ∧
          r = (uvs ++ scan_uvs keys edgemask nonces n k,
            (scan_side keys edgemask nonces 0 n k).foldl (· ^^^ ·) xor0,
            (scan_side keys edgemask nonces 1 n k).foldl (· ^^^ ·) xor1)) := by
  intro k
  induction k with
  | zero =>
    intro n uvs xor0 xor1 r
    simp only [verify_scan, scan_uvs, scan_side, List.append_nil, List.foldl_nil,
      Except.ok.injEq]
    constructor
    · intro h; exact ⟨fun m h1 h2 => by omega, h.symm⟩
    · intro h; exact h.2.symm
  | succ k ih =>
    intro n uvs xor0 xor1 r
    simp only [verify_scan]
    by_cases h1 : nonces.getD n 0 > nnodes
    · rw [if_pos h1]
      constructor
      · intro h; cases h
      · intro h
        have := (h.1 n (by omega) (by omega)).1
        omega
    · by_cases h2 : n ≠ 0 ∧ nonces.getD n 0 ≤ nonces.getD (n - 1) 0
      · rw [if_neg h1, if_pos h2]
        constructor
        · intro h; cases h
        · intro h
          have := (h.1 n (by omega) (by omega)).2 h2.1
          omega
      · rw [if_neg h1, if_neg h2, ih]
        simp only [scan_uvs, scan_side, List.foldl_cons, List.append_assoc, List.cons_append,
          List.nil_append]
        constructor
        · rintro ⟨h3, h4⟩
          refine ⟨fun m hm1 hm2 => ?_, h4⟩
          by_cases hmn : m = n
          · subst hmn
            refine ⟨by omega, fun hm0 => ?_⟩
            by_contra hc
            exact h2 ⟨hm0, by omega⟩
          · exact h3 m (by omega) (by omega)
        · rintro ⟨h3, h4⟩
          exact ⟨fun m hm1 hm2 => h3 m (by omega) (by omega), h4⟩

theorem scan_uvs_getD (keys : siphash_keys) (edgemask : Nat) (nonces : List Nat) :
    ∀ k n a, a < k →
      (scan_uvs keys edgemask nonces n k).getD (2 * a) 0 =
          sipnode keys (nonces.getD (n + a) 0) 0 edgemask ∧
      (scan_uvs keys edgemask nonces n k).getD (2 * a + 1) 0 =
          sipnode keys (nonces.getD (n + a) 0) 1 edgemask := by
  intro k
  induction k with
  | zero => intro n a h; omega
  | succ k ih =>
    intro n a h
    cases a with
    | zero => simp [scan_uvs]
    | succ a =>
      have := ih (n + 1) a (by omega)
      have e1 : 2 * (a + 1) = 2 * a + 1 + 1 := by omega
      have e2 : n + 1 + a = n + (a + 1) := by omega
      rw [e2] at this
      simp only [scan_uvs, e1, List.getD_cons_succ]
      exact this

theorem slots_u_scan (keys : siphash_keys) (edgemask : Nat) (nonces : List Nat) :
    slots_u (scan_uvs keys edgemask nonces 0 42) = edge_u keys edgemask nonces := by
  funext a
  have := (scan_uvs_getD keys edgemask nonces 42 0 a.val a.isLt).1
  simpa [slots_u, edge_u] using this

theorem slots_v_scan (keys : siphash_keys) (edgemask : Nat) (nonces : List Nat) :
    slots_v (scan_uvs keys edgemask nonces 0 42) = edge_v keys edgemask nonces := by
  funext a
  have := (scan_uvs_getD keys edgemask nonces 42 0 a.val a.isLt).2
  simpa [slots_v, edge_v] using this

theorem scan_side_eq_map (keys : siphash_keys) (edgemask : Nat) (nonces : List Nat)
    (uorv : Nat) : ∀ k n,
      scan_side keys edgemask nonces uorv n k =
        (List.range' n k).map (fun m => sipnode keys (nonces.getD m 0) uorv edgemask) := by
  intro k
  induction k with
  | zero => intro n; rfl
  | succ k ih => intro n; simp [scan_side, List.range', ih]

theorem foldl_xor_init (l : List Nat) : ∀ x, l.foldl (· ^^^ ·) x = x ^^^ l.foldl (· ^^^ ·) 0 := by
  induction l with
  | nil => intro x; simp
  | cons a l ih =>
    intro x
    simp only [List.foldl_cons, Nat.zero_xor]
    rw [ih (x ^^^ a), ih a, Nat.xor_assoc]

theorem foldl_xor_perm {l1 l2 : List Nat} (p : l1.Perm l2) :
    l1.foldl (· ^^^ ·) 0 = l2.foldl (· ^^^ ·) 0 := by
  apply List.Perm.foldl_eq' p
  intro x _ y _ z
  simp only [Nat.xor_assoc, Nat.xor_comm x y]

/-- The xor of a family vanishes when its indices are paired off by an involution without
fixed points that preserves the value. -/
theorem xor_pairs_cancel (W g : Nat → Nat) :
    ∀ (n : Nat) (I : List Nat), I.length = n → I.Nodup →
      (∀ a ∈ I, g a ∈ I ∧ g a ≠ a ∧ W (g a) = W a ∧ g (g a) = a) →
      (I.map W).foldl (· ^^^ ·) 0 = 0 := by
  intro n
  induction n using Nat.strong_induction_on with
  | _ n ih =>
    intro I hlen hnd hg
    cases I with
    | nil => rfl
    | cons a I =>
      obtain ⟨h1, h2, h3, h4⟩ := hg a (List.mem_cons_self a I)
      have hmem : g a ∈ I := by
        rcases List.mem_cons.1 h1 with h | h
        · exact absurd h h2
        · exact h
      have hnd2 : I.Nodup := (List.nodup_cons.1 hnd).2
      have ha : a ∉ I := (List.nodup_cons.1 hnd).1
      have hp : I.Perm (g a :: I.erase (g a)) := List.perm_cons_erase hmem
      have hrec : ((I.erase (g a)).map W).foldl (· ^^^ ·) 0 = 0 := by
        apply ih (I.erase (g a)).length _ _ rfl (hnd2.erase _)
        · intro c hc
          have hc2 := (hnd2.mem_erase_iff).1 hc
          obtain ⟨c1, c2, c3, c4⟩ := hg c (List.mem_cons_of_mem a hc2.2)
          refine ⟨?_, c2, c3, c4⟩
          rw [hnd2.mem_erase_iff]
          refine ⟨fun e => ?_, ?_⟩
          · have : c = a := by rw [← c4, e, h4]
            exact ha (this ▸ hc2.2)
          · rcases List.mem_cons.1 c1 with h | h
            · exfalso
              have : c = g a := by rw [← c4, h]
              exact hc2.1 this
            · exact h
        · have := List.length_erase_of_mem hmem
          simp only [List.length_cons] at hlen
          omega
      have hp2 : (I.map W).Perm (W (g a) :: (I.erase (g a)).map W) := by
        simpa using hp.map W
      simp only [List.map_cons, List.foldl_cons, Nat.zero_xor]
      rw [foldl_xor_init, foldl_xor_perm hp2]
      simp only [List.foldl_cons, Nat.zero_xor]
      rw [foldl_xor_init, hrec, h3]
      simp

theorem xor_zero_of_exactlyTwo (W : Nat → Nat) (h : ExactlyTwo (fun a : Fin 42 => W a.val)) :
    ((List.range' 0 42).map W).foldl (· ^^^ ·) 0 = 0 := by
  choose g hg1 hg2 using h
  let g2 : Nat → Nat := fun a => if ha : a < 42 then (g ⟨a, ha⟩).val else a
  apply xor_pairs_cancel W g2 42 _ (by simp) (List.nodup_range' 0 42)
  intro a ha
  have ha2 : a < 42 := by
    have := List.mem_range'_1.1 ha
    omega
  have hga : g2 a = (g ⟨a, ha2⟩).val := by simp [g2, ha2]
  have hlt := (g ⟨a, ha2⟩).isLt
  have hw : W (g ⟨a, ha2⟩).val = W a := ((hg2 ⟨a, ha2⟩ (g ⟨a, ha2⟩)).2 (Or.inr rfl))
  refine ⟨?_, ?_, ?_, ?_⟩
  · rw [hga, List.mem_range'_1]; omega
  · rw [hga]
    intro e
    exact hg1 ⟨a, ha2⟩ (Fin.ext e)
  · rw [hga]; exact hw
  · have hgg : g2 (g2 a) = (g (g ⟨a, ha2⟩)).val := by
      rw [hga]
      simp [g2, hlt]
    rw [hgg]
    rcases (hg2 (g ⟨a, ha2⟩) ⟨a, ha2⟩).1 hw.symm with h | h
    · exact absurd h.symm (hg1 ⟨a, ha2⟩)
    · rw [← h]

end cuckoo
namespace cuckoo
open verify_code

theorem verify_scan_error (keys : siphash_keys) (nnodes edgemask : Nat) (nonces : List Nat) :
    ∀ k n uvs xor0 xor1 c,
      verify_scan keys nnodes edgemask nonces k n uvs xor0 xor1 = .error c →
        c = POW_TOO_BIG ∨ c = POW_TOO_SMALL := by
  intro k
  induction k with
  | zero => intro n uvs xor0 xor1 c h; simp [verify_scan] at h
  | succ k ih =>
    intro n uvs xor0 xor1 c h
    simp only [verify_scan] at h
    split at h
    · simp at h; exact Or.inl h.symm
    · split at h
      · simp at h; exact Or.inr h.symm
      · exact ih _ _ _ _ _ h

/-- What `verify` accepts: the range and order checks pass and the 42 edges are one
alternating cycle in which every node occurs exactly twice. -/
theorem verify_ok_iff (nonces buf : List Nat) (graphSize : Nat) :
    verify nonces buf graphSize = some POW_OK ↔
      (InRangeAscending (nnodes_of graphSize) nonces 0 42 ∧
        ExactlyTwo (edge_u (siphash_setkeys buf) (edgemask_of graphSize) nonces) ∧
        ExactlyTwo (edge_v (siphash_setkeys buf) (edgemask_of graphSize) nonces) ∧
        AlternatingCycle (edge_u (siphash_setkeys buf) (edgemask_of graphSize) nonces)
          (edge_v (siphash_setkeys buf) (edgemask_of graphSize) nonces)) := by
  simp only [verify]
  cases hs : verify_scan (siphash_setkeys buf) (nnodes_of graphSize) (edgemask_of graphSize)
      nonces PROOFSIZE 0 [] 0 0 with
  | error c =>
    simp only
    constructor
    · intro h
      rcases verify_scan_error _ _ _ _ _ _ _ _ _ _ hs with h1 | h1 <;> rw [h1] at h <;> cases h
    · intro h
      have := (verify_scan_ok_iff (siphash_setkeys buf) (nnodes_of graphSize)
        (edgemask_of graphSize) nonces PROOFSIZE 0 [] 0 0 _).2 ⟨h.1, rfl⟩
      rw [hs] at this
      cases this
  | ok r =>
    obtain ⟨hr1, hr2⟩ := (verify_scan_ok_iff _ _ _ _ _ _ _ _ _ _).1 hs
    subst hr2
    simp only [List.nil_append]
    have hu := slots_u_scan (siphash_setkeys buf) (edgemask_of graphSize) nonces
    have hv := slots_v_scan (siphash_setkeys buf) (edgemask_of graphSize) nonces
    have hiff := follow_cycle_ok_iff
      (scan_uvs (siphash_setkeys buf) (edgemask_of graphSize) nonces 0 PROOFSIZE)
    have hP : PROOFSIZE = 42 := rfl
    rw [hP] at hiff ⊢
    rw [hu, hv] at hiff
    constructor
    · intro h
      split at h
      · cases h
      · exact ⟨hr1, hiff.1 h⟩
    · rintro ⟨_, h2, h3, h4⟩
      have x0 := xor_zero_of_exactlyTwo
        (fun m => sipnode (siphash_setkeys buf) (nonces.getD m 0) 0 (edgemask_of graphSize)) h2
      have x1 := xor_zero_of_exactlyTwo
        (fun m => sipnode (siphash_setkeys buf) (nonces.getD m 0) 1 (edgemask_of graphSize)) h3
      rw [scan_side_eq_map, scan_side_eq_map, x0, x1]
      simp only [Nat.or_self, ne_eq, not_true_eq_false, if_false]
      exact hiff.2 ⟨h2, h3, h4⟩

end cuckoo
namespace cuckoo
open verify_code

theorem AlternatingCycle.single {U V : Fin 42 → Nat} (h : AlternatingCycle U V) :
    SingleCycle U V := by
  obtain ⟨e, he, halt⟩ := h
  refine ⟨e, he, fun t => ?_⟩
  have := halt t
  split at this
  · exact Or.inl this
  · exact Or.inr this

theorem ExactlyTwo.no_three {W : Fin 42 → Nat} (h : ExactlyTwo W) {a b c : Fin 42}
    (hab : a ≠ b) (hac : a ≠ c) (hbc : b ≠ c) (h1 : W a = W b) (h2 : W b = W c) : False := by
  obtain ⟨d, _, hd⟩ := h a
  have e1 : b = d := by
    rcases (hd b).1 h1.symm with h | h
    · exact absurd h.symm hab
    · exact h
  have e2 : c = d := by
    rcases (hd c).1 (by rw [← h2, h1]) with h | h
    · exact absurd h.symm hac
    · exact h
  exact hbc (e1.trans e2.symm)

theorem fin42_succ_ne (t : Fin 42) : t + 1 ≠ t := by
  intro h
  have := congrArg Fin.val h
  rw [Fin.val_add] at this
  have h1 : (1 : Fin 42).val = 1 := rfl
  rw [h1] at this
  omega

theorem fin42_succ_succ_ne (t : Fin 42) : t + 1 + 1 ≠ t := by
  intro h
  have := congrArg Fin.val h
  rw [Fin.val_add, Fin.val_add] at this
  have h1 : (1 : Fin 42).val = 1 := rfl
  rw [h1] at this
  omega

/-- With every node on exactly two edges, a cyclic order in which consecutive edges share
an endpoint shares them alternately on the U side and on the V side. -/
theorem SingleCycle.alternating {U V : Fin 42 → Nat} (h : SingleCycle U V)
    (hu : ExactlyTwo U) (hv : ExactlyTwo V) : AlternatingCycle U V := by
  obtain ⟨e, he, hsh⟩ := h
  have hnu : ∀ t : Fin 42, U (e t) = U (e (t + 1)) → U (e (t + 1)) = U (e (t + 1 + 1)) → False :=
    fun t h1 h2 => hu.no_three (fun h => fin42_succ_ne t (he.1 h).symm)
      (fun h => fin42_succ_succ_ne t (he.1 h).symm)
      (fun h => fin42_succ_ne (t + 1) (he.1 h).symm) h1 h2
  have hnv : ∀ t : Fin 42, V (e t) = V (e (t + 1)) → V (e (t + 1)) = V (e (t + 1 + 1)) → False :=
    fun t h1 h2 => hv.no_three (fun h => fin42_succ_ne t (he.1 h).symm)
      (fun h => fin42_succ_succ_ne t (he.1 h).symm)
      (fun h => fin42_succ_ne (t + 1) (he.1 h).symm) h1 h2
  -- from a U-link at position `p`, the links alternate from there on
  have walk : ∀ p : Fin 42, U (e p) = U (e (p + 1)) → ∀ t : Nat,
      (t % 2 = 0 → U (e (p + cyc_pos t)) = U (e (p + cyc_pos t + 1))) ∧
      (t % 2 = 1 → V (e (p + cyc_pos t)) = V (e (p + cyc_pos t + 1))) := by
    intro p hp t
    induction t with
    | zero =>
      have : cyc_pos 0 = 0 := rfl
      simp [this, hp]
    | succ t ih =>
      have e1 : p + cyc_pos (t + 1) = p + cyc_pos t + 1 := by
        rw [← cyc_pos_succ]; ring
      rw [e1]
      constructor
      · intro ht
        have hvl := ih.2 (by omega)
        rcases hsh (p + cyc_pos t + 1) with h | h
        · exact h
        · exact absurd h (fun h => hnv _ hvl h)
      · intro ht
        have hul := ih.1 (by omega)
        rcases hsh (p + cyc_pos t + 1) with h | h
        · exact absurd h (fun h => hnu _ hul h)
        · exact h
  have hcast : ∀ t : Fin 42, cyc_pos t.val = t := fun t => Fin.ext (by simp [cyc_pos])
  by_cases h0 : U (e 0) = U (e (0 + 1))
  · refine ⟨e, he, fun t => ?_⟩
    have := walk 0 h0 t.val
    rw [hcast, zero_add] at this
    split
    · rename_i h; exact this.1 h
    · rename_i h; exact this.2 (by omega)
  · have hv0 : V (e 0) = V (e (0 + 1)) := by
      rcases hsh 0 with h | h
      · exact absurd h h0
      · exact h
    have hu1 : U (e 1) = U (e (1 + 1)) := by
      rcases hsh 1 with h | h
      · exact h
      · exfalso
        have := hnv 0 hv0
        simp only [zero_add] at this
        exact this h
    refine ⟨fun t => e (1 + t), he.comp (AddGroup.addLeft_bijective 1), fun t => ?_⟩
    have := walk 1 hu1 t.val
    rw [hcast] at this
    have e1 : 1 + (t + 1) = 1 + t + 1 := by ring
    simp only [e1]
    split
    · rename_i h; exact this.1 h
    · rename_i h; exact this.2 (by omega)

theorem nnodes_of_eq (graphSize : Nat) (hg : graphSize ≤ 31) : nnodes_of graphSize = 2 ^ graphSize := by
  simp only [nnodes_of, u32, Nat.one_shiftLeft]
  apply Nat.mod_eq_of_lt
  exact Nat.pow_lt_pow_right (by omega) (by omega)

theorem sipnode_mod_two (keys : siphash_keys) (nonce uorv edgemask : Nat) (h : uorv ≤ 1) :
    sipnode keys nonce uorv edgemask % 2 = uorv := by
  simp only [sipnode, u32, Nat.shiftLeft_eq]
  have := Nat.mul_add_lt_is_or (i := 1) (b := uorv) (by omega)
    (siphash24 keys ((2 * nonce + uorv) % 2 ^ 32) &&& edgemask)
  rw [Nat.mul_comm, ← this]
  omega

/-- C2, verifier soundness: for a graph size in 1..31 and a 42-entry proof, if `verify`
returns `POW_OK` then every U node and every V node of the 42 edges occurs on exactly two
of them, no U node is a V node, and the edges can be arranged in one cyclic order in which
consecutive edges share an endpoint, alternately on the U side and on the V side. -/
theorem verify_sound (nonces buf : List Nat) (graphSize : Nat)
    (hg : 1 ≤ graphSize ∧ graphSize ≤ 31) (hlen : nonces.length = PROOFSIZE)
    (h : verify nonces buf graphSize = some POW_OK) :
    ExactlyTwo (edge_u (siphash_setkeys buf) (edgemask_of graphSize) nonces) ∧
    ExactlyTwo (edge_v (siphash_setkeys buf) (edgemask_of graphSize) nonces) ∧
    (∀ a b, edge_u (siphash_setkeys buf) (edgemask_of graphSize) nonces a ≠
      edge_v (siphash_setkeys buf) (edgemask_of graphSize) nonces b) ∧
    AlternatingCycle (edge_u (siphash_setkeys buf) (edgemask_of graphSize) nonces)
      (edge_v (siphash_setkeys buf) (edgemask_of graphSize) nonces) := by
  obtain ⟨_, h2, h3, h4⟩ := (verify_ok_iff nonces buf graphSize).1 h
  refine ⟨h2, h3, fun a b e => ?_, h4⟩
  have e1 := sipnode_mod_two (siphash_setkeys buf) (nonces.getD a.val 0) 0
    (edgemask_of graphSize) (by omega)
  have e2 := sipnode_mod_two (siphash_setkeys buf) (nonces.getD b.val 0) 1
    (edgemask_of graphSize) (by omega)
  simp only [edge_u, edge_v] at e
  omega

/-- C3, verifier completeness: for a graph size in 1..31 and a 42-entry proof whose entries
are at most `2 ^ graphSize` and strictly ascending, if every U node and every V node occurs
on exactly two of the 42 edges and the edges can be arranged in one cyclic order in which
consecutive edges share an endpoint, then the first loop ends with both xors zero and
`verify` returns `POW_OK` (which it does only with a step count of exactly 42). -/
theorem verify_complete (nonces buf : List Nat) (graphSize : Nat)
    (hg : 1 ≤ graphSize ∧ graphSize ≤ 31) (hlen : nonces.length = PROOFSIZE)
    (hrange : ∀ m, m < 42 → nonces.getD m 0 ≤ 2 ^ graphSize)
    (hasc : ∀ m, m < 41 → nonces.getD m 0 < nonces.getD (m + 1) 0)
    (hu : ExactlyTwo (edge_u (siphash_setkeys buf) (edgemask_of graphSize) nonces))
    (hv : ExactlyTwo (edge_v (siphash_setkeys buf) (edgemask_of graphSize) nonces))
    (hc : SingleCycle (edge_u (siphash_setkeys buf) (edgemask_of graphSize) nonces)
      (edge_v (siphash_setkeys buf) (edgemask_of graphSize) nonces)) :
    (∃ uvs, verify_scan (siphash_setkeys buf) (nnodes_of graphSize) (edgemask_of graphSize)
        nonces PROOFSIZE 0 [] 0 0 = .ok (uvs, 0, 0)) ∧
    verify nonces buf graphSize = some POW_OK := by
  have hr : InRangeAscending (nnodes_of graphSize) nonces 0 42 := by
    intro m _ hm
    rw [nnodes_of_eq graphSize hg.2]
    refine ⟨hrange m (by omega), fun hm0 => ?_⟩
    have := hasc (m - 1) (by omega)
    have e : m - 1 + 1 = m := by omega
    rw [e] at this
    exact this
  refine ⟨?_, (verify_ok_iff nonces buf graphSize).2 ⟨hr, hu, hv, hc.alternating hu hv⟩⟩
  have x0 := xor_zero_of_exactlyTwo
    (fun m => sipnode (siphash_setkeys buf) (nonces.getD m 0) 0 (edgemask_of graphSize)) hu
  have x1 := xor_zero_of_exactlyTwo
    (fun m => sipnode (siphash_setkeys buf) (nonces.getD m 0) 1 (edgemask_of graphSize)) hv
  refine ⟨[] ++ scan_uvs (siphash_setkeys buf) (edgemask_of graphSize) nonces 0 PROOFSIZE,
    (verify_scan_ok_iff _ _ _ _ _ _ _ _ _ _).2 ⟨hr, ?_⟩⟩
  rw [scan_side_eq_map, scan_side_eq_map]
  have hP : PROOFSIZE = 42 := rfl
  rw [hP, x0, x1]

end cuckoo

theorem bits_aux_spec : ∀ fuel x, x < 2 ^ fuel → x < 2 ^ bits_aux fuel x := by
  intro fuel
  induction fuel with
  | zero => intro x hx; simpa [bits_aux] using hx
  | succ fuel ih =>
    intro x hx
    simp only [bits_aux]
    split
    · rename_i h0; subst h0; simp
    · have h2 : x / 2 < 2 ^ fuel := by
        rw [Nat.div_lt_iff_lt_mul (by omega)]
        rw [Nat.pow_succ] at hx
        exact hx
      have := ih (x / 2) h2
      rw [Nat.pow_succ]
      omega

theorem bits_aux_le : ∀ fuel x, bits_aux fuel x ≤ fuel := by
  intro fuel
  induction fuel with
  | zero => intro x; simp [bits_aux]
  | succ fuel ih =>
    intro x
    simp only [bits_aux]
    split
    · omega
    · have := ih (x / 2); omega

/-- The value decoded from a mantissa below `2 ^ 23` and a size byte. -/
theorem SetCompact_value (m n : Nat) (hm : m < 2 ^ 23) :
    (SetCompact (m ||| (n <<< 24))).1 =
      if n ≤ 3 then m / 2 ^ (8 * (3 - n)) else m * 2 ^ (8 * (n - 3)) % 2 ^ 256 := by
  have h1 : m ||| (n <<< 24) = 2 ^ 24 * n + m := by
    rw [Nat.shiftLeft_eq, Nat.or_comm, Nat.mul_comm]
    exact (Nat.mul_add_lt_is_or (i := 24) (by omega) n).symm
  have h2 : (2 ^ 24 * n + m) >>> 24 = n := by
    rw [Nat.shiftRight_eq_div_pow]
    omega
  have h3 : (2 ^ 24 * n + m) &&& 0x007fffff = m := by
    have : (0x007fffff : Nat) = 2 ^ 23 - 1 := by norm_num
    rw [this, Nat.and_pow_two_sub_one_eq_mod]
    omega
  rw [h1]
  simp only [SetCompact, h2, h3]
  simp only [u256, Nat.shiftRight_eq_div_pow, Nat.shiftLeft_eq]
  by_cases h : n ≤ 3
  · simp only [if_pos h]
  · simp only [if_neg h]

theorem and_sign_bit (c : Nat) (hc : c < 2 ^ 24) : (c &&& 0x00800000 ≠ 0) ↔ 2 ^ 23 ≤ c := by
  have : (0x00800000 : Nat) = 2 ^ 23 := by norm_num
  rw [this, Nat.and_two_pow, Nat.testBit_to_div_mod]
  by_cases h : c / 2 ^ 23 % 2 = 1
  · simp [h]; omega
  · simp [h]; omega

/-- `GetCompact` with the size byte `nSize` given. -/
theorem GetCompact_eq (x : Nat) :
    GetCompact x =
      (let nSize := (bits x + 7) / 8
       let nCompact := if nSize ≤ 3 then cuckoo.u32 (cuckoo.u64 x <<< (8 * (3 - nSize)))
         else cuckoo.u32 (cuckoo.u64 (x >>> (8 * (nSize - 3))))
       if nCompact &&& 0x00800000 ≠ 0 then (nCompact >>> 8) ||| ((nSize + 1) <<< 24)
       else nCompact ||| (nSize <<< 24)) := rfl

/-- Decoding an encoded target never gives more than the target: `GetCompact` truncates. -/
theorem SetCompact_GetCompact_le (x : Nat) (hx : x < 2 ^ 256) :
    (SetCompact (GetCompact x)).1 ≤ x := by
  have hb : x < 2 ^ bits x := bits_aux_spec 256 x hx
  have hb2 : bits x ≤ 256 := bits_aux_le 256 x
  rw [GetCompact_eq]
  generalize hn : (bits x + 7) / 8 = n
  have hx8 : x < 2 ^ (8 * n) :=
    lt_of_lt_of_le hb (Nat.pow_le_pow_right (by omega) (by omega))
  simp only
  by_cases h3 : n ≤ 3
  · rw [if_pos h3]
    have hx24 : x < 2 ^ 24 :=
      lt_of_lt_of_le hx8 (Nat.pow_le_pow_right (by omega) (by omega))
    have hu : cuckoo.u64 x = x := Nat.mod_eq_of_lt (by omega)
    rw [hu, Nat.shiftLeft_eq]
    have hc : x * 2 ^ (8 * (3 - n)) < 2 ^ 24 := by
      have : 2 ^ 24 = 2 ^ (8 * n) * 2 ^ (8 * (3 - n)) := by
        rw [← Nat.pow_add]; congr 1; omega
      rw [this]
      exact Nat.mul_lt_mul_of_pos_right hx8 (Nat.two_pow_pos _)
    have hu2 : cuckoo.u32 (x * 2 ^ (8 * (3 - n))) = x * 2 ^ (8 * (3 - n)) :=
      Nat.mod_eq_of_lt (by omega)
    rw [hu2]
    by_cases hs : x * 2 ^ (8 * (3 - n)) &&& 0x00800000 ≠ 0
    · rw [if_pos hs, Nat.shiftRight_eq_div_pow, SetCompact_value _ _ (by omega)]
      interval_cases n <;> simp at hc ⊢ <;> omega
    · rw [if_neg hs]
      have hs2 := (and_sign_bit _ hc).not.1 hs
      rw [SetCompact_value _ _ (by omega), if_pos h3]
      rw [Nat.mul_div_cancel _ (Nat.two_pow_pos _)]
  · rw [if_neg h3]
    have hpos : 0 < 2 ^ (8 * (n - 3)) := Nat.two_pow_pos _
    have hc : x / 2 ^ (8 * (n - 3)) < 2 ^ 24 := by
      rw [Nat.div_lt_iff_lt_mul hpos, ← Nat.pow_add]
      have : 24 + 8 * (n - 3) = 8 * n := by omega
      rw [this]; exact hx8
    have hu : cuckoo.u64 (x >>> (8 * (n - 3))) = x / 2 ^ (8 * (n - 3)) := by
      rw [Nat.shiftRight_eq_div_pow]
      exact Nat.mod_eq_of_lt (by omega)
    have hu2 : cuckoo.u32 (x / 2 ^ (8 * (n - 3))) = x / 2 ^ (8 * (n - 3)) :=
      Nat.mod_eq_of_lt (by omega)
    rw [hu, hu2]
    have hle : x / 2 ^ (8 * (n - 3)) * 2 ^ (8 * (n - 3)) ≤ x := Nat.div_mul_le_self _ _
    by_cases hs : x / 2 ^ (8 * (n - 3)) &&& 0x00800000 ≠ 0
    · rw [if_pos hs, Nat.shiftRight_eq_div_pow, SetCompact_value _ _ (by omega),
        if_neg (by omega)]
      refine le_trans (Nat.mod_le _ _) ?_
      have e : 8 * (n + 1 - 3) = 8 + 8 * (n - 3) := by omega
      rw [e, Nat.pow_add, ← Nat.mul_assoc]
      refine le_trans (Nat.mul_le_mul_right _ (Nat.div_mul_le_self _ _)) hle
    · rw [if_neg hs]
      have hs2 := (and_sign_bit _ hc).not.1 hs
      rw [SetCompact_value _ _ (by omega), if_neg h3]
      exact le_trans (Nat.mod_le _ _) hle
theorem bits_aux_lower : ∀ fuel x, x ≠ 0 → x < 2 ^ fuel →
    1 ≤ bits_aux fuel x ∧ 2 ^ (bits_aux fuel x - 1) ≤ x := by
  intro fuel
  induction fuel with
  | zero => intro x h0 hx; simp at hx; omega
  | succ fuel ih =>
    intro x h0 hx
    simp only [bits_aux, if_neg h0]
    refine ⟨by omega, ?_⟩
    rw [Nat.add_sub_cancel]
    by_cases h2 : x / 2 = 0
    · have : bits_aux fuel (x / 2) = 0 := by
        rw [h2]; cases fuel <;> simp [bits_aux]
      rw [this]; simp; omega
    · have hlt : x / 2 < 2 ^ fuel := by
        rw [Nat.pow_succ] at hx; omega
      obtain ⟨hb, hp⟩ := ih (x / 2) h2 hlt
      have e : bits_aux fuel (x / 2) = (bits_aux fuel (x / 2) - 1) + 1 := by omega
      rw [e, Nat.pow_succ]
      omega

/-- The byte size `(bits x + 7) / 8` of a positive 256-bit number brackets it between two
powers of 256. -/
theorem byteSize_spec (x : Nat) (h0 : 0 < x) (hx : x < 2 ^ 256) :
    1 ≤ (bits x + 7) / 8 ∧ 2 ^ (8 * ((bits x + 7) / 8 - 1)) ≤ x ∧
      x < 2 ^ (8 * ((bits x + 7) / 8)) := by
  obtain ⟨hb1, hlow⟩ := bits_aux_lower 256 x (by omega) hx
  have hup : x < 2 ^ bits x := bits_aux_spec 256 x hx
  refine ⟨by simp only [bits]; omega, ?_, ?_⟩
  · refine le_trans (Nat.pow_le_pow_right (by omega) ?_) hlow
    simp only [bits]; omega
  · exact lt_of_lt_of_le hup (Nat.pow_le_pow_right (by omega) (by omega))

theorem byteSize_unique (x n : Nat) (hx : x < 2 ^ 256) (hn : 1 ≤ n)
    (h1 : 2 ^ (8 * (n - 1)) ≤ x) (h2 : x < 2 ^ (8 * n)) : (bits x + 7) / 8 = n := by
  have h0 : 0 < x := lt_of_lt_of_le (Nat.two_pow_pos _) h1
  obtain ⟨a, b, c⟩ := byteSize_spec x h0 hx
  generalize (bits x + 7) / 8 = k at a b c
  have p1 : 2 ^ (8 * (n - 1)) < 2 ^ (8 * k) := lt_of_le_of_lt h1 c
  have p2 : 2 ^ (8 * (k - 1)) < 2 ^ (8 * n) := lt_of_le_of_lt b h2
  have q1 := (Nat.pow_lt_pow_iff_right (by omega : 1 < 2)).1 p1
  have q2 := (Nat.pow_lt_pow_iff_right (by omega : 1 < 2)).1 p2
  omega

/-- `GetCompact` on a number of byte size `n > 3`. -/
theorem GetCompact_large (x n : Nat) (hx : x < 2 ^ 256) (hn : 3 < n)
    (h1 : 2 ^ (8 * (n - 1)) ≤ x) (h2 : x < 2 ^ (8 * n)) :
    GetCompact x =
      if 2 ^ 23 ≤ x / 2 ^ (8 * (n - 3)) then
        (x / 2 ^ (8 * (n - 3)) / 2 ^ 8) ||| ((n + 1) <<< 24)
      else (x / 2 ^ (8 * (n - 3))) ||| (n <<< 24) := by
  have hsz := byteSize_unique x n hx (by omega) h1 h2
  have hh3 : ¬ n ≤ 3 := by omega
  rw [GetCompact_eq, hsz]
  simp only [if_neg hh3]
  have hpos : 0 < 2 ^ (8 * (n - 3)) := Nat.two_pow_pos _
  have hc : x / 2 ^ (8 * (n - 3)) < 2 ^ 24 := by
    rw [Nat.div_lt_iff_lt_mul hpos, ← Nat.pow_add]
    have : 24 + 8 * (n - 3) = 8 * n := by omega
    rw [this]; exact h2
  have hu : cuckoo.u64 (x >>> (8 * (n - 3))) = x / 2 ^ (8 * (n - 3)) := by
    rw [Nat.shiftRight_eq_div_pow]
    exact Nat.mod_eq_of_lt (by omega)
  have hu2 : cuckoo.u32 (x / 2 ^ (8 * (n - 3))) = x / 2 ^ (8 * (n - 3)) :=
    Nat.mod_eq_of_lt (by omega)
  rw [hu, hu2]
  by_cases hs : 2 ^ 23 ≤ x / 2 ^ (8 * (n - 3))
  · rw [if_pos ((and_sign_bit _ hc).2 hs), if_pos hs, Nat.shiftRight_eq_div_pow]
  · rw [if_neg ((and_sign_bit _ hc).not.2 hs), if_neg hs]

theorem div_sandwich (a B x L : Nat) (hB : 0 < B) (ha : a = L / B) (h1 : a * B ≤ x)
    (h2 : x ≤ L) : x / B = a := by
  apply le_antisymm
  · rw [ha]; exact Nat.div_le_div_right h2
  · exact (Nat.le_div_iff_mul_le hB).2 h1

/-- What `SetCompact` decodes from the encoding of a number of byte size `n > 3`. -/
theorem SetCompact_GetCompact_large (x n : Nat) (hx : x < 2 ^ 256) (hn : 3 < n)
    (h1 : 2 ^ (8 * (n - 1)) ≤ x) (h2 : x < 2 ^ (8 * n)) :
    (SetCompact (GetCompact x)).1 =
      if 2 ^ 23 ≤ x / 2 ^ (8 * (n - 3)) then
        x / 2 ^ (8 * (n - 2)) * 2 ^ (8 * (n - 2))
      else x / 2 ^ (8 * (n - 3)) * 2 ^ (8 * (n - 3)) := by
  have hpos : 0 < 2 ^ (8 * (n - 3)) := Nat.two_pow_pos _
  have hc : x / 2 ^ (8 * (n - 3)) < 2 ^ 24 := by
    rw [Nat.div_lt_iff_lt_mul hpos, ← Nat.pow_add]
    have : 24 + 8 * (n - 3) = 8 * n := by omega
    rw [this]; exact h2
  rw [GetCompact_large x n hx hn h1 h2]
  by_cases hs : 2 ^ 23 ≤ x / 2 ^ (8 * (n - 3))
  · rw [if_pos hs, if_pos hs, SetCompact_value _ _ (by omega), if_neg (by omega)]
    have e : x / 2 ^ (8 * (n - 3)) / 2 ^ 8 = x / 2 ^ (8 * (n - 2)) := by
      rw [Nat.div_div_eq_div_mul, ← Nat.pow_add]
      congr 2; omega
    have e2 : 8 * (n + 1 - 3) = 8 * (n - 2) := by omega
    rw [e, e2]
    exact Nat.mod_eq_of_lt (lt_of_le_of_lt (Nat.div_mul_le_self _ _) hx)
  · rw [if_neg hs, if_neg hs, SetCompact_value _ _ (by omega), if_neg (by omega)]
    exact Nat.mod_eq_of_lt (lt_of_le_of_lt (Nat.div_mul_le_self _ _) hx)

/-- The byte size of a number from `2 ^ 24` up is above 3. -/
theorem byteSize_large (L : Nat) (hL : L < 2 ^ 256) (hbig : 2 ^ 24 ≤ L) :
    3 < (bits L + 7) / 8 := by
  obtain ⟨a, b, c⟩ := byteSize_spec L (by omega) hL
  have p : 2 ^ 24 < 2 ^ (8 * ((bits L + 7) / 8)) := lt_of_le_of_lt hbig c
  have q := (Nat.pow_lt_pow_iff_right (by omega : 1 < 2)).1 p
  omega

/-- The decoded encoding of `L` keeps the byte size of `L`. -/
theorem SetCompact_GetCompact_ge (L : Nat) (hL : L < 2 ^ 256) (hbig : 2 ^ 24 ≤ L) :
    2 ^ (8 * ((bits L + 7) / 8 - 1)) ≤ (SetCompact (GetCompact L)).1 := by
  obtain ⟨a, b, c⟩ := byteSize_spec L (by omega) hL
  have hn := byteSize_large L hL hbig
  generalize (bits L + 7) / 8 = n at a b c hn
  rw [SetCompact_GetCompact_large L n hL hn b c]
  have k1 : 2 ^ (8 * (n - 1)) = 2 ^ 16 * 2 ^ (8 * (n - 3)) := by
    rw [← Nat.pow_add]; congr 1; omega
  have k2 : 2 ^ (8 * (n - 1)) = 2 ^ 8 * 2 ^ (8 * (n - 2)) := by
    rw [← Nat.pow_add]; congr 1; omega
  split
  · rw [k2]
    apply Nat.mul_le_mul_right
    rw [Nat.le_div_iff_mul_le (Nat.two_pow_pos _), ← k2]
    exact b
  · rw [k1]
    apply Nat.mul_le_mul_right
    rw [Nat.le_div_iff_mul_le (Nat.two_pow_pos _), ← k1]
    exact b

/-- Every number between the decoded encoding of `L` and `L` has the encoding of `L`. -/
theorem GetCompact_sandwich (L x : Nat) (hL : L < 2 ^ 256) (hbig : 2 ^ 24 ≤ L)
    (hlo : (SetCompact (GetCompact L)).1 ≤ x) (hhi : x ≤ L) :
    GetCompact x = GetCompact L := by
  obtain ⟨a, b, c⟩ := byteSize_spec L (by omega) hL
  have hn := byteSize_large L hL hbig
  have hge := SetCompact_GetCompact_ge L hL hbig
  generalize (bits L + 7) / 8 = n at a b c hn hge
  have hx1 : 2 ^ (8 * (n - 1)) ≤ x := le_trans hge hlo
  have hx2 : x < 2 ^ (8 * n) := lt_of_le_of_lt hhi c
  rw [SetCompact_GetCompact_large L n hL hn b c] at hlo
  rw [GetCompact_large L n hL hn b c, GetCompact_large x n (by omega) hn hx1 hx2]
  have e : ∀ y, y / 2 ^ (8 * (n - 3)) / 2 ^ 8 = y / 2 ^ (8 * (n - 2)) := by
    intro y
    rw [Nat.div_div_eq_div_mul, ← Nat.pow_add]
    congr 2; omega
  by_cases hs : 2 ^ 23 ≤ L / 2 ^ (8 * (n - 3))
  · rw [if_pos hs] at hlo
    have hd := div_sandwich _ _ x L (Nat.two_pow_pos _) rfl hlo hhi
    have hm : 2 ^ 15 ≤ L / 2 ^ (8 * (n - 2)) := by
      rw [← e]; omega
    have hsx : 2 ^ 23 ≤ x / 2 ^ (8 * (n - 3)) := by
      have := e x
      rw [hd] at this
      omega
    rw [if_pos hs, if_pos hsx, e, e, hd]
  · rw [if_neg hs] at hlo
    have hd := div_sandwich _ _ x L (Nat.two_pow_pos _) rfl hlo hhi
    rw [if_neg hs, hd, if_neg hs]

open cuckoo.verify_code in
/-- C4: for a header flagged cycle-based and an `nBits` that decodes to a valid target,
`CheckProofOfWork` returns true exactly when the target is at most `cuckooPowLimit`,
`verify` on the attached proof with the key bytes of the header and `cuckooGraphSize`
returns `POW_OK`, and the digest of the proof is at most the target; a proof on which
`verify` returns any other code is rejected. -/
theorem CheckProofOfWork_cuckoo_iff (D : Digests) (blockHeader : CBlockHeader)
    (hash nBits : Nat) (params : Params) (hflag : blockHeader.isCuckooPow = true)
    (hvalid : (SetCompact nBits).2.1 = false ∧ (SetCompact nBits).1 ≠ 0 ∧
      (SetCompact nBits).2.2 = false) :
    (CheckProofOfWork D blockHeader hash nBits params = true ↔
      ((SetCompact nBits).1 ≤ params.cuckooPowLimit ∧
        cuckoo.verify blockHeader.cuckooProof (cuckoo.hash_blockheader D blockHeader)
          params.cuckooGraphSize = some POW_OK ∧
        cuckoo_pow_hash D blockHeader ≤ (SetCompact nBits).1)) ∧
    (∀ c, c ≠ POW_OK →
      cuckoo.verify blockHeader.cuckooProof (cuckoo.hash_blockheader D blockHeader)
        params.cuckooGraphSize = some c →
      CheckProofOfWork D blockHeader hash nBits params = false) := by
  obtain ⟨h1, h2, h3⟩ := hvalid
  constructor
  · simp only [CheckProofOfWork, h1, h2, h3, hflag, CheckCuckooProofOfWork]
    simp
    constructor
    · rintro ⟨⟨ha, hb⟩, hc⟩; exact ⟨ha, hb, hc⟩
    · rintro ⟨ha, hb, hc⟩; exact ⟨⟨ha, hb⟩, hc⟩
  · intro c hc hv
    simp only [CheckProofOfWork, h1, h2, h3, hflag, CheckCuckooProofOfWork, hv]
    simp [hc]

/-- C5 (amended): for a header not flagged cycle-based and an `nBits` that decodes to a
valid target, `CheckProofOfWork` returns true exactly when the header's own hash
`blockHeader.GetHash()` is at most the target and the target is at most `powLimit`; the
argument `hash` has no influence on the result. -/
theorem CheckProofOfWork_classical_iff (D : Digests) (blockHeader : CBlockHeader)
    (hash nBits : Nat) (params : Params) (hflag : blockHeader.isCuckooPow = false)
    (hvalid : (SetCompact nBits).2.1 = false ∧ (SetCompact nBits).1 ≠ 0 ∧
      (SetCompact nBits).2.2 = false) :
    (CheckProofOfWork D blockHeader hash nBits params = true ↔
      (D.GetHash blockHeader ≤ (SetCompact nBits).1 ∧
        (SetCompact nBits).1 ≤ params.powLimit)) ∧
    (∀ hash2, CheckProofOfWork D blockHeader hash2 nBits params =
      CheckProofOfWork D blockHeader hash nBits params) := by
  obtain ⟨h1, h2, h3⟩ := hvalid
  constructor
  · simp only [CheckProofOfWork, h1, h2, h3, hflag]
    simp
  · intro hash2
    rfl

/-- C6: if the compact `nBits` decodes with the negative flag set, or with the overflow
flag set, or to zero, `CheckProofOfWork` returns false, whatever the header, its flag, its
hash and its proof. -/
theorem CheckProofOfWork_invalid_nBits (D : Digests) (blockHeader : CBlockHeader)
    (hash nBits : Nat) (params : Params)
    (hbad : (SetCompact nBits).2.1 = true ∨ (SetCompact nBits).1 = 0 ∨
      (SetCompact nBits).2.2 = true) :
    CheckProofOfWork D blockHeader hash nBits params = false := by
  simp only [CheckProofOfWork]
  rw [if_pos hbad]

/-- C7 (amended): the ceiling `CheckProofOfWork` enforces is selected by the header's
primitive flag; no height is read.  An accepted header flagged cycle-based has a target at
most `cuckooPowLimit`, an accepted header not so flagged has a target at most `powLimit`,
and the result does not depend on `CuckooHardForkBlockHeight`. -/
theorem CheckProofOfWork_ceiling_by_flag (D : Digests) (blockHeader : CBlockHeader)
    (hash nBits : Nat) (params : Params)
    (h : CheckProofOfWork D blockHeader hash nBits params = true) :
    (blockHeader.isCuckooPow = true → (SetCompact nBits).1 ≤ params.cuckooPowLimit) ∧
    (blockHeader.isCuckooPow = false → (SetCompact nBits).1 ≤ params.powLimit) ∧
    (∀ forkHeight : Int, CheckProofOfWork D blockHeader hash nBits
      { params with CuckooHardForkBlockHeight := forkHeight } = true) := by
  refine ⟨fun hf => ?_, fun hf => ?_, fun _ => h⟩
  · simp only [CheckProofOfWork, hf] at h
    split at h
    · cases h
    · simp at h
      exact h.1.1
  · simp only [CheckProofOfWork, hf] at h
    split at h
    · cases h
    · simp at h
      exact h.2

/-- C8: algorithm selection in `GetNextWorkRequired` for a previous block of height `h`.
Below `nMinimumDifficultyBlocks` the result is the compact encoding of `cuckooPowLimit`
when `h + 1 ≥ CuckooHardForkBlockHeight` and of `powLimit` otherwise, whatever the
timestamps and ancestor bits; otherwise it is the result of `DarkGravityWave` if
`h + 1 ≥ nPowDGWHeight`, else of `Midas` if `h + 1 ≥ midasStartHeight`, else of
`GetNextWorkRequiredBTC`; no other algorithm is selected.  At `h = 0` with
`nMinimumDifficultyBlocks = 4000` the result is the encoded ceiling. -/
theorem GetNextWorkRequired_selection (last : CBlockIndex) (rest : List CBlockIndex)
    (pblock : CBlockHeader) (params : Params) :
    (last.nHeight < params.nMinimumDifficultyBlocks →
      GetNextWorkRequired (last :: rest) pblock params =
        some (if last.nHeight + 1 ≥ params.CuckooHardForkBlockHeight
          then GetCompact params.cuckooPowLimit else GetCompact params.powLimit)) ∧
    (¬ last.nHeight < params.nMinimumDifficultyBlocks →
      GetNextWorkRequired (last :: rest) pblock params =
        if last.nHeight + 1 ≥ params.nPowDGWHeight then
          DarkGravityWave (last :: rest) pblock params
        else if last.nHeight + 1 ≥ params.midasStartHeight then
          Midas (last :: rest) pblock params
        else GetNextWorkRequiredBTC (last :: rest) pblock params) ∧
    (last.nHeight = 0 → params.nMinimumDifficultyBlocks = 4000 →
      GetNextWorkRequired (last :: rest) pblock params =
        some (GetCompact (usedPowLimit params 1))) := by
  refine ⟨fun h => ?_, fun h => ?_, fun h0 h4 => ?_⟩
  · simp only [GetNextWorkRequired, if_pos h]
  · simp only [GetNextWorkRequired, if_neg h]
  · have h : last.nHeight < params.nMinimumDifficultyBlocks := by omega
    simp only [GetNextWorkRequired, if_pos h, usedPowLimit]
    rw [h0, zero_add]
    by_cases hc : (1 : Int) ≥ params.CuckooHardForkBlockHeight
    · simp only [if_pos hc]
    · simp only [if_neg hc]

theorem GetCompact_clamp_le (x limit : Nat) (hl : limit < 2 ^ 256) :
    (SetCompact (GetCompact (if x > limit then limit else x))).1 ≤ limit := by
  split
  · exact SetCompact_GetCompact_le limit hl
  · exact le_trans (SetCompact_GetCompact_le x (by omega)) (by omega)

theorem usedPowLimit_lt (params : Params) (h : Int) (hp : params.powLimit < 2 ^ 256)
    (hc : params.cuckooPowLimit < 2 ^ 256) : usedPowLimit params h < 2 ^ 256 := by
  simp only [usedPowLimit]
  split
  · exact hc
  · exact hp

/-- C9: ceiling clamp of Algorithm D.  Whenever `DarkGravityWave` returns, on any chain,
candidate header and parameters (the ceilings being 256-bit numbers), the compact value it
returns decodes to a target at most the applicable ceiling: `cuckooPowLimit` if
`h + 1 ≥ CuckooHardForkBlockHeight`, else `powLimit`. -/
theorem DarkGravityWave_le_ceiling (last : CBlockIndex) (rest : List CBlockIndex)
    (pblock : CBlockHeader) (params : Params) (c : Nat)
    (hp : params.powLimit < 2 ^ 256) (hc : params.cuckooPowLimit < 2 ^ 256)
    (h : DarkGravityWave (last :: rest) pblock params = some c) :
    (SetCompact c).1 ≤ usedPowLimit params (last.nHeight + 1) := by
  have hl := usedPowLimit_lt params (last.nHeight + 1) hp hc
  have h1 := SetCompact_GetCompact_le _ hl
  simp only [DarkGravityWave] at h
  split at h
  · cases h; exact h1
  · split at h
    · cases h; exact h1
    · split at h
      · cases h; exact GetCompact_clamp_le _ _ hl
      · split at h
        · cases h
        · split at h
          · cases h
          · cases h
          · split at h
            · cases h
            · cases h; exact GetCompact_clamp_le _ _ hl

theorem walk_back_mem (interval : Int) (limit : Nat) :
    ∀ (chain : List CBlockIndex) (c : Nat), walk_back interval limit chain = some c →
      ∃ b ∈ chain, c = b.nBits := by
  intro chain
  induction chain with
  | nil => intro c h; simp [walk_back] at h
  | cons b tl ih =>
    intro c h
    cases tl with
    | nil =>
      simp only [walk_back, Option.some.injEq] at h
      exact ⟨b, List.mem_cons_self _ _, h.symm⟩
    | cons p rest =>
      simp only [walk_back] at h
      split at h
      · cases h
      · split at h
        · obtain ⟨b2, hb2, hc⟩ := ih c h
          exact ⟨b2, List.mem_cons_of_mem _ hb2, hc⟩
        · simp only [Option.some.injEq] at h
          exact ⟨b, List.mem_cons_self _ _, h.symm⟩

/-- C10 (amended): ceiling clamp of Algorithm M.  On a chain in which the bits of every
block decode to at most the applicable ceiling (`cuckooPowLimit` if
`h + 1 ≥ CuckooHardForkBlockHeight`, else `powLimit`), whenever `Midas` returns, the
compact value it returns decodes to a target at most that ceiling, on every return path. -/
theorem Midas_le_ceiling (last : CBlockIndex) (rest : List CBlockIndex)
    (pblock : CBlockHeader) (params : Params) (c : Nat)
    (hp : params.powLimit < 2 ^ 256) (hc : params.cuckooPowLimit < 2 ^ 256)
    (hbits : ∀ b ∈ last :: rest,
      (SetCompact b.nBits).1 ≤ usedPowLimit params (last.nHeight + 1))
    (h : Midas (last :: rest) pblock params = some c) :
    (SetCompact c).1 ≤ usedPowLimit params (last.nHeight + 1) := by
  have hl := usedPowLimit_lt params (last.nHeight + 1) hp hc
  have h1 := SetCompact_GetCompact_le _ hl
  simp only [Midas] at h
  split at h
  · cases h; exact h1
  · split at h
    · split at h
      · cases h; exact h1
      · obtain ⟨b, hb, rfl⟩ := walk_back_mem _ _ _ _ h
        exact hbits b hb
    · split at h
      · cases h
      · split at h
        · cases h
        · simp only [Option.some.injEq] at h
          subst h
          simp only [midas_retarget]
          split
          · have := hbits last (List.mem_cons_self _ _)
            exact le_trans (SetCompact_GetCompact_le _ (by omega)) this
          · exact GetCompact_clamp_le _ _ hl
theorem CalculateNextWorkRequired_eq (last : CBlockIndex) (rest : List CBlockIndex)
    (nFirstBlockTime : Int) (params : Params) (hflag : params.fPowNoRetargeting = false)
    (hts : int_u64 params.nPowTargetTimespan ≠ 0) :
    CalculateNextWorkRequired (last :: rest) nFirstBlockTime params =
      some (GetCompact
        (if retargetBeforeClamp last nFirstBlockTime params > params.powLimit then
          params.powLimit
         else retargetBeforeClamp last nFirstBlockTime params)) := by
  simp only [CalculateNextWorkRequired, hflag, if_neg hts, retargetBeforeClamp, limitedTimespan]
  rfl

theorem limitedTimespan_bounds (last : CBlockIndex) (nFirstBlockTime : Int) (params : Params)
    (hpos : 0 < params.nPowTargetTimespan) :
    params.nPowTargetTimespan / 4 ≤ limitedTimespan last nFirstBlockTime params ∧
      limitedTimespan last nFirstBlockTime params ≤ params.nPowTargetTimespan * 4 ∧
      limitedTimespan last nFirstBlockTime params =
        min (max (last.GetBlockTime - nFirstBlockTime) (params.nPowTargetTimespan / 4))
          (params.nPowTargetTimespan * 4) := by
  have hd : Int.tdiv params.nPowTargetTimespan 4 = params.nPowTargetTimespan / 4 :=
    Int.tdiv_eq_ediv (le_of_lt hpos) (by norm_num)
  simp only [limitedTimespan, hd]
  have h4 : params.nPowTargetTimespan / 4 ≤ params.nPowTargetTimespan * 4 := by omega
  split <;> split <;> omega

theorem int_u64_of_nonneg (x : Int) (h0 : 0 ≤ x) (h : x < 2 ^ 64) : int_u64 x = x.toNat := by
  simp only [int_u64]
  rw [Int.emod_eq_of_lt h0 h]

theorem int_u32_of_nonneg (x : Int) (h0 : 0 ≤ x) (h : x < 2 ^ 32) : int_u32 x = x.toNat := by
  simp only [int_u32]
  rw [Int.emod_eq_of_lt h0 h]

theorem int_u32_le (x : Int) (h0 : 0 ≤ x) : int_u32 x ≤ x.toNat := by
  simp only [int_u32]
  apply Int.toNat_le_toNat
  have h1 := Int.emod_add_ediv x (2 ^ 32)
  have h2 : 0 ≤ x / 2 ^ 32 := Int.ediv_nonneg h0 (by norm_num)
  nlinarith

theorem u256_le (x : Nat) : u256 x ≤ x := Nat.mod_le _ _

theorem u256_of_lt (x : Nat) (h : x < 2 ^ 256) : u256 x = x := Nat.mod_eq_of_lt h

theorem retargetBeforeClamp_exact (last : CBlockIndex) (nFirstBlockTime : Int)
    (params : Params) (hpos : 0 < params.nPowTargetTimespan)
    (h32 : params.nPowTargetTimespan * 4 < 2 ^ 32)
    (hprod : (SetCompact last.nBits).1 * (params.nPowTargetTimespan * 4).toNat < 2 ^ 256) :
    retargetBeforeClamp last nFirstBlockTime params =
      (SetCompact last.nBits).1 * (limitedTimespan last nFirstBlockTime params).toNat /
        params.nPowTargetTimespan.toNat := by
  obtain ⟨hlo, hhi, _⟩ := limitedTimespan_bounds last nFirstBlockTime params hpos
  have he0 : 0 ≤ limitedTimespan last nFirstBlockTime params := by omega
  simp only [retargetBeforeClamp]
  rw [int_u32_of_nonneg _ he0 (by omega), int_u64_of_nonneg _ (by omega) (by omega)]
  rw [u256_of_lt]
  refine lt_of_le_of_lt (Nat.mul_le_mul_left _ ?_) hprod
  exact Int.toNat_le_toNat hhi

/-- C12 (amended): the classical retarget formula.  With retargeting on, a positive timespan
whose fourfold fits 32 bits, and a previous target `T_prev ≤ powLimit` whose product with
`4 * nPowTargetTimespan` fits 256 bits, `CalculateNextWorkRequired` returns the compact
encoding of `min(floor(T_prev * e / nPowTargetTimespan), powLimit)`, where `e` is
`time(pindexLast) - nFirstBlockTime` clamped to `[nPowTargetTimespan/4, nPowTargetTimespan*4]`;
when `e` is exactly half the timespan the previous target is halved. -/
theorem CalculateNextWorkRequired_formula (last : CBlockIndex) (rest : List CBlockIndex)
    (nFirstBlockTime : Int) (params : Params) (hflag : params.fPowNoRetargeting = false)
    (hpos : 0 < params.nPowTargetTimespan)
    (h32 : params.nPowTargetTimespan * 4 < 2 ^ 32)
    (hprod : (SetCompact last.nBits).1 * (params.nPowTargetTimespan * 4).toNat < 2 ^ 256)
    (hprev : (SetCompact last.nBits).1 ≤ params.powLimit) :
    CalculateNextWorkRequired (last :: rest) nFirstBlockTime params =
      some (GetCompact (min
        ((SetCompact last.nBits).1 *
          (min (max (last.GetBlockTime - nFirstBlockTime) (params.nPowTargetTimespan / 4))
            (params.nPowTargetTimespan * 4)).toNat / params.nPowTargetTimespan.toNat)
        params.powLimit)) ∧
    (2 * min (max (last.GetBlockTime - nFirstBlockTime) (params.nPowTargetTimespan / 4))
        (params.nPowTargetTimespan * 4) = params.nPowTargetTimespan →
      CalculateNextWorkRequired (last :: rest) nFirstBlockTime params =
        some (GetCompact ((SetCompact last.nBits).1 / 2))) := by
  obtain ⟨hlo, hhi, heq⟩ := limitedTimespan_bounds last nFirstBlockTime params hpos
  have hts : int_u64 params.nPowTargetTimespan ≠ 0 := by
    rw [int_u64_of_nonneg _ (by omega) (by omega)]
    omega
  have hmain := CalculateNextWorkRequired_eq last rest nFirstBlockTime params hflag hts
  rw [retargetBeforeClamp_exact last nFirstBlockTime params hpos h32 hprod, heq] at hmain
  have hmin : ∀ a b : Nat, (if a > b then b else a) = min a b := by
    intro a b; split <;> omega
  rw [hmin] at hmain
  refine ⟨hmain, fun hhalf => ?_⟩
  rw [hmain]
  congr 2
  generalize min (max (last.GetBlockTime - nFirstBlockTime) (params.nPowTargetTimespan / 4))
    (params.nPowTargetTimespan * 4) = e at hhalf
  have hn : params.nPowTargetTimespan.toNat = 2 * e.toNat := by omega
  have he : 0 < e.toNat := by omega
  rw [hn, Nat.mul_comm 2, ← Nat.div_div_eq_div_mul, Nat.mul_div_cancel _ he]
  exact Nat.min_eq_left (le_trans (Nat.div_le_self _ _) hprev)

theorem retargetBeforeClamp_le (last : CBlockIndex) (nFirstBlockTime : Int)
    (params : Params) (hpos : 0 < params.nPowTargetTimespan)
    (h64 : params.nPowTargetTimespan < 2 ^ 63) :
    retargetBeforeClamp last nFirstBlockTime params ≤ (SetCompact last.nBits).1 * 4 := by
  obtain ⟨hlo, hhi, _⟩ := limitedTimespan_bounds last nFirstBlockTime params hpos
  have he0 : 0 ≤ limitedTimespan last nFirstBlockTime params := by omega
  simp only [retargetBeforeClamp]
  rw [int_u64_of_nonneg _ (by omega) (by omega)]
  have h1 : int_u32 (limitedTimespan last nFirstBlockTime params) ≤
      4 * params.nPowTargetTimespan.toNat := by
    have := int_u32_le _ he0
    omega
  have htp : 0 < params.nPowTargetTimespan.toNat := by omega
  calc u256 ((SetCompact last.nBits).1 * int_u32 (limitedTimespan last nFirstBlockTime params)) /
        params.nPowTargetTimespan.toNat
      ≤ ((SetCompact last.nBits).1 * int_u32 (limitedTimespan last nFirstBlockTime params)) /
        params.nPowTargetTimespan.toNat := Nat.div_le_div_right (u256_le _)
    _ ≤ ((SetCompact last.nBits).1 * (4 * params.nPowTargetTimespan.toNat)) /
        params.nPowTargetTimespan.toNat :=
          Nat.div_le_div_right (Nat.mul_le_mul_left _ h1)
    _ = (SetCompact last.nBits).1 * 4 := by
          rw [← Nat.mul_assoc, Nat.mul_div_cancel _ htp]

/-- C13 (amended): target monotonicity of the classical algorithm.  With retargeting on and
a positive timespan, the target computed before the ceiling clamp is at most `T_prev * 4`;
when the arithmetic does not wrap (the fourfold timespan fits 32 bits and its product with
`T_prev` fits 256 bits) it is at least `floor(T_prev * floor(timespan/4) / timespan)`, which
is `floor(T_prev / 4)` when the timespan is a multiple of 4; and the target finally
returned decodes to at most `powLimit`. -/
theorem CalculateNextWorkRequired_bounds (last : CBlockIndex) (rest : List CBlockIndex)
    (nFirstBlockTime : Int) (params : Params) (hflag : params.fPowNoRetargeting = false)
    (hpos : 0 < params.nPowTargetTimespan) (h64 : params.nPowTargetTimespan < 2 ^ 63)
    (hlim : params.powLimit < 2 ^ 256) :
    (∃ c, CalculateNextWorkRequired (last :: rest) nFirstBlockTime params = some c ∧
      c = GetCompact
        (if retargetBeforeClamp last nFirstBlockTime params > params.powLimit then
          params.powLimit
         else retargetBeforeClamp last nFirstBlockTime params) ∧
      (SetCompact c).1 ≤ params.powLimit) ∧
    retargetBeforeClamp last nFirstBlockTime params ≤ (SetCompact last.nBits).1 * 4 ∧
    (params.nPowTargetTimespan * 4 < 2 ^ 32 →
      (SetCompact last.nBits).1 * (params.nPowTargetTimespan * 4).toNat < 2 ^ 256 →
      (SetCompact last.nBits).1 * (params.nPowTargetTimespan / 4).toNat /
          params.nPowTargetTimespan.toNat ≤
        retargetBeforeClamp last nFirstBlockTime params ∧
      (params.nPowTargetTimespan % 4 = 0 →
        (SetCompact last.nBits).1 / 4 ≤ retargetBeforeClamp last nFirstBlockTime params)) := by
  obtain ⟨hlo, hhi, _⟩ := limitedTimespan_bounds last nFirstBlockTime params hpos
  have hts : int_u64 params.nPowTargetTimespan ≠ 0 := by
    rw [int_u64_of_nonneg _ (by omega) (by omega)]
    omega
  refine ⟨⟨_, CalculateNextWorkRequired_eq last rest nFirstBlockTime params hflag hts, rfl,
    GetCompact_clamp_le _ _ hlim⟩, retargetBeforeClamp_le last nFirstBlockTime params hpos h64,
    ?_⟩
  intro h32 hprod
  rw [retargetBeforeClamp_exact last nFirstBlockTime params hpos h32 hprod]
  have hstep : (SetCompact last.nBits).1 * (params.nPowTargetTimespan / 4).toNat /
      params.nPowTargetTimespan.toNat ≤
      (SetCompact last.nBits).1 * (limitedTimespan last nFirstBlockTime params).toNat /
        params.nPowTargetTimespan.toNat :=
    Nat.div_le_div_right (Nat.mul_le_mul_left _ (Int.toNat_le_toNat hlo))
  refine ⟨hstep, fun h4 => le_trans (le_of_eq ?_) hstep⟩
  have hq : params.nPowTargetTimespan.toNat = (params.nPowTargetTimespan / 4).toNat * 4 := by
    omega
  have hqpos : 0 < (params.nPowTargetTimespan / 4).toNat := by omega
  rw [hq]
  generalize (params.nPowTargetTimespan / 4).toNat = q at hqpos
  rw [Nat.mul_comm _ q, ← Nat.div_div_eq_div_mul,
    Nat.mul_div_cancel_left _ hqpos]

/-- C18: ancestor underflow of Algorithm D.  When the previous block's height is below 24,
`DarkGravityWave` returns the compact encoding of the applicable ceiling (`cuckooPowLimit`
if `h + 1 ≥ CuckooHardForkBlockHeight`, else `powLimit`), whatever the ancestors behind
`pindexLast` are and also when there are none: it does not fail and reads no ancestor. -/
theorem DarkGravityWave_short_chain (last : CBlockIndex) (rest : List CBlockIndex)
    (pblock : CBlockHeader) (params : Params) (h : last.nHeight < 24) :
    DarkGravityWave (last :: rest) pblock params =
        some (GetCompact (if last.nHeight + 1 ≥ params.CuckooHardForkBlockHeight then
          params.cuckooPowLimit else params.powLimit)) ∧
      DarkGravityWave (last :: rest) pblock params = DarkGravityWave [last] pblock params := by
  simp only [DarkGravityWave, if_pos h, usedPowLimit, and_self]

/-- C11 (amended): the no-retarget flag.  With `fPowNoRetargeting = true`,
`CalculateNextWorkRequired` returns exactly `pindexLast->nBits` whatever the timestamps;
and `GetNextWorkRequired` returns `pindexLast->nBits` when the fixed-interval algorithm is
the one selected (`h ≥ nMinimumDifficultyBlocks`, `h + 1` below `nPowDGWHeight` and
`midasStartHeight`) on a chain that reaches back to height 0, at a retarget boundary, and
between boundaries when `fPowAllowMinDifficultyBlocks` is false. -/
theorem GetNextWorkRequired_no_retarget (last : CBlockIndex) (rest : List CBlockIndex)
    (pblock : CBlockHeader) (params : Params) (hflag : params.fPowNoRetargeting = true) :
    (∀ nFirstBlockTime,
      CalculateNextWorkRequired (last :: rest) nFirstBlockTime params = some last.nBits) ∧
    (∀ interval, params.DifficultyAdjustmentInterval = some interval → 0 < interval →
      params.nMinimumDifficultyBlocks ≤ last.nHeight →
      last.nHeight + 1 < params.nPowDGWHeight →
      last.nHeight + 1 < params.midasStartHeight →
      (rest.length : Int) = last.nHeight →
      (Int.tmod (last.nHeight + 1) interval = 0 ∨
        params.fPowAllowMinDifficultyBlocks = false) →
      GetNextWorkRequired (last :: rest) pblock params = some last.nBits) := by
  have hcalc : ∀ nFirstBlockTime,
      CalculateNextWorkRequired (last :: rest) nFirstBlockTime params = some last.nBits := by
    intro t
    simp only [CalculateNextWorkRequired, hflag, if_true]
  refine ⟨hcalc, ?_⟩
  intro interval hint hpos hmin hdgw hmidas hlen hcase
  have h1 : ¬ last.nHeight < params.nMinimumDifficultyBlocks := by omega
  have h2 : ¬ last.nHeight + 1 ≥ params.nPowDGWHeight := by omega
  have h3 : ¬ last.nHeight + 1 ≥ params.midasStartHeight := by omega
  have h4 : ¬ interval = 0 := by omega
  simp only [GetNextWorkRequired, if_neg h1, if_neg h2, if_neg h3, GetNextWorkRequiredBTC, hint,
    if_neg h4]
  by_cases hb : Int.tmod (last.nHeight + 1) interval = 0
  · have hb2 : ¬ Int.tmod (last.nHeight + 1) interval ≠ 0 := by simpa using hb
    rw [if_neg hb2]
    have hdvd : interval ∣ last.nHeight + 1 := Int.dvd_of_tmod_eq_zero hb
    have hle : interval ≤ last.nHeight + 1 := Int.le_of_dvd (by omega) hdvd
    have h5 : ¬ last.nHeight - (interval - 1) < 0 := by omega
    rw [if_neg h5]
    have h6 : ¬ (last.nHeight - (interval - 1) > last.nHeight ∨
        last.nHeight - (interval - 1) < 0) := by omega
    simp only [GetAncestor, if_neg h6]
    have hdrop : (last.nHeight - (last.nHeight - (interval - 1))).toNat <
        (last :: rest).length := by
      simp only [List.length_cons]
      omega
    cases hd : (last :: rest).drop (last.nHeight - (last.nHeight - (interval - 1))).toNat with
    | nil =>
      have := List.drop_eq_nil_iff.1 hd
      omega
    | cons first tl => exact hcalc _
  · rw [if_pos hb]
    rcases hcase with hc | hc
    · exact absurd hc hb
    · simp only [hc]
      rfl
/-- Past the genesis block every iteration of `avgRecentTimestamps` adds one spacing. -/
theorem avgRecentTimestamps_loop_nil (params : Params) :
    ∀ k blockoffset blocktime acc,
      (avgRecentTimestamps_loop params k blockoffset [] blocktime acc).avgOf17 =
        acc.avgOf17 + k * params.nPowTargetSpacing := by
  intro k
  induction k with
  | zero => intro _ _ acc; simp [avgRecentTimestamps_loop]
  | succ k ih =>
    intro blockoffset blocktime acc
    simp only [avgRecentTimestamps_loop]
    rw [ih]
    push_cast
    ring

/-- On a chain shorter than the window, the 17 intervals add up to the time of the last
block (the step past the genesis block counts its whole timestamp) plus one spacing for each
missing block. -/
theorem avgRecentTimestamps_loop_short (params : Params) :
    ∀ (chain : List CBlockIndex) (b : CBlockIndex) k blockoffset acc,
      chain.length + 1 ≤ k →
      (avgRecentTimestamps_loop params k blockoffset (b :: chain) b.GetBlockTime acc).avgOf17 =
        acc.avgOf17 + b.GetBlockTime +
          ((k - (chain.length + 1) : Nat) : Int) * params.nPowTargetSpacing := by
  intro chain
  induction chain with
  | nil =>
    intro b k blockoffset acc hk
    obtain ⟨k2, rfl⟩ : ∃ k2, k = k2 + 1 := ⟨k - 1, by omega⟩
    simp only [avgRecentTimestamps_loop]
    rw [avgRecentTimestamps_loop_nil]
    simp
  | cons p rest ih =>
    intro b k blockoffset acc hk
    obtain ⟨k2, rfl⟩ : ∃ k2, k = k2 + 1 := ⟨k - 1, by omega⟩
    simp only [avgRecentTimestamps_loop]
    rw [ih p k2 _ _ (by simp only [List.length_cons] at hk; omega)]
    simp only [List.length_cons]
    have : k2 + 1 - (rest.length + 1 + 1) = k2 - (rest.length + 1) := by omega
    rw [this]
    ring

theorem avgOf17_short (params : Params) (last : CBlockIndex) (rest : List CBlockIndex)
    (hlen : rest.length < 17) :
    (avgRecentTimestamps (last :: rest) params).avgOf17 =
      Int.tdiv (last.GetBlockTime +
        ((16 - rest.length : Nat) : Int) * params.nPowTargetSpacing) 17 := by
  simp only [avgRecentTimestamps]
  rw [avgRecentTimestamps_loop_short params rest last 17 0 _ (by omega)]
  have : 17 - (rest.length + 1) = 16 - rest.length := by omega
  rw [this]
  simp

theorem desiredInterval_bounds (params : Params) (now BlockHeightTime : Int)
    (hsp : 0 < params.nPowTargetSpacing) :
    ∃ I, desiredInterval params now BlockHeightTime = some I ∧ 0 ≤ I ∧
      I ≤ 2 * params.nPowTargetSpacing := by
  have hne : ¬ params.nPowTargetSpacing = 0 := by omega
  have hf0 : 0 ≤ Int.tdiv (params.nPowTargetSpacing * 9) 10 :=
    Int.tdiv_nonneg (by omega) (by norm_num)
  have hf1 : Int.tdiv (params.nPowTargetSpacing * 9) 10 ≤ params.nPowTargetSpacing := by
    rw [Int.tdiv_eq_ediv (by omega) (by norm_num)]; omega
  have hs0 : 0 ≤ Int.tdiv (params.nPowTargetSpacing * 11) 10 :=
    Int.tdiv_nonneg (by omega) (by norm_num)
  have hs1 : Int.tdiv (params.nPowTargetSpacing * 11) 10 ≤ 2 * params.nPowTargetSpacing := by
    rw [Int.tdiv_eq_ediv (by omega) (by norm_num)]; omega
  simp only [desiredInterval, Params.DifficultyAdjustmentInterval, if_neg hne]
  generalize Int.tdiv params.nPowTargetTimespan params.nPowTargetSpacing = interval
  generalize Int.tdiv (params.nPowTargetSpacing * 9) 10 = fast at hf0 hf1
  generalize Int.tdiv (params.nPowTargetSpacing * 11) 10 = slow at hs0 hs1
  generalize params.nPowTargetSpacing = sp at hsp hf1 hs1
  split
  · rename_i hc
    have hi : 0 < interval := by omega
    have hn0 : 0 ≤ (interval - (now - BlockHeightTime)) * sp + (now - BlockHeightTime) * fast := by
      have a1 : 0 ≤ (interval - (now - BlockHeightTime)) * sp :=
        Int.mul_nonneg (by omega) (by omega)
      have a2 : 0 ≤ (now - BlockHeightTime) * fast := Int.mul_nonneg (by omega) hf0
      omega
    have hn1 : (interval - (now - BlockHeightTime)) * sp + (now - BlockHeightTime) * fast ≤
        (2 * sp) * interval := by
      have a2 : (now - BlockHeightTime) * fast ≤ (now - BlockHeightTime) * sp :=
        Int.mul_le_mul_of_nonneg_left hf1 (by omega)
      nlinarith
    refine ⟨_, rfl, Int.tdiv_nonneg hn0 (by omega), ?_⟩
    rw [Int.tdiv_eq_ediv hn0 (by omega)]
    exact Int.ediv_le_of_le_mul hi hn1
  · split
    · rename_i hc0 hc
      have hi : 0 < interval := by omega
      have hn0 : 0 ≤ (interval - (BlockHeightTime - now)) * sp +
          (BlockHeightTime - now) * slow := by
        have a1 : 0 ≤ (interval - (BlockHeightTime - now)) * sp :=
          Int.mul_nonneg (by omega) (by omega)
        have a2 : 0 ≤ (BlockHeightTime - now) * slow := Int.mul_nonneg (by omega) hs0
        omega
      have hn1 : (interval - (BlockHeightTime - now)) * sp + (BlockHeightTime - now) * slow ≤
          (2 * sp) * interval := by
        have a2 : (BlockHeightTime - now) * slow ≤ (BlockHeightTime - now) * (2 * sp) :=
          Int.mul_le_mul_of_nonneg_left hs1 (by omega)
        nlinarith
      refine ⟨_, rfl, Int.tdiv_nonneg hn0 (by omega), ?_⟩
      rw [Int.tdiv_eq_ediv hn0 (by omega)]
      exact Int.ediv_le_of_le_mul hi hn1
    · split
      · exact ⟨_, rfl, hs0, hs1⟩
      · exact ⟨_, rfl, hf0, by omega⟩

theorem midas_factor_slow (a : Averages) (nIntervalDesired : Int) (hI : 0 ≤ nIntervalDesired)
    (h17 : nIntervalDesired < a.avgOf17) :
    ∃ f, midas_factor a nIntervalDesired = some f ∧ 0 ≤ f ∧ f ≤ 10000 := by
  have htf : Int.tdiv (nIntervalDesired * 2) 3 ≤ nIntervalDesired := by
    rw [Int.tdiv_eq_ediv (by omega) (by norm_num)]; omega
  simp only [midas_factor]
  split
  · rename_i hc
    omega
  · split
    · exact ⟨_, rfl, by decide, by decide⟩
    · split
      · have hd : ¬ a.avgOf17 + 5 * nIntervalDesired = 0 := by omega
        rw [if_neg hd]
        have hn0 : 0 ≤ 10000 * (6 * nIntervalDesired) := by omega
        refine ⟨_, rfl, Int.tdiv_nonneg hn0 (by omega), ?_⟩
        rw [Int.tdiv_eq_ediv hn0 (by omega)]
        exact Int.ediv_le_of_le_mul (by omega) (by omega)
      · exact ⟨_, rfl, by decide, by decide⟩

theorem midas_limit_factor_range (f : Int) (h0 : 0 ≤ f) (h1 : f ≤ 10000) :
    5000 ≤ midas_limit_factor f ∧ midas_limit_factor f ≤ 10000 := by
  simp only [midas_limit_factor]
  split <;> split <;> omega

/-- With the old target at the encoded ceiling and a factor of at most 10000, the end of
`Midas` returns the encoded ceiling. -/
theorem midas_retarget_ceiling (limit : Nat) (f : Int) (hlo : 2 ^ 32 ≤ limit)
    (hhi : limit < 2 ^ 255) (hf0 : 5000 ≤ f) (hf1 : f ≤ 10000) :
    midas_retarget (SetCompact (GetCompact limit)).1 limit f = GetCompact limit := by
  have hle := SetCompact_GetCompact_le limit (by omega)
  have hge := SetCompact_GetCompact_ge limit (by omega) (by omega)
  have hn := byteSize_spec limit (by omega) (by omega)
  have hold : 2 ^ 32 ≤ (SetCompact (GetCompact limit)).1 := by
    refine le_trans (Nat.pow_le_pow_right (by omega) ?_) hge
    have p : 2 ^ 32 < 2 ^ (8 * ((bits limit + 7) / 8)) := lt_of_le_of_lt hlo hn.2.2
    have q := (Nat.pow_lt_pow_iff_right (by omega : 1 < 2)).1 p
    omega
  have key : ∀ x, (SetCompact (GetCompact limit)).1 ≤ x → x ≤ limit →
      GetCompact x = GetCompact limit :=
    fun x h1 h2 => GetCompact_sandwich limit x (by omega) (by omega) h1 h2
  generalize (SetCompact (GetCompact limit)).1 = bnOld at hle hold key ⊢
  simp only [midas_retarget]
  split
  · exact key bnOld (le_refl _) hle
  · rename_i hne
    have hg : int_u64 f = f.toNat := int_u64_of_nonneg f (by omega) (by omega)
    rw [hg]
    have hg1 : 5000 ≤ f.toNat := by omega
    have hg2 : f.toNat < 10000 := by omega
    generalize f.toNat = g at hg1 hg2
    have hq : bnOld / g * g ≤ bnOld := Nat.div_mul_le_self _ _
    have hq2 : bnOld < bnOld / g * g + g := by
      have hm := Nat.div_add_mod bnOld g
      have hml := Nat.mod_lt bnOld (by omega : g > 0)
      rw [Nat.mul_comm] at hm
      omega
    have hqg : g ≤ bnOld / g := by
      rw [Nat.le_div_iff_mul_le (by omega)]
      have : g * g ≤ 10000 * 10000 := Nat.mul_le_mul (by omega) (by omega)
      omega
    have hup : bnOld / g * 10000 ≤ bnOld * 2 := by
      have : bnOld / g * 5000 ≤ bnOld / g * g := Nat.mul_le_mul_left _ hg1
      omega
    have hdown : bnOld ≤ bnOld / g * 10000 := by
      have : bnOld / g * (g + 1) ≤ bnOld / g * 10000 := Nat.mul_le_mul_left _ (by omega)
      have e : bnOld / g * (g + 1) = bnOld / g * g + bnOld / g := by ring
      omega
    rw [u256_of_lt _ (by omega)]
    split
    · rfl
    · exact key _ hdown (by omega)

theorem walk_back_some (interval : Int) (limit : Nat) (hi : interval ≠ 0) :
    ∀ (chain : List CBlockIndex), chain ≠ [] → ∃ c, walk_back interval limit chain = some c := by
  intro chain
  induction chain with
  | nil => intro h; exact absurd rfl h
  | cons b tl ih =>
    intro _
    cases tl with
    | nil => exact ⟨_, rfl⟩
    | cons p rest =>
      simp only [walk_back, if_neg hi]
      split
      · exact ih (by simp)
      · exact ⟨_, rfl⟩

/-- C19 (amended): short chains under Algorithm M.  `Midas` has no ceiling fallback for a
chain with fewer than 17 predecessors: the missing timestamps are made up (0 for the step
past the genesis block, then one spacing per step).  On a chain that reaches back to height
0 with `h < 17`, every block of which carries the encoded applicable ceiling as its bits,
with a positive spacing, a last timestamp of at least `34 * spacing + 17` and a ceiling in
`[2^32, 2^255)`, `Midas` returns the encoded applicable ceiling. -/
theorem Midas_short_chain (last : CBlockIndex) (rest : List CBlockIndex)
    (pblock : CBlockHeader) (params : Params)
    (hlen : (rest.length : Int) = last.nHeight) (hh : last.nHeight < 17)
    (hsp : 0 < params.nPowTargetSpacing)
    (hbits : ∀ b ∈ last :: rest,
      b.nBits = GetCompact (usedPowLimit params (last.nHeight + 1)))
    (htime : 34 * params.nPowTargetSpacing + 17 ≤ (last.nTime : Int))
    (hlo : 2 ^ 32 ≤ usedPowLimit params (last.nHeight + 1))
    (hhi : usedPowLimit params (last.nHeight + 1) < 2 ^ 255) :
    Midas (last :: rest) pblock params =
      some (GetCompact (usedPowLimit params (last.nHeight + 1))) := by
  simp only [Midas]
  split
  · rfl
  · split
    · split
      · rfl
      · obtain ⟨c, hc⟩ := walk_back_some params.nPowTargetSpacing
          (GetCompact (usedPowLimit params (last.nHeight + 1))) (by omega) (last :: rest)
          (by simp)
        obtain ⟨b, hb, hcb⟩ := walk_back_mem _ _ _ _ hc
        rw [hc, hcb, hbits b hb]
    · obtain ⟨I, hI, hI0, hI1⟩ := desiredInterval_bounds params last.GetBlockTime
        (params.genesisBlockTime + last.nHeight * params.nPowTargetSpacing) hsp
      rw [hI]
      have hl17 : rest.length < 17 := by omega
      have h17 : I < (avgRecentTimestamps (last :: rest) params).avgOf17 := by
        rw [avgOf17_short params last rest hl17]
        have hnn : (0 : Int) ≤ ((16 - rest.length : Nat) : Int) * params.nPowTargetSpacing :=
          Int.mul_nonneg (Int.ofNat_nonneg _) (by omega)
        have hsum : 0 ≤ last.GetBlockTime +
            ((16 - rest.length : Nat) : Int) * params.nPowTargetSpacing := by
          simp only [CBlockIndex.GetBlockTime]; omega
        rw [Int.tdiv_eq_ediv hsum (by norm_num)]
        simp only [CBlockIndex.GetBlockTime] at hsum ⊢
        omega
      obtain ⟨f0, hf, hf0, hf1⟩ := midas_factor_slow _ I hI0 h17
      obtain ⟨hr0, hr1⟩ := midas_limit_factor_range f0 hf0 hf1
      simp only [hf, Option.some.injEq]
      rw [hbits last (List.mem_cons_self _ _)]
      exact midas_retarget_ceiling _ _ hlo hhi hr0 hr1
theorem desiredInterval_cases (params : Params) (now sched : Int)
    (hsp : 0 < params.nPowTargetSpacing) :
    ∃ D, desiredInterval params now sched = some D ∧
      Int.tdiv (params.nPowTargetSpacing * 9) 10 ≤ D ∧
      D ≤ Int.tdiv (params.nPowTargetSpacing * 11) 10 ∧
      (now > sched → D ≤ params.nPowTargetSpacing) ∧
      (now < sched → params.nPowTargetSpacing ≤ D) := by
  have hne : ¬ params.nPowTargetSpacing = 0 := by omega
  have hf0 : 0 ≤ Int.tdiv (params.nPowTargetSpacing * 9) 10 :=
    Int.tdiv_nonneg (by omega) (by norm_num)
  have hf1 : Int.tdiv (params.nPowTargetSpacing * 9) 10 ≤ params.nPowTargetSpacing := by
    rw [Int.tdiv_eq_ediv (by omega) (by norm_num)]; omega
  have hs1 : params.nPowTargetSpacing ≤ Int.tdiv (params.nPowTargetSpacing * 11) 10 := by
    rw [Int.tdiv_eq_ediv (by omega) (by norm_num)]; omega
  simp only [desiredInterval, Params.DifficultyAdjustmentInterval, if_neg hne]
  generalize Int.tdiv params.nPowTargetTimespan params.nPowTargetSpacing = interval
  generalize Int.tdiv (params.nPowTargetSpacing * 9) 10 = fast at hf0 hf1
  generalize Int.tdiv (params.nPowTargetSpacing * 11) 10 = slow at hs1
  generalize params.nPowTargetSpacing = sp at hsp hf1 hs1
  split
  · rename_i hc
    have hi : 0 < interval := by omega
    have a1 : (interval - (now - sched)) * fast ≤ (interval - (now - sched)) * sp :=
      Int.mul_le_mul_of_nonneg_left hf1 (by omega)
    have a2 : (now - sched) * fast ≤ (now - sched) * sp :=
      Int.mul_le_mul_of_nonneg_left hf1 (by omega)
    have a3 : 0 ≤ (now - sched) * fast := Int.mul_nonneg (by omega) hf0
    have a4 : 0 ≤ (interval - (now - sched)) * sp := Int.mul_nonneg (by omega) (by omega)
    have hlo : fast * interval ≤ (interval - (now - sched)) * sp + (now - sched) * fast := by
      nlinarith
    have hhi : (interval - (now - sched)) * sp + (now - sched) * fast ≤ sp * interval := by
      nlinarith
    have hn0 : 0 ≤ (interval - (now - sched)) * sp + (now - sched) * fast := by omega
    have h1 := Int.le_ediv_of_mul_le hi hlo
    have h2 := Int.ediv_le_of_le_mul hi hhi
    refine ⟨_, rfl, ?_, ?_, fun _ => ?_, fun h => ?_⟩ <;>
      rw [Int.tdiv_eq_ediv hn0 (by omega)] <;> omega
  · split
    · rename_i hc0 hc
      have hi : 0 < interval := by omega
      have a1 : (interval - (sched - now)) * sp ≤ (interval - (sched - now)) * slow :=
        Int.mul_le_mul_of_nonneg_left hs1 (by omega)
      have a2 : (sched - now) * sp ≤ (sched - now) * slow :=
        Int.mul_le_mul_of_nonneg_left hs1 (by omega)
      have a3 : 0 ≤ (sched - now) * sp := Int.mul_nonneg (by omega) (by omega)
      have a4 : 0 ≤ (interval - (sched - now)) * sp := Int.mul_nonneg (by omega) (by omega)
      have hlo : sp * interval ≤ (interval - (sched - now)) * sp + (sched - now) * slow := by
        nlinarith
      have hhi : (interval - (sched - now)) * sp + (sched - now) * slow ≤ slow * interval := by
        nlinarith
      have hn0 : 0 ≤ (interval - (sched - now)) * sp + (sched - now) * slow := by omega
      have h1 := Int.le_ediv_of_mul_le hi hlo
      have h2 := Int.ediv_le_of_le_mul hi hhi
      refine ⟨_, rfl, ?_, ?_, fun _ => ?_, fun h => ?_⟩ <;>
        rw [Int.tdiv_eq_ediv hn0 (by omega)] <;> omega
    · split
      · exact ⟨_, rfl, by omega, le_refl _, fun h => by omega, fun _ => hs1⟩
      · exact ⟨_, rfl, le_refl _, by omega, fun _ => hf1, fun h => by omega⟩

/-- C21: range of the desired interval.  In `Midas` and `DarkGravityWave` alike (both compute
it by the same statements, embedded as `desiredInterval`), for a positive spacing `S` and
every previous block, the desired interval `D` is computed (no division by zero) and
`floor(9*S/10) ≤ D ≤ floor(11*S/10)`; `D ≤ S` when the time of the previous block is later
than its scheduled time `genesisBlockTime + height * S`, and `D ≥ S` when it is earlier; an
interpolating branch is taken only when `DifficultyAdjustmentInterval()` is positive. -/
theorem desiredInterval_range (params : Params) (last : CBlockIndex)
    (hsp : 0 < params.nPowTargetSpacing) :
    (∃ D, desiredInterval params last.GetBlockTime
        (params.genesisBlockTime + last.nHeight * params.nPowTargetSpacing) = some D ∧
      Int.tdiv (params.nPowTargetSpacing * 9) 10 ≤ D ∧
      D ≤ Int.tdiv (params.nPowTargetSpacing * 11) 10 ∧
      (last.GetBlockTime > params.genesisBlockTime + last.nHeight * params.nPowTargetSpacing →
        D ≤ params.nPowTargetSpacing) ∧
      (last.GetBlockTime < params.genesisBlockTime + last.nHeight * params.nPowTargetSpacing →
        params.nPowTargetSpacing ≤ D)) ∧
    (∃ interval, params.DifficultyAdjustmentInterval = some interval ∧
      (((last.GetBlockTime <
            params.genesisBlockTime + last.nHeight * params.nPowTargetSpacing + interval ∧
          last.GetBlockTime >
            params.genesisBlockTime + last.nHeight * params.nPowTargetSpacing) ∨
        (last.GetBlockTime + interval >
            params.genesisBlockTime + last.nHeight * params.nPowTargetSpacing ∧
          last.GetBlockTime <
            params.genesisBlockTime + last.nHeight * params.nPowTargetSpacing)) →
        0 < interval)) := by
  have hne : ¬ params.nPowTargetSpacing = 0 := by omega
  refine ⟨desiredInterval_cases params _ _ hsp,
    Int.tdiv params.nPowTargetTimespan params.nPowTargetSpacing, ?_, fun h => ?_⟩
  · simp only [Params.DifficultyAdjustmentInterval, if_neg hne]
  · omega

/-- C22 at the code: when the time of the previous block equals exactly its scheduled time
neither interpolating branch applies (both tests are strict) nor the test for being ahead,
and the final `else` selects `nFastInterval = floor(9 * nPowTargetSpacing / 10)`, not the
nominal spacing. -/
theorem desiredInterval_on_schedule (params : Params) (sched : Int)
    (hsp : params.nPowTargetSpacing ≠ 0) :
    desiredInterval params sched sched = some (Int.tdiv (params.nPowTargetSpacing * 9) 10) := by
  simp only [desiredInterval, Params.DifficultyAdjustmentInterval, if_neg hsp]
  rw [if_neg (by omega), if_neg (by omega), if_neg (by omega)]
/-- C28: window averages.  For every chain in which `pindexLast` has at least 17
predecessors, `avgRecentTimestamps` sets, for each `K` in 5, 7, 9 and 17, `avgOfK` to
`(time(pindexLast) - time(K-th predecessor)) / K` with truncating division: the intervals
telescope, and no other timestamp enters the result. -/
theorem avgRecentTimestamps_windows (last : CBlockIndex) (rest : List CBlockIndex)
    (params : Params) (h : 17 ≤ rest.length) :
    avgRecentTimestamps (last :: rest) params =
      { avgOf5 := Int.tdiv (last.GetBlockTime - (rest.getD 4 last).GetBlockTime) 5
        avgOf7 := Int.tdiv (last.GetBlockTime - (rest.getD 6 last).GetBlockTime) 7
        avgOf9 := Int.tdiv (last.GetBlockTime - (rest.getD 8 last).GetBlockTime) 9
        avgOf17 := Int.tdiv (last.GetBlockTime - (rest.getD 16 last).GetBlockTime) 17 } := by
  rcases rest with
    _ | ⟨r1, _ | ⟨r2, _ | ⟨r3, _ | ⟨r4, _ | ⟨r5, _ | ⟨r6, _ | ⟨r7, _ | ⟨r8, _ | ⟨r9, _ | ⟨r10,
    _ | ⟨r11, _ | ⟨r12, _ | ⟨r13, _ | ⟨r14, _ | ⟨r15, _ | ⟨r16, _ | ⟨r17, tl⟩⟩⟩⟩⟩⟩⟩⟩⟩⟩⟩⟩⟩⟩⟩⟩⟩
  all_goals first
    | (simp only [List.length_cons, List.length_nil] at h; omega)
    | skip
  simp only [avgRecentTimestamps, avgRecentTimestamps_loop, List.getD_cons_succ,
    List.getD_cons_zero]
  norm_num
theorem SetCompact_lt (c : Nat) : (SetCompact c).1 < 2 ^ 256 := by
  simp only [SetCompact]
  split
  · have h1 : (c &&& 0x007fffff) >>> (8 * (3 - c >>> 24)) ≤ c &&& 0x007fffff := by
      rw [Nat.shiftRight_eq_div_pow]
      exact Nat.div_le_self _ _
    have h2 : c &&& 0x007fffff ≤ 0x007fffff := Nat.and_le_right
    omega
  · exact Nat.mod_lt _ (by norm_num)

/-- The path of `Midas` that computes an adjustment: min-difficulty rule off and outside the
50 blocks after the fork. -/
theorem Midas_adjusting (last : CBlockIndex) (rest : List CBlockIndex) (pblock : CBlockHeader)
    (params : Params) (hmin : params.fPowAllowMinDifficultyBlocks = false)
    (hwin : ¬ (last.nHeight + 1 > params.CuckooHardForkBlockHeight ∧
      last.nHeight + 1 < params.CuckooHardForkBlockHeight + 50)) (D : Int)
    (hD : desiredInterval params last.GetBlockTime
      (params.genesisBlockTime + last.nHeight * params.nPowTargetSpacing) = some D) :
    Midas (last :: rest) pblock params =
      (midas_factor (avgRecentTimestamps (last :: rest) params) D).map
        (fun f => midas_retarget (SetCompact last.nBits).1
          (usedPowLimit params (last.nHeight + 1)) (midas_limit_factor f)) := by
  simp only [Midas, if_neg hwin, hmin, hD]
  cases midas_factor (avgRecentTimestamps (last :: rest) params) D <;> rfl

theorem midas_limit_factor_eq (f : Int) : midas_limit_factor f = max 5000 (min 20000 f) := by
  simp only [midas_limit_factor]
  split <;> split <;> omega

/-- The end of `Midas` for a factor in `[5000, 20000]`, in true integers when the product
fits 256 bits. -/
theorem midas_retarget_eq (bnOld limit : Nat) (f : Int) (h0 : 5000 ≤ f) (h1 : f ≤ 20000)
    (hfit : bnOld / f.toNat * 10000 < 2 ^ 256) :
    midas_retarget bnOld limit f =
      if f = 10000 then GetCompact bnOld
      else GetCompact (min (bnOld / f.toNat * 10000) limit) := by
  simp only [midas_retarget]
  split
  · rfl
  · rw [int_u64_of_nonneg f (by omega) (by omega), u256_of_lt _ hfit]
    congr 1
    split <;> omega

theorem midas_product_fits (bnOld : Nat) (g : Nat) (hg : 5000 ≤ g) (h : bnOld < 2 ^ 255) :
    bnOld / g * 10000 < 2 ^ 256 := by
  have h1 : bnOld / g * g ≤ bnOld := Nat.div_mul_le_self _ _
  have h2 : bnOld / g * 5000 ≤ bnOld / g * g := Nat.mul_le_mul_left _ hg
  omega

/-- C23 (amended): the normal adjustment of `Midas`.  With the min-difficulty rule off,
outside the 50 blocks after the fork, with neither emergency condition and a previous
target `T_prev < 2^255` (so that the product fits 256 bits): if `(avg5 > D or avg7 > D) and
avg9 > D and avg17 > D`, or the same with every comparison reversed, and the divisor
`avg17 + 5*D` is not zero, the factor is `f = 10000*6*D / (avg17 + 5*D)` (truncating)
clamped to `[5000, 20000]` and the result is the encoding of
`min(floor(T_prev / f) * 10000, ceiling)`, or of `T_prev` itself when `f = 10000`; if
neither condition holds the result is `T_prev` re-encoded. -/
theorem Midas_normal_adjustment (last : CBlockIndex) (rest : List CBlockIndex)
    (pblock : CBlockHeader) (params : Params) (D : Int) (a : Averages)
    (hmin : params.fPowAllowMinDifficultyBlocks = false)
    (hwin : ¬ (last.nHeight + 1 > params.CuckooHardForkBlockHeight ∧
      last.nHeight + 1 < params.CuckooHardForkBlockHeight + 50))
    (hD : desiredInterval params last.GetBlockTime
      (params.genesisBlockTime + last.nHeight * params.nPowTargetSpacing) = some D)
    (ha : avgRecentTimestamps (last :: rest) params = a)
    (hfast : ¬ (a.avgOf5 < Int.tdiv (D * 2) 3 ∧ a.avgOf9 < Int.tdiv (D * 2) 3 ∧
      a.avgOf17 < Int.tdiv (D * 2) 3))
    (hslow : ¬ (a.avgOf5 > Int.tdiv (D * 3) 2 ∧ a.avgOf7 > Int.tdiv (D * 3) 2 ∧
      a.avgOf9 > Int.tdiv (D * 3) 2))
    (hT : (SetCompact last.nBits).1 < 2 ^ 255) :
    ((((a.avgOf5 > D ∨ a.avgOf7 > D) ∧ a.avgOf9 > D ∧ a.avgOf17 > D) ∨
        ((a.avgOf5 < D ∨ a.avgOf7 < D) ∧ a.avgOf9 < D ∧ a.avgOf17 < D)) →
      a.avgOf17 + 5 * D ≠ 0 →
      Midas (last :: rest) pblock params =
        some (if max 5000 (min 20000 (Int.tdiv (10000 * (6 * D)) (a.avgOf17 + 5 * D))) = 10000
          then GetCompact (SetCompact last.nBits).1
          else GetCompact (min
            ((SetCompact last.nBits).1 /
              (max 5000 (min 20000 (Int.tdiv (10000 * (6 * D)) (a.avgOf17 + 5 * D)))).toNat *
                10000)
            (usedPowLimit params (last.nHeight + 1))))) ∧
    (¬ (((a.avgOf5 > D ∨ a.avgOf7 > D) ∧ a.avgOf9 > D ∧ a.avgOf17 > D) ∨
        ((a.avgOf5 < D ∨ a.avgOf7 < D) ∧ a.avgOf9 < D ∧ a.avgOf17 < D)) →
      Midas (last :: rest) pblock params = some (GetCompact (SetCompact last.nBits).1)) := by
  rw [Midas_adjusting last rest pblock params hmin hwin D hD, ha]
  constructor
  · intro hn hz
    simp only [midas_factor, if_neg hfast, if_neg hslow, if_pos hn, if_neg hz, Option.map_some',
      midas_limit_factor_eq]
    have h0 : 5000 ≤ max 5000 (min 20000 (Int.tdiv (10000 * (6 * D)) (a.avgOf17 + 5 * D))) ∧
        max 5000 (min 20000 (Int.tdiv (10000 * (6 * D)) (a.avgOf17 + 5 * D))) ≤ 20000 := by
      omega
    generalize max 5000 (min 20000 (Int.tdiv (10000 * (6 * D)) (a.avgOf17 + 5 * D))) = f at h0
    rw [midas_retarget_eq _ _ f h0.1 h0.2 (midas_product_fits _ _ (by omega) hT)]
  · intro hn
    simp only [midas_factor, if_neg hfast, if_neg hslow, if_neg hn, Option.map_some']
    rfl

/-- C24 (amended): the emergency modes of `Midas`.  With the min-difficulty rule off and
outside the 50 blocks after the fork: when the averages over 5, 9 and 17 blocks are all
below `floor(2*D/3)` the previous target is divided by 16000 and multiplied by 10000; else
when the averages over 5, 7 and 9 blocks are all above `floor(3*D/2)` it is divided by 6250
and multiplied by 10000 (the product fitting 256 bits); in both cases the result is clamped
to the ceiling, and the normal adjustment is not considered. -/
theorem Midas_emergency (last : CBlockIndex) (rest : List CBlockIndex)
    (pblock : CBlockHeader) (params : Params) (D : Int) (a : Averages)
    (hmin : params.fPowAllowMinDifficultyBlocks = false)
    (hwin : ¬ (last.nHeight + 1 > params.CuckooHardForkBlockHeight ∧
      last.nHeight + 1 < params.CuckooHardForkBlockHeight + 50))
    (hD : desiredInterval params last.GetBlockTime
      (params.genesisBlockTime + last.nHeight * params.nPowTargetSpacing) = some D)
    (ha : avgRecentTimestamps (last :: rest) params = a) (hD0 : 0 ≤ D) :
    (a.avgOf5 < Int.tdiv (D * 2) 3 ∧ a.avgOf9 < Int.tdiv (D * 2) 3 ∧
        a.avgOf17 < Int.tdiv (D * 2) 3 →
      Midas (last :: rest) pblock params =
        some (GetCompact (min ((SetCompact last.nBits).1 / 16000 * 10000)
          (usedPowLimit params (last.nHeight + 1))))) ∧
    (a.avgOf5 > Int.tdiv (D * 3) 2 ∧ a.avgOf7 > Int.tdiv (D * 3) 2 ∧
        a.avgOf9 > Int.tdiv (D * 3) 2 →
      (SetCompact last.nBits).1 / 6250 * 10000 < 2 ^ 256 →
      Midas (last :: rest) pblock params =
        some (GetCompact (min ((SetCompact last.nBits).1 / 6250 * 10000)
          (usedPowLimit params (last.nHeight + 1))))) := by
  rw [Midas_adjusting last rest pblock params hmin hwin D hD, ha]
  have e1 : Int.tdiv (10000 * 8) 5 = 16000 := by decide
  have e2 : Int.tdiv (10000 * 5) 8 = 6250 := by decide
  have l1 : midas_limit_factor 16000 = 16000 := by decide
  have l2 : midas_limit_factor 6250 = 6250 := by decide
  constructor
  · intro hf
    simp only [midas_factor, if_pos hf, Option.map_some', e1, l1]
    rw [midas_retarget_eq _ _ 16000 (by omega) (by omega)]
    · rfl
    · have h1 := Nat.div_mul_le_self (SetCompact last.nBits).1 (Int.toNat 16000)
      have h2 := SetCompact_lt last.nBits
      have h3 : Int.toNat 16000 = 16000 := rfl
      rw [h3] at h1 ⊢
      omega
  · intro hs hfit
    have htf : Int.tdiv (D * 2) 3 ≤ Int.tdiv (D * 3) 2 := by
      rw [Int.tdiv_eq_ediv (by omega) (by norm_num), Int.tdiv_eq_ediv (by omega) (by norm_num)]
      omega
    have hnf : ¬ (a.avgOf5 < Int.tdiv (D * 2) 3 ∧ a.avgOf9 < Int.tdiv (D * 2) 3 ∧
        a.avgOf17 < Int.tdiv (D * 2) 3) := by
      intro hc; omega
    simp only [midas_factor, if_neg hnf, if_pos hs, Option.map_some', e2, l2]
    rw [midas_retarget_eq _ _ 6250 (by omega) (by omega) hfit]
    rfl

/-- C25 (amended): the bounded step of `Midas`.  With the min-difficulty rule off and outside
the 50 blocks after the fork, whenever `Midas` returns, the target it returns is at most
`2 * T_prev`; it is the encoding of `T_prev` itself or, for a factor `f` in `[5000, 20000]`,
of `min(floor(T_prev / f) * 10000, ceiling)` (when `T_prev < 2^255`), where
`floor(T_prev / f) * 10000 > T_prev / 2 - 10000`; the truncations and the ceiling clamp can
bring it below `T_prev / 2`. -/
theorem Midas_bounded_step (last : CBlockIndex) (rest : List CBlockIndex)
    (pblock : CBlockHeader) (params : Params) (c : Nat)
    (hmin : params.fPowAllowMinDifficultyBlocks = false)
    (hwin : ¬ (last.nHeight + 1 > params.CuckooHardForkBlockHeight ∧
      last.nHeight + 1 < params.CuckooHardForkBlockHeight + 50))
    (h : Midas (last :: rest) pblock params = some c) :
    (SetCompact c).1 ≤ 2 * (SetCompact last.nBits).1 ∧
    ∃ f : Int, 5000 ≤ f ∧ f ≤ 20000 ∧
      ((SetCompact last.nBits).1 < 2 ^ 255 →
        c = if f = 10000 then GetCompact (SetCompact last.nBits).1
          else GetCompact (min ((SetCompact last.nBits).1 / f.toNat * 10000)
            (usedPowLimit params (last.nHeight + 1)))) ∧
      (SetCompact last.nBits).1 < 2 * ((SetCompact last.nBits).1 / f.toNat * 10000) + 20000 := by
  cases hD : desiredInterval params last.GetBlockTime
      (params.genesisBlockTime + last.nHeight * params.nPowTargetSpacing) with
  | none => simp [Midas, hwin, hmin, hD] at h
  | some D =>
    rw [Midas_adjusting last rest pblock params hmin hwin D hD] at h
    cases hf : midas_factor (avgRecentTimestamps (last :: rest) params) D with
    | none => rw [hf] at h; simp at h
    | some f0 =>
      rw [hf] at h
      simp only [Option.map_some', Option.some.injEq] at h
      have hb : 5000 ≤ midas_limit_factor f0 ∧ midas_limit_factor f0 ≤ 20000 := by
        rw [midas_limit_factor_eq]; omega
      generalize midas_limit_factor f0 = f at h hb
      have hTlt := SetCompact_lt last.nBits
      generalize (SetCompact last.nBits).1 = T at h hTlt ⊢
      have hg1 : 5000 ≤ f.toNat := by omega
      have hg2 : f.toNat ≤ 20000 := by omega
      have hq : T / f.toNat * f.toNat ≤ T := Nat.div_mul_le_self _ _
      have hup : T / f.toNat * 10000 ≤ 2 * T := by
        have : T / f.toNat * 5000 ≤ T / f.toNat * f.toNat := Nat.mul_le_mul_left _ hg1
        omega
      refine ⟨?_, f, hb.1, hb.2, fun hT => ?_, ?_⟩
      · subst h
        simp only [midas_retarget]
        split
        · exact le_trans (SetCompact_GetCompact_le _ hTlt) (by omega)
        · rw [int_u64_of_nonneg f (by omega) (by omega)]
          have hu := u256_le (T / f.toNat * 10000)
          have hul : u256 (T / f.toNat * 10000) < 2 ^ 256 := Nat.mod_lt _ (by norm_num)
          split
          · exact le_trans (SetCompact_GetCompact_le _ (by omega)) (by omega)
          · exact le_trans (SetCompact_GetCompact_le _ hul) (by omega)
      · rw [← h, midas_retarget_eq _ _ f hb.1 hb.2 (midas_product_fits _ _ hg1 hT)]
      · have hd : T / 20000 ≤ T / f.toNat := Nat.div_le_div_left hg2 (by omega)
        have hm := Nat.div_add_mod T 20000
        have hml := Nat.mod_lt T (by omega : 20000 > 0)
        have : T / 20000 * 10000 ≤ T / f.toNat * 10000 := Nat.mul_le_mul_right _ hd
        omega
/-- The averaging loop of `DarkGravityWave` with `j` iterations left, on a chain that holds
at least `j` blocks: each target is divided by 24 and added (the sum cannot wrap), and the
block pointer is left on the last block added. -/
theorem DarkGravityWave_loop_spec :
    ∀ j n (chain : List CBlockIndex) avg, n + j = 25 → 1 ≤ n → 1 ≤ j → j ≤ chain.length →
      avg ≤ (n - 1) * ((2 ^ 256 - 1) / 24) → (n = 1 → avg = 0) →
      DarkGravityWave_loop j n chain avg =
        some (avg + ((chain.take j).map (fun b => (SetCompact b.nBits).1 / 24)).sum,
          chain.drop (j - 1)) := by
  intro j
  induction j with
  | zero => intro n chain avg _ _ h; omega
  | succ j ih =>
    intro n chain avg hn hn1 hj hlen havg h1
    cases chain with
    | nil => simp at hlen
    | cons b prev =>
      have hT : (SetCompact b.nBits).1 / 24 ≤ (2 ^ 256 - 1) / 24 :=
        Nat.div_le_div_right (by have := SetCompact_lt b.nBits; omega)
      have hfit : avg + (SetCompact b.nBits).1 / 24 < 2 ^ 256 := by
        have hn24 : n - 1 ≤ 23 := by omega
        have : (n - 1) * ((2 ^ 256 - 1) / 24) ≤ 23 * ((2 ^ 256 - 1) / 24) :=
          Nat.mul_le_mul_right _ hn24
        omega
      have havg1 : (if n = 1 then (SetCompact b.nBits).1 / 24
          else u256 (avg + (SetCompact b.nBits).1 / 24)) = avg + (SetCompact b.nBits).1 / 24 := by
        split
        · rename_i hn1
          rw [h1 hn1, Nat.zero_add]
        · exact u256_of_lt _ hfit
      simp only [DarkGravityWave_loop]
      rw [havg1]
      by_cases hj0 : j = 0
      · subst hj0
        have hn24 : ¬ n ≠ 24 := by omega
        rw [if_neg hn24]
        simp [DarkGravityWave_loop]
      · have hn24 : n ≠ 24 := by omega
        rw [if_pos hn24]
        cases prev with
        | nil => simp at hlen; omega
        | cons p rest =>
          simp only
          have hlen2 : j ≤ (p :: rest).length := by
            simp only [List.length_cons] at hlen ⊢; omega
          have hb : avg + (SetCompact b.nBits).1 / 24 ≤ (n + 1 - 1) * ((2 ^ 256 - 1) / 24) := by
            have e : n + 1 - 1 = (n - 1) + 1 := by omega
            rw [e, Nat.add_mul, Nat.one_mul]
            omega
          rw [ih (n + 1) (p :: rest) (avg + (SetCompact b.nBits).1 / 24) (by omega) (by omega)
            (by omega) hlen2 hb (by omega)]
          congr 1
          have e : j + 1 - 1 = (j - 1) + 1 := by omega
          rw [List.take_succ_cons, List.map_cons, List.sum_cons, Nat.add_assoc, e,
            List.drop_succ_cons]

theorem sum_div_bounds (l : List Nat) :
    (l.map (fun x => x / 24)).sum * 24 ≤ l.sum ∧
      l.sum ≤ (l.map (fun x => x / 24)).sum * 24 + 23 * l.length := by
  induction l with
  | nil => simp
  | cons x l ih =>
    simp only [List.map_cons, List.sum_cons, List.length_cons]
    have h1 := Nat.div_add_mod x 24
    have h2 := Nat.mod_lt x (by omega : 24 > 0)
    omega

/-- C29 (amended): the min-difficulty short-circuits of `DarkGravityWave`.  With
`fPowAllowMinDifficultyBlocks` set and a previous height of at least 24: if the candidate's
time exceeds the previous block's time by more than 7200 seconds the result is the encoded
ceiling; otherwise, if it exceeds it by more than `4 * nPowTargetSpacing` and `10 * T_prev`
fits 256 bits, the result is the encoding of `min(10 * T_prev, ceiling)`; otherwise the
result is that of the normal retarget, the one computed with the flag off. -/
theorem DarkGravityWave_min_difficulty (last : CBlockIndex) (rest : List CBlockIndex)
    (pblock : CBlockHeader) (params : Params)
    (hmin : params.fPowAllowMinDifficultyBlocks = true) (hh : 24 ≤ last.nHeight) :
    (pblock.GetBlockTime > last.GetBlockTime + 7200 →
      DarkGravityWave (last :: rest) pblock params =
        some (GetCompact (usedPowLimit params (last.nHeight + 1)))) ∧
    (¬ pblock.GetBlockTime > last.GetBlockTime + 7200 →
      pblock.GetBlockTime > last.GetBlockTime + 4 * params.nPowTargetSpacing →
      10 * (SetCompact last.nBits).1 < 2 ^ 256 →
      DarkGravityWave (last :: rest) pblock params =
        some (GetCompact (min (10 * (SetCompact last.nBits).1)
          (usedPowLimit params (last.nHeight + 1))))) ∧
    (¬ pblock.GetBlockTime > last.GetBlockTime + 7200 →
      ¬ pblock.GetBlockTime > last.GetBlockTime + 4 * params.nPowTargetSpacing →
      DarkGravityWave (last :: rest) pblock params =
        DarkGravityWave (last :: rest) pblock
          { params with fPowAllowMinDifficultyBlocks := false }) := by
  have hh2 : ¬ last.nHeight < 24 := by omega
  have e7200 : last.GetBlockTime + 2 * 60 * 60 = last.GetBlockTime + 7200 := by norm_num
  have e4 : params.nPowTargetSpacing * 4 = 4 * params.nPowTargetSpacing := by ring
  refine ⟨fun h1 => ?_, fun h1 h2 hfit => ?_, fun h1 h2 => ?_⟩
  · simp only [DarkGravityWave, if_neg hh2, hmin, e7200, true_and, if_pos h1]
  · simp only [DarkGravityWave, if_neg hh2, hmin, e7200, e4, true_and, if_neg h1, if_pos h2]
    rw [Nat.mul_comm, u256_of_lt _ hfit]
    congr 2
    split <;> omega
  · simp only [DarkGravityWave, if_neg hh2, hmin, e7200, e4, true_and, if_neg h1, if_neg h2,
      usedPowLimit, desiredInterval, Params.DifficultyAdjustmentInterval]
    simp

/-- C30 (amended): what `DarkGravityWave` rescales.  On a chain that holds the last 24 blocks,
with a previous height of at least 24, the value `bnPastTargetAvg` after the loop is the sum
`floor(T_1 / 24) + ... + floor(T_24 / 24)` of the targets of the last 24 blocks, each divided
before it is added: it is at most the arithmetic mean `floor((T_1 + ... + T_24) / 24)` and
less than 24 below it.  With the min-difficulty rule off, a positive desired interval `D`
with `72 * D < 2^32` and a product that fits 256 bits, the result is the encoding of
`min(floor(bnPastTargetAvg / (24*D)) * a, ceiling)`, where `a` is `time(pindexLast)` minus
the time of the oldest of those 24 blocks, clamped to `[24*D/3, 24*D*3]`. -/
theorem DarkGravityWave_retarget (last : CBlockIndex) (rest : List CBlockIndex)
    (pblock : CBlockHeader) (params : Params) (D : Int)
    (hlen : 23 ≤ rest.length) (hh : 24 ≤ last.nHeight) :
    (DarkGravityWave_loop 24 1 (last :: rest) 0).map Prod.fst =
        some ((((last :: rest).take 24).map (fun b => (SetCompact b.nBits).1 / 24)).sum) ∧
    (((last :: rest).take 24).map (fun b => (SetCompact b.nBits).1 / 24)).sum ≤
        (((last :: rest).take 24).map (fun b => (SetCompact b.nBits).1)).sum / 24 ∧
    (((last :: rest).take 24).map (fun b => (SetCompact b.nBits).1)).sum / 24 <
        (((last :: rest).take 24).map (fun b => (SetCompact b.nBits).1 / 24)).sum + 24 ∧
    (params.fPowAllowMinDifficultyBlocks = false →
      desiredInterval params last.GetBlockTime
        (params.genesisBlockTime + last.nHeight * params.nPowTargetSpacing) = some D →
      0 < D → 24 * D * 3 < 2 ^ 32 →
      (((last :: rest).take 24).map (fun b => (SetCompact b.nBits).1 / 24)).sum /
          (24 * D).toNat * (24 * D * 3).toNat < 2 ^ 256 →
      DarkGravityWave (last :: rest) pblock params =
        some (GetCompact (min
          ((((last :: rest).take 24).map (fun b => (SetCompact b.nBits).1 / 24)).sum /
            (24 * D).toNat *
            (min (max (last.GetBlockTime - (rest.getD 22 last).GetBlockTime) (24 * D / 3))
              (24 * D * 3)).toNat)
          (usedPowLimit params (last.nHeight + 1))))) := by
  have hloop := DarkGravityWave_loop_spec 24 1 (last :: rest) 0 (by omega) (by omega) (by omega)
    (by simp only [List.length_cons]; omega) (by omega) (fun _ => rfl)
  rw [Nat.zero_add] at hloop
  have hsum := sum_div_bounds (((last :: rest).take 24).map (fun b => (SetCompact b.nBits).1))
  rw [List.map_map] at hsum
  have hl24 : (((last :: rest).take 24).map (fun b => (SetCompact b.nBits).1)).length = 24 := by
    rw [List.length_map, List.length_take, List.length_cons]
    omega
  rw [hl24] at hsum
  have hcomp : ((fun x => x / 24) ∘ fun b : CBlockIndex => (SetCompact b.nBits).1) =
      fun b => (SetCompact b.nBits).1 / 24 := rfl
  rw [hcomp] at hsum
  refine ⟨by rw [hloop]; rfl, ?_, ?_, ?_⟩
  · rw [Nat.le_div_iff_mul_le (by omega)]
    exact hsum.1
  · rw [Nat.div_lt_iff_lt_mul (by omega)]
    omega
  · intro hmin hD hDpos h32 hfit
    have hh2 : ¬ last.nHeight < 24 := by omega
    have hdrop : (last :: rest).drop (24 - 1) = rest.getD 22 last :: rest.drop 23 := by
      have e : (24 : Nat) - 1 = 22 + 1 := rfl
      rw [e, List.drop_succ_cons]
      have h22 : 22 < rest.length := by omega
      rw [List.getD_eq_getElem _ _ h22]
      exact List.drop_eq_getElem_cons h22
    rw [hdrop] at hloop
    simp only [DarkGravityWave, if_neg hh2, hmin, hloop, hD]
    generalize (((last :: rest).take 24).map (fun b => (SetCompact b.nBits).1 / 24)).sum = avg
      at hfit ⊢
    generalize last.GetBlockTime - (rest.getD 22 last).GetBlockTime = a0
    have h3 : Int.tdiv (24 * D) 3 = 24 * D / 3 :=
      Int.tdiv_eq_ediv (by omega) (by norm_num)
    have hclamp : (if (if a0 < Int.tdiv (24 * D) 3 then Int.tdiv (24 * D) 3 else a0) >
          24 * D * 3 then 24 * D * 3
        else (if a0 < Int.tdiv (24 * D) 3 then Int.tdiv (24 * D) 3 else a0)) =
        min (max a0 (24 * D / 3)) (24 * D * 3) := by
      rw [h3]
      split <;> split <;> omega
    have hz : ¬ int_u64 (24 * D) = 0 := by
      rw [int_u64_of_nonneg _ (by omega) (by omega)]
      omega
    simp only [Bool.false_eq_true, false_and, if_false, hclamp, if_neg hz]
    have ha0 : 0 ≤ min (max a0 (24 * D / 3)) (24 * D * 3) := by omega
    have ha1 : min (max a0 (24 * D / 3)) (24 * D * 3) ≤ 24 * D * 3 := by omega
    generalize min (max a0 (24 * D / 3)) (24 * D * 3) = a at ha0 ha1
    rw [int_u64_of_nonneg _ (by omega) (by omega), int_u32_of_nonneg _ ha0 (by omega)]
    have hle : avg / (24 * D).toNat * a.toNat ≤ avg / (24 * D).toNat * (24 * D * 3).toNat :=
      Nat.mul_le_mul_left _ (Int.toNat_le_toNat ha1)
    rw [u256_of_lt _ (by omega)]
    congr 2
    split <;> omega
namespace cuckoo
open verify_code

/-- The two checks of `verify` on entry `m`: in range, and above its predecessor when it
has one. -/
theorem inRangeAscending_iff (nnodes : Nat) (nonces : List Nat) (n k : Nat) :
    InRangeAscending nnodes nonces n (k + 1) ↔
      ((nonces.getD n 0 ≤ nnodes ∧ (n ≠ 0 → nonces.getD (n - 1) 0 < nonces.getD n 0)) ∧
        InRangeAscending nnodes nonces (n + 1) k) := by
  constructor
  · intro h
    exact ⟨h n (le_refl _) (by omega), fun m h1 h2 => h m (by omega) (by omega)⟩
  · rintro ⟨h0, h⟩ m h1 h2
    by_cases hm : m = n
    · subst hm; exact h0
    · exact h m (by omega) (by omega)

/-- The scan stops at the first entry that fails a check, with the code of that entry. -/
theorem verify_scan_first_failure (keys : siphash_keys) (nnodes edgemask : Nat)
    (nonces : List Nat) :
    ∀ k n uvs xor0 xor1 j, n ≤ j → j < n + k →
      InRangeAscending nnodes nonces n (j - n) →
      ¬ (nonces.getD j 0 ≤ nnodes ∧ (j ≠ 0 → nonces.getD (j - 1) 0 < nonces.getD j 0)) →
      verify_scan keys nnodes edgemask nonces k n uvs xor0 xor1 =
        .error (if nonces.getD j 0 > nnodes then POW_TOO_BIG else POW_TOO_SMALL) := by
  intro k
  induction k with
  | zero => intro n uvs xor0 xor1 j h1 h2; omega
  | succ k ih =>
    intro n uvs xor0 xor1 j h1 h2 hpre hfail
    by_cases hj : j = n
    · subst hj
      by_cases hbig : nonces.getD j 0 > nnodes
      · simp only [verify_scan]
        rw [if_pos hbig, if_pos hbig]
      · have hsm : j ≠ 0 ∧ nonces.getD j 0 ≤ nonces.getD (j - 1) 0 := by
          by_contra hc
          apply hfail
          refine ⟨by omega, fun h0 => ?_⟩
          by_contra hlt
          exact hc ⟨h0, by omega⟩
        simp only [verify_scan]
        rw [if_neg hbig, if_pos hsm, if_neg hbig]
    · have hsplit : j - n = (j - n - 1) + 1 := by omega
      rw [hsplit, inRangeAscending_iff] at hpre
      obtain ⟨⟨hr, ha⟩, hrest⟩ := hpre
      have hnb : ¬ nonces.getD n 0 > nnodes := by omega
      have hns : ¬ (n ≠ 0 ∧ nonces.getD n 0 ≤ nonces.getD (n - 1) 0) := by
        rintro ⟨h0, hle⟩
        have := ha h0
        omega
      simp only [verify_scan]
      rw [if_neg hnb, if_neg hns]
      have hrest2 : InRangeAscending nnodes nonces (n + 1) (j - (n + 1)) := by
        have : j - (n + 1) = j - n - 1 := by omega
        rw [this]; exact hrest
      exact ih (n + 1) _ _ _ j (by omega) (by omega) hrest2 hfail

/-- When every entry is in range, the only code the scan can return is `POW_TOO_SMALL`. -/
theorem verify_scan_error_small (keys : siphash_keys) (nnodes edgemask : Nat)
    (nonces : List Nat) (hr : ∀ m, nonces.getD m 0 ≤ nnodes) :
    ∀ k n uvs xor0 xor1 c,
      verify_scan keys nnodes edgemask nonces k n uvs xor0 xor1 = .error c →
        c = POW_TOO_SMALL := by
  intro k
  induction k with
  | zero => intro n uvs xor0 xor1 c h; simp [verify_scan] at h
  | succ k ih =>
    intro n uvs xor0 xor1 c h
    simp only [verify_scan] at h
    have hnb : ¬ nonces.getD n 0 > nnodes := by have := hr n; omega
    rw [if_neg hnb] at h
    split at h
    · cases h; rfl
    · exact ih _ _ _ _ _ h

/-- An in-range, ascending list of 42 entries is strictly sorted. -/
theorem sorted_of_inRangeAscending (nnodes : Nat) (nonces : List Nat)
    (hlen : nonces.length = 42) (h : InRangeAscending nnodes nonces 0 42) :
    nonces.Sorted (· < ·) := by
  rw [List.Sorted, ← List.chain'_iff_pairwise, List.chain'_iff_get]
  intro i hi
  have h1 := (h (i + 1) (by omega) (by omega)).2 (by omega)
  have e1 : nonces.getD (i + 1 - 1) 0 = nonces.get ⟨i, by omega⟩ := by
    rw [Nat.add_sub_cancel, List.getD_eq_getElem _ _ (by omega)]; rfl
  have e2 : nonces.getD (i + 1) 0 = nonces.get ⟨i + 1, by omega⟩ := by
    rw [List.getD_eq_getElem _ _ (by omega)]; rfl
  rw [e1, e2] at h1
  exact h1

/-- The verdict of `verify` when the scan returns a code. -/
theorem verify_of_scan_error (nonces buf : List Nat) (graphSize : Nat) (c : verify_code)
    (h : verify_scan (siphash_setkeys buf) (nnodes_of graphSize) (edgemask_of graphSize)
      nonces PROOFSIZE 0 [] 0 0 = .error c) :
    verify nonces buf graphSize = some c := by
  simp only [verify, h]

/-- The cycle trace returns neither the range code nor the order code. -/
theorem follow_cycle_codes (uvs : List Nat) :
    ∀ fuel i n c, follow_cycle uvs fuel i n = some c →
      c ≠ POW_TOO_BIG ∧ c ≠ POW_TOO_SMALL := by
  intro fuel
  induction fuel with
  | zero => intro i n c h; simp [follow_cycle] at h
  | succ fuel ih =>
    intro i n c h
    simp only [follow_cycle] at h
    split at h
    · cases h
    · rename_i c2 hf
      have := find_other_error uvs i _ _ _ _ hf
      simp only [Option.some.injEq] at h
      subst h; subst this
      exact ⟨by decide, by decide⟩
    · split at h
      · simp only [Option.some.injEq] at h
        subst h
        exact ⟨by decide, by decide⟩
      · split at h
        · exact ih _ _ _ h
        · simp only [Option.some.injEq] at h
          subst h
          split <;> exact ⟨by decide, by decide⟩

/-- The verdict of `verify` is neither range nor order code when the scan passes. -/
theorem verify_of_scan_ok (nonces buf : List Nat) (graphSize : Nat)
    (r : List Nat × Nat × Nat)
    (h : verify_scan (siphash_setkeys buf) (nnodes_of graphSize) (edgemask_of graphSize)
      nonces PROOFSIZE 0 [] 0 0 = .ok r) :
    verify nonces buf graphSize ≠ some POW_TOO_BIG ∧
      verify nonces buf graphSize ≠ some POW_TOO_SMALL := by
  simp only [verify, h]
  split
  · exact ⟨by simp, by simp⟩
  · constructor
    · intro hc
      exact (follow_cycle_codes _ _ _ _ _ hc).1 rfl
    · intro hc
      exact (follow_cycle_codes _ _ _ _ _ hc).2 rfl

/-- C16: range and order checks of `verify`.  With `nnodes = 2 ^ graphSize` (graph sizes up
to 31), the entries are scanned in index order and the first entry `j` that fails a check
decides the outcome: `POW_TOO_BIG` if it is greater than `nnodes`, otherwise `POW_TOO_SMALL`
(it then has a predecessor and is not strictly greater than it; entry 0 has no predecessor
check); and `verify` returns neither code exactly when every entry is at most `nnodes` and
strictly greater than its predecessor. -/
theorem verify_range_order (nonces buf : List Nat) (graphSize : Nat) (hg : graphSize ≤ 31) :
    nnodes_of graphSize = 2 ^ graphSize ∧
    (∀ j, j < 42 →
      (∀ m, m < j → nonces.getD m 0 ≤ 2 ^ graphSize ∧
        (m ≠ 0 → nonces.getD (m - 1) 0 < nonces.getD m 0)) →
      ¬ (nonces.getD j 0 ≤ 2 ^ graphSize ∧
        (j ≠ 0 → nonces.getD (j - 1) 0 < nonces.getD j 0)) →
      verify nonces buf graphSize =
          some (if nonces.getD j 0 > 2 ^ graphSize then POW_TOO_BIG else POW_TOO_SMALL) ∧
        (¬ nonces.getD j 0 > 2 ^ graphSize →
          j ≠ 0 ∧ nonces.getD j 0 ≤ nonces.getD (j - 1) 0)) ∧
    ((verify nonces buf graphSize ≠ some POW_TOO_BIG ∧
        verify nonces buf graphSize ≠ some POW_TOO_SMALL) ↔
      ∀ m, m < 42 → nonces.getD m 0 ≤ 2 ^ graphSize ∧
        (m ≠ 0 → nonces.getD (m - 1) 0 < nonces.getD m 0)) := by
  have hn := nnodes_of_eq graphSize hg
  refine ⟨hn, ?_, ?_⟩
  · intro j hj hpre hfail
    constructor
    · apply verify_of_scan_error
      rw [hn]
      exact verify_scan_first_failure _ _ _ _ PROOFSIZE 0 [] 0 0 j (Nat.zero_le _)
        (by simp only [PROOFSIZE]; omega) (fun m _ h2 => hpre m (by omega)) hfail
    · intro hbig
      by_contra hc
      apply hfail
      refine ⟨by omega, fun h0 => ?_⟩
      by_contra hlt
      exact hc ⟨h0, by omega⟩
  · constructor
    · rintro ⟨h1, h2⟩
      cases hs : verify_scan (siphash_setkeys buf) (nnodes_of graphSize) (edgemask_of graphSize)
          nonces PROOFSIZE 0 [] 0 0 with
      | error c =>
        have hv := verify_of_scan_error nonces buf graphSize c hs
        rcases verify_scan_error _ _ _ _ _ _ _ _ _ _ hs with hc | hc
        · subst hc; exact absurd hv h1
        · subst hc; exact absurd hv h2
      | ok r =>
        have := ((verify_scan_ok_iff _ _ _ _ _ _ _ _ _ _).1 hs).1
        rw [hn] at this
        intro m hm
        exact this m (Nat.zero_le _) (by simp only [PROOFSIZE]; omega)
    · intro hall
      have hin : InRangeAscending (nnodes_of graphSize) nonces 0 PROOFSIZE := by
        rw [hn]
        intro m _ h2
        exact hall m (by simp only [PROOFSIZE] at h2; omega)
      have hs := (verify_scan_ok_iff (siphash_setkeys buf) (nnodes_of graphSize)
        (edgemask_of graphSize) nonces PROOFSIZE 0 [] 0 0 _).2 ⟨hin, rfl⟩
      exact verify_of_scan_ok nonces buf graphSize _ hs

/-- C15: duplicate rejection.  On a 42-entry proof in which some nonce value occurs at two
different positions, the first loop of `verify` (the range and order scan, which precedes
the cycle trace) returns `POW_TOO_BIG` or `POW_TOO_SMALL`, and that code is the verdict of
`verify`; in particular the verdict is not `POW_OK`. -/
theorem verify_duplicate (nonces buf : List Nat) (graphSize : Nat) (i j : Nat)
    (hi : i < 42) (hj : j < 42) (hij : i ≠ j)
    (hdup : nonces.getD i 0 = nonces.getD j 0) :
    ∃ c, verify_scan (siphash_setkeys buf) (nnodes_of graphSize) (edgemask_of graphSize)
        nonces PROOFSIZE 0 [] 0 0 = .error c ∧
      (c = POW_TOO_BIG ∨ c = POW_TOO_SMALL) ∧
      verify nonces buf graphSize = some c ∧
      verify nonces buf graphSize ≠ some POW_OK := by
  cases hs : verify_scan (siphash_setkeys buf) (nnodes_of graphSize) (edgemask_of graphSize)
      nonces PROOFSIZE 0 [] 0 0 with
  | error c =>
    have hc := verify_scan_error _ _ _ _ _ _ _ _ _ _ hs
    have hv := verify_of_scan_error nonces buf graphSize c hs
    refine ⟨c, rfl, hc, hv, ?_⟩
    rw [hv]
    rcases hc with hc | hc <;> subst hc <;> decide
  | ok r =>
    exfalso
    have hin := ((verify_scan_ok_iff _ _ _ _ _ _ _ _ _ _).1 hs).1
    have hmono : ∀ d a, a + d < 42 → 0 < d →
        nonces.getD a 0 < nonces.getD (a + d) 0 := by
      intro d
      induction d with
      | zero => intro a _ h; omega
      | succ d ih =>
        intro a h1 _
        have hstep := (hin (a + (d + 1)) (Nat.zero_le _)
          (by simp only [PROOFSIZE]; omega)).2 (by omega)
        have e : a + (d + 1) - 1 = a + d := by omega
        rw [e] at hstep
        by_cases hd : d = 0
        · subst hd; simpa using hstep
        · exact lt_trans (ih a (by omega) (by omega)) hstep
    rcases Nat.lt_or_gt_of_ne hij with h | h
    · have := hmono (j - i) i (by omega) (by omega)
      rw [show i + (j - i) = j by omega] at this
      omega
    · have := hmono (i - j) j (by omega) (by omega)
      rw [show j + (i - j) = i by omega] at this
      omega

/-- C14: ascending invariant.  For a 42-entry proof `p` that `verify` accepts and every
reordering `q` of its entries that differs from `p`, `verify` on `q` returns
`POW_TOO_SMALL`. -/
theorem verify_reordered (p q buf : List Nat) (graphSize : Nat) (hlen : p.length = 42)
    (hok : verify p buf graphSize = some POW_OK) (hperm : q.Perm p) (hne : q ≠ p) :
    verify q buf graphSize = some POW_TOO_SMALL := by
  have hp := ((verify_ok_iff p buf graphSize).1 hok).1
  have hqlen : q.length = 42 := by rw [hperm.length_eq, hlen]
  have hrange : ∀ m, q.getD m 0 ≤ nnodes_of graphSize := by
    intro m
    by_cases hm : m < q.length
    · rw [List.getD_eq_getElem _ _ hm]
      have hmem : q[m] ∈ p := hperm.subset (List.getElem_mem _)
      obtain ⟨k, hk, hkeq⟩ := List.mem_iff_getElem.1 hmem
      have := (hp k (Nat.zero_le _) (by omega)).1
      rw [List.getD_eq_getElem _ _ hk, hkeq] at this
      exact this
    · rw [List.getD_eq_default _ _ (by omega)]
      exact Nat.zero_le _
  cases hs : verify_scan (siphash_setkeys buf) (nnodes_of graphSize) (edgemask_of graphSize)
      q PROOFSIZE 0 [] 0 0 with
  | error c =>
    have hc := verify_scan_error_small _ _ _ _ hrange _ _ _ _ _ _ hs
    subst hc
    exact verify_of_scan_error q buf graphSize _ hs
  | ok r =>
    exfalso
    have hq := ((verify_scan_ok_iff _ _ _ _ _ _ _ _ _ _).1 hs).1
    have s1 := sorted_of_inRangeAscending _ p hlen hp
    have s2 := sorted_of_inRangeAscending _ q hqlen hq
    exact hne (List.eq_of_perm_of_sorted hperm s2 s1)

end cuckoo
namespace cuckoo

theorem nedges_of_eq (graphSize : Nat) (hg : graphSize ≤ 31) :
    nedges_of graphSize = 2 ^ (graphSize - 1) := by
  simp only [nedges_of, u32, Nat.shiftLeft_eq, Nat.one_mul]
  apply Nat.mod_eq_of_lt
  exact Nat.pow_lt_pow_right (by omega) (by omega)

theorem edgemask_of_eq (graphSize : Nat) (hg : graphSize ≤ 31) :
    edgemask_of graphSize = 2 ^ (graphSize - 1) - 1 := by
  have h1 : 2 ^ (graphSize - 1) < 2 ^ 32 := Nat.pow_lt_pow_right (by omega) (by omega)
  have h2 : 0 < 2 ^ (graphSize - 1) := Nat.two_pow_pos _
  simp only [edgemask_of, u32, nedges_of_eq graphSize hg]
  have : 2 ^ (graphSize - 1) + 2 ^ 32 - 1 = (2 ^ (graphSize - 1) - 1) + 2 ^ 32 := by omega
  rw [this, Nat.add_mod_right]
  exact Nat.mod_eq_of_lt (by omega)

/-- C17: edge generator range and parity.  For a graph size in 1..31, with
`nedges = 2 ^ (graphSize - 1)` and `edgemask = nedges - 1`, every key, every nonce and
`side` 0 or 1: `sipnode` is `2 * (siphash24(key, (2 * nonce + side) mod 2^32) mod nedges)
+ side`; it is below `2 * nedges`, even on side 0 and odd on side 1, so that no U node
equals a V node. -/
theorem sipnode_formula (keys : siphash_keys) (nonce side graphSize : Nat) (hs : side ≤ 1)
    (hg1 : 1 ≤ graphSize) (hg2 : graphSize ≤ 31) :
    nedges_of graphSize = 2 ^ (graphSize - 1) ∧
    edgemask_of graphSize = nedges_of graphSize - 1 ∧
    sipnode keys nonce side (edgemask_of graphSize) =
      2 * (siphash24 keys ((2 * nonce + side) % 2 ^ 32) % nedges_of graphSize) + side ∧
    sipnode keys nonce side (edgemask_of graphSize) < 2 * nedges_of graphSize ∧
    sipnode keys nonce side (edgemask_of graphSize) % 2 = side ∧
    (∀ n1 n2, sipnode keys n1 0 (edgemask_of graphSize) ≠
      sipnode keys n2 1 (edgemask_of graphSize)) := by
  have hne := nedges_of_eq graphSize hg2
  have hem := edgemask_of_eq graphSize hg2
  have hlt : 2 ^ (graphSize - 1) ≤ 2 ^ 30 := Nat.pow_le_pow_right (by omega) (by omega)
  have hpos : 0 < 2 ^ (graphSize - 1) := Nat.two_pow_pos _
  have hf : sipnode keys nonce side (edgemask_of graphSize) =
      2 * (siphash24 keys ((2 * nonce + side) % 2 ^ 32) % 2 ^ (graphSize - 1)) + side := by
    simp only [sipnode, u32, Nat.shiftLeft_eq, hem, Nat.and_pow_two_sub_one_eq_mod]
    have hm := Nat.mod_lt (siphash24 keys ((2 * nonce + side) % 2 ^ 32)) hpos
    have := Nat.mul_add_lt_is_or (i := 1) (b := side) (by omega)
      (siphash24 keys ((2 * nonce + side) % 2 ^ 32) % 2 ^ (graphSize - 1))
    rw [Nat.mul_comm, ← this]
    apply Nat.mod_eq_of_lt
    omega
  have hm := Nat.mod_lt (siphash24 keys ((2 * nonce + side) % 2 ^ 32)) hpos
  refine ⟨hne, by rw [hem, hne], by rw [hf, hne], by rw [hf, hne]; omega, by rw [hf]; omega, ?_⟩
  intro n1 n2 h
  have a := sipnode_mod_two keys n1 0 (edgemask_of graphSize) (by omega)
  have b := sipnode_mod_two keys n2 1 (edgemask_of graphSize) (by omega)
  omega

end cuckoo

namespace cuckoo

/-! ### The solver: paths -/

theorem path_ok (f : Nat → Nat) :
    ∀ fuel u acc r, path f fuel u acc = .ok r → ∃ l, r = acc ++ l ∧ IsPath f u l := by
  intro fuel
  induction fuel with
  | zero =>
    intro u acc r h
    cases u with
    | zero =>
      simp only [path, Except.ok.injEq] at h
      exact ⟨[], by simp [h], rfl⟩
    | succ u =>
      simp only [path] at h
      split at h <;> cases h
  | succ fuel ih =>
    intro u acc r h
    cases u with
    | zero =>
      simp only [path, Except.ok.injEq] at h
      exact ⟨[], by simp [h], rfl⟩
    | succ u =>
      simp only [path] at h
      obtain ⟨l, hl, hp⟩ := ih _ _ _ h
      exact ⟨(u + 1) :: l, by simp [hl], rfl, by omega, hp⟩

theorem IsPath.iterate {f : Nat → Nat} :
    ∀ (l : List Nat) (u : Nat), IsPath f u l →
      (∀ i, i < l.length → l.getD i 0 = f^[i] u ∧ f^[i] u ≠ 0) ∧ f^[l.length] u = 0 := by
  intro l
  induction l with
  | nil => intro u h; exact ⟨fun i hi => by simp at hi, h⟩
  | cons x l ih =>
    intro u h
    obtain ⟨h1, h2, h3⟩ := h
    obtain ⟨ih1, ih2⟩ := ih (f u) h3
    refine ⟨fun i hi => ?_, ?_⟩
    · cases i with
      | zero => simp [h1, h2]
      | succ i =>
        have := ih1 i (by simpa using hi)
        simpa [Function.iterate_succ_apply] using this
    · simpa [Function.iterate_succ_apply] using ih2

theorem iterate_zero_of_fix {f : Nat → Nat} (h0 : f 0 = 0) : ∀ n, f^[n] 0 = 0 := by
  intro n
  induction n with
  | zero => rfl
  | succ n ih => rw [Function.iterate_succ_apply, h0, ih]

/-- Once an orbit reaches nil it stays there. -/
theorem iterate_stays_zero {f : Nat → Nat} (h0 : f 0 = 0) {x n : Nat} (h : f^[n] x = 0) :
    ∀ k, f^[n + k] x = 0 := by
  intro k
  rw [Nat.add_comm, Function.iterate_add_apply, h, iterate_zero_of_fix h0]

/-- An orbit that reaches nil after `n` steps has no repeated node before. -/
theorem orbit_injective {f : Nat → Nat} {x n : Nat} (hn : f^[n] x = 0)
    (hnz : ∀ i, i < n → f^[i] x ≠ 0) :
    ∀ i j, i < j → j < n → f^[i] x ≠ f^[j] x := by
  intro i j hij hj e
  have h1 : f^[(n - j) + i] x = f^[(n - j) + j] x := by
    rw [Function.iterate_add_apply, Function.iterate_add_apply, e]
  have e2 : n - j + j = n := by omega
  rw [e2, hn] at h1
  exact hnz (n - j + i) (by omega) h1

/-- Two orbits that meet reach nil the same number of steps later. -/
theorem orbits_aligned {f : Nat → Nat} (h0 : f 0 = 0) {x y n m i j : Nat}
    (hn : f^[n] x = 0) (hnz : ∀ k, k < n → f^[k] x ≠ 0)
    (hm : f^[m] y = 0) (hmz : ∀ k, k < m → f^[k] y ≠ 0)
    (hi : i < n) (hj : j < m) (e : f^[i] x = f^[j] y) : n - i = m - j := by
  by_contra hne
  rcases Nat.lt_or_gt_of_ne hne with hlt | hgt
  · -- x reaches nil sooner: then y is nil too early
    have h1 : f^[(n - i) + j] y = 0 := by
      rw [Function.iterate_add_apply, ← e, ← Function.iterate_add_apply]
      have : n - i + i = n := by omega
      rw [this, hn]
    exact hmz _ (by omega) h1
  · have h1 : f^[(m - j) + i] x = 0 := by
      rw [Function.iterate_add_apply, e, ← Function.iterate_add_apply]
      have : m - j + j = m := by omega
      rw [this, hm]
    exact hnz _ (by omega) h1

theorem trim_paths_spec (us vs : List Nat) :
    ∀ fuel a b nu1 nv1, trim_paths us vs fuel a b = some (nu1, nv1) →
      ∃ d, nu1 = a + d ∧ nv1 = b + d ∧ us.getD nu1 0 = vs.getD nv1 0 ∧
        ∀ k, k < d → us.getD (a + k) 0 ≠ vs.getD (b + k) 0 := by
  intro fuel
  induction fuel with
  | zero => intro a b nu1 nv1 h; simp [trim_paths] at h
  | succ fuel ih =>
    intro a b nu1 nv1 h
    simp only [trim_paths] at h
    split at h
    · rename_i hne
      obtain ⟨d, h1, h2, h3, h4⟩ := ih _ _ _ _ h
      refine ⟨d + 1, by omega, by omega, h3, fun k hk => ?_⟩
      cases k with
      | zero => simpa using hne
      | succ k =>
        have := h4 k (by omega)
        have e1 : a + 1 + k = a + (k + 1) := by omega
        have e2 : b + 1 + k = b + (k + 1) := by omega
        rwa [e1, e2] at this
    · rename_i heq
      simp only [Option.some.injEq, Prod.mk.injEq] at h
      obtain ⟨rfl, rfl⟩ := h
      exact ⟨0, rfl, rfl, by simpa using heq, fun k hk => by omega⟩

end cuckoo

namespace cuckoo

/-! ### The solver: nodes and the forest invariant -/

theorem node_u_even (ctx : CContext) (n : Nat) : ctx.node_u n % 2 = 0 := by
  simp only [CContext.node_u, u32]
  omega

theorem node_v_odd (ctx : CContext) (n : Nat) : ctx.node_v n % 2 = 1 := by
  simp only [CContext.node_v, u32]
  omega

theorem node_u_eq_sipnode (ctx : CContext) (hem : ctx.edgemask < 2 ^ 31) (n : Nat) :
    ctx.node_u n = sipnode ctx.sip_keys n 0 ctx.edgemask := by
  simp only [CContext.node_u, CContext._sipnode, sipnode]
  have h1 : siphash24 ctx.sip_keys (u32 (2 * n + 0)) &&& ctx.edgemask < 2 ^ 31 :=
    lt_of_le_of_lt Nat.and_le_right hem
  have h2 : u32 (siphash24 ctx.sip_keys (u32 (2 * n + 0)) &&& ctx.edgemask) =
      siphash24 ctx.sip_keys (u32 (2 * n + 0)) &&& ctx.edgemask :=
    Nat.mod_eq_of_lt (by omega)
  rw [h2, Nat.shiftLeft_eq, Nat.or_zero]
  congr 1
  omega

theorem node_v_eq_sipnode (ctx : CContext) (hem : ctx.edgemask < 2 ^ 31) (n : Nat) :
    ctx.node_v n = sipnode ctx.sip_keys n 1 ctx.edgemask := by
  simp only [CContext.node_v, CContext._sipnode, sipnode]
  have h1 : siphash24 ctx.sip_keys (u32 (2 * n + 1)) &&& ctx.edgemask < 2 ^ 31 :=
    lt_of_le_of_lt Nat.and_le_right hem
  have h2 : u32 (siphash24 ctx.sip_keys (u32 (2 * n + 1)) &&& ctx.edgemask) =
      siphash24 ctx.sip_keys (u32 (2 * n + 1)) &&& ctx.edgemask :=
    Nat.mod_eq_of_lt (by omega)
  have h3 := Nat.mul_add_lt_is_or (i := 1) (b := 1) (by omega)
    (siphash24 ctx.sip_keys (u32 (2 * n + 1)) &&& ctx.edgemask)
  rw [h2, Nat.shiftLeft_eq, Nat.mul_comm _ (2 ^ 1), ← h3]

theorem reverse_path_spec (us : List Nat) :
    ∀ n cuckoo x, reverse_path us n cuckoo x = cuckoo x ∨
      ∃ k, k < n ∧ x = us.getD (k + 1) 0 ∧ reverse_path us n cuckoo x = us.getD k 0 := by
  intro n
  induction n with
  | zero => intro cuckoo x; exact Or.inl rfl
  | succ n ih =>
    intro cuckoo x
    simp only [reverse_path]
    rcases ih (store cuckoo (us.getD (n + 1) 0) (us.getD n 0)) x with h | ⟨k, hk, hx, hv⟩
    · by_cases hx : x = us.getD (n + 1) 0
      · right
        refine ⟨n, by omega, hx, ?_⟩
        rw [h]; simp only [store, if_pos hx]
      · left
        rw [h]; simp only [store, if_neg hx]
    · exact Or.inr ⟨k, by omega, hx, hv⟩

theorem ForestOfEdges.mono {ctx : CContext} {cuckoo : Nat → Nat} {N : Nat}
    (h : ForestOfEdges ctx cuckoo N) : ForestOfEdges ctx cuckoo (N + 1) := by
  refine ⟨h.1, fun x hx => ?_⟩
  obtain ⟨m, hm, hrest⟩ := h.2 x hx
  exact ⟨m, by omega, hrest⟩

/-- Grafting the U path onto the new edge keeps the invariant. -/
theorem ForestOfEdges.graft_u {ctx : CContext} {cuckoo : Nat → Nat} {N : Nat}
    (h : ForestOfEdges ctx cuckoo N) (hu0 : ctx.node_u N ≠ 0) (us : List Nat) (nu : Nat)
    (hpath : ∀ k, k < nu → cuckoo (us.getD k 0) = us.getD (k + 1) 0 ∧ us.getD (k + 1) 0 ≠ 0) :
    ForestOfEdges ctx (store (reverse_path us nu cuckoo) (ctx.node_u N) (ctx.node_v N))
      (N + 1) := by
  have hv0 : ctx.node_v N ≠ 0 := by have := node_v_odd ctx N; omega
  constructor
  · simp only [store, if_neg (Ne.symm hu0)]
    rcases reverse_path_spec us nu cuckoo 0 with h1 | ⟨k, hk, hx, _⟩
    · rw [h1]; exact h.1
    · exact absurd hx.symm (hpath k hk).2
  · intro x hx
    by_cases hxu : x = ctx.node_u N
    · refine ⟨N, by omega, hu0, Or.inl ⟨hxu, ?_⟩⟩
      simp only [store, if_pos hxu]
    · simp only [store, if_neg hxu] at hx ⊢
      rcases reverse_path_spec us nu cuckoo x with h1 | ⟨k, hk, hxk, hval⟩
      · rw [h1] at hx ⊢
        obtain ⟨m, hm, hrest⟩ := h.2 x hx
        exact ⟨m, by omega, hrest⟩
      · obtain ⟨hc, hne⟩ := hpath k hk
        obtain ⟨m, hm, hm0, hrest⟩ := h.2 (us.getD k 0) (by rw [hc]; exact hne)
        rw [hval, hxk]
        refine ⟨m, by omega, hm0, ?_⟩
        rw [hc] at hrest
        rcases hrest with ⟨a, b⟩ | ⟨a, b⟩
        · exact Or.inr ⟨b, a⟩
        · exact Or.inl ⟨b, a⟩

/-- Grafting the V path onto the new edge keeps the invariant. -/
theorem ForestOfEdges.graft_v {ctx : CContext} {cuckoo : Nat → Nat} {N : Nat}
    (h : ForestOfEdges ctx cuckoo N) (hu0 : ctx.node_u N ≠ 0) (vs : List Nat) (nv : Nat)
    (hpath : ∀ k, k < nv → cuckoo (vs.getD k 0) = vs.getD (k + 1) 0 ∧ vs.getD (k + 1) 0 ≠ 0) :
    ForestOfEdges ctx (store (reverse_path vs nv cuckoo) (ctx.node_v N) (ctx.node_u N))
      (N + 1) := by
  have hv0 : ctx.node_v N ≠ 0 := by have := node_v_odd ctx N; omega
  constructor
  · simp only [store, if_neg (Ne.symm hv0)]
    rcases reverse_path_spec vs nv cuckoo 0 with h1 | ⟨k, hk, hx, _⟩
    · rw [h1]; exact h.1
    · exact absurd hx.symm (hpath k hk).2
  · intro x hx
    by_cases hxv : x = ctx.node_v N
    · refine ⟨N, by omega, hu0, Or.inr ⟨hxv, ?_⟩⟩
      simp only [store, if_pos hxv]
    · simp only [store, if_neg hxv] at hx ⊢
      rcases reverse_path_spec vs nv cuckoo x with h1 | ⟨k, hk, hxk, hval⟩
      · rw [h1] at hx ⊢
        obtain ⟨m, hm, hrest⟩ := h.2 x hx
        exact ⟨m, by omega, hrest⟩
      · obtain ⟨hc, hne⟩ := hpath k hk
        obtain ⟨m, hm, hm0, hrest⟩ := h.2 (vs.getD k 0) (by rw [hc]; exact hne)
        rw [hval, hxk]
        refine ⟨m, by omega, hm0, ?_⟩
        rw [hc] at hrest
        rcases hrest with ⟨a, b⟩ | ⟨a, b⟩
        · exact Or.inr ⟨b, a⟩
        · exact Or.inl ⟨b, a⟩

/-- Along a path every node points to the next one, which is not nil. -/
theorem IsPath.links {f : Nat → Nat} {u : Nat} {l : List Nat} (h : IsPath f u l) :
    ∀ k, k + 1 < l.length → f (l.getD k 0) = l.getD (k + 1) 0 ∧ l.getD (k + 1) 0 ≠ 0 := by
  intro k hk
  obtain ⟨h1, _⟩ := IsPath.iterate l u h
  obtain ⟨a1, _⟩ := h1 k (by omega)
  obtain ⟨b1, b2⟩ := h1 (k + 1) hk
  rw [a1, b1, Function.iterate_succ_apply']
  exact ⟨rfl, by rwa [Function.iterate_succ_apply'] at b2⟩

end cuckoo

namespace cuckoo

/-! ### The solver: the edge set and the nonce scan of `solution` -/

theorem mem_set_insert (cycle : List (Nat × Nat)) (e p : Nat × Nat) :
    p ∈ set_insert cycle e ↔ p = e ∨ p ∈ cycle := by
  simp only [set_insert]
  split
  · rename_i h
    constructor
    · exact fun hp => Or.inr hp
    · rintro (rfl | hp)
      · exact h
      · exact hp
  · simp

theorem nodup_set_insert (cycle : List (Nat × Nat)) (e : Nat × Nat) (h : cycle.Nodup) :
    (set_insert cycle e).Nodup := by
  simp only [set_insert]
  split
  · exact h
  · rename_i hn; exact List.nodup_cons.2 ⟨hn, h⟩

theorem insert_us_spec (us : List Nat) :
    ∀ n cycle, cycle.Nodup →
      (insert_us us n cycle).Nodup ∧
      ∀ p, p ∈ insert_us us n cycle ↔
        (p ∈ cycle ∨ ∃ k, k < n ∧
          p = (us.getD (2 * ((k + 1) / 2)) 0, us.getD (2 * (k / 2) + 1) 0)) := by
  intro n
  induction n with
  | zero => intro cycle h; exact ⟨h, fun p => by simp [insert_us]⟩
  | succ n ih =>
    intro cycle h
    simp only [insert_us]
    obtain ⟨h1, h2⟩ := ih _ (nodup_set_insert cycle
      (us.getD (2 * ((n + 1) / 2)) 0, us.getD (2 * (n / 2) + 1) 0) h)
    refine ⟨h1, fun p => ?_⟩
    rw [h2, mem_set_insert]
    constructor
    · rintro ((rfl | hp) | ⟨k, hk, rfl⟩)
      · exact Or.inr ⟨n, by omega, rfl⟩
      · exact Or.inl hp
      · exact Or.inr ⟨k, by omega, rfl⟩
    · rintro (hp | ⟨k, hk, rfl⟩)
      · exact Or.inl (Or.inr hp)
      · by_cases hkn : k = n
        · subst hkn; exact Or.inl (Or.inl rfl)
        · exact Or.inr ⟨k, by omega, rfl⟩

theorem insert_vs_spec (vs : List Nat) :
    ∀ n cycle, cycle.Nodup →
      (insert_vs vs n cycle).Nodup ∧
      ∀ p, p ∈ insert_vs vs n cycle ↔
        (p ∈ cycle ∨ ∃ k, k < n ∧
          p = (vs.getD (2 * (k / 2) + 1) 0, vs.getD (2 * ((k + 1) / 2)) 0)) := by
  intro n
  induction n with
  | zero => intro cycle h; exact ⟨h, fun p => by simp [insert_vs]⟩
  | succ n ih =>
    intro cycle h
    simp only [insert_vs]
    obtain ⟨h1, h2⟩ := ih _ (nodup_set_insert cycle
      (vs.getD (2 * (n / 2) + 1) 0, vs.getD (2 * ((n + 1) / 2)) 0) h)
    refine ⟨h1, fun p => ?_⟩
    rw [h2, mem_set_insert]
    constructor
    · rintro ((rfl | hp) | ⟨k, hk, rfl⟩)
      · exact Or.inr ⟨n, by omega, rfl⟩
      · exact Or.inl hp
      · exact Or.inr ⟨k, by omega, rfl⟩
    · rintro (hp | ⟨k, hk, rfl⟩)
      · exact Or.inl (Or.inr hp)
      · by_cases hkn : k = n
        · subst hkn; exact Or.inl (Or.inl rfl)
        · exact Or.inr ⟨k, by omega, rfl⟩

/-- The nonce scan of `solution` on a set of 42 edges that all have a nonce still ahead:
it returns 42 ascending nonces below `E`, one for each edge of the set. -/
theorem solution_scan_spec (ctx : CContext) (S0 : List (Nat × Nat)) (E : Nat) :
    ∀ fuel nonce_ cyc acc found,
      nonce_ + fuel = E → cyc.Nodup → found = acc.length → found + cyc.length = 42 →
      found < 42 →
      (∀ p ∈ cyc, ∃ m, nonce_ ≤ m ∧ m < E ∧ ctx.edge_of m = p) →
      acc.Pairwise (· < ·) → (∀ n ∈ acc, n < nonce_) →
      (∀ n ∈ acc, ctx.edge_of n ∉ cyc ∧ ctx.edge_of n ∈ S0) →
      (acc.map ctx.edge_of).Nodup → (∀ p ∈ cyc, p ∈ S0) →
      (solution_scan ctx fuel nonce_ cyc acc found).length = 42 ∧
      (solution_scan ctx fuel nonce_ cyc acc found).Pairwise (· < ·) ∧
      (∀ n ∈ solution_scan ctx fuel nonce_ cyc acc found, n < E) ∧
      ((solution_scan ctx fuel nonce_ cyc acc found).map ctx.edge_of).Nodup ∧
      ∀ n ∈ solution_scan ctx fuel nonce_ cyc acc found, ctx.edge_of n ∈ S0 := by
  intro fuel
  induction fuel with
  | zero =>
    intro nonce_ cyc acc found hE hnd hf hlen h42 hahead _ _ _ _ _
    exfalso
    cases cyc with
    | nil => simp at hlen; omega
    | cons p cyc =>
      obtain ⟨m, h1, h2, _⟩ := hahead p (List.mem_cons_self _ _)
      omega
  | succ fuel ih =>
    intro nonce_ cyc acc found hE hnd hf hlen h42 hahead hasc hlt hacc hmapnd hsub
    have hsnoc_asc : (acc ++ [nonce_]).Pairwise (· < ·) := by
      rw [List.pairwise_append]
      exact ⟨hasc, List.pairwise_singleton _ _, fun a ha b hb => by
        rw [List.mem_singleton] at hb; subst hb; exact hlt a ha⟩
    simp only [solution_scan]
    have he : (ctx.node_u nonce_, ctx.node_v nonce_) = ctx.edge_of nonce_ := rfl
    rw [he]
    by_cases hmem : ctx.edge_of nonce_ ∈ cyc
    · rw [if_pos hmem]
      have hmapnd2 : ((acc ++ [nonce_]).map ctx.edge_of).Nodup := by
        rw [List.map_append, List.map_singleton]
        refine List.Nodup.append hmapnd (List.nodup_singleton _) ?_
        intro p hp1 hp2
        rw [List.mem_singleton] at hp2
        subst hp2
        obtain ⟨n, hn, hpn⟩ := List.mem_map.1 hp1
        have hn2 := (hacc n hn).1
        rw [hpn] at hn2
        exact hn2 hmem
      have hP : PROOFSIZE = 42 := rfl
      rw [hP]
      by_cases hdone : found + 1 = 42
      · rw [if_pos hdone]
        refine ⟨by rw [List.length_append, List.length_singleton, ← hf]; exact hdone,
          hsnoc_asc, ?_, hmapnd2, ?_⟩
        · intro n hn
          rcases List.mem_append.1 hn with h | h
          · have := hlt n h; omega
          · rw [List.mem_singleton] at h; omega
        · intro n hn
          rcases List.mem_append.1 hn with h | h
          · exact (hacc n h).2
          · rw [List.mem_singleton] at h; subst h; exact hsub _ hmem
      · rw [if_neg hdone]
        have hl1 : (acc ++ [nonce_]).length = found + 1 := by
          rw [List.length_append, List.length_singleton, hf]
        have hl2 : found + 1 + (cyc.erase (ctx.edge_of nonce_)).length = 42 := by
          rw [List.length_erase_of_mem hmem]
          have : 0 < cyc.length := List.length_pos_of_mem hmem
          omega
        have hE2 : nonce_ + 1 + fuel = E := by omega
        have h43 : found + 1 < 42 := by omega
        refine ih (nonce_ + 1) (cyc.erase (ctx.edge_of nonce_)) (acc ++ [nonce_]) (found + 1)
          hE2 (hnd.erase _) hl1.symm hl2 h43 ?_ hsnoc_asc ?_ ?_ hmapnd2 ?_
        · intro p hp
          obtain ⟨hp1, hp2⟩ := (hnd.mem_erase_iff).1 hp
          obtain ⟨m, h1, h2, h3⟩ := hahead p hp2
          refine ⟨m, ?_, h2, h3⟩
          by_contra hc
          have : m = nonce_ := by omega
          subst this
          exact hp1 h3.symm
        · intro n hn
          rcases List.mem_append.1 hn with h | h
          · have := hlt n h; omega
          · rw [List.mem_singleton] at h; omega
        · intro n hn
          rcases List.mem_append.1 hn with h | h
          · exact ⟨fun hc => (hacc n h).1 ((hnd.mem_erase_iff).1 hc).2, (hacc n h).2⟩
          · rw [List.mem_singleton] at h
            subst h
            exact ⟨fun hc => ((hnd.mem_erase_iff).1 hc).1 rfl, hsub _ hmem⟩
        · intro p hp
          exact hsub p ((hnd.mem_erase_iff).1 hp).2
    · rw [if_neg hmem]
      have hE2 : nonce_ + 1 + fuel = E := by omega
      refine ih (nonce_ + 1) cyc acc found hE2 hnd hf hlen h42 ?_ hasc ?_ hacc hmapnd hsub
      · intro p hp
        obtain ⟨m, h1, h2, h3⟩ := hahead p hp
        refine ⟨m, ?_, h2, h3⟩
        by_contra hc
        have : m = nonce_ := by omega
        subst this
        rw [← h3] at hp
        exact hmem hp
      · intro n hn; have := hlt n hn; omega

end cuckoo

namespace cuckoo

/-! ### Edges along a simple cycle of 42 nodes -/

/-- If the 42 edges join the consecutive nodes of a cycle of 42 distinct nodes, and no node
is on both sides, every node on the side `W` is on exactly two edges. -/
theorem exactlyTwo_of_cycle (W W2 : Fin 42 → Nat) (C : Fin 42 → Nat) (e : Fin 42 → Fin 42)
    (hpar : ∀ a b, W a ≠ W2 b) (hC : Function.Injective C) (he : Function.Bijective e)
    (hedge : ∀ t, (W (e t) = C t ∧ W2 (e t) = C (t + 1)) ∨
      (W (e t) = C (t + 1) ∧ W2 (e t) = C t)) :
    ExactlyTwo W := by
  intro a
  obtain ⟨t, rfl⟩ := he.2 a
  rcases hedge t with ⟨h1, h2⟩ | ⟨h1, h2⟩
  · -- the node is `C t`; the other edge is the one before
    have hprev := hedge (t - 1)
    rw [sub_add_cancel] at hprev
    have hb : W (e (t - 1)) = C t := by
      rcases hprev with ⟨_, h4⟩ | ⟨h3, _⟩
      · exact absurd (h1.trans h4.symm) (hpar _ _)
      · exact h3
    refine ⟨e (t - 1), fun h => ?_, fun c => ⟨fun hc => ?_, fun hc => ?_⟩⟩
    · have := he.1 h
      have h5 := fin42_succ_ne (t - 1)
      rw [sub_add_cancel] at h5
      exact h5 this.symm
    · obtain ⟨s, rfl⟩ := he.2 c
      rcases hedge s with ⟨h3, _⟩ | ⟨h3, _⟩
      · left
        have : C s = C t := by rw [← h3, hc, h1]
        rw [hC this]
      · right
        have : C (s + 1) = C t := by rw [← h3, hc, h1]
        have h6 := hC this
        rw [← h6, add_sub_cancel_right]
    · rcases hc with rfl | rfl
      · rfl
      · rw [hb, h1]
  · -- the node is `C (t + 1)`; the other edge is the next one
    have hnext := hedge (t + 1)
    have hb : W (e (t + 1)) = C (t + 1) := by
      rcases hnext with ⟨h3, _⟩ | ⟨_, h4⟩
      · exact h3
      · exact absurd (h1.trans h4.symm) (hpar _ _)
    refine ⟨e (t + 1), fun h => fin42_succ_ne t (he.1 h), fun c => ⟨fun hc => ?_, fun hc => ?_⟩⟩
    · obtain ⟨s, rfl⟩ := he.2 c
      rcases hedge s with ⟨h3, _⟩ | ⟨h3, _⟩
      · right
        have : C s = C (t + 1) := by rw [← h3, hc, h1]
        rw [hC this]
      · left
        have : C (s + 1) = C (t + 1) := by rw [← h3, hc, h1]
        have h6 := hC this
        rw [add_right_cancel h6]
    · rcases hc with rfl | rfl
      · rfl
      · rw [hb, h1]

/-- Edges that join the consecutive nodes of a cycle of 42 distinct nodes, U nodes being
even and V nodes odd, are what `verify` accepts. -/
theorem cycle_edges_good (U V : Fin 42 → Nat) (C : Fin 42 → Nat) (e : Fin 42 → Fin 42)
    (hU : ∀ a, U a % 2 = 0) (hV : ∀ a, V a % 2 = 1) (hC : Function.Injective C)
    (he : Function.Bijective e)
    (hedge : ∀ t, (U (e t) = C t ∧ V (e t) = C (t + 1)) ∨
      (U (e t) = C (t + 1) ∧ V (e t) = C t)) :
    ExactlyTwo U ∧ ExactlyTwo V ∧ SingleCycle U V := by
  have hpar : ∀ a b, U a ≠ V b := fun a b h => by
    have := hU a; have := hV b; omega
  refine ⟨exactlyTwo_of_cycle U V C e hpar hC he hedge,
    exactlyTwo_of_cycle V U C e (fun a b h => hpar b a h.symm) hC he (fun t => ?_),
    e, he, fun t => ?_⟩
  · rcases hedge t with ⟨h1, h2⟩ | ⟨h1, h2⟩
    · exact Or.inr ⟨h2, h1⟩
    · exact Or.inl ⟨h2, h1⟩
  · rcases hedge t with ⟨_, h2⟩ | ⟨h1, _⟩
    · right
      rcases hedge (t + 1) with ⟨h3, _⟩ | ⟨_, h4⟩
      · exact absurd (h3.trans h2.symm) (hpar _ _)
      · rw [h2, h4]
    · left
      rcases hedge (t + 1) with ⟨h3, _⟩ | ⟨_, h4⟩
      · rw [h1, h3]
      · exact absurd (h1.trans h4.symm) (hpar _ _)

end cuckoo

namespace cuckoo

/-! ### The solver: the proof built by `solution` -/

theorem fin42_succ_val (t : Fin 42) : (t + 1).val = if t.val = 41 then 0 else t.val + 1 := by
  rw [Fin.val_add]
  have : (1 : Fin 42).val = 1 := rfl
  rw [this]
  split <;> omega

/-- Each inserted pair joins a node of the cycle to the next one. -/
theorem cycle_pair_joins (us vs : List Nat) (nu1 nv1 : Nat) (h42 : nu1 + nv1 + 1 = 42)
    (hmeet : us.getD nu1 0 = vs.getD nv1 0) (t : Fin 42) :
    ((cycle_pair us vs nu1 t.val).1 = cycle_node us vs nu1 t.val ∧
      (cycle_pair us vs nu1 t.val).2 = cycle_node us vs nu1 (t + 1).val) ∨
    ((cycle_pair us vs nu1 t.val).1 = cycle_node us vs nu1 (t + 1).val ∧
      (cycle_pair us vs nu1 t.val).2 = cycle_node us vs nu1 t.val) := by
  have htl := t.isLt
  have hCv : ∀ s, nu1 ≤ s → s ≤ 41 → cycle_node us vs nu1 s = vs.getD (41 - s) 0 := by
    intro s h1 h2
    simp only [cycle_node]
    split
    · have : s = nu1 := by omega
      subst this
      have : 41 - s = nv1 := by omega
      rw [this, hmeet]
    · rfl
  have hCu : ∀ s, s ≤ nu1 → cycle_node us vs nu1 s = us.getD s 0 := by
    intro s h1
    simp only [cycle_node, if_pos h1]
  rw [fin42_succ_val]
  by_cases h1 : t.val < nu1
  · have hne : t.val ≠ 41 := by omega
    rw [if_neg hne, hCu _ (by omega), hCu _ (by omega)]
    simp only [cycle_pair, if_pos h1]
    by_cases hp : t.val % 2 = 0
    · left
      have e1 : 2 * ((t.val + 1) / 2) = t.val := by omega
      have e2 : 2 * (t.val / 2) + 1 = t.val + 1 := by omega
      rw [e1, e2]; exact ⟨rfl, rfl⟩
    · right
      have e1 : 2 * ((t.val + 1) / 2) = t.val + 1 := by omega
      have e2 : 2 * (t.val / 2) + 1 = t.val := by omega
      rw [e1, e2]; exact ⟨rfl, rfl⟩
  · by_cases h2 : t.val < 41
    · have hne : t.val ≠ 41 := by omega
      rw [if_neg hne, hCv _ (by omega) (by omega), hCv _ (by omega) (by omega)]
      simp only [cycle_pair, if_neg h1, if_pos h2]
      by_cases hp : (40 - t.val) % 2 = 0
      · left
        have e1 : 2 * ((40 - t.val) / 2) + 1 = 41 - t.val := by omega
        have e2 : 2 * ((40 - t.val + 1) / 2) = 41 - (t.val + 1) := by omega
        rw [e1, e2]; exact ⟨rfl, rfl⟩
      · right
        have e1 : 2 * ((40 - t.val) / 2) + 1 = 41 - (t.val + 1) := by omega
        have e2 : 2 * ((40 - t.val + 1) / 2) = 41 - t.val := by omega
        rw [e1, e2]; exact ⟨rfl, rfl⟩
    · have he : t.val = 41 := by omega
      rw [if_pos he, hCu 0 (by omega), hCv _ (by omega) (by omega)]
      simp only [cycle_pair, if_neg h1, if_neg h2]
      right
      have : 41 - t.val = 0 := by omega
      rw [this]; simp

/-- The set built by `solution` holds exactly the 42 pairs of the cycle. -/
theorem mem_cycle_set (us vs : List Nat) (nu1 nv1 : Nat) (h42 : nu1 + nv1 + 1 = 42)
    (p : Nat × Nat) :
    p ∈ insert_vs vs nv1 (insert_us us nu1 [(us.getD 0 0, vs.getD 0 0)]) ↔
      ∃ t : Fin 42, cycle_pair us vs nu1 t.val = p := by
  have hnd0 : [(us.getD 0 0, vs.getD 0 0)].Nodup := List.nodup_singleton _
  obtain ⟨hnd1, hm1⟩ := insert_us_spec us nu1 _ hnd0
  obtain ⟨_, hm2⟩ := insert_vs_spec vs nv1 _ hnd1
  rw [hm2, hm1, List.mem_singleton]
  constructor
  · rintro ((rfl | ⟨k, hk, rfl⟩) | ⟨k, hk, rfl⟩)
    · refine ⟨⟨41, by omega⟩, ?_⟩
      simp only [cycle_pair]
      rw [if_neg (by omega), if_neg (by omega)]
    · refine ⟨⟨k, by omega⟩, ?_⟩
      simp only [cycle_pair]
      rw [if_pos hk]
    · refine ⟨⟨40 - k, by omega⟩, ?_⟩
      simp only [cycle_pair]
      rw [if_neg (by omega), if_pos (by omega)]
      have : 40 - (40 - k) = k := by omega
      rw [this]
  · rintro ⟨t, rfl⟩
    have htl := t.isLt
    simp only [cycle_pair]
    by_cases h1 : t.val < nu1
    · rw [if_pos h1]
      exact Or.inl (Or.inr ⟨t.val, h1, rfl⟩)
    · rw [if_neg h1]
      by_cases h2 : t.val < 41
      · rw [if_pos h2]
        exact Or.inr ⟨40 - t.val, by omega, rfl⟩
      · rw [if_neg h2]
        exact Or.inl (Or.inl rfl)

end cuckoo
namespace cuckoo

/-- The 42 pairs that `solution` inserts are pairwise different when the 42 nodes of the
cycle are. -/
theorem cycle_pair_injective (us vs : List Nat) (nu1 nv1 : Nat) (h42 : nu1 + nv1 + 1 = 42)
    (hmeet : us.getD nu1 0 = vs.getD nv1 0)
    (hinj : ∀ s t : Fin 42, cycle_node us vs nu1 s.val = cycle_node us vs nu1 t.val → s = t) :
    Function.Injective (fun t : Fin 42 => cycle_pair us vs nu1 t.val) := by
  intro s t hst
  simp only at hst
  have hs := cycle_pair_joins us vs nu1 nv1 h42 hmeet s
  have ht := cycle_pair_joins us vs nu1 nv1 h42 hmeet t
  rw [hst] at hs
  rcases hs with ⟨a1, a2⟩ | ⟨a1, a2⟩ <;> rcases ht with ⟨b1, b2⟩ | ⟨b1, b2⟩
  · exact hinj s t (a1.symm.trans b1)
  · have e1 := hinj s (t + 1) (a1.symm.trans b1)
    have e2 := hinj (s + 1) t (a2.symm.trans b2)
    exfalso
    rw [e1] at e2
    exact fin42_succ_succ_ne t e2
  · have e1 := hinj (s + 1) t (a1.symm.trans b1)
    have e2 := hinj s (t + 1) (a2.symm.trans b2)
    exfalso
    rw [e2] at e1
    exact fin42_succ_succ_ne t e1
  · have e1 := hinj (s + 1) (t + 1) (a1.symm.trans b1)
    exact add_right_cancel e1

/-- The result of `solution` on two paths that close a cycle of 42 different nodes, each of
whose 42 steps is the edge of a nonce below `easiness`. -/
theorem solution_good_core (ctx : CContext) (us vs : List Nat) (nu1 nv1 : Nat)
    (h42 : nu1 + nv1 + 1 = 42) (hmeet : us.getD nu1 0 = vs.getD nv1 0)
    (hinj : ∀ s t : Fin 42, cycle_node us vs nu1 s.val = cycle_node us vs nu1 t.val → s = t)
    (hedges : ∀ t : Fin 42, ∃ m, m < ctx.easiness ∧
      ctx.edge_of m = cycle_pair us vs nu1 t.val) :
    GoodProof ctx (ctx.solution us nu1 vs nv1) := by
  have hpinj := cycle_pair_injective us vs nu1 nv1 h42 hmeet hinj
  have hnd0 : [(us.getD 0 0, vs.getD 0 0)].Nodup := List.nodup_singleton _
  obtain ⟨hnd1, _⟩ := insert_us_spec us nu1 _ hnd0
  obtain ⟨hS0nd, _⟩ := insert_vs_spec vs nv1 _ hnd1
  have hmem := mem_cycle_set us vs nu1 nv1 h42
  generalize hS0 : insert_vs vs nv1 (insert_us us nu1 [(us.getD 0 0, vs.getD 0 0)]) = S0
    at hS0nd hmem
  have hperm : S0.Perm (List.ofFn (fun t : Fin 42 => cycle_pair us vs nu1 t.val)) := by
    refine (List.perm_ext_iff_of_nodup hS0nd (List.nodup_ofFn.2 hpinj)).2 (fun p => ?_)
    rw [hmem, List.mem_ofFn]
    rfl
  have hlen : S0.length = 42 := by rw [hperm.length_eq, List.length_ofFn]
  have hscan := solution_scan_spec ctx S0 ctx.easiness ctx.easiness 0 S0 [] 0 (by omega) hS0nd
    rfl (by simp [hlen]) (by omega)
    (fun p hp => by
      obtain ⟨t, ht⟩ := (hmem p).1 hp
      obtain ⟨m, hm, he⟩ := hedges t
      exact ⟨m, Nat.zero_le _, hm, he.trans ht⟩)
    List.Pairwise.nil (by simp) (by simp) (by simp) (fun p hp => hp)
  have hsol : ctx.solution us nu1 vs nv1 = solution_scan ctx ctx.easiness 0 S0 [] 0 := by
    simp only [CContext.solution, hS0]
  rw [hsol]
  generalize solution_scan ctx ctx.easiness 0 S0 [] 0 = sol at hscan
  obtain ⟨hl, hpw, hlt, hnd, hin⟩ := hscan
  have hsub : sol.map ctx.edge_of ⊆ S0 := by
    intro p hp
    obtain ⟨n, hn, rfl⟩ := List.mem_map.1 hp
    exact hin n hn
  have hperm2 : (sol.map ctx.edge_of).Perm S0 :=
    (List.subperm_of_subset hnd hsub).perm_of_length_le (by simp [hl, hlen])
  have hex : ∀ t : Fin 42, ∃ a : Fin 42,
      ctx.edge_of (sol.getD a.val 0) = cycle_pair us vs nu1 t.val := by
    intro t
    have h1 : cycle_pair us vs nu1 t.val ∈ S0 := (hmem _).2 ⟨t, rfl⟩
    have h2 := hperm2.symm.subset h1
    obtain ⟨n, hn, he⟩ := List.mem_map.1 h2
    obtain ⟨i, hi, hie⟩ := List.mem_iff_getElem.1 hn
    refine ⟨⟨i, by omega⟩, ?_⟩
    simp only
    rw [List.getD_eq_getElem _ _ hi, hie, he]
  choose e he using hex
  have heinj : Function.Injective e := by
    intro s t hst
    apply hpinj
    simp only
    rw [← he s, ← he t, hst]
  have hebij : Function.Bijective e := Finite.injective_iff_bijective.1 heinj
  have hgood := cycle_edges_good (fun a : Fin 42 => ctx.node_u (sol.getD a.val 0))
    (fun a : Fin 42 => ctx.node_v (sol.getD a.val 0))
    (fun t : Fin 42 => cycle_node us vs nu1 t.val) e
    (fun a => node_u_even ctx _) (fun a => node_v_odd ctx _)
    (fun s t h => hinj s t h) hebij
    (fun t => by
      have hj := cycle_pair_joins us vs nu1 nv1 h42 hmeet t
      rw [← he t] at hj
      exact hj)
  exact ⟨hl, hpw, hlt, hgood.1, hgood.2.1, hgood.2.2⟩

end cuckoo
namespace cuckoo

/-- Every step of a path in the forest is the edge of a nonce already tried. -/
theorem path_steps {ctx : CContext} {f : Nat → Nat} {N : Nat} (hF : ForestOfEdges ctx f N)
    {u : Nat} {l : List Nat} (hp : IsPath f u l) :
    ∀ k, k + 1 < l.length → ∃ m, m < N ∧
      ((l.getD k 0 = ctx.node_u m ∧ l.getD (k + 1) 0 = ctx.node_v m) ∨
       (l.getD k 0 = ctx.node_v m ∧ l.getD (k + 1) 0 = ctx.node_u m)) := by
  intro k hk
  obtain ⟨h1, h2⟩ := hp.links k hk
  obtain ⟨m, hm, _, hcase⟩ := hF.2 (l.getD k 0) (by rw [h1]; exact h2)
  rw [h1] at hcase
  exact ⟨m, hm, hcase⟩

/-- The nodes of a path in the forest alternate between the two sides. -/
theorem path_parity {ctx : CContext} {f : Nat → Nat} {N : Nat} (hF : ForestOfEdges ctx f N)
    {u : Nat} {l : List Nat} (hp : IsPath f u l) :
    ∀ k, k < l.length → l.getD k 0 % 2 = (l.getD 0 0 + k) % 2 := by
  intro k
  induction k with
  | zero => intro _; simp
  | succ k ih =>
    intro hk
    have h1 := ih (by omega)
    obtain ⟨m, _, hcase⟩ := path_steps hF hp k hk
    have hu := node_u_even ctx m
    have hv := node_v_odd ctx m
    rcases hcase with ⟨a, b⟩ | ⟨a, b⟩
    · rw [a] at h1; rw [b]; omega
    · rw [a] at h1; rw [b]; omega

/-- Every step of a path in the forest, read as the pair (U node, V node), is the pair of
endpoints of a nonce already tried. -/
theorem path_step_edge {ctx : CContext} {f : Nat → Nat} {N : Nat} (hF : ForestOfEdges ctx f N)
    {u : Nat} {l : List Nat} (hp : IsPath f u l) :
    ∀ k, k + 1 < l.length → ∃ m, m < N ∧
      ((l.getD k 0 % 2 = 0 → ctx.edge_of m = (l.getD k 0, l.getD (k + 1) 0)) ∧
       (l.getD k 0 % 2 = 1 → ctx.edge_of m = (l.getD (k + 1) 0, l.getD k 0))) := by
  intro k hk
  obtain ⟨m, hm, hcase⟩ := path_steps hF hp k hk
  have hu := node_u_even ctx m
  have hv := node_v_odd ctx m
  refine ⟨m, hm, ?_, ?_⟩
  · intro he
    rcases hcase with ⟨a, b⟩ | ⟨a, b⟩
    · simp only [CContext.edge_of, a, b]
    · rw [a] at he; omega
  · intro ho
    rcases hcase with ⟨a, b⟩ | ⟨a, b⟩
    · rw [a] at ho; omega
    · simp only [CContext.edge_of, a, b]

/-- The buffer filled by `path` from the back-pointer of a non-nil node `u0`, started with
`u0` itself, is the path from `u0`. -/
theorem path_from_node {f : Nat → Nat} {fuel u0 : Nat} {us : List Nat} (hu0 : u0 ≠ 0)
    (h : path f fuel (f u0) [u0] = .ok us) : IsPath f u0 us ∧ us.getD 0 0 = u0 := by
  obtain ⟨l, hl, hp⟩ := path_ok f fuel (f u0) [u0] us h
  subst hl
  exact ⟨⟨rfl, hu0, hp⟩, rfl⟩

end cuckoo
namespace cuckoo

/-- The nonce that closes a cycle of length 42: the two paths from its endpoints, trimmed
to where they meet, hold 42 different nodes, and every step is the edge of a nonce tried
so far, so `solution` returns a good proof. -/
theorem closing_nonce_good (ctx : CContext) (f : Nat → Nat) (N : Nat)
    (hF : ForestOfEdges ctx f N) (hN : N < ctx.easiness) (hu0 : ctx.node_u N ≠ 0)
    (us vs : List Nat) (fuel1 fuel2 : Nat)
    (hus : path f fuel1 (f (ctx.node_u N)) [ctx.node_u N] = .ok us)
    (hvs : path f fuel2 (f (ctx.node_v N)) [ctx.node_v N] = .ok vs)
    (hroot : us.getD (us.length - 1) 0 = vs.getD (vs.length - 1) 0)
    (m : Nat) (hm : m = if us.length - 1 < vs.length - 1 then us.length - 1 else vs.length - 1)
    (fuel3 nu1 nv1 : Nat)
    (htrim : trim_paths us vs fuel3 (us.length - 1 - m) (vs.length - 1 - m) = some (nu1, nv1))
    (h42 : nu1 + nv1 + 1 = 42) :
    GoodProof ctx (ctx.solution us nu1 vs nv1) := by
  have hv0 : ctx.node_v N ≠ 0 := by have := node_v_odd ctx N; omega
  obtain ⟨hpu, hu00⟩ := path_from_node hu0 hus
  obtain ⟨hpv, hv00⟩ := path_from_node hv0 hvs
  obtain ⟨hiu, hzu⟩ := IsPath.iterate us _ hpu
  obtain ⟨hiv, hzv⟩ := IsPath.iterate vs _ hpv
  have hlu : 1 ≤ us.length := by
    cases us with
    | nil => exact absurd hpu hu0
    | cons _ _ => simp
  have hlv : 1 ≤ vs.length := by
    cases vs with
    | nil => exact absurd hpv hv0
    | cons _ _ => simp
  obtain ⟨d, hd1, hd2, hmeet, hdiff⟩ := trim_paths_spec us vs fuel3 _ _ _ _ htrim
  have hml : m ≤ us.length - 1 ∧ m ≤ vs.length - 1 ∧
      (m = us.length - 1 ∨ m = vs.length - 1) := by
    rw [hm]; split <;> omega
  have hdm : d ≤ m := by
    by_contra hc
    have := hdiff m (by omega)
    rw [show us.length - 1 - m + m = us.length - 1 by omega,
      show vs.length - 1 - m + m = vs.length - 1 by omega] at this
    exact this hroot
  have hnu : nu1 ≤ us.length - 1 := by omega
  have hnv : nv1 ≤ vs.length - 1 := by omega
  have hf0 : f 0 = 0 := hF.1
  -- the 42 nodes are different
  have hinj : ∀ s t : Fin 42,
      cycle_node us vs nu1 s.val = cycle_node us vs nu1 t.val → s = t := by
    have huu : ∀ i j, i < j → j < us.length → us.getD i 0 ≠ us.getD j 0 := by
      intro i j hij hj
      rw [(hiu i (by omega)).1, (hiu j hj).1]
      exact orbit_injective hzu (fun k hk => (hiu k hk).2) i j hij hj
    have hvv : ∀ i j, i < j → j < vs.length → vs.getD i 0 ≠ vs.getD j 0 := by
      intro i j hij hj
      rw [(hiv i (by omega)).1, (hiv j hj).1]
      exact orbit_injective hzv (fun k hk => (hiv k hk).2) i j hij hj
    have huv : ∀ i j, i ≤ nu1 → j < nv1 → us.getD i 0 ≠ vs.getD j 0 := by
      intro i j hi hj e
      have e2 := e
      rw [(hiu i (by omega)).1, (hiv j (by omega)).1] at e2
      have hal := orbits_aligned hf0 hzu (fun k hk => (hiu k hk).2) hzv
        (fun k hk => (hiv k hk).2) (by omega : i < us.length) (by omega : j < vs.length) e2
      have hk : j - (vs.length - 1 - m) < d := by omega
      have := hdiff (j - (vs.length - 1 - m)) hk
      rw [show us.length - 1 - m + (j - (vs.length - 1 - m)) = i by omega,
        show vs.length - 1 - m + (j - (vs.length - 1 - m)) = j by omega] at this
      exact this e
    intro s t h
    have hs := s.isLt
    have ht := t.isLt
    simp only [cycle_node] at h
    apply Fin.ext
    by_cases h1 : s.val ≤ nu1 <;> by_cases h2 : t.val ≤ nu1
    · rw [if_pos h1, if_pos h2] at h
      by_contra hne
      rcases Nat.lt_or_gt_of_ne hne with hl | hl
      · exact huu _ _ hl (by omega) h
      · exact huu _ _ hl (by omega) h.symm
    · rw [if_pos h1, if_neg h2] at h
      exact absurd h (huv _ _ h1 (by omega))
    · rw [if_neg h1, if_pos h2] at h
      exact absurd h.symm (huv _ _ h2 (by omega))
    · rw [if_neg h1, if_neg h2] at h
      by_contra hne
      rcases Nat.lt_or_gt_of_ne hne with hl | hl
      · exact hvv (41 - t.val) (41 - s.val) (by omega) (by omega) h.symm
      · exact hvv (41 - s.val) (41 - t.val) (by omega) (by omega) h
  -- every step is the edge of a nonce
  have hedges : ∀ t : Fin 42, ∃ n, n < ctx.easiness ∧
      ctx.edge_of n = cycle_pair us vs nu1 t.val := by
    intro t
    have ht := t.isLt
    simp only [cycle_pair]
    by_cases h1 : t.val < nu1
    · rw [if_pos h1]
      obtain ⟨n, hn, he, ho⟩ := path_step_edge hF hpu t.val (by omega)
      have hpar := path_parity hF hpu t.val (by omega)
      rw [hu00] at hpar
      have hu := node_u_even ctx N
      refine ⟨n, by omega, ?_⟩
      rcases Nat.mod_two_eq_zero_or_one t.val with hte | hto
      · rw [he (by omega)]
        rw [show 2 * ((t.val + 1) / 2) = t.val by omega,
          show 2 * (t.val / 2) + 1 = t.val + 1 by omega]
      · rw [ho (by omega)]
        rw [show 2 * ((t.val + 1) / 2) = t.val + 1 by omega,
          show 2 * (t.val / 2) + 1 = t.val by omega]
    · rw [if_neg h1]
      by_cases h2 : t.val < 41
      · rw [if_pos h2]
        obtain ⟨n, hn, he, ho⟩ := path_step_edge hF hpv (40 - t.val) (by omega)
        have hpar := path_parity hF hpv (40 - t.val) (by omega)
        rw [hv00] at hpar
        have hv := node_v_odd ctx N
        refine ⟨n, by omega, ?_⟩
        rcases Nat.mod_two_eq_zero_or_one (40 - t.val) with hte | hto
        · rw [ho (by omega)]
          rw [show 2 * ((40 - t.val) / 2) + 1 = 40 - t.val + 1 by omega,
            show 2 * ((40 - t.val + 1) / 2) = 40 - t.val by omega]
        · rw [he (by omega)]
          rw [show 2 * ((40 - t.val) / 2) + 1 = 40 - t.val by omega,
            show 2 * ((40 - t.val + 1) / 2) = 40 - t.val + 1 by omega]
      · rw [if_neg h2]
        exact ⟨N, hN, by simp only [CContext.edge_of, hu00, hv00]⟩
  exact solution_good_core ctx us vs nu1 nv1 h42 hmeet hinj hedges

end cuckoo
namespace cuckoo
open verify_code

/-- Every proof returned by the loop of `GetNextSolution`, started on a forest of the edges
of the nonces below `N`, is a good proof. -/
theorem GetNextSolution_loop_good (ctx : CContext) :
    ∀ fuel f N sol c n, ForestOfEdges ctx f N → N + fuel = ctx.easiness →
      GetNextSolution_loop ctx fuel f N = some (solve_result.proof sol, c, n) →
      GoodProof ctx sol := by
  intro fuel
  induction fuel with
  | zero => intro f N sol c n _ _ h; simp [GetNextSolution_loop] at h
  | succ fuel ih =>
    intro f N sol c n hF hE h
    simp only [GetNextSolution_loop] at h
    split at h
    · exact ih _ _ _ _ _ hF.mono (by omega) h
    · rename_i hu0
      split at h
      · simp at h
      · rename_i us hus
        split at h
        · simp at h
        · rename_i vs hvs
          have hv0 : ctx.node_v N ≠ 0 := by have := node_v_odd ctx N; omega
          have hpu := (path_from_node hu0 hus).1
          have hpv := (path_from_node hv0 hvs).1
          split at h
          · rename_i hroot
            split at h
            · simp at h
            · rename_i nu1 nv1 htrim
              split at h
              · rename_i h42
                simp only [Option.some.injEq, Prod.mk.injEq, solve_result.proof.injEq] at h
                obtain ⟨hsol, _, _⟩ := h
                subst hsol
                exact closing_nonce_good ctx f N hF (by omega) hu0 us vs _ _ hus hvs hroot _ rfl
                  _ nu1 nv1 htrim h42
              · exact ih _ _ _ _ _ hF.mono (by omega) h
          · split at h
            · refine ih _ _ _ _ _ (hF.graft_u hu0 us (us.length - 1) (fun k hk => ?_))
                (by omega) h
              exact hpu.links k (by omega)
            · refine ih _ _ _ _ _ (hF.graft_v hu0 vs (vs.length - 1) (fun k hk => ?_))
                (by omega) h
              exact hpv.links k (by omega)

/-- A strictly ascending list of 42 entries, read by index. -/
theorem pairwise_getD (sol : List Nat) (hl : sol.length = 42) (hp : sol.Pairwise (· < ·)) :
    ∀ m, m ≠ 0 → m < 42 → sol.getD (m - 1) 0 < sol.getD m 0 := by
  intro m h0 hm
  rw [List.getD_eq_getElem _ _ (by omega), List.getD_eq_getElem _ _ (by omega)]
  exact List.pairwise_iff_getElem.1 hp (m - 1) m (by omega) (by omega) (by omega)

/-- C1, round trip: for every header and every graph size in 1..31, if `GetNextSolution`,
called after `SetHeader` on that header, returns a proof, then `verify` on that proof with
the key bytes that `hash_blockheader` produces for the same header and with the same graph
size returns `POW_OK`. -/
theorem solver_round_trip (D : Digests) (header : CBlockHeader) (graphSize : Nat)
    (hg1 : 1 ≤ graphSize) (hg2 : graphSize ≤ 31) (sol : List Nat)
    (h : (((CContext.create graphSize).SetHeader D header).GetNextSolution).map Prod.fst =
      some (solve_result.proof sol)) :
    verify sol (hash_blockheader D header) graphSize = some POW_OK := by
  have hne : (2 : Nat) ^ (graphSize - 1) ≤ 2 ^ 30 := Nat.pow_le_pow_right (by omega) (by omega)
  have hnedges : u32 (1 <<< (graphSize - 1)) = 2 ^ (graphSize - 1) := by
    simp only [u32, Nat.shiftLeft_eq, Nat.one_mul]
    exact Nat.mod_eq_of_lt (by omega)
  have hpow : 2 * 2 ^ (graphSize - 1) = 2 ^ graphSize := by
    rw [← Nat.pow_succ']
    congr 1; omega
  have heasy : ((CContext.create graphSize).SetHeader D header).easiness =
      nnodes_of graphSize := by
    simp only [CContext.SetHeader, CContext.create, hnedges, nnodes_of_eq graphSize hg2]
    rw [hpow]
    exact Nat.mod_eq_of_lt (Nat.pow_lt_pow_right (by omega) (by omega))
  have hmask : ((CContext.create graphSize).SetHeader D header).edgemask =
      edgemask_of graphSize := rfl
  have hkeys : ((CContext.create graphSize).SetHeader D header).sip_keys =
      siphash_setkeys (hash_blockheader D header) := rfl
  have hem : ((CContext.create graphSize).SetHeader D header).edgemask < 2 ^ 31 := by
    rw [hmask, edgemask_of_eq graphSize hg2]
    omega
  have hF : ForestOfEdges ((CContext.create graphSize).SetHeader D header) (fun _ => 0) 0 :=
    ⟨rfl, fun x hx => absurd rfl hx⟩
  have hc0 : ((CContext.create graphSize).SetHeader D header).cuckoo = fun _ => 0 := rfl
  have hn0 : ((CContext.create graphSize).SetHeader D header).nonce = 0 := rfl
  generalize (CContext.create graphSize).SetHeader D header = ctx
    at h heasy hmask hkeys hem hF hc0 hn0
  simp only [CContext.GetNextSolution, hc0, hn0] at h
  cases hloop : GetNextSolution_loop ctx (ctx.easiness - 0) (fun _ => 0) 0 with
  | none => rw [hloop] at h; simp at h
  | some r =>
    obtain ⟨res, c, n⟩ := r
    rw [hloop] at h
    simp only [Option.map_some', Option.some.injEq] at h
    subst h
    obtain ⟨hl, hpw, hlt, h2u, h2v, hcyc⟩ :=
      GetNextSolution_loop_good ctx _ _ _ _ _ _ hF (by omega) hloop
    have eu : (fun a : Fin 42 => ctx.node_u (sol.getD a.val 0)) =
        edge_u (siphash_setkeys (hash_blockheader D header)) (edgemask_of graphSize) sol := by
      funext a
      rw [node_u_eq_sipnode ctx hem, hkeys, hmask]
      rfl
    have ev : (fun a : Fin 42 => ctx.node_v (sol.getD a.val 0)) =
        edge_v (siphash_setkeys (hash_blockheader D header)) (edgemask_of graphSize) sol := by
      funext a
      rw [node_v_eq_sipnode ctx hem, hkeys, hmask]
      rfl
    rw [eu] at h2u
    rw [ev] at h2v
    rw [eu, ev] at hcyc
    have hr : InRangeAscending (nnodes_of graphSize) sol 0 42 := by
      intro m _ hm
      refine ⟨?_, fun h0 => pairwise_getD sol hl hpw m h0 (by omega)⟩
      rw [← heasy, List.getD_eq_getElem _ _ (by omega)]
      exact le_of_lt (hlt _ (List.getElem_mem _))
    exact (verify_ok_iff sol (hash_blockheader D header) graphSize).2
      ⟨hr, h2u, h2v, hcyc.alternating h2u h2v⟩

end cuckoo
namespace cuckoo

/-- The loop of `GetNextSolution` reads the context only through the keys, the edge mask
and `easiness`. -/
theorem GetNextSolution_loop_congr (ctx ctx2 : CContext) (h1 : ctx2.sip_keys = ctx.sip_keys)
    (h2 : ctx2.edgemask = ctx.edgemask) (h3 : ctx2.easiness = ctx.easiness) :
    ∀ fuel cuckoo nonce,
      GetNextSolution_loop ctx2 fuel cuckoo nonce = GetNextSolution_loop ctx fuel cuckoo nonce := by
  have hu : ∀ n, ctx2.node_u n = ctx.node_u n := by
    intro n; simp only [CContext.node_u, CContext._sipnode, h1, h2]
  have hv : ∀ n, ctx2.node_v n = ctx.node_v n := by
    intro n; simp only [CContext.node_v, CContext._sipnode, h1, h2]
  have hscan : ∀ fuel n cycle nonces found,
      solution_scan ctx2 fuel n cycle nonces found =
        solution_scan ctx fuel n cycle nonces found := by
    intro fuel
    induction fuel with
    | zero => intros; rfl
    | succ fuel ih =>
      intro n cycle nonces found
      simp only [solution_scan, hu, hv, ih]
  have hsol : ∀ us nu vs nv, ctx2.solution us nu vs nv = ctx.solution us nu vs nv := by
    intro us nu vs nv
    simp only [CContext.solution, hscan, h3]
  intro fuel
  induction fuel with
  | zero => intros; rfl
  | succ fuel ih =>
    intro cuckoo nonce
    simp only [GetNextSolution_loop, hu, hv, hsol, ih]

/-- When the loop of `GetNextSolution` returns a proof it leaves the array and the nonce
as they were when the closing nonce was reached, so that running it again from there
returns the same proof and leaves the same state. -/
theorem GetNextSolution_loop_repeats (ctx : CContext) :
    ∀ fuel cuckoo nonce sol c n,
      GetNextSolution_loop ctx fuel cuckoo nonce = some (solve_result.proof sol, c, n) →
        nonce ≤ n ∧ n < nonce + fuel ∧
        ∀ fuel2, GetNextSolution_loop ctx (fuel2 + 1) c n = some (solve_result.proof sol, c, n) := by
  intro fuel
  induction fuel with
  | zero => intro cuckoo nonce sol c n h; simp [GetNextSolution_loop] at h
  | succ fuel ih =>
    intro cuckoo nonce sol c n h
    have hrec : ∀ cuckoo2,
        GetNextSolution_loop ctx fuel cuckoo2 (nonce + 1) = some (solve_result.proof sol, c, n) →
        nonce ≤ n ∧ n < nonce + (fuel + 1) ∧
        ∀ fuel2, GetNextSolution_loop ctx (fuel2 + 1) c n =
          some (solve_result.proof sol, c, n) := by
      intro cuckoo2 h2
      obtain ⟨a, b, c3⟩ := ih _ _ _ _ _ h2
      exact ⟨by omega, by omega, c3⟩
    simp only [GetNextSolution_loop] at h
    split at h
    · exact hrec _ h
    · rename_i hu0
      split at h
      · simp at h
      · rename_i us hus
        split at h
        · simp at h
        · rename_i vs hvs
          split at h
          · rename_i hmeet
            split at h
            · simp at h
            · rename_i nu1 nv1 htrim
              split at h
              · rename_i h42
                simp only [Option.some.injEq, Prod.mk.injEq, solve_result.proof.injEq] at h
                obtain ⟨hsol, hc, hn⟩ := h
                subst hc; subst hn; subst hsol
                refine ⟨le_refl _, by omega, fun fuel2 => ?_⟩
                simp only [GetNextSolution_loop, if_neg hu0, hus, hvs, if_pos hmeet, htrim,
                  if_pos h42]
              · exact hrec _ h
          · split at h
            · exact hrec _ h
            · exact hrec _ h

/-- C20 at the code: a call of `GetNextSolution` that returns a proof leaves the member
`nonce` at the nonce that closed the cycle (the `return` inside the `for` loop skips its
`nonce++`) and the array unchanged by that nonce, so the next call examines the same nonce
again and returns the same proof, leaving the same state: every later call does, and
`nullptr` is never returned. -/
theorem GetNextSolution_repeats (ctx : CContext) (sol : List Nat)
    (h : (ctx.GetNextSolution).map Prod.fst = some (solve_result.proof sol)) :
    ∃ ctx1, ctx.GetNextSolution = some (solve_result.proof sol, ctx1) ∧
      ctx.nonce ≤ ctx1.nonce ∧ ctx1.nonce < ctx.easiness ∧
      ctx1.GetNextSolution = some (solve_result.proof sol, ctx1) := by
  simp only [CContext.GetNextSolution] at h ⊢
  cases hloop : GetNextSolution_loop ctx (ctx.easiness - ctx.nonce) ctx.cuckoo ctx.nonce with
  | none => rw [hloop] at h; simp at h
  | some r =>
    obtain ⟨res, c, n⟩ := r
    rw [hloop] at h
    simp only [Option.map_some', Option.some.injEq] at h
    subst h
    obtain ⟨h1, h2, h3⟩ := GetNextSolution_loop_repeats ctx _ _ _ _ _ _ hloop
    refine ⟨{ ctx with cuckoo := c, nonce := n }, rfl, h1, by simp only; omega, ?_⟩
    rw [GetNextSolution_loop_congr ctx { ctx with cuckoo := c, nonce := n } rfl rfl rfl]
    have hf : ctx.easiness - n = (ctx.easiness - n - 1) + 1 := by omega
    simp only
    rw [hf, h3]
    rfl

end cuckoo

namespace cuckoo

/-! ### The solver and the verifier work on the same graph -/

/-- C33, solver and verifier agree on the graph: for every graph size in 1..31 the
constructor of the solver context computes the `nnodes`, `nedges` and `edgemask` that
`verify` computes from the same graph size, and for every key and every nonce the solver's
endpoints `2*_sipnode(nonce, 0)` and `2*_sipnode(nonce, 1)+1` are the verifier's
`sipnode(key, nonce, 0, edgemask)` and `sipnode(key, nonce, 1, edgemask)`. -/
theorem solver_verifier_same_graph (graphSize : Nat) (hg1 : 1 ≤ graphSize)
    (hg2 : graphSize ≤ 31) (keys : siphash_keys) (nonce : Nat) :
    (CContext.create graphSize).nnodes = nnodes_of graphSize ∧
    (CContext.create graphSize).nedges = nedges_of graphSize ∧
    (CContext.create graphSize).edgemask = edgemask_of graphSize ∧
    CContext.node_u { CContext.create graphSize with sip_keys := keys } nonce =
      sipnode keys nonce 0 (edgemask_of graphSize) ∧
    CContext.node_v { CContext.create graphSize with sip_keys := keys } nonce =
      sipnode keys nonce 1 (edgemask_of graphSize) := by
  have hne : (2 : Nat) ^ (graphSize - 1) ≤ 2 ^ 30 := Nat.pow_le_pow_right (by omega) (by omega)
  have hnedges : u32 (1 <<< (graphSize - 1)) = 2 ^ (graphSize - 1) := by
    simp only [u32, Nat.shiftLeft_eq, Nat.one_mul]
    exact Nat.mod_eq_of_lt (by omega)
  have hpow : 2 * 2 ^ (graphSize - 1) = 2 ^ graphSize := by
    rw [← Nat.pow_succ']
    congr 1; omega
  have hmask : (CContext.create graphSize).edgemask = edgemask_of graphSize := rfl
  have hem : edgemask_of graphSize < 2 ^ 31 := by
    rw [edgemask_of_eq graphSize hg2]
    omega
  refine ⟨?_, rfl, hmask, ?_, ?_⟩
  · simp only [CContext.create, hnedges, nnodes_of_eq graphSize hg2]
    rw [hpow]
    exact Nat.mod_eq_of_lt (Nat.pow_lt_pow_right (by omega) (by omega))
  · exact node_u_eq_sipnode { CContext.create graphSize with sip_keys := keys }
      (by show (CContext.create graphSize).edgemask < 2 ^ 31; rw [hmask]; exact hem) nonce
  · exact node_v_eq_sipnode { CContext.create graphSize with sip_keys := keys }
      (by show (CContext.create graphSize).edgemask < 2 ^ 31; rw [hmask]; exact hem) nonce

/-! ### The range of an accepted proof -/

/-- Entries that pass the order check at every index ascend strictly. -/
theorem inRangeAscending_lt (nnodes : Nat) (nonces : List Nat)
    (h : InRangeAscending nnodes nonces 0 42) :
    ∀ d a, a + d + 1 < 42 → nonces.getD a 0 < nonces.getD (a + d + 1) 0 := by
  intro d
  induction d with
  | zero =>
    intro a ha
    exact (h (a + 1) (by omega) (by omega)).2 (by omega)
  | succ d ih =>
    intro a ha
    have h1 := ih a (by omega)
    have h2 := (h (a + d + 1 + 1) (by omega) (by omega)).2 (by omega)
    have e : a + d + 1 + 1 - 1 = a + d + 1 := by omega
    rw [e] at h2
    have e2 : a + (d + 1) + 1 = a + d + 1 + 1 := by omega
    rw [e2]
    omega

/-- C35, range of an accepted proof: for every key and every graph size up to 31, if `verify`
returns `POW_OK` then the 42 entries are strictly ascending, every entry is at most
`nnodes = 2^graphSize`, and every entry but the last is below `nnodes`, so that only the
final entry can equal it. -/
theorem verify_ok_range (nonces buf : List Nat) (graphSize : Nat) (hg : graphSize ≤ 31)
    (h : verify nonces buf graphSize = some verify_code.POW_OK) :
    (∀ a b, a < b → b < 42 → nonces.getD a 0 < nonces.getD b 0) ∧
    (∀ m, m < 42 → nonces.getD m 0 ≤ 2 ^ graphSize) ∧
    (∀ m, m < 41 → nonces.getD m 0 < 2 ^ graphSize) ∧
    (∀ m, m < 42 → nonces.getD m 0 = 2 ^ graphSize → m = 41) := by
  have hr := ((verify_ok_iff nonces buf graphSize).1 h).1
  rw [nnodes_of_eq graphSize hg] at hr
  have hasc : ∀ a b, a < b → b < 42 → nonces.getD a 0 < nonces.getD b 0 := by
    intro a b hab hb
    have := inRangeAscending_lt _ nonces hr (b - a - 1) a (by omega)
    have e : a + (b - a - 1) + 1 = b := by omega
    rw [e] at this
    exact this
  have hle : ∀ m, m < 42 → nonces.getD m 0 ≤ 2 ^ graphSize :=
    fun m hm => (hr m (by omega) (by omega)).1
  have hlt : ∀ m, m < 41 → nonces.getD m 0 < 2 ^ graphSize := by
    intro m hm
    have h1 := hasc m 41 hm (by omega)
    have h2 := hle 41 (by omega)
    omega
  refine ⟨hasc, hle, hlt, fun m hm e => ?_⟩
  by_contra hne
  have := hlt m (by omega)
  omega

end cuckoo

/-! ### The window after the fork in `Midas` -/

/-- C37, Midas post-fork window: for every chain, candidate header and parameters, when the
height `h + 1` of the new block lies strictly between `CuckooHardForkBlockHeight` and
`CuckooHardForkBlockHeight + 50`, `Midas` returns the compact encoding of `cuckooPowLimit`,
whatever the timestamps, the previous bits and `fPowAllowMinDifficultyBlocks`; and so does
`GetNextWorkRequired` at the heights at which it selects `Midas`. -/
theorem Midas_post_fork_window (last : CBlockIndex) (rest : List CBlockIndex)
    (pblock : CBlockHeader) (params : Params)
    (h1 : params.CuckooHardForkBlockHeight < last.nHeight + 1)
    (h2 : last.nHeight + 1 < params.CuckooHardForkBlockHeight + 50) :
    Midas (last :: rest) pblock params = some (GetCompact params.cuckooPowLimit) ∧
    (params.nMinimumDifficultyBlocks ≤ last.nHeight →
      last.nHeight + 1 < params.nPowDGWHeight →
      params.midasStartHeight ≤ last.nHeight + 1 →
      GetNextWorkRequired (last :: rest) pblock params =
        some (GetCompact params.cuckooPowLimit)) := by
  have hM : Midas (last :: rest) pblock params = some (GetCompact params.cuckooPowLimit) := by
    have hge : last.nHeight + 1 ≥ params.CuckooHardForkBlockHeight := by omega
    have hgt : last.nHeight + 1 > params.CuckooHardForkBlockHeight := h1
    simp only [Midas, usedPowLimit, if_pos hge, if_pos (And.intro hgt h2)]
  refine ⟨hM, fun h3 h4 h5 => ?_⟩
  have n3 : ¬ last.nHeight < params.nMinimumDifficultyBlocks := by omega
  have n4 : ¬ last.nHeight + 1 ≥ params.nPowDGWHeight := by omega
  have p5 : last.nHeight + 1 ≥ params.midasStartHeight := h5
  simp only [GetNextWorkRequired, if_neg n3, if_neg n4, if_pos p5]
  exact hM

/-! ### Fee rates -/

/-- C38, fee-rate round trip: for every fee of at least 0 and every size `n` above 0 with
`fee * 1000` inside `int64_t`, the fee that `CFeeRate(fee, n).GetFee(n)` returns lies
between 0 and `fee`; and for every rate `r` and size `n` above 0 with `r * n` inside
`int64_t`, the fee that `GetFee(n)` returns is zero exactly when `r` is zero, at least 1
when `r` is positive and at most -1 when `r` is negative.  Both calls return whenever the
size passes their assertion `n <= 2^63 - 1`. -/
theorem CFeeRate_round_trip (fee r : Int) (n : Nat) (hfee : 0 ≤ fee) (hn : 0 < n)
    (hfit : fits_int64 (fee * 1000) = true) (hrn : fits_int64 (r * n) = true) :
    (∀ x, (CFeeRate.from_fee fee n).bind (fun rate => rate.GetFee n) = some x →
      0 ≤ x ∧ x ≤ fee) ∧
    (n ≤ 2 ^ 63 - 1 →
      ∃ x, (CFeeRate.from_fee fee n).bind (fun rate => rate.GetFee n) = some x) ∧
    (∀ x, (CFeeRate.mk r).GetFee n = some x →
      (x = 0 ↔ r = 0) ∧ (0 < r → 1 ≤ x) ∧ (r < 0 → x ≤ -1)) ∧
    (n ≤ 2 ^ 63 - 1 → ∃ x, (CFeeRate.mk r).GetFee n = some x) := by
  have hnz : (0 : Int) < (n : Int) := by exact_mod_cast hn
  have hnne : (n : Int) ≠ 0 := by omega
  have hfit2 : -(2 : Int) ^ 63 ≤ fee * 1000 ∧ fee * 1000 < (2 : Int) ^ 63 := by
    simpa [fits_int64] using hfit
  -- the rate of the round trip
  have hq0 : 0 ≤ Int.tdiv (fee * 1000) n := Int.tdiv_nonneg (by omega) (by omega)
  have hqe : Int.tdiv (fee * 1000) n = fee * 1000 / n :=
    Int.tdiv_eq_ediv (by omega) (by omega)
  have hqn : Int.tdiv (fee * 1000) n * n ≤ fee * 1000 := by
    rw [hqe]; exact Int.ediv_mul_le _ hnne
  have hqn0 : 0 ≤ Int.tdiv (fee * 1000) n * n := Int.mul_nonneg hq0 (by omega)
  have hfitq : fits_int64 (Int.tdiv (fee * 1000) n * n) = true := by
    simp only [fits_int64, decide_eq_true_eq]
    constructor <;> omega
  have hfe : Int.tdiv (Int.tdiv (fee * 1000) n * n) 1000 =
      Int.tdiv (fee * 1000) n * n / 1000 := Int.tdiv_eq_ediv hqn0 (by omega)
  have hf0 : 0 ≤ Int.tdiv (fee * 1000) n * n / 1000 := Int.ediv_nonneg hqn0 (by omega)
  have hfle : Int.tdiv (fee * 1000) n * n / 1000 ≤ fee := by
    have := Int.ediv_le_ediv (by omega : (0 : Int) < 1000) hqn
    rwa [Int.mul_ediv_cancel _ (by omega : (1000 : Int) ≠ 0)] at this
  have hfee1 : 0 < Int.tdiv (fee * 1000) n → 1 ≤ fee := by
    intro hpos
    by_contra hlt
    have hz : fee = 0 := by omega
    rw [hz] at hpos
    simp at hpos
  have hround : n ≤ 2 ^ 63 - 1 →
      ∃ x, (CFeeRate.from_fee fee n).bind (fun rate => rate.GetFee n) = some x ∧
        0 ≤ x ∧ x ≤ fee := by
    intro hsz
    simp only [CFeeRate.from_fee, if_pos hsz, gt_iff_lt, if_pos hnz, hfit, if_true,
      Option.some_bind, CFeeRate.GetFee, hfitq, hfe]
    split
    · rename_i hzero
      have hnotneg : ¬ Int.tdiv (fee * 1000) n < 0 := by omega
      rw [if_neg hnotneg]
      split
      · rename_i hpos
        exact ⟨1, rfl, by omega, hfee1 hpos⟩
      · exact ⟨_, rfl, hf0, hfle⟩
    · exact ⟨_, rfl, hf0, hfle⟩
  have hrate : n ≤ 2 ^ 63 - 1 →
      ∃ x, (CFeeRate.mk r).GetFee n = some x ∧
        (x = 0 ↔ r = 0) ∧ (0 < r → 1 ≤ x) ∧ (r < 0 → x ≤ -1) := by
    intro hsz
    simp only [CFeeRate.GetFee, if_pos hsz, hrn, if_true]
    rcases lt_trichotomy r 0 with hneg | hzero | hpos
    · have hprod : r * n < 0 := Int.mul_neg_of_neg_of_pos hneg hnz
      have hdiv : Int.tdiv (r * n) 1000 ≤ 0 := by
        have e : r * n = -(-(r * n)) := by ring
        rw [e, Int.neg_tdiv]
        have := Int.tdiv_nonneg (by omega : 0 ≤ -(r * n)) (by omega : (0 : Int) ≤ 1000)
        omega
      split
      · exact ⟨-1, rfl, by constructor <;> intro h <;> omega, by omega, by omega⟩
      · rename_i hcase
        have hne0 : Int.tdiv (r * n) 1000 ≠ 0 := fun e => hcase ⟨e, hnne⟩
        exact ⟨_, rfl, by constructor <;> intro h <;> omega, by omega, by omega⟩
    · subst hzero
      simp
    · have hprod : 0 < r * n := Int.mul_pos hpos hnz
      have hdiv : 0 ≤ Int.tdiv (r * n) 1000 := Int.tdiv_nonneg (by omega) (by omega)
      have hnotneg : ¬ r < 0 := by omega
      split
      · exact ⟨1, rfl, by constructor <;> intro h <;> omega, by omega, by omega⟩
      · rename_i hcase
        have hne0 : Int.tdiv (r * n) 1000 ≠ 0 := fun e => hcase ⟨e, hnne⟩
        exact ⟨_, rfl, by constructor <;> intro h <;> omega, by omega, by omega⟩
  have hsize : ∀ (c : CFeeRate) x, c.GetFee n = some x → n ≤ 2 ^ 63 - 1 := by
    intro c x hx
    by_contra hbig
    unfold CFeeRate.GetFee at hx
    rw [if_neg hbig] at hx
    cases hx
  refine ⟨fun x hx => ?_, fun hsz => ?_, fun x hx => ?_, fun hsz => ?_⟩
  · have hsz : n ≤ 2 ^ 63 - 1 := by
      cases hc : CFeeRate.from_fee fee n with
      | none => rw [hc] at hx; simp at hx
      | some c =>
        rw [hc] at hx
        exact hsize c x hx
    obtain ⟨y, hy, hb⟩ := hround hsz
    rw [hy] at hx
    cases hx
    exact hb
  · obtain ⟨y, hy, _⟩ := hround hsz
    exact ⟨y, hy⟩
  · obtain ⟨y, hy, hb⟩ := hrate (hsize _ x hx)
    rw [hy] at hx
    cases hx
    exact hb
  · obtain ⟨y, hy, _⟩ := hrate hsz
    exact ⟨y, hy⟩

/-! ### The address check of the special-transaction validators -/

/-- C39, address check of the special-transaction validators: `CheckMcpRegTx` returns
`true` only if the service address of the decoded payload answers `true` to both `IsIPv4()`
and `IsIPv6()`; a transaction of the registration type whose payload decodes and whose
address fails either of the two (so every address that is only IPv4 or only IPv6) is
rejected with the reason `bad-mcptx-ip-invalid` at score 10, whatever its version and name.
The same holds of `CheckNuRegTx` and `CheckConRegTx` with their own reasons. -/
theorem special_tx_address_check (T : TxTypes) (Gm : CTransaction → Option CMcpRegTx)
    (Gn : CTransaction → Option CNuRegTx) (Gc : CTransaction → Option CConRegTx)
    (tx : CTransaction) :
    ((CheckMcpRegTx T Gm tx = tx_check.accepted →
        ∃ p, Gm tx = some p ∧ p.ipAddress.IsIPv4 = true ∧ p.ipAddress.IsIPv6 = true) ∧
      (∀ p, tx.nType = T.TRANSACTION_MCP_REGISTER → Gm tx = some p →
        (p.ipAddress.IsIPv4 = false ∨ p.ipAddress.IsIPv6 = false) →
        CheckMcpRegTx T Gm tx = tx_check.DoS 10 "bad-mcptx-ip-invalid")) ∧
    ((CheckNuRegTx T Gn tx = tx_check.accepted →
        ∃ p, Gn tx = some p ∧ p.ipAddress.IsIPv4 = true ∧ p.ipAddress.IsIPv6 = true) ∧
      (∀ p, tx.nType = T.TRANSACTION_NUANCE_REGISTER → Gn tx = some p →
        (p.ipAddress.IsIPv4 = false ∨ p.ipAddress.IsIPv6 = false) →
        CheckNuRegTx T Gn tx = tx_check.DoS 10 "bad-nuancetx-ip-invalid")) ∧
    ((CheckConRegTx T Gc tx = tx_check.accepted →
        ∃ p, Gc tx = some p ∧ p.ipAddress.IsIPv4 = true ∧ p.ipAddress.IsIPv6 = true) ∧
      (∀ p, tx.nType = T.TRANSACTION_CONCEPT_REGISTER → Gc tx = some p →
        (p.ipAddress.IsIPv4 = false ∨ p.ipAddress.IsIPv6 = false) →
        CheckConRegTx T Gc tx = tx_check.DoS 10 "bad-concepttx-ip-invalid")) := by
  refine ⟨⟨fun h => ?_, fun p ht hp hip => ?_⟩, ⟨fun h => ?_, fun p ht hp hip => ?_⟩,
    ⟨fun h => ?_, fun p ht hp hip => ?_⟩⟩
  · simp only [CheckMcpRegTx] at h
    split at h
    · cases h
    · split at h
      · cases h
      · rename_i p hp
        split at h
        · cases h
        · rename_i hip
          refine ⟨p, hp, ?_⟩
          cases h4 : p.ipAddress.IsIPv4 <;> cases h6 : p.ipAddress.IsIPv6 <;>
            simp [h4, h6] at hip ⊢
  · simp only [CheckMcpRegTx, ht, ne_eq, not_true_eq_false, if_false, hp]
    rcases hip with h | h <;> simp [h]
  · simp only [CheckNuRegTx] at h
    split at h
    · cases h
    · split at h
      · cases h
      · rename_i p hp
        split at h
        · cases h
        · rename_i hip
          refine ⟨p, hp, ?_⟩
          cases h4 : p.ipAddress.IsIPv4 <;> cases h6 : p.ipAddress.IsIPv6 <;>
            simp [h4, h6] at hip ⊢
  · simp only [CheckNuRegTx, ht, ne_eq, not_true_eq_false, if_false, hp]
    rcases hip with h | h <;> simp [h]
  · simp only [CheckConRegTx] at h
    split at h
    · cases h
    · split at h
      · cases h
      · rename_i p hp
        split at h
        · cases h
        · rename_i hip
          refine ⟨p, hp, ?_⟩
          cases h4 : p.ipAddress.IsIPv4 <;> cases h6 : p.ipAddress.IsIPv6 <;>
            simp [h4, h6] at hip ⊢
  · simp only [CheckConRegTx, ht, ne_eq, not_true_eq_false, if_false, hp]
    rcases hip with h | h <;> simp [h]

namespace cuckoo

/-! ### The shape of a solver proof -/

/-- The nonce scan of `solution` appends a nonce only for an edge that no smaller nonce
generates. -/
theorem solution_scan_minimal (ctx : CContext) :
    ∀ fuel nonce_ cyc acc found, cyc.Nodup →
      (∀ p ∈ cyc, ∀ m, m < nonce_ → ctx.edge_of m ≠ p) →
      (∀ n ∈ acc, ∀ m, m < n → ctx.edge_of m ≠ ctx.edge_of n) →
      ∀ n ∈ solution_scan ctx fuel nonce_ cyc acc found,
        ∀ m, m < n → ctx.edge_of m ≠ ctx.edge_of n := by
  intro fuel
  induction fuel with
  | zero =>
    intro nonce_ cyc acc found _ _ hacc
    simpa only [solution_scan] using hacc
  | succ fuel ih =>
    intro nonce_ cyc acc found hnd hcyc hacc
    have he : (ctx.node_u nonce_, ctx.node_v nonce_) = ctx.edge_of nonce_ := rfl
    have hacc2 : ctx.edge_of nonce_ ∈ cyc →
        ∀ n ∈ acc ++ [nonce_], ∀ m, m < n → ctx.edge_of m ≠ ctx.edge_of n := by
      intro hmem n hn m hm
      rcases List.mem_append.1 hn with h | h
      · exact hacc n h m hm
      · rw [List.mem_singleton] at h
        subst h
        exact hcyc _ hmem m hm
    simp only [solution_scan]
    rw [he]
    by_cases hmem : ctx.edge_of nonce_ ∈ cyc
    · rw [if_pos hmem]
      split
      · exact hacc2 hmem
      · refine ih _ _ _ _ (hnd.erase _) (fun p hp m hm => ?_) (hacc2 hmem)
        obtain ⟨hne, hp2⟩ := (hnd.mem_erase_iff).1 hp
        rcases Nat.lt_or_ge m nonce_ with hlt | hge
        · exact hcyc p hp2 m hlt
        · have hmn : m = nonce_ := by omega
          rw [hmn]
          exact fun e => hne e.symm
    · rw [if_neg hmem]
      refine ih _ _ _ _ hnd (fun p hp m hm => ?_) hacc
      rcases Nat.lt_or_ge m nonce_ with hlt | hge
      · exact hcyc p hp m hlt
      · have hmn : m = nonce_ := by omega
        rw [hmn]
        exact fun e => hmem (e ▸ hp)

/-- Every entry of the result of `solution` is the smallest nonce generating its edge. -/
theorem solution_minimal (ctx : CContext) (us vs : List Nat) (nu nv : Nat) :
    ∀ n ∈ ctx.solution us nu vs nv, ∀ m, m < n → ctx.edge_of m ≠ ctx.edge_of n := by
  have hnd0 : [(us.getD 0 0, vs.getD 0 0)].Nodup := List.nodup_singleton _
  obtain ⟨hnd1, _⟩ := insert_us_spec us nu _ hnd0
  obtain ⟨hnd2, _⟩ := insert_vs_spec vs nv _ hnd1
  simp only [CContext.solution]
  exact solution_scan_minimal ctx _ 0 _ [] 0 hnd2 (fun p _ m hm => absurd hm (by omega))
    (fun n hn => absurd hn (List.not_mem_nil n))

/-- What the loop of `GetNextSolution` leaves behind: the invariant of the array holds for
the nonce it stops at, which lies between the starting nonce and the end of the budget, and
a returned proof is a result of `solution`. -/
theorem GetNextSolution_loop_state (ctx : CContext) :
    ∀ fuel f N res c n, ForestOfEdges ctx f N →
      GetNextSolution_loop ctx fuel f N = some (res, c, n) →
      ForestOfEdges ctx c n ∧ N ≤ n ∧ n ≤ N + fuel ∧
      ∀ sol, res = solve_result.proof sol →
        ∃ us nu vs nv, sol = ctx.solution us nu vs nv := by
  intro fuel
  induction fuel with
  | zero =>
    intro f N res c n hF h
    simp only [GetNextSolution_loop, Option.some.injEq, Prod.mk.injEq] at h
    obtain ⟨h1, h2, h3⟩ := h
    subst h1 h2 h3
    exact ⟨hF, le_refl _, le_refl _, fun sol hs => by cases hs⟩
  | succ fuel ih =>
    intro f N res c n hF h
    have next : ∀ g, ForestOfEdges ctx g (N + 1) →
        GetNextSolution_loop ctx fuel g (N + 1) = some (res, c, n) →
        ForestOfEdges ctx c n ∧ N ≤ n ∧ n ≤ N + (fuel + 1) ∧
        ∀ sol, res = solve_result.proof sol →
          ∃ us nu vs nv, sol = ctx.solution us nu vs nv := by
      intro g hg hloop
      obtain ⟨a, b, c2, d⟩ := ih g (N + 1) res c n hg hloop
      exact ⟨a, by omega, by omega, d⟩
    have stop : ∀ e, some (solve_result.thrown e, f, N) = some (res, c, n) →
        ForestOfEdges ctx c n ∧ N ≤ n ∧ n ≤ N + (fuel + 1) ∧
        ∀ sol, res = solve_result.proof sol →
          ∃ us nu vs nv, sol = ctx.solution us nu vs nv := by
      intro e he
      simp only [Option.some.injEq, Prod.mk.injEq] at he
      obtain ⟨h1, h2, h3⟩ := he
      subst h1 h2 h3
      exact ⟨hF, le_refl _, by omega, fun sol hs => by cases hs⟩
    simp only [GetNextSolution_loop] at h
    split at h
    · exact next f hF.mono h
    · rename_i hu0
      split at h
      · exact stop _ h
      · rename_i us hus
        split at h
        · exact stop _ h
        · rename_i vs hvs
          have hv0 : ctx.node_v N ≠ 0 := by have := node_v_odd ctx N; omega
          have hpu := (path_from_node hu0 hus).1
          have hpv := (path_from_node hv0 hvs).1
          split at h
          · split at h
            · cases h
            · rename_i nu1 nv1 htrim
              split at h
              · simp only [Option.some.injEq, Prod.mk.injEq] at h
                obtain ⟨h1, h2, h3⟩ := h
                subst h1 h2 h3
                exact ⟨hF, le_refl _, by omega, fun sol hs => by
                  cases hs
                  exact ⟨_, _, _, _, rfl⟩⟩
              · exact next f hF.mono h
          · split at h
            · exact next _ (hF.graft_u hu0 us _ (fun k hk => hpu.links k (by omega))) h
            · exact next _ (hF.graft_v hu0 vs _ (fun k hk => hpv.links k (by omega))) h

/-- Whatever the loop of `solve` ends with, it is not the failed assertion on the size of
the proof. -/
theorem solve_loop_no_assert (D : Digests) (params : Params) :
    ∀ fuel ctx header out, solve_loop D params fuel ctx header = some out →
      out.1 ≠ solve_outcome.assertion_failed := by
  intro fuel
  induction fuel with
  | zero => intro ctx header out h; simp [solve_loop] at h
  | succ fuel ih =>
    intro ctx header out h
    simp only [solve_loop] at h
    split at h
    · split at h
      · cases h
      · cases h; simp
      · exact ih _ _ _ h
      · rename_i sol ctx1 hcall
        have hlen : sol.length = PROOFSIZE := by
          simp only [CContext.GetNextSolution] at hcall
          cases hloop : GetNextSolution_loop (ctx.SetHeader D header)
              ((ctx.SetHeader D header).easiness - (ctx.SetHeader D header).nonce)
              (ctx.SetHeader D header).cuckoo (ctx.SetHeader D header).nonce with
          | none => rw [hloop] at hcall; simp at hcall
          | some r =>
            obtain ⟨res, c, n⟩ := r
            rw [hloop] at hcall
            simp only [Option.map_some', Option.some.injEq, Prod.mk.injEq] at hcall
            obtain ⟨hres, _⟩ := hcall
            subst hres
            have hF : ForestOfEdges (ctx.SetHeader D header) (ctx.SetHeader D header).cuckoo
                (ctx.SetHeader D header).nonce := ⟨rfl, fun x hx => absurd rfl hx⟩
            have hn0 : (ctx.SetHeader D header).nonce = 0 := rfl
            exact (GetNextSolution_loop_good (ctx.SetHeader D header) _ _ _ _ _ _ hF
              (by rw [hn0]; omega) hloop).1
        rw [if_neg (by simpa using hlen)] at h
        split at h
        · cases h; simp
        · exact ih _ _ _ h
    · cases h; simp

/-- C32, shape of a solver proof: on a context of graph size 1..31 whose array is a forest of
the edges of the nonces tried so far (as it is after `SetHeader`, and again after every
call), every proof returned by `GetNextSolution` has exactly 42 entries, strictly ascending
and so distinct, each below `easiness = 2^graphSize`, and each the smallest nonce generating
its edge; so the assertion `sol->size() == PROOFSIZE` in `solve` never fails. -/
theorem solver_proof_shape (graphSize : Nat) (hg1 : 1 ≤ graphSize) (hg2 : graphSize ≤ 31)
    (ctx : CContext) (he : ctx.easiness = (CContext.create graphSize).easiness)
    (hinv : ForestOfEdges ctx ctx.cuckoo ctx.nonce) (hle : ctx.nonce ≤ ctx.easiness)
    (sol : List Nat)
    (h : (ctx.GetNextSolution).map Prod.fst = some (solve_result.proof sol)) :
    (sol.length = PROOFSIZE ∧ sol.Pairwise (· < ·) ∧ sol.Nodup ∧
      ctx.easiness = 2 ^ graphSize ∧ (∀ n ∈ sol, n < 2 ^ graphSize) ∧
      ∀ n ∈ sol, ∀ m, m < n → ctx.edge_of m ≠ ctx.edge_of n) ∧
    (∀ D header, ForestOfEdges (ctx.SetHeader D header) (ctx.SetHeader D header).cuckoo
        (ctx.SetHeader D header).nonce ∧
      (ctx.SetHeader D header).nonce ≤ (ctx.SetHeader D header).easiness) ∧
    (∀ res ctx1, ctx.GetNextSolution = some (res, ctx1) →
      ForestOfEdges ctx1 ctx1.cuckoo ctx1.nonce ∧ ctx1.nonce ≤ ctx1.easiness ∧
        ctx1.easiness = ctx.easiness) ∧
    (∀ D header params fuel out, solve D header params fuel = some out →
      out.1 ≠ solve_outcome.assertion_failed) := by
  have hne : (2 : Nat) ^ (graphSize - 1) ≤ 2 ^ 30 := Nat.pow_le_pow_right (by omega) (by omega)
  have hnedges : u32 (1 <<< (graphSize - 1)) = 2 ^ (graphSize - 1) := by
    simp only [u32, Nat.shiftLeft_eq, Nat.one_mul]
    exact Nat.mod_eq_of_lt (by omega)
  have hpow : 2 * 2 ^ (graphSize - 1) = 2 ^ graphSize := by
    rw [← Nat.pow_succ']
    congr 1; omega
  have heasy : ctx.easiness = 2 ^ graphSize := by
    rw [he]
    simp only [CContext.create, hnedges]
    rw [hpow]
    exact Nat.mod_eq_of_lt (Nat.pow_lt_pow_right (by omega) (by omega))
  have hstate : ∀ res c n,
      GetNextSolution_loop ctx (ctx.easiness - ctx.nonce) ctx.cuckoo ctx.nonce =
        some (res, c, n) →
      ForestOfEdges ctx c n ∧ n ≤ ctx.easiness := by
    intro res c n hloop
    obtain ⟨a, _, b, _⟩ := GetNextSolution_loop_state ctx _ _ _ _ _ _ hinv hloop
    exact ⟨a, by omega⟩
  refine ⟨?_, fun D header => ⟨⟨rfl, fun x hx => absurd rfl hx⟩, Nat.zero_le _⟩, ?_,
    fun D header params fuel out hout => solve_loop_no_assert D params _ _ _ _ hout⟩
  · simp only [CContext.GetNextSolution] at h
    cases hloop : GetNextSolution_loop ctx (ctx.easiness - ctx.nonce) ctx.cuckoo ctx.nonce with
    | none => rw [hloop] at h; simp at h
    | some r =>
      obtain ⟨res, c, n⟩ := r
      rw [hloop] at h
      simp only [Option.map_some', Option.some.injEq] at h
      subst h
      obtain ⟨hl, hpw, hlt, _⟩ :=
        GetNextSolution_loop_good ctx _ _ _ _ _ _ hinv (by omega) hloop
      obtain ⟨_, _, _, hsol⟩ := GetNextSolution_loop_state ctx _ _ _ _ _ _ hinv hloop
      obtain ⟨us, nu, vs, nv, hs⟩ := hsol sol rfl
      refine ⟨hl, hpw, ?_, heasy, fun n hn => heasy ▸ hlt n hn, ?_⟩
      · exact hpw.imp (fun hab => Nat.ne_of_lt hab)
      · rw [hs]
        exact solution_minimal ctx us vs nu nv
  · intro res ctx1 hcall
    simp only [CContext.GetNextSolution] at hcall
    cases hloop : GetNextSolution_loop ctx (ctx.easiness - ctx.nonce) ctx.cuckoo ctx.nonce with
    | none => rw [hloop] at hcall; simp at hcall
    | some r =>
      obtain ⟨res2, c, n⟩ := r
      rw [hloop] at hcall
      simp only [Option.map_some', Option.some.injEq, Prod.mk.injEq] at hcall
      obtain ⟨_, hctx⟩ := hcall
      subst hctx
      obtain ⟨a, b⟩ := hstate _ _ _ hloop
      exact ⟨a, b, rfl⟩

end cuckoo

namespace cuckoo

/-! ### `solve` never returns `false` -/

/-- The loop of `solve` on a header with a 32-bit nonce: it never ends by `return false`, and
when it ends by `return true` the header it leaves passes `CheckProofOfWork`, carries the
proof that `GetNextSolution` returned for it, and differs from the incoming header only in
that proof and in the nonce, advanced modulo `2^32` by fewer steps than the budget. -/
theorem solve_loop_spec (D : Digests) (params : Params) :
    ∀ fuel ctx header out, header.nNonce < 2 ^ 32 →
      solve_loop D params fuel ctx header = some out →
      out.1 ≠ solve_outcome.returned false ∧
      (out.1 = solve_outcome.returned true →
        CheckProofOfWork D out.2 (D.GetHash out.2) out.2.nBits params = true ∧
        (∃ k, k < fuel ∧ out.2.nNonce = u32 (header.nNonce + k)) ∧
        out.2.nVersion = header.nVersion ∧ out.2.nTime = header.nTime ∧
        out.2.nBits = header.nBits ∧ out.2.isCuckooPow = header.isCuckooPow ∧
        ∃ ctx0 header0, out.2 = { header0 with cuckooProof := out.2.cuckooProof } ∧
          ((CContext.SetHeader ctx0 D header0).GetNextSolution).map Prod.fst =
            some (solve_result.proof out.2.cuckooProof)) := by
  intro fuel
  induction fuel with
  | zero => intro ctx header out _ h; simp [solve_loop] at h
  | succ fuel ih =>
    intro ctx header out hn h
    have hnext : ∀ (ctx1 : CContext) (header1 : CBlockHeader),
        header1.nNonce = header.nNonce → header1.nVersion = header.nVersion →
        header1.nTime = header.nTime → header1.nBits = header.nBits →
        header1.isCuckooPow = header.isCuckooPow →
        solve_loop D params fuel ctx1 { header1 with nNonce := u32 (header1.nNonce + 1) } =
          some out →
        out.1 ≠ solve_outcome.returned false ∧
        (out.1 = solve_outcome.returned true →
          CheckProofOfWork D out.2 (D.GetHash out.2) out.2.nBits params = true ∧
          (∃ k, k < fuel + 1 ∧ out.2.nNonce = u32 (header.nNonce + k)) ∧
          out.2.nVersion = header.nVersion ∧ out.2.nTime = header.nTime ∧
          out.2.nBits = header.nBits ∧ out.2.isCuckooPow = header.isCuckooPow ∧
          ∃ ctx0 header0, out.2 = { header0 with cuckooProof := out.2.cuckooProof } ∧
            ((CContext.SetHeader ctx0 D header0).GetNextSolution).map Prod.fst =
              some (solve_result.proof out.2.cuckooProof)) := by
      intro ctx1 header1 e1 e2 e3 e4 e5 hrec
      have hlt : ({ header1 with nNonce := u32 (header1.nNonce + 1) } : CBlockHeader).nNonce <
          2 ^ 32 := Nat.mod_lt _ (by omega)
      obtain ⟨a, b⟩ := ih ctx1 _ out hlt hrec
      refine ⟨a, fun ht => ?_⟩
      obtain ⟨b1, ⟨k, hk, hkn⟩, b3, b4, b5, b6, b7⟩ := b ht
      refine ⟨b1, ⟨k + 1, by omega, ?_⟩, b3.trans e2, b4.trans e3, b5.trans e4, b6.trans e5, b7⟩
      rw [hkn]
      show u32 (u32 (header1.nNonce + 1) + k) = u32 (header.nNonce + (k + 1))
      rw [e1]
      simp only [u32]
      omega
    simp only [solve_loop] at h
    split at h
    · split at h
      · cases h
      · cases h
        exact ⟨by simp, fun ht => by cases ht⟩
      · exact hnext _ header rfl rfl rfl rfl rfl h
      · rename_i sol ctx1 hcall
        split at h
        · cases h
          exact ⟨by simp, fun ht => by cases ht⟩
        · split at h
          · rename_i hcheck
            cases h
            refine ⟨by simp, fun _ => ⟨hcheck, ⟨0, by omega, ?_⟩, rfl, rfl, rfl, rfl,
              ctx, header, rfl, ?_⟩⟩
            · show header.nNonce = u32 (header.nNonce + 0)
              simp only [u32, Nat.add_zero]
              exact (Nat.mod_eq_of_lt hn).symm
            · show ((ctx.SetHeader D header).GetNextSolution).map Prod.fst =
                some (solve_result.proof sol)
              rw [hcall]
              rfl
          · exact hnext _ { header with cuckooProof := sol } rfl rfl rfl rfl rfl h
    · rename_i hcond
      exact absurd (by omega : header.nNonce ≤ 2 ^ 32 - 1) hcond

/-- C36, `solve` never returns `false`: for every header with a 32-bit nonce, every
parameters and every number of iterations, a run of `solve` that ends does not end by
`return false`.  The loop condition holds for every 32-bit nonce and the initialiser assigns
nothing, so the search starts from the incoming nonce (a proof found for the incoming header
that passes `CheckProofOfWork` ends the first iteration with `true` and the nonce unchanged)
and steps the nonce modulo `2^32`; and `true` is returned only with a header that
`CheckProofOfWork` accepts, carrying the proof `GetNextSolution` returned for it. -/
theorem solve_never_false (D : Digests) (header : CBlockHeader) (params : Params)
    (hn : header.nNonce < 2 ^ 32) (fuel : Nat) (out : solve_outcome × CBlockHeader)
    (h : solve D header params fuel = some out) :
    out.1 ≠ solve_outcome.returned false ∧
    (out.1 = solve_outcome.returned true →
      CheckProofOfWork D out.2 (D.GetHash out.2) out.2.nBits params = true ∧
      (∃ k, k < fuel ∧ out.2.nNonce = u32 (header.nNonce + k)) ∧
      out.2.nVersion = header.nVersion ∧ out.2.nTime = header.nTime ∧
      out.2.nBits = header.nBits ∧ out.2.isCuckooPow = header.isCuckooPow ∧
      ∃ ctx0 header0, out.2 = { header0 with cuckooProof := out.2.cuckooProof } ∧
        ((CContext.SetHeader ctx0 D header0).GetNextSolution).map Prod.fst =
          some (solve_result.proof out.2.cuckooProof)) ∧
    (∀ sol,
      (((CContext.create params.cuckooGraphSize).SetHeader D header).GetNextSolution).map
        Prod.fst = some (solve_result.proof sol) →
      CheckProofOfWork D { header with cuckooProof := sol }
        (D.GetHash { header with cuckooProof := sol }) header.nBits params = true →
      ∀ fuel1, solve D header params (fuel1 + 1) =
        some (solve_outcome.returned true, { header with cuckooProof := sol })) := by
  obtain ⟨a, b⟩ := solve_loop_spec D params fuel _ header out hn h
  refine ⟨a, b, fun sol hsol hcheck fuel1 => ?_⟩
  have hcond : header.nNonce ≤ 2 ^ 32 - 1 := by omega
  simp only [solve, solve_loop, if_pos hcond]
  cases hcall : ((CContext.create params.cuckooGraphSize).SetHeader D header).GetNextSolution with
  | none => rw [hcall] at hsol; simp at hsol
  | some r =>
    obtain ⟨res, ctx1⟩ := r
    rw [hcall] at hsol
    simp only [Option.map_some', Option.some.injEq] at hsol
    subst hsol
    have hlen : sol.length = PROOFSIZE := by
      have hout : solve_loop D params 1 (CContext.create params.cuckooGraphSize) header ≠
          some (solve_outcome.assertion_failed, header) := fun e =>
        solve_loop_no_assert D params _ _ _ _ e rfl
      by_contra hne
      apply hout
      simp only [solve_loop, if_pos hcond, hcall, if_pos hne]
    simp only [hlen, ne_eq, not_true_eq_false, if_false, hcheck, if_true]

end cuckoo

namespace cuckoo
open verify_code

/-! ### Termination of the cycle trace -/

namespace OpenTrace

variable {uvs : List Nat} {s : Nat → Nat} {m : Nat}

theorem open_slot_lt (h : OpenTrace uvs s m) : ∀ t, t ≤ m → s t < 84 := by
  intro t ht
  cases t with
  | zero => rw [h.start]; omega
  | succ t => exact (h.step t (by omega)).lt

theorem open_slots_ne (h : OpenTrace uvs s m) : ∀ a b, a < b → b ≤ m → s a ≠ s b := by
  intro a
  induction a with
  | zero =>
    intro b hab hb
    rw [h.start]
    exact fun e => h.nonzero b (by omega) hb e.symm
  | succ a ih =>
    intro b hab hb e
    obtain ⟨b, rfl⟩ : ∃ c, b = c + 1 := ⟨b - 1, by omega⟩
    have h1 := h.step a (by omega)
    have h2 := h.step b (by omega)
    rw [e] at h1
    exact ih b (by omega) (by omega) (h1.inj h2 (h.open_slot_lt a (by omega)) (h.open_slot_lt b (by omega)))

theorem open_flips_ne (h : OpenTrace uvs s m) :
    ∀ d a b, b = a + d → b ≤ m → s b ≠ s a ^^^ 1 := by
  intro d
  induction d using Nat.strong_induction_on with
  | _ d ih =>
    intro a b hb hbm e
    have ha := h.open_slot_lt a (by omega)
    rcases Nat.lt_or_ge d 2 with hd | hd
    · interval_cases d
      · simp only [add_zero] at hb
        subst hb
        rcases xor_one_cases (s b) ha with h' | h' <;> omega
      · subst hb
        exact (h.step a (by omega)).ne_flip ha e
    · obtain ⟨b, rfl⟩ : ∃ c, b = c + 1 := ⟨b - 1, by omega⟩
      have h1 := (h.step b (by omega)).rev (h.open_slot_lt b (by omega))
      have hx : (s a ^^^ 1) ^^^ 1 = s a := by rw [Nat.xor_assoc]; simp
      rw [e, hx] at h1
      have h2 := h1.det (h.step a (by omega))
      have hx2 : s b = s (a + 1) ^^^ 1 := by
        rw [← h2, Nat.xor_assoc]; simp
      exact ih (d - 2) (by omega) (a + 1) b (by omega) (by omega) hx2

/-- No edge is visited twice: the slots of a trace belong to different edges. -/
theorem open_edges_ne (h : OpenTrace uvs s m) : ∀ a b, a < b → b ≤ m → s a / 2 ≠ s b / 2 := by
  intro a b hab hb e
  have h1 := h.open_slots_ne a b hab hb
  have h2 := h.open_flips_ne (b - a) a b (by omega) hb
  rcases xor_one_cases (s a) (h.open_slot_lt a (by omega)) with h' | h' <;> omega

/-- A trace that has not come back to slot 0 has visited at most 42 edges. -/
theorem length_le (h : OpenTrace uvs s m) : m ≤ 41 := by
  by_contra hgt
  have hinj : Function.Injective
      (fun t : Fin 43 => (⟨s t.val / 2, by
        have := h.open_slot_lt t.val (by have := t.isLt; omega)
        omega⟩ : Fin 42)) := by
    intro a b hab
    simp only [Fin.mk.injEq] at hab
    apply Fin.ext
    rcases Nat.lt_trichotomy a.val b.val with hlt | heq | hgt2
    · exact absurd hab (h.open_edges_ne a.val b.val hlt (by have := b.isLt; omega))
    · exact heq
    · exact absurd hab.symm (h.open_edges_ne b.val a.val hgt2 (by have := a.isLt; omega))
  have := Fintype.card_le_of_injective _ hinj
  simp at this

/-- One more iteration that does not lead to slot 0 extends the trace. -/
theorem extend (h : OpenTrace uvs s m) {i1 : Nat} (hstep : TraceStep uvs (s m) i1)
    (hne : i1 ≠ 0) : OpenTrace uvs (Function.update s (m + 1) i1) (m + 1) := by
  have hold : ∀ t, t ≤ m → Function.update s (m + 1) i1 t = s t := by
    intro t ht
    exact Function.update_noteq (by omega) _ _
  have hnew : Function.update s (m + 1) i1 (m + 1) = i1 := Function.update_same _ _ _
  refine ⟨by rw [hold 0 (by omega)]; exact h.start, fun t ht => ?_, fun t h1 ht => ?_⟩
  · rw [hold t (by omega)]
    rcases Nat.lt_or_ge t m with hlt | hge
    · rw [hold (t + 1) (by omega)]
      exact h.step t hlt
    · have htm : t = m := by omega
      subst htm
      rw [hnew]
      exact hstep
  · rcases Nat.lt_or_ge t (m + 1) with hlt | hge
    · rw [hold t (by omega)]
      exact h.nonzero t h1 (by omega)
    · have htm : t = m + 1 := by omega
      rw [htm, hnew]
      exact hne

end OpenTrace

/-- The inner loop of the trace ends within its 42 evaluations of the condition. -/
theorem find_other_total (uvs : List Nat) (i : Nat) (hi : i < 84) :
    ∀ n t j0, t + n = 41 → find_other uvs i (n + 1) ((i + 2 * t) % 84) j0 ≠ none := by
  intro n
  induction n with
  | zero =>
    intro t j0 ht
    rw [find_other_step]
    have : ((i + 2 * t) % 84 + 2) % 84 = i := by omega
    simp [this]
  | succ n ih =>
    intro t j0 ht
    rw [find_other_step]
    have hk : ((i + 2 * t) % 84 + 2) % 84 = (i + 2 * (t + 1)) % 84 := by omega
    rw [hk]
    split
    · simp
    · split
      · split
        · simp
        · exact ih (t + 1) _ (by omega)
      · exact ih (t + 1) _ (by omega)

/-- More iterations than needed do not change the result of the trace. -/
theorem follow_cycle_mono (uvs : List Nat) :
    ∀ fuel i n c, follow_cycle uvs fuel i n = some c →
      ∀ k, follow_cycle uvs (fuel + k) i n = some c := by
  intro fuel
  induction fuel with
  | zero => intro i n c h; simp [follow_cycle] at h
  | succ fuel ih =>
    intro i n c h k
    have e : fuel + 1 + k = (fuel + k) + 1 := by omega
    rw [e, follow_cycle_step]
    rw [follow_cycle_step] at h
    cases hf : find_other uvs i PROOFSIZE i i with
    | none => rw [hf] at h; simp at h
    | some r =>
      rw [hf] at h
      cases r with
      | error c2 => exact h
      | ok j =>
        simp only at h ⊢
        split at h
        · rename_i hji; rw [if_pos hji]; exact h
        · rename_i hji
          rw [if_neg hji]
          split at h
          · rename_i hnz; rw [if_pos hnz]; exact ih _ _ _ h k
          · rename_i hnz; rw [if_neg hnz]; exact h

/-- From a trace of `n` iterations that has not come back to slot 0, the loop ends within
the iterations that are left of 42: with `POW_BRANCH`, with `POW_DEAD_END`, or back at slot
0 after `m + 1` iterations in all, `m + 1` at most 42. -/
theorem follow_cycle_run (uvs : List Nat) :
    ∀ fuel n (s : Nat → Nat), OpenTrace uvs s n → 42 ≤ n + fuel →
      ∃ c, follow_cycle uvs fuel (s n) n = some c ∧
        (c = POW_BRANCH ∨ c = POW_DEAD_END ∨
          ∃ s2 m, n ≤ m ∧ OpenTrace uvs s2 m ∧ TraceStep uvs (s2 m) 0 ∧
            c = if m + 1 = 42 then POW_OK else POW_SHORT_CYCLE) := by
  intro fuel
  induction fuel with
  | zero =>
    intro n s h hf
    have := h.length_le
    omega
  | succ fuel ih =>
    intro n s h hf
    have hi := h.open_slot_lt n (le_refl _)
    have h0 : s n = (s n + 2 * 0) % 84 := by omega
    rw [follow_cycle_step]
    cases hfo : find_other uvs (s n) PROOFSIZE (s n) (s n) with
    | none =>
      exfalso
      have := find_other_total uvs (s n) hi 41 0 (s n) (by omega)
      rw [← h0] at this
      exact this hfo
    | some r =>
      cases r with
      | error c2 =>
        exact ⟨c2, rfl, Or.inl (find_other_error uvs (s n) _ _ _ _ hfo)⟩
      | ok j =>
        simp only
        by_cases hji : j = s n
        · rw [if_pos hji]
          exact ⟨POW_DEAD_END, rfl, Or.inr (Or.inl rfl)⟩
        · rw [if_neg hji]
          have hl : Linked uvs (s n) j := by
            obtain ⟨a, b, c, d⟩ := (find_other_ok_iff uvs (s n) j hi hji).1 hfo
            exact ⟨hji, a, b, c, d⟩
          have hstep : TraceStep uvs (s n) (j ^^^ 1) := ⟨j, hl, rfl⟩
          by_cases hnz : j ^^^ 1 ≠ 0
          · rw [if_pos hnz]
            have hext := h.extend hstep hnz
            obtain ⟨c, hc, hshape⟩ := ih (n + 1) _ hext (by omega)
            rw [Function.update_same] at hc
            refine ⟨c, hc, ?_⟩
            rcases hshape with h1 | h1 | ⟨s2, m, hm, h2, h3, h4⟩
            · exact Or.inl h1
            · exact Or.inr (Or.inl h1)
            · exact Or.inr (Or.inr ⟨s2, m, by omega, h2, h3, h4⟩)
          · rw [if_neg hnz]
            have hz : j ^^^ 1 = 0 := by
              by_contra hne
              exact hnz hne
            rw [hz] at hstep
            exact ⟨_, rfl, Or.inr (Or.inr ⟨s, n, le_refl _, h, hstep, rfl⟩)⟩

/-- C34, termination of the cycle trace: for every key, graph size and proof, the
cycle-following loop of `verify` on the endpoint array of the proof ends within 42
iterations, and `verify` itself always returns.  The loop ends with `POW_BRANCH` or
`POW_DEAD_END`, or it comes back to slot 0 after `n` iterations, `n` at most 42, without
having visited an edge twice, and then the result is `POW_OK` when `n` is 42 and
`POW_SHORT_CYCLE`, a cycle shorter than 42, otherwise.  Whenever the proof passes the range,
order and xor checks this result is the one `verify` returns. -/
theorem verify_trace_terminates (nonces buf : List Nat) (graphSize : Nat) :
    (∃ c0, verify nonces buf graphSize = some c0) ∧
    ∃ c, follow_cycle
        (scan_uvs (siphash_setkeys buf) (edgemask_of graphSize) nonces 0 PROOFSIZE)
        PROOFSIZE 0 0 = some c ∧
      (∀ c0, verify nonces buf graphSize = some c0 → c0 ≠ POW_TOO_BIG →
        c0 ≠ POW_TOO_SMALL → c0 ≠ POW_NON_MATCHING → c0 = c) ∧
      (c = POW_BRANCH ∨ c = POW_DEAD_END ∨
        ∃ (s : Nat → Nat) (n : Nat), 1 ≤ n ∧ n ≤ 42 ∧ s 0 = 0 ∧
          (∀ t, t + 1 < n →
            TraceStep (scan_uvs (siphash_setkeys buf) (edgemask_of graphSize) nonces 0
              PROOFSIZE) (s t) (s (t + 1))) ∧
          TraceStep (scan_uvs (siphash_setkeys buf) (edgemask_of graphSize) nonces 0
            PROOFSIZE) (s (n - 1)) 0 ∧
          (∀ t, 1 ≤ t → t < n → s t ≠ 0) ∧
          (∀ a b, a < b → b < n → s a / 2 ≠ s b / 2) ∧
          c = if n = 42 then POW_OK else POW_SHORT_CYCLE) := by
  generalize huvs : scan_uvs (siphash_setkeys buf) (edgemask_of graphSize) nonces 0
    PROOFSIZE = uvs
  have hopen : OpenTrace uvs (fun _ => 0) 0 :=
    ⟨rfl, fun t ht => absurd ht (by omega), fun t h1 h2 => absurd h1 (by omega)⟩
  obtain ⟨c, hc, hshape⟩ := follow_cycle_run uvs 42 0 (fun _ => 0) hopen (by omega)
  have hc2 : follow_cycle uvs (2 * PROOFSIZE) 0 0 = some c :=
    follow_cycle_mono uvs 42 0 0 c hc 42
  have hv : (∃ c0, verify nonces buf graphSize = some c0) ∧
      ∀ c0, verify nonces buf graphSize = some c0 → c0 ≠ POW_TOO_BIG →
        c0 ≠ POW_TOO_SMALL → c0 ≠ POW_NON_MATCHING → c0 = c := by
    simp only [verify]
    cases hs : verify_scan (siphash_setkeys buf) (nnodes_of graphSize) (edgemask_of graphSize)
        nonces PROOFSIZE 0 [] 0 0 with
    | error c1 =>
      simp only
      refine ⟨⟨c1, rfl⟩, fun c0 h0 n1 n2 _ => ?_⟩
      simp only [Option.some.injEq] at h0
      subst h0
      rcases verify_scan_error _ _ _ _ _ _ _ _ _ _ hs with h1 | h1
      · exact absurd h1 n1
      · exact absurd h1 n2
    | ok r =>
      obtain ⟨_, hr2⟩ := (verify_scan_ok_iff _ _ _ _ _ _ _ _ _ _).1 hs
      subst hr2
      simp only [List.nil_append, huvs]
      split
      · exact ⟨⟨_, rfl⟩, fun c0 h0 _ _ n3 => by
          simp only [Option.some.injEq] at h0
          exact absurd h0.symm n3⟩
      · rw [hc2]
        exact ⟨⟨c, rfl⟩, fun c0 h0 _ _ _ => by
          simp only [Option.some.injEq] at h0
          exact h0.symm⟩
  refine ⟨hv.1, c, hc, hv.2, ?_⟩
  rcases hshape with h1 | h1 | ⟨s, m, _, hs, hlast, hcm⟩
  · exact Or.inl h1
  · exact Or.inr (Or.inl h1)
  · have hm := hs.length_le
    refine Or.inr (Or.inr ⟨s, m + 1, by omega, by omega, hs.start,
      fun t ht => hs.step t (by omega), ?_, fun t h1 ht => hs.nonzero t h1 (by omega),
      fun a b hab hb => hs.open_edges_ne a b hab (by omega), hcm⟩)
    rw [Nat.add_sub_cancel]
    exact hlast

end cuckoo

namespace cuckoo

/-! ### The forest invariant of the solver -/

/-- Off the reversed path the array is unchanged. -/
theorem reverse_path_off (us : List Nat) :
    ∀ n f x, (∀ k, k < n → x ≠ us.getD (k + 1) 0) → reverse_path us n f x = f x := by
  intro n
  induction n with
  | zero => intro f x _; rfl
  | succ n ih =>
    intro f x hx
    simp only [reverse_path]
    rw [ih _ x (fun k hk => hx k (by omega))]
    simp only [store, if_neg (hx n (by omega))]

/-- On a path of different nodes every node but the first points to its predecessor after
the reversal. -/
theorem reverse_path_on (us : List Nat) :
    ∀ n f, (∀ a b, a < b → b ≤ n → us.getD a 0 ≠ us.getD b 0) →
      ∀ k, k < n → reverse_path us n f (us.getD (k + 1) 0) = us.getD k 0 := by
  intro n
  induction n with
  | zero => intro f _ k hk; omega
  | succ n ih =>
    intro f hd k hk
    simp only [reverse_path]
    rcases Nat.lt_or_ge k n with hlt | hge
    · exact ih _ (fun a b hab hb => hd a b hab (by omega)) k hlt
    · have hkn : k = n := by omega
      subst hkn
      rw [reverse_path_off us k _ _ (fun j hj => (hd (j + 1) (k + 1) (by omega) (by omega)).symm)]
      simp only [store, if_true]

/-- A node whose chain of back-pointers reaches nil reaches it first after some number of
steps, without passing through a node twice. -/
theorem orbit_simple {f : Nat → Nat} {x : Nat} (h : ∃ n, f^[n] x = 0) :
    ∃ n, f^[n] x = 0 ∧ (∀ i, i < n → f^[i] x ≠ 0) ∧
      ∀ a b, a < b → b < n → f^[a] x ≠ f^[b] x := by
  classical
  have hmin : ∀ i, i < Nat.find h → f^[i] x ≠ 0 := fun i hi => Nat.find_min h hi
  exact ⟨Nat.find h, Nat.find_spec h, hmin, orbit_injective (Nat.find_spec h) hmin⟩

/-- Grafting a tree onto a node outside it keeps every chain of back-pointers finite: `l`
is the path from `a0` to its root, reversed by the loop, and the chain from `b0` does not
meet it. -/
theorem graft_reaches (f : Nat → Nat) (h0 : f 0 = 0) (hreach : ∀ x, ∃ n, f^[n] x = 0)
    (l : List Nat) (na a0 b0 : Nat)
    (hpath : ∀ k, k ≤ na → l.getD k 0 = f^[k] a0 ∧ f^[k] a0 ≠ 0)
    (hroot : f^[na + 1] a0 = 0)
    (hb : ∀ i k, k ≤ na → f^[i] b0 ≠ f^[k] a0) :
    store (reverse_path l na f) a0 b0 0 = 0 ∧
    ∀ x, ∃ n, (store (reverse_path l na f) a0 b0)^[n] x = 0 := by
  classical
  have hl0 : l.getD 0 0 = a0 := (hpath 0 (Nat.zero_le _)).1
  have hdist : ∀ a b, a < b → b ≤ na → l.getD a 0 ≠ l.getD b 0 := by
    intro a b hab hbn
    rw [(hpath a (by omega)).1, (hpath b hbn).1]
    exact orbit_injective hroot (fun i hi => (hpath i (by omega)).2) a b hab (by omega)
  generalize hg : store (reverse_path l na f) a0 b0 = g
  have g1 : g a0 = b0 := by rw [← hg]; simp only [store, if_true]
  have g2 : ∀ k, k < na → g (l.getD (k + 1) 0) = l.getD k 0 := by
    intro k hk
    have hne : l.getD (k + 1) 0 ≠ a0 := by
      rw [← hl0]
      exact (hdist 0 (k + 1) (by omega) (by omega)).symm
    rw [← hg]
    simp only [store, if_neg hne]
    exact reverse_path_on l na f hdist k hk
  have g3 : ∀ x, (∀ k, k ≤ na → x ≠ l.getD k 0) → g x = f x := by
    intro x hx
    have hne : x ≠ a0 := by rw [← hl0]; exact hx 0 (Nat.zero_le _)
    rw [← hg]
    simp only [store, if_neg hne]
    exact reverse_path_off l na f x (fun k hk => hx (k + 1) (by omega))
  have hzero : g 0 = 0 := by
    rw [g3 0 (fun k hk e => (hpath k hk).2 (by rw [← (hpath k hk).1, ← e])), h0]
  -- the chain from `b0` is untouched
  have hbo : ∀ i, g^[i] b0 = f^[i] b0 := by
    intro i
    induction i with
    | zero => rfl
    | succ i ih =>
      rw [Function.iterate_succ_apply', Function.iterate_succ_apply', ih]
      exact g3 _ (fun k hk e => hb i k hk (by rw [e, (hpath k hk).1]))
  have hbz : ∃ n, g^[n] b0 = 0 := by
    obtain ⟨n, hn⟩ := hreach b0
    exact ⟨n, by rw [hbo, hn]⟩
  -- the reversed path leads to `b0`
  have hpz : ∀ k, k ≤ na → ∃ n, g^[n] (l.getD k 0) = 0 := by
    intro k
    induction k with
    | zero =>
      intro _
      obtain ⟨n, hn⟩ := hbz
      refine ⟨n + 1, ?_⟩
      rw [Function.iterate_succ_apply, hl0, g1, hn]
    | succ k ih =>
      intro hk
      obtain ⟨n, hn⟩ := ih (by omega)
      refine ⟨n + 1, ?_⟩
      rw [Function.iterate_succ_apply, g2 k (by omega), hn]
  have hall : ∀ n x, f^[n] x = 0 → ∃ m, g^[m] x = 0 := by
    intro n
    induction n with
    | zero =>
      intro x hx
      exact ⟨0, hx⟩
    | succ n ih =>
      intro x hx
      by_cases hon : ∃ k, k ≤ na ∧ x = l.getD k 0
      · obtain ⟨k, hk, rfl⟩ := hon
        exact hpz k hk
      · rw [Function.iterate_succ_apply] at hx
        obtain ⟨m, hm⟩ := ih (f x) hx
        refine ⟨m + 1, ?_⟩
        rw [Function.iterate_succ_apply,
          g3 x (fun k hk e => hon ⟨k, hk, e⟩), hm]
  exact ⟨hzero, fun x => by
    obtain ⟨n, hn⟩ := hreach x
    exact hall n x hn⟩

/-- Grafting keeps the back-pointers between the two sides of the graph. -/
theorem graft_parity (f : Nat → Nat)
    (hpar : ∀ x, f x ≠ 0 → (x % 2 = 0 → f x % 2 = 1) ∧ (x % 2 = 1 → f x % 2 = 0))
    (l : List Nat) (na a0 b0 : Nat)
    (hlinks : ∀ k, k < na → f (l.getD k 0) = l.getD (k + 1) 0 ∧ l.getD (k + 1) 0 ≠ 0)
    (hab : (a0 % 2 = 0 → b0 % 2 = 1) ∧ (a0 % 2 = 1 → b0 % 2 = 0)) :
    ∀ x, store (reverse_path l na f) a0 b0 x ≠ 0 →
      (x % 2 = 0 → store (reverse_path l na f) a0 b0 x % 2 = 1) ∧
      (x % 2 = 1 → store (reverse_path l na f) a0 b0 x % 2 = 0) := by
  intro x hx
  by_cases hxa : x = a0
  · simp only [store, if_pos hxa]
    rw [hxa]
    exact hab
  · simp only [store, if_neg hxa] at hx ⊢
    rcases reverse_path_spec l na f x with h1 | ⟨k, hk, hxk, hval⟩
    · rw [h1] at hx ⊢
      exact hpar x hx
    · rw [hval, hxk]
      obtain ⟨hc, hne⟩ := hlinks k hk
      have := hpar (l.getD k 0) (by rw [hc]; exact hne)
      rw [hc] at this
      constructor <;> intro h <;> omega

/-- The two chains from nodes with different roots do not meet. -/
theorem orbits_disjoint {f : Nat → Nat} (h0 : f 0 = 0) {x y n m : Nat}
    (hn : f^[n + 1] x = 0) (hnz : ∀ k, k ≤ n → f^[k] x ≠ 0)
    (hm : f^[m + 1] y = 0) (hmz : ∀ k, k ≤ m → f^[k] y ≠ 0)
    (hroots : f^[n] x ≠ f^[m] y) :
    ∀ i k, k ≤ n → f^[i] y ≠ f^[k] x := by
  intro i k hk e
  have hi : i ≤ m := by
    by_contra hgt
    have hz : f^[m + 1 + (i - (m + 1))] y = 0 := iterate_stays_zero h0 hm _
    have e2 : m + 1 + (i - (m + 1)) = i := by omega
    rw [e2, e] at hz
    exact hnz k hk hz
  have hal := orbits_aligned h0 hn (fun j hj => hnz j (by omega)) hm
    (fun j hj => hmz j (by omega)) (by omega : k < n + 1) (by omega : i < m + 1) e.symm
  have h1 : f^[n - k + k] x = f^[n - k + i] y := by
    rw [Function.iterate_add_apply, Function.iterate_add_apply, e]
  have e3 : n - k + k = n := by omega
  have e4 : n - k + i = m := by omega
  rw [e3, e4] at h1
  exact hroots h1

/-- On a forest `path` does not throw "illegal cycle". -/
theorem path_no_illegal_cycle (f : Nat → Nat) (h0 : f 0 = 0) (x0 : Nat)
    (hreach : ∃ n, f^[n] x0 = 0) :
    ∀ fuel k, path f fuel (f^[k] x0) ((List.range k).map (fun i => f^[i] x0)) ≠
      .error path_error.illegal_cycle := by
  obtain ⟨n, hn, hnz, hinj⟩ := orbit_simple hreach
  intro fuel
  induction fuel with
  | zero =>
    intro k
    generalize hu : f^[k] x0 = u
    cases u with
    | zero => simp [path]
    | succ u =>
      simp only [path]
      have hk : k < n := by
        by_contra hge
        have hz := iterate_stays_zero h0 hn (k - n)
        have e2 : n + (k - n) = k := by omega
        rw [e2, hu] at hz
        omega
      have hnot : u + 1 ∉ (List.range k).map (fun i => f^[i] x0) := by
        intro hmem
        obtain ⟨i, hi, he⟩ := List.mem_map.1 hmem
        rw [List.mem_range] at hi
        exact hinj i k hi hk (he.trans hu.symm)
      rw [if_neg hnot]
      simp
  | succ fuel ih =>
    intro k
    generalize hu : f^[k] x0 = u
    cases u with
    | zero => simp [path]
    | succ u =>
      simp only [path]
      have e1 : (List.range k).map (fun i => f^[i] x0) ++ [u + 1] =
          (List.range (k + 1)).map (fun i => f^[i] x0) := by
        rw [List.range_succ, List.map_append, List.map_singleton, hu]
      have e2 : f (u + 1) = f^[k + 1] x0 := by
        rw [Function.iterate_succ_apply', hu]
      rw [e1, e2]
      exact ih (k + 1)

end cuckoo

namespace cuckoo

/-- An array in which nil points to nil, the back-pointers cross between the two sides and
every chain reaches nil is a forest. -/
theorem isForest_of_reach {f : Nat → Nat} (h0 : f 0 = 0)
    (hpar : ∀ x, f x ≠ 0 → (x % 2 = 0 → f x % 2 = 1) ∧ (x % 2 = 1 → f x % 2 = 0))
    (hreach : ∀ x, ∃ n, f^[n] x = 0) : IsForest f :=
  ⟨h0, hpar, fun x => by
    obtain ⟨n, hn, _, hinj⟩ := orbit_simple (hreach x)
    exact ⟨n, hn, hinj⟩⟩

/-- On a forest the call `path(cuckoo, cuckoo[u], us)` with `us[0] = u` does not throw
"illegal cycle". -/
theorem IsForest.path_throw {f : Nat → Nat} (hF : IsForest f) (fuel u : Nat) :
    path f fuel (f u) [u] ≠ .error path_error.illegal_cycle := by
  obtain ⟨n, hn, _⟩ := hF.2.2 u
  exact path_no_illegal_cycle f hF.1 u ⟨n, hn⟩ fuel 1

/-- The insertion of an edge between two trees keeps the forest: `l` is the path from `a0`
to its root, `l2` the path from `b0`, the roots differ, the path from `a0` is reversed and
`a0` is pointed to `b0`. -/
theorem IsForest.graft {f : Nat → Nat} (hF : IsForest f) (a0 b0 : Nat) (ha0 : a0 ≠ 0)
    (hb0 : b0 ≠ 0) (fuel1 fuel2 : Nat) (l l2 : List Nat)
    (hl : path f fuel1 (f a0) [a0] = .ok l) (hl2 : path f fuel2 (f b0) [b0] = .ok l2)
    (hroots : l.getD (l.length - 1) 0 ≠ l2.getD (l2.length - 1) 0)
    (hab : (a0 % 2 = 0 → b0 % 2 = 1) ∧ (a0 % 2 = 1 → b0 % 2 = 0)) :
    IsForest (store (reverse_path l (l.length - 1) f) a0 b0) := by
  obtain ⟨hpa, _⟩ := path_from_node ha0 hl
  obtain ⟨hpb, _⟩ := path_from_node hb0 hl2
  obtain ⟨hia, hza⟩ := IsPath.iterate l _ hpa
  obtain ⟨hib, hzb⟩ := IsPath.iterate l2 _ hpb
  have hla : 1 ≤ l.length := by
    cases l with
    | nil => exact absurd hpa ha0
    | cons _ _ => simp
  have hlb : 1 ≤ l2.length := by
    cases l2 with
    | nil => exact absurd hpb hb0
    | cons _ _ => simp
  have ea : l.length - 1 + 1 = l.length := by omega
  have eb : l2.length - 1 + 1 = l2.length := by omega
  have hreach : ∀ x, ∃ n, f^[n] x = 0 := fun x => by
    obtain ⟨n, hn, _⟩ := hF.2.2 x
    exact ⟨n, hn⟩
  have hr : f^[l.length - 1] a0 ≠ f^[l2.length - 1] b0 := by
    rw [← (hia _ (by omega)).1, ← (hib _ (by omega)).1]
    exact hroots
  have hdis := orbits_disjoint hF.1 (x := a0) (y := b0) (n := l.length - 1)
    (m := l2.length - 1) (by rw [ea]; exact hza) (fun k hk => (hia k (by omega)).2)
    (by rw [eb]; exact hzb) (fun k hk => (hib k (by omega)).2) hr
  obtain ⟨g0, greach⟩ := graft_reaches f hF.1 hreach l (l.length - 1) a0 b0
    (fun k hk => hia k (by omega)) (by rw [ea]; exact hza) hdis
  exact isForest_of_reach g0
    (graft_parity f hF.2.1 l (l.length - 1) a0 b0 (fun k hk => hpa.links k (by omega)) hab)
    greach

/-- The loop of `GetNextSolution` keeps the forest, whatever the number of nonces it is
given, and does not end with the exception "illegal cycle". -/
theorem GetNextSolution_loop_forest (ctx : CContext) :
    ∀ fuel f N res c n, IsForest f →
      GetNextSolution_loop ctx fuel f N = some (res, c, n) →
      IsForest c ∧ res ≠ solve_result.thrown path_error.illegal_cycle := by
  intro fuel
  induction fuel with
  | zero =>
    intro f N res c n hF h
    simp only [GetNextSolution_loop, Option.some.injEq, Prod.mk.injEq] at h
    obtain ⟨h1, h2, _⟩ := h
    subst h1 h2
    exact ⟨hF, by simp⟩
  | succ fuel ih =>
    intro f N res c n hF h
    simp only [GetNextSolution_loop] at h
    split at h
    · exact ih _ _ _ _ _ hF h
    · rename_i hu0
      have hv0 : ctx.node_v N ≠ 0 := by have := node_v_odd ctx N; omega
      have hue := node_u_even ctx N
      have hvo := node_v_odd ctx N
      split at h
      · rename_i e hus
        simp only [Option.some.injEq, Prod.mk.injEq] at h
        obtain ⟨h1, h2, _⟩ := h
        subst h1 h2
        refine ⟨hF, fun hc => ?_⟩
        simp only [solve_result.thrown.injEq] at hc
        rw [hc] at hus
        exact hF.path_throw _ _ hus
      · rename_i us hus
        split at h
        · rename_i e hvs
          simp only [Option.some.injEq, Prod.mk.injEq] at h
          obtain ⟨h1, h2, _⟩ := h
          subst h1 h2
          refine ⟨hF, fun hc => ?_⟩
          simp only [solve_result.thrown.injEq] at hc
          rw [hc] at hvs
          exact hF.path_throw _ _ hvs
        · rename_i vs hvs
          split at h
          · split at h
            · cases h
            · split at h
              · simp only [Option.some.injEq, Prod.mk.injEq] at h
                obtain ⟨h1, h2, _⟩ := h
                subst h1 h2
                exact ⟨hF, by simp⟩
              · exact ih _ _ _ _ _ hF h
          · rename_i hroots
            split at h
            · exact ih _ _ _ _ _
                (hF.graft _ _ hu0 hv0 _ _ us vs hus hvs hroots
                  ⟨fun _ => hvo, fun h1 => by omega⟩) h
            · exact ih _ _ _ _ _
                (hF.graft _ _ hv0 hu0 _ _ vs us hvs hus (fun e => hroots e.symm)
                  ⟨fun h1 => by omega, fun _ => hue⟩) h

/-- C31, solver forest invariant: after `SetHeader`, and after any number of nonces tried by
the loop of `GetNextSolution` (so after any number of edge insertions and any number of
calls), the back-pointer array is a forest rooted at nil: `cuckoo[0]` is 0, every non-zero
back-pointer of an even (U) node is an odd (V) node and vice versa, and from every node
repeatedly following `cuckoo[.]` reaches 0 without revisiting a node; consequently `path`
never throws "illegal cycle". -/
theorem solver_forest_invariant (ctx : CContext) (D : Digests) (header : CBlockHeader) :
    IsForest (ctx.SetHeader D header).cuckoo ∧
    (∀ fuel f N res c n, IsForest f →
      GetNextSolution_loop ctx fuel f N = some (res, c, n) →
      IsForest c ∧ res ≠ solve_result.thrown path_error.illegal_cycle) ∧
    (∀ ctx0 : CContext, IsForest ctx0.cuckoo → ∀ res ctx1,
      ctx0.GetNextSolution = some (res, ctx1) →
      IsForest ctx1.cuckoo ∧ res ≠ solve_result.thrown path_error.illegal_cycle) ∧
    (∀ f, IsForest f → ∀ fuel u,
      path f fuel (f u) [u] ≠ .error path_error.illegal_cycle) := by
  refine ⟨⟨rfl, fun x hx => absurd rfl hx, fun x => ⟨1, rfl, fun a b hab hb => by omega⟩⟩,
    GetNextSolution_loop_forest ctx, fun ctx0 hF res ctx1 hcall => ?_,
    fun f hF fuel u => hF.path_throw fuel u⟩
  simp only [CContext.GetNextSolution] at hcall
  cases hloop : GetNextSolution_loop ctx0 (ctx0.easiness - ctx0.nonce) ctx0.cuckoo
      ctx0.nonce with
  | none => rw [hloop] at hcall; simp at hcall
  | some r =>
    obtain ⟨res2, c, n⟩ := r
    rw [hloop] at hcall
    simp only [Option.map_some', Option.some.injEq, Prod.mk.injEq] at hcall
    obtain ⟨h1, h2⟩ := hcall
    subst h1 h2
    exact GetNextSolution_loop_forest ctx0 _ _ _ _ _ _ hF hloop

end cuckoo

namespace fixture
open cuckoo cuckoo.verify_code

theorem proof_exactlyTwo_u :
    ExactlyTwo (edge_u (siphash_setkeys keybuf) (edgemask_of 7) proof) := by
  have h : ∀ a : Fin 42, fin_of partner_u a ≠ a ∧ ∀ c : Fin 42,
      (edge_u (siphash_setkeys keybuf) (edgemask_of 7) proof c =
        edge_u (siphash_setkeys keybuf) (edgemask_of 7) proof a ↔
          (c = a ∨ c = fin_of partner_u a)) := by decide
  exact fun a => ⟨fin_of partner_u a, (h a).1, (h a).2⟩

theorem proof_exactlyTwo_v :
    ExactlyTwo (edge_v (siphash_setkeys keybuf) (edgemask_of 7) proof) := by
  have h : ∀ a : Fin 42, fin_of partner_v a ≠ a ∧ ∀ c : Fin 42,
      (edge_v (siphash_setkeys keybuf) (edgemask_of 7) proof c =
        edge_v (siphash_setkeys keybuf) (edgemask_of 7) proof a ↔
          (c = a ∨ c = fin_of partner_v a)) := by decide
  exact fun a => ⟨fin_of partner_v a, (h a).1, (h a).2⟩

theorem proof_singleCycle :
    SingleCycle (edge_u (siphash_setkeys keybuf) (edgemask_of 7) proof)
      (edge_v (siphash_setkeys keybuf) (edgemask_of 7) proof) := by
  refine ⟨fin_of cycle_order, ?_, ?_⟩
  · rw [← Finite.injective_iff_bijective]
    have h : ∀ a b : Fin 42, fin_of cycle_order a = fin_of cycle_order b → a = b := by decide
    exact fun a b => h a b
  · decide

end fixture

open cuckoo cuckoo.verify_code in
/-- Witness of C2 on the fixture proof, which `verify` accepts on the 7-bit graph. -/
theorem verify_sound_witness :
    verify fixture.proof fixture.keybuf 7 = some POW_OK ∧
    ExactlyTwo (edge_u (siphash_setkeys fixture.keybuf) (edgemask_of 7) fixture.proof) ∧
    ExactlyTwo (edge_v (siphash_setkeys fixture.keybuf) (edgemask_of 7) fixture.proof) ∧
    (∀ a b, edge_u (siphash_setkeys fixture.keybuf) (edgemask_of 7) fixture.proof a ≠
      edge_v (siphash_setkeys fixture.keybuf) (edgemask_of 7) fixture.proof b) ∧
    AlternatingCycle (edge_u (siphash_setkeys fixture.keybuf) (edgemask_of 7) fixture.proof)
      (edge_v (siphash_setkeys fixture.keybuf) (edgemask_of 7) fixture.proof) :=
  ⟨by decide, cuckoo.verify_sound fixture.proof fixture.keybuf 7 (by decide) (by decide)
    (by decide)⟩

open cuckoo cuckoo.verify_code in
/-- Witness of C3 on the fixture proof: its entries are in range and ascending, its nodes
occur twice each and `cycle_order` arranges its edges in one cycle. -/
theorem verify_complete_witness :
    (∃ uvs, verify_scan (siphash_setkeys fixture.keybuf) (nnodes_of 7) (edgemask_of 7)
        fixture.proof PROOFSIZE 0 [] 0 0 = .ok (uvs, 0, 0)) ∧
    verify fixture.proof fixture.keybuf 7 = some POW_OK :=
  cuckoo.verify_complete fixture.proof fixture.keybuf 7 (by decide) (by decide) (by decide)
    (by decide) fixture.proof_exactlyTwo_u fixture.proof_exactlyTwo_v fixture.proof_singleCycle

open cuckoo cuckoo.verify_code in
/-- Witness of C4 on the fixture header, with the target encoded by its own bits. -/
theorem CheckProofOfWork_cuckoo_iff_witness :
    fixture.header.isCuckooPow = true ∧
    ((SetCompact 0x2100a000).2.1 = false ∧ (SetCompact 0x2100a000).1 ≠ 0 ∧
      (SetCompact 0x2100a000).2.2 = false) ∧
    ((CheckProofOfWork fixture.digests fixture.header 0 0x2100a000 fixture.params7 = true ↔
      ((SetCompact 0x2100a000).1 ≤ fixture.params7.cuckooPowLimit ∧
        cuckoo.verify fixture.header.cuckooProof
          (cuckoo.hash_blockheader fixture.digests fixture.header)
          fixture.params7.cuckooGraphSize = some POW_OK ∧
        cuckoo_pow_hash fixture.digests fixture.header ≤ (SetCompact 0x2100a000).1)) ∧
    (∀ c, c ≠ POW_OK →
      cuckoo.verify fixture.header.cuckooProof
        (cuckoo.hash_blockheader fixture.digests fixture.header)
        fixture.params7.cuckooGraphSize = some c →
      CheckProofOfWork fixture.digests fixture.header 0 0x2100a000 fixture.params7 = false)) :=
  ⟨by decide, by decide,
    CheckProofOfWork_cuckoo_iff fixture.digests fixture.header 0 0x2100a000 fixture.params7
      (by decide) (by decide)⟩

/-- Counterexample to C5 as stated: the supplied hash 0 is at most the target of bits
0x1d00ffff and the target is at most the main network's `powLimit`, yet
`CheckProofOfWork` returns false, because the header's own hash is above the target. -/
theorem CheckProofOfWork_supplied_hash_counterexample :
    fixture.classical_header.isCuckooPow = false ∧
    ((SetCompact 0x1d00ffff).2.1 = false ∧ (SetCompact 0x1d00ffff).1 ≠ 0 ∧
      (SetCompact 0x1d00ffff).2.2 = false) ∧
    (0 ≤ (SetCompact 0x1d00ffff).1 ∧
      (SetCompact 0x1d00ffff).1 ≤ fixture.params_main.powLimit) ∧
    CheckProofOfWork fixture.classical_digests fixture.classical_header 0 0x1d00ffff
      fixture.params_main = false := by
  decide

/-- Witness of C5 (amended) on the classical fixture header. -/
theorem CheckProofOfWork_classical_iff_witness :
    fixture.classical_header.isCuckooPow = false ∧
    ((SetCompact 0x1d00ffff).2.1 = false ∧ (SetCompact 0x1d00ffff).1 ≠ 0 ∧
      (SetCompact 0x1d00ffff).2.2 = false) ∧
    ((CheckProofOfWork fixture.classical_digests fixture.classical_header 0 0x1d00ffff
        fixture.params_main = true ↔
      (fixture.classical_digests.GetHash fixture.classical_header ≤ (SetCompact 0x1d00ffff).1 ∧
        (SetCompact 0x1d00ffff).1 ≤ fixture.params_main.powLimit)) ∧
    (∀ hash2, CheckProofOfWork fixture.classical_digests fixture.classical_header hash2
        0x1d00ffff fixture.params_main =
      CheckProofOfWork fixture.classical_digests fixture.classical_header 0 0x1d00ffff
        fixture.params_main)) :=
  ⟨by decide, by decide,
    CheckProofOfWork_classical_iff fixture.classical_digests fixture.classical_header 0
      0x1d00ffff fixture.params_main (by decide) (by decide)⟩

/-- Witness of C6: the bits 0x04923456 decode with the negative flag set, and the fixture
header with its valid proof is rejected under them. -/
theorem CheckProofOfWork_invalid_nBits_witness :
    ((SetCompact 0x04923456).2.1 = true ∨ (SetCompact 0x04923456).1 = 0 ∨
      (SetCompact 0x04923456).2.2 = true) ∧
    CheckProofOfWork fixture.digests fixture.header 0 0x04923456 fixture.params7 = false :=
  ⟨by decide,
    CheckProofOfWork_invalid_nBits fixture.digests fixture.header 0 0x04923456 fixture.params7
      (by decide)⟩

/-- Counterexample to C7 as stated: under parameters whose fork height is 2010, the
fixture header, flagged cycle-based, is accepted with a target above the classical ceiling
`powLimit`; its height is not an input, so this holds at every height below the fork. -/
theorem CheckProofOfWork_height_counterexample :
    fixture.header.isCuckooPow = true ∧
    (0 : Int) < fixture.params7.CuckooHardForkBlockHeight ∧
    fixture.params7.powLimit < (SetCompact 0x2100a000).1 ∧
    CheckProofOfWork fixture.digests fixture.header 0 0x2100a000 fixture.params7 = true := by
  decide

/-- Witness of C7 (amended) on the accepted fixture header. -/
theorem CheckProofOfWork_ceiling_by_flag_witness :
    CheckProofOfWork fixture.digests fixture.header 0 0x2100a000 fixture.params7 = true ∧
    ((fixture.header.isCuckooPow = true →
      (SetCompact 0x2100a000).1 ≤ fixture.params7.cuckooPowLimit) ∧
    (fixture.header.isCuckooPow = false →
      (SetCompact 0x2100a000).1 ≤ fixture.params7.powLimit) ∧
    (∀ forkHeight : Int, CheckProofOfWork fixture.digests fixture.header 0 0x2100a000
      { fixture.params7 with CuckooHardForkBlockHeight := forkHeight } = true)) :=
  ⟨by decide,
    CheckProofOfWork_ceiling_by_flag fixture.digests fixture.header 0 0x2100a000
      fixture.params7 (by decide)⟩

/-- Witness of C8, scenario B: at the genesis block with `nMinimumDifficultyBlocks = 4000`
the required bits are the encoded ceiling 0x1d00ffff. -/
theorem GetNextWorkRequired_selection_witness :
    GetNextWorkRequired [⟨0, 1521039602, 0x1d00ffff⟩] (fixture.candidate 1521039700)
      { fixture.params_test with nMinimumDifficultyBlocks := 4000 } = some 0x1d00ffff :=
  ((GetNextWorkRequired_selection ⟨0, 1521039602, 0x1d00ffff⟩ [] (fixture.candidate 1521039700)
    { fixture.params_test with nMinimumDifficultyBlocks := 4000 }).2.2 rfl rfl).trans
    (by decide)

/-- Witness of C9 on the normal retarget path: 25 blocks on schedule on the main network. -/
theorem DarkGravityWave_le_ceiling_witness :
    DarkGravityWave (fixture.regular_chain 700000 1588939602 97 24 0x1b0404cb)
      (fixture.candidate 1588942027) fixture.params_main = some 0x1b044b40 ∧
    (SetCompact 0x1b044b40).1 ≤ usedPowLimit fixture.params_main (700024 + 1) :=
  ⟨by decide,
    DarkGravityWave_le_ceiling ⟨700024, 1588939602 + 97 * 24, 0x1b0404cb⟩
      (fixture.regular_chain 700000 1588939602 97 23 0x1b0404cb)
      (fixture.candidate 1588942027) fixture.params_main 0x1b044b40 (by decide) (by decide)
      (by decide)⟩

/-- Counterexample to C10 as stated: on the test network, with the min-difficulty rule on
and a previous block whose bits 0x207fffff decode above the ceiling, `Midas` walks back to
that block and returns its bits unchanged. -/
theorem Midas_ceiling_counterexample :
    Midas [⟨1, 1521039700, 0x207fffff⟩, ⟨0, 1521039602, 0x1d00ffff⟩]
      (fixture.candidate 1521039800) fixture.params_test = some 0x207fffff ∧
    usedPowLimit fixture.params_test (1 + 1) < (SetCompact 0x207fffff).1 := by
  decide

/-- Witness of C10 (amended) on the adjusted path: 18 blocks on schedule on the main
network, before the fork. -/
theorem Midas_le_ceiling_witness :
    Midas (fixture.regular_chain 1000 1521136602 97 17 0x1b0404cb)
      (fixture.candidate 1521138300) fixture.params_main = some 0x1b041881 ∧
    (SetCompact 0x1b041881).1 ≤ usedPowLimit fixture.params_main (1017 + 1) :=
  ⟨by decide,
    Midas_le_ceiling ⟨1017, 1521136602 + 97 * 17, 0x1b0404cb⟩
      (fixture.regular_chain 1000 1521136602 97 16 0x1b0404cb)
      (fixture.candidate 1521138300) fixture.params_main 0x1b041881 (by decide) (by decide)
      (by decide) (by decide)⟩
/-- Counterexample to C11 as stated: under the regtest parameters (`fPowNoRetargeting` true)
the block after height 2010 falls in the 50 blocks after the fork, where `Midas` returns the
encoded ceiling 0x2100efff whatever the previous bits (here 0x207fffff) are. -/
theorem GetNextWorkRequired_no_retarget_counterexample :
    fixture.params7.fPowNoRetargeting = true ∧
    GetNextWorkRequired (fixture.regular_chain 2001 1512658235 97 9 0x207fffff)
      (fixture.candidate 1512659235) fixture.params7 = some 0x2100efff ∧
    GetNextWorkRequired (fixture.regular_chain 2001 1512658235 97 9 0x207fffff)
      (fixture.candidate 1512659235) fixture.params7 ≠ some 0x207fffff := by
  decide

/-- Witness of C11 (amended): with the fixed-interval algorithm selected and the flag set,
at the retarget boundary after block 889 the previous bits come back unchanged. -/
theorem GetNextWorkRequired_no_retarget_witness :
    fixture.params_fixed.fPowNoRetargeting = true ∧
    GetNextWorkRequired
      (⟨889, 1512658235 + 97 * 889, 0x207fffff⟩ ::
        fixture.regular_chain 0 1512658235 97 888 0x207fffff)
      (fixture.candidate 1512759235) fixture.params_fixed = some 0x207fffff :=
  ⟨by decide,
    (GetNextWorkRequired_no_retarget ⟨889, 1512658235 + 97 * 889, 0x207fffff⟩
      (fixture.regular_chain 0 1512658235 97 888 0x207fffff)
      (fixture.candidate 1512759235) fixture.params_fixed (by decide)).2 890 (by decide)
      (by decide) (by decide) (by decide) (by decide) (by decide) (Or.inl (by decide))⟩

/-- Counterexample to C12 as stated: with the regtest ceiling and timespan and retargeting
on, a previous target at bits 0x207fffff (below `powLimit`) and an elapsed time clamped to
four timespans, the true product gives the encoded ceiling 0x207fffff, but the 256-bit
product wraps and `CalculateNextWorkRequired` returns 0x1f00be2e. -/
theorem CalculateNextWorkRequired_overflow_counterexample :
    fixture.params_retarget.fPowNoRetargeting = false ∧
    (0 : Int) < fixture.params_retarget.nPowTargetTimespan ∧
    (SetCompact 0x207fffff).1 ≤ fixture.params_retarget.powLimit ∧
    min (max ((1512958235 : Int) - 1512058235) (fixture.params_retarget.nPowTargetTimespan / 4))
      (fixture.params_retarget.nPowTargetTimespan * 4) = 345600 ∧
    GetCompact (min ((SetCompact 0x207fffff).1 * 345600 / 86400)
      fixture.params_retarget.powLimit) = 0x207fffff ∧
    CalculateNextWorkRequired [⟨889, 1512958235, 0x207fffff⟩] 1512058235
      fixture.params_retarget = some 0x1f00be2e := by
  decide

/-- Witness of C12 (amended): an elapsed time of exactly half the timespan halves the
previous target of bits 0x1e00ffff. -/
theorem CalculateNextWorkRequired_formula_witness :
    (2 * min (max ((1512701435 : Int) - 1512658235)
        (fixture.params_retarget.nPowTargetTimespan / 4))
      (fixture.params_retarget.nPowTargetTimespan * 4) =
        fixture.params_retarget.nPowTargetTimespan) ∧
    CalculateNextWorkRequired [⟨889, 1512701435, 0x1e00ffff⟩] 1512658235
      fixture.params_retarget = some (GetCompact ((SetCompact 0x1e00ffff).1 / 2)) :=
  ⟨by decide,
    (CalculateNextWorkRequired_formula ⟨889, 1512701435, 0x1e00ffff⟩ [] 1512658235
      fixture.params_retarget (by decide) (by decide) (by decide) (by decide)
      (by decide)).2 (by decide)⟩

/-- Counterexample to C13 as stated: on the main network's timespan 139795, which is not a
multiple of 4, with no time elapsed the target before the clamp is
`floor(T_prev * 34948 / 139795)`, below `floor(T_prev / 4)`. -/
theorem CalculateNextWorkRequired_quarter_counterexample :
    fixture.params_main.fPowNoRetargeting = false ∧
    CalculateNextWorkRequired [⟨1440, 1521039602, 0x1c00ffff⟩] 1521039602 fixture.params_main =
      some (GetCompact (retargetBeforeClamp ⟨1440, 1521039602, 0x1c00ffff⟩ 1521039602
        fixture.params_main)) ∧
    retargetBeforeClamp ⟨1440, 1521039602, 0x1c00ffff⟩ 1521039602 fixture.params_main =
      (SetCompact 0x1c00ffff).1 * 34948 / 139795 ∧
    retargetBeforeClamp ⟨1440, 1521039602, 0x1c00ffff⟩ 1521039602 fixture.params_main <
      (SetCompact 0x1c00ffff).1 / 4 := by
  decide

/-- Witness of C13 (amended) on the main network's parameters. -/
theorem CalculateNextWorkRequired_bounds_witness :
    (∃ c, CalculateNextWorkRequired [⟨1440, 1521039602, 0x1c00ffff⟩] 1521039602
        fixture.params_main = some c ∧
      (SetCompact c).1 ≤ fixture.params_main.powLimit) ∧
    retargetBeforeClamp ⟨1440, 1521039602, 0x1c00ffff⟩ 1521039602 fixture.params_main ≤
      (SetCompact 0x1c00ffff).1 * 4 :=
  have h := CalculateNextWorkRequired_bounds ⟨1440, 1521039602, 0x1c00ffff⟩ [] 1521039602
    fixture.params_main (by decide) (by decide) (by decide) (by decide)
  ⟨h.1.elim fun c hc => ⟨c, hc.1, hc.2.2⟩, h.2.1⟩

open cuckoo cuckoo.verify_code in
/-- Witness of C14: the fixture proof with its first two entries swapped. -/
theorem verify_reordered_witness :
    fixture.proof.length = 42 ∧
    verify fixture.proof fixture.keybuf 7 = some POW_OK ∧
    fixture.proof_swapped.Perm fixture.proof ∧
    fixture.proof_swapped ≠ fixture.proof ∧
    verify fixture.proof_swapped fixture.keybuf 7 = some POW_TOO_SMALL :=
  ⟨by decide, by decide, List.Perm.swap _ _ _, by decide,
    cuckoo.verify_reordered fixture.proof fixture.proof_swapped fixture.keybuf 7 (by decide)
      (by decide) (List.Perm.swap _ _ _) (by decide)⟩

open cuckoo cuckoo.verify_code in
/-- Witness of C15: the fixture proof with nonce 8 at positions 0 and 1. -/
theorem verify_duplicate_witness :
    fixture.proof_repeated.getD 0 0 = fixture.proof_repeated.getD 1 0 ∧
    ∃ c, verify_scan (siphash_setkeys fixture.keybuf) (nnodes_of 7) (edgemask_of 7)
        fixture.proof_repeated PROOFSIZE 0 [] 0 0 = .error c ∧
      (c = POW_TOO_BIG ∨ c = POW_TOO_SMALL) ∧
      verify fixture.proof_repeated fixture.keybuf 7 = some c ∧
      verify fixture.proof_repeated fixture.keybuf 7 ≠ some POW_OK :=
  ⟨by decide,
    cuckoo.verify_duplicate fixture.proof_repeated fixture.keybuf 7 0 1 (by decide) (by decide)
      (by decide) (by decide)⟩

open cuckoo cuckoo.verify_code in
/-- Witness of C16 on the 7-bit graph: in the swapped fixture proof entry 1 is the first
to fail, on the order check. -/
theorem verify_range_order_witness :
    (7 : Nat) ≤ 31 ∧ nnodes_of 7 = 2 ^ 7 ∧
    verify fixture.proof_swapped fixture.keybuf 7 = some POW_TOO_SMALL :=
  have h := cuckoo.verify_range_order fixture.proof_swapped fixture.keybuf 7 (by decide)
  ⟨by decide, h.1, ((h.2.1 1 (by decide) (by decide) (by decide)).1).trans (by decide)⟩

open cuckoo in
/-- Witness of C17: the U node of nonce 8 under the fixture key on the 7-bit graph. -/
theorem sipnode_formula_witness :
    sipnode (siphash_setkeys fixture.keybuf) 8 0 (edgemask_of 7) =
        2 * (siphash24 (siphash_setkeys fixture.keybuf) ((2 * 8 + 0) % 2 ^ 32) % nedges_of 7)
          + 0 ∧
      sipnode (siphash_setkeys fixture.keybuf) 8 0 (edgemask_of 7) < 2 * nedges_of 7 :=
  have h := cuckoo.sipnode_formula (siphash_setkeys fixture.keybuf) 8 0 7 (by decide)
    (by decide) (by decide)
  ⟨h.2.2.1, h.2.2.2.1⟩

/-- Witness of C18: six blocks on the main network. -/
theorem DarkGravityWave_short_chain_witness :
    DarkGravityWave
      (⟨5, 1521039602 + 97 * 5, 0x1d00ffff⟩ :: fixture.regular_chain 0 1521039602 97 4 0x1d00ffff)
      (fixture.candidate 1521040200) fixture.params_main = some 0x1d00ffff :=
  ((DarkGravityWave_short_chain ⟨5, 1521039602 + 97 * 5, 0x1d00ffff⟩
    (fixture.regular_chain 0 1521039602 97 4 0x1d00ffff) (fixture.candidate 1521040200)
    fixture.params_main (by decide)).1).trans (by decide)

/-- Counterexample to C19 as stated: on the main network `Midas` is the algorithm selected
after block 5; on six blocks with bits 0x1c00ffff it returns 0x1c01fffd, twice the previous
target, not the encoded ceiling 0x1d00ffff. -/
theorem Midas_short_chain_counterexample :
    GetNextWorkRequired (fixture.regular_chain 0 1521039602 97 5 0x1c00ffff)
        (fixture.candidate 1521040200) fixture.params_main =
      Midas (fixture.regular_chain 0 1521039602 97 5 0x1c00ffff)
        (fixture.candidate 1521040200) fixture.params_main ∧
    Midas (fixture.regular_chain 0 1521039602 97 5 0x1c00ffff)
      (fixture.candidate 1521040200) fixture.params_main = some 0x1c01fffd ∧
    GetCompact (usedPowLimit fixture.params_main (5 + 1)) = 0x1d00ffff := by
  decide

/-- Witness of C19 (amended): six blocks at the encoded ceiling on the main network. -/
theorem Midas_short_chain_witness :
    Midas
      (⟨5, 1521039602 + 97 * 5, 0x1d00ffff⟩ :: fixture.regular_chain 0 1521039602 97 4 0x1d00ffff)
      (fixture.candidate 1521040200) fixture.params_main = some 0x1d00ffff :=
  (Midas_short_chain ⟨5, 1521039602 + 97 * 5, 0x1d00ffff⟩
    (fixture.regular_chain 0 1521039602 97 4 0x1d00ffff) (fixture.candidate 1521040200)
    fixture.params_main (by decide) (by decide) (by decide) (by decide) (by decide) (by decide)
    (by decide)).trans (by decide)

open cuckoo in
/-- Witness of C20 at the code, which is also the failing input: on the fixture header and
the 7-bit graph the first call returns the fixture proof and so does the second. -/
theorem GetNextSolution_repeats_witness :
    (((CContext.create 7).SetHeader fixture.digests fixture.header).GetNextSolution).map
        Prod.fst = some (solve_result.proof fixture.proof) ∧
    ∃ ctx1, ((CContext.create 7).SetHeader fixture.digests fixture.header).GetNextSolution =
        some (solve_result.proof fixture.proof, ctx1) ∧
      ((CContext.create 7).SetHeader fixture.digests fixture.header).nonce ≤ ctx1.nonce ∧
      ctx1.nonce < ((CContext.create 7).SetHeader fixture.digests fixture.header).easiness ∧
      ctx1.GetNextSolution = some (solve_result.proof fixture.proof, ctx1) :=
  ⟨by decide,
    cuckoo.GetNextSolution_repeats ((CContext.create 7).SetHeader fixture.digests fixture.header)
      fixture.proof (by decide)⟩
open cuckoo cuckoo.verify_code in
/-- Witness of C1 on the fixture header and the 7-bit graph: the solver returns the fixture
proof, and `verify` accepts it under the key bytes of the header. -/
theorem solver_round_trip_witness :
    (((CContext.create 7).SetHeader fixture.digests fixture.header).GetNextSolution).map
        Prod.fst = some (solve_result.proof fixture.proof) ∧
    verify fixture.proof (hash_blockheader fixture.digests fixture.header) 7 = some POW_OK :=
  ⟨by decide,
    cuckoo.solver_round_trip fixture.digests fixture.header 7 (by decide) (by decide)
      fixture.proof (by decide)⟩
/-- Witness of C21: block 1017 of the main network, far behind its schedule. -/
theorem desiredInterval_range_witness :
    (0 : Int) < fixture.params_main.nPowTargetSpacing ∧
    ∃ D, desiredInterval fixture.params_main
        (CBlockIndex.GetBlockTime ⟨1017, 1522039602, 0x1c00ffff⟩)
        (fixture.params_main.genesisBlockTime +
          (1017 : Int) * fixture.params_main.nPowTargetSpacing) = some D ∧
      Int.tdiv (fixture.params_main.nPowTargetSpacing * 9) 10 ≤ D ∧
      D ≤ Int.tdiv (fixture.params_main.nPowTargetSpacing * 11) 10 :=
  ⟨by decide,
    (desiredInterval_range fixture.params_main ⟨1017, 1522039602, 0x1c00ffff⟩
      (by decide)).1.elim fun D h => ⟨D, h.1, h.2.1, h.2.2.1⟩⟩

/-- Witness of C22 at the code, on the failing input: block 1017 of the main network exactly
on schedule gets the desired interval 87, not the nominal spacing 97. -/
theorem desiredInterval_on_schedule_witness :
    fixture.params_main.nPowTargetSpacing = 97 ∧
    desiredInterval fixture.params_main (1521039602 + 1017 * 97) (1521039602 + 1017 * 97) =
      some 87 :=
  ⟨by decide,
    (desiredInterval_on_schedule fixture.params_main (1521039602 + 1017 * 97)
      (by decide)).trans (by decide)⟩

/-- Counterexample to C23 as stated: with the ceiling 0xefff... and a previous target of
bits 0x2100efff, 18 blocks 125 seconds apart give the factor 9321 without an emergency; the
true `floor(T_prev / 9321) * 10000` is above the ceiling, whose encoding is 0x2100efff, but
the 256-bit product wraps and `Midas` returns 0x20017a99. -/
theorem Midas_normal_overflow_counterexample :
    fixture.params_wide.fPowAllowMinDifficultyBlocks = false ∧
    desiredInterval fixture.params_wide 1560000000
      (fixture.params_wide.genesisBlockTime + 300017 * 97) = some 87 ∧
    avgRecentTimestamps (fixture.chain_at 300017 0x2100efff (fixture.steady 1560000000 125 17))
      fixture.params_wide = ⟨125, 125, 125, 125⟩ ∧
    max 5000 (min 20000 (Int.tdiv (10000 * (6 * 87)) (125 + 5 * 87))) = 9321 ∧
    GetCompact (min ((SetCompact 0x2100efff).1 / 9321 * 10000)
      (usedPowLimit fixture.params_wide (300017 + 1))) = 0x2100efff ∧
    Midas (fixture.chain_at 300017 0x2100efff (fixture.steady 1560000000 125 17))
      (fixture.candidate 1560000100) fixture.params_wide = some 0x20017a99 := by
  decide

/-- Witness of C23 (amended): 18 main-network blocks 125 seconds apart, factor 9321. -/
theorem Midas_normal_adjustment_witness :
    Midas (⟨1017, 1522039602, 0x1c00ffff⟩ ::
        fixture.chain_at 1016 0x1c00ffff (fixture.steady 1522039477 125 16))
      (fixture.candidate 1522039702) fixture.params_main = some 0x1c0112a4 :=
  ((Midas_normal_adjustment ⟨1017, 1522039602, 0x1c00ffff⟩
    (fixture.chain_at 1016 0x1c00ffff (fixture.steady 1522039477 125 16))
    (fixture.candidate 1522039702) fixture.params_main 87 ⟨125, 125, 125, 125⟩
    (by decide) (by decide) (by decide) (by decide) (by decide) (by decide) (by decide)).1
    (by decide) (by decide)).trans (by decide)

/-- Counterexample to C24 as stated: nine blocks 10 seconds apart after eight blocks 200
seconds apart put the averages over 5, 7 and 9 blocks (three of the four) below
`floor(2*87/3) = 58`, but the average over 17 blocks is 99, so no emergency applies, nor the
normal adjustment, and `Midas` returns the previous bits 0x1c00ffff, not the encoding
0x1c009fff of the target scaled by 0.625. -/
theorem Midas_emergency_counterexample :
    desiredInterval fixture.params_main 1522039602
      (fixture.params_main.genesisBlockTime + 1017 * 97) = some 87 ∧
    Int.tdiv (87 * 2) 3 = 58 ∧
    avgRecentTimestamps (fixture.chain_at 1017 0x1c00ffff
        (fixture.steady 1522039602 10 9 ++ fixture.steady 1522039312 200 7))
      fixture.params_main = ⟨10, 10, 10, 99⟩ ∧
    GetCompact (min ((SetCompact 0x1c00ffff).1 / 16000 * 10000)
      (usedPowLimit fixture.params_main (1017 + 1))) = 0x1c009fff ∧
    Midas (fixture.chain_at 1017 0x1c00ffff
        (fixture.steady 1522039602 10 9 ++ fixture.steady 1522039312 200 7))
      (fixture.candidate 1522039702) fixture.params_main = some 0x1c00ffff := by
  decide

/-- Witness of C24 (amended): 18 main-network blocks 10 seconds apart. -/
theorem Midas_emergency_witness :
    Midas (⟨1017, 1522039602, 0x1c00ffff⟩ ::
        fixture.chain_at 1016 0x1c00ffff (fixture.steady 1522039592 10 16))
      (fixture.candidate 1522039702) fixture.params_main = some 0x1c009fff :=
  ((Midas_emergency ⟨1017, 1522039602, 0x1c00ffff⟩
    (fixture.chain_at 1016 0x1c00ffff (fixture.steady 1522039592 10 16))
    (fixture.candidate 1522039702) fixture.params_main 87 ⟨10, 10, 10, 10⟩
    (by decide) (by decide) (by decide) (by decide) (by decide)).1 (by decide)).trans
    (by decide)

/-- Counterexample to C25 as stated: 17 main-network blocks 80 seconds apart whose 17th
predecessor carries a timestamp 4000 seconds after the last block give the average -235
over 17 blocks and the factor 26100, clamped to 20000; `Midas` returns 0x1b7fff7f, which
decodes to less than half the previous target of bits 0x1c00ffff. -/
theorem Midas_bounded_step_counterexample :
    fixture.params_main.fPowAllowMinDifficultyBlocks = false ∧
    avgRecentTimestamps (fixture.chain_at 1017 0x1c00ffff
        (fixture.steady 1522039602 80 16 ++ [1522043602])) fixture.params_main =
      ⟨80, 80, 80, -235⟩ ∧
    Midas (fixture.chain_at 1017 0x1c00ffff
        (fixture.steady 1522039602 80 16 ++ [1522043602]))
      (fixture.candidate 1522039702) fixture.params_main = some 0x1b7fff7f ∧
    2 * (SetCompact 0x1b7fff7f).1 < (SetCompact 0x1c00ffff).1 := by
  decide

/-- Witness of C25 (amended): 18 main-network blocks 125 seconds apart. -/
theorem Midas_bounded_step_witness :
    Midas (⟨1017, 1522039602, 0x1c00ffff⟩ ::
        fixture.chain_at 1016 0x1c00ffff (fixture.steady 1522039477 125 16))
      (fixture.candidate 1522039702) fixture.params_main = some 0x1c0112a4 ∧
    (SetCompact 0x1c0112a4).1 ≤ 2 * (SetCompact 0x1c00ffff).1 :=
  ⟨by decide,
    (Midas_bounded_step ⟨1017, 1522039602, 0x1c00ffff⟩
      (fixture.chain_at 1016 0x1c00ffff (fixture.steady 1522039477 125 16))
      (fixture.candidate 1522039702) fixture.params_main 0x1c0112a4
      (by decide) (by decide) (by decide)).1⟩

/-- C26 at the code: on 18 main-network blocks, the last nine 100 seconds apart after eight
blocks 2000 seconds apart, no emergency applies (the averages over 5, 7 and 9 blocks are 100,
not above `floor(3*87/2) = 130`), the normal adjustment computes the factor
`10000*6*87 / (994 + 5*87) = 3652`, below 5000, and the final clamp changes it to 5000. -/
theorem Midas_factor_below_clamp :
    desiredInterval fixture.params_main 1522039602
      (fixture.params_main.genesisBlockTime + 1017 * 97) = some 87 ∧
    avgRecentTimestamps (fixture.chain_at 1017 0x1c00ffff
        (fixture.steady 1522039602 100 9 ++ fixture.steady 1522036702 2000 7))
      fixture.params_main = ⟨100, 100, 100, 994⟩ ∧
    midas_factor ⟨100, 100, 100, 994⟩ 87 = some 3652 ∧
    midas_limit_factor 3652 = 5000 ∧
    Midas (fixture.chain_at 1017 0x1c00ffff
        (fixture.steady 1522039602 100 9 ++ fixture.steady 1522036702 2000 7))
      (fixture.candidate 1522039702) fixture.params_main = some 0x1c01fffd := by
  decide

/-- C27 at the code: on 17 main-network blocks 80 seconds apart whose 17th predecessor
carries a timestamp 7400 seconds after the last block, the average over 17 blocks is -435,
the reversed condition of the normal adjustment holds without an emergency, and the divisor
`avgOf17 + 5 * nIntervalDesired = -435 + 5 * 87` is zero: the division does not return. -/
theorem Midas_division_by_zero :
    (0 : Int) < fixture.params_main.nPowTargetSpacing ∧
    desiredInterval fixture.params_main 1522039602
      (fixture.params_main.genesisBlockTime + 1017 * 97) = some 87 ∧
    avgRecentTimestamps (fixture.chain_at 1017 0x1c00ffff
        (fixture.steady 1522039602 80 16 ++ [1522047002])) fixture.params_main =
      ⟨80, 80, 80, -435⟩ ∧
    (-435 : Int) + 5 * 87 = 0 ∧
    midas_factor ⟨80, 80, 80, -435⟩ 87 = none ∧
    Midas (fixture.chain_at 1017 0x1c00ffff
        (fixture.steady 1522039602 80 16 ++ [1522047002]))
      (fixture.candidate 1522039702) fixture.params_main = none := by
  decide

/-- Witness of C28: 18 blocks, the last nine 100 seconds apart after eight blocks 2000
seconds apart. -/
theorem avgRecentTimestamps_windows_witness :
    avgRecentTimestamps (⟨1017, 1522039602, 0x1c00ffff⟩ ::
        fixture.chain_at 1016 0x1c00ffff
          (fixture.steady 1522039502 100 8 ++ fixture.steady 1522036702 2000 7))
      fixture.params_main = ⟨100, 100, 100, 994⟩ :=
  (avgRecentTimestamps_windows ⟨1017, 1522039602, 0x1c00ffff⟩
    (fixture.chain_at 1016 0x1c00ffff
      (fixture.steady 1522039502 100 8 ++ fixture.steady 1522036702 2000 7))
    fixture.params_main (by decide)).trans (by decide)

/-- Counterexample to C29 as stated: under the devnet parameters (ceiling 0x7fff...,
min-difficulty rule on), previous bits 0x201a0000 and a candidate 500 seconds after the
previous block (more than 4 * 97, not more than 7200), the true `10 * T_prev` is above the
ceiling, whose encoding is 0x207fffff, but the 256-bit product wraps to `2^250` and
`DarkGravityWave` returns 0x20040000. -/
theorem DarkGravityWave_min_difficulty_counterexample :
    fixture.params_dev.fPowAllowMinDifficultyBlocks = true ∧
    4 * fixture.params_dev.nPowTargetSpacing < 500 ∧
    GetCompact (min (10 * (SetCompact 0x201a0000).1)
      (usedPowLimit fixture.params_dev (124 + 1))) = 0x207fffff ∧
    DarkGravityWave (fixture.chain_at 124 0x201a0000 (fixture.steady 1600000000 97 24))
      (fixture.candidate 1600000500) fixture.params_dev = some 0x20040000 := by
  decide

/-- Witness of C29 (amended): the test network, a candidate 500 seconds after the previous
block. -/
theorem DarkGravityWave_min_difficulty_witness :
    DarkGravityWave (⟨300024, 1600000000, 0x1c00ffff⟩ ::
        fixture.chain_at 300023 0x1c00ffff (fixture.steady 1599999903 97 23))
      (fixture.candidate 1600000500) fixture.params_test = some 0x1c09fff6 :=
  ((DarkGravityWave_min_difficulty ⟨300024, 1600000000, 0x1c00ffff⟩
    (fixture.chain_at 300023 0x1c00ffff (fixture.steady 1599999903 97 23))
    (fixture.candidate 1600000500) fixture.params_test (by decide) (by decide)).2.1
    (by decide) (by decide) (by decide)).trans (by decide)

/-- Counterexample to C30 as stated: on 25 main-network blocks of bits 0x1b0404cb the mean of
the last 24 targets is the target itself, and the value the loop leaves in
`bnPastTargetAvg` is 16 less. -/
theorem DarkGravityWave_average_counterexample :
    (((fixture.chain_at 700024 0x1b0404cb (fixture.steady 1588941930 97 24)).take 24).map
      (fun b => (SetCompact b.nBits).1)).sum / 24 = (SetCompact 0x1b0404cb).1 ∧
    (DarkGravityWave_loop 24 1
      (fixture.chain_at 700024 0x1b0404cb (fixture.steady 1588941930 97 24)) 0).map Prod.fst =
        some ((SetCompact 0x1b0404cb).1 - 16) := by
  decide

/-- Witness of C30 (amended): 25 main-network blocks on Algorithm D. -/
theorem DarkGravityWave_retarget_witness :
    DarkGravityWave (⟨700024, 1588941930, 0x1b0404cb⟩ ::
        fixture.chain_at 700023 0x1b0404cb (fixture.steady 1588941833 97 23))
      (fixture.candidate 1588942027) fixture.params_main = some 0x1b044b40 :=
  ((DarkGravityWave_retarget ⟨700024, 1588941930, 0x1b0404cb⟩
    (fixture.chain_at 700023 0x1b0404cb (fixture.steady 1588941833 97 23))
    (fixture.candidate 1588942027) fixture.params_main 87 (by decide) (by decide)).2.2.2
    (by decide) (by decide) (by decide) (by decide) (by decide)).trans (by decide)

/-- Witness of C32 on the fixture header and the 7-bit graph: the context after `SetHeader`
satisfies the invariant, the solver returns the fixture proof, and that proof has the
shape. -/
theorem solver_proof_shape_witness :
    (((cuckoo.CContext.create 7).SetHeader fixture.digests fixture.header).GetNextSolution).map
        Prod.fst = some (cuckoo.solve_result.proof fixture.proof) ∧
    (fixture.proof.length = cuckoo.PROOFSIZE ∧ fixture.proof.Pairwise (· < ·) ∧
      fixture.proof.Nodup ∧
      ((cuckoo.CContext.create 7).SetHeader fixture.digests fixture.header).easiness = 2 ^ 7 ∧
      (∀ n ∈ fixture.proof, n < 2 ^ 7) ∧
      ∀ n ∈ fixture.proof, ∀ m, m < n →
        ((cuckoo.CContext.create 7).SetHeader fixture.digests fixture.header).edge_of m ≠
          ((cuckoo.CContext.create 7).SetHeader fixture.digests fixture.header).edge_of n) :=
  ⟨by decide,
    (cuckoo.solver_proof_shape 7 (by decide) (by decide)
      ((cuckoo.CContext.create 7).SetHeader fixture.digests fixture.header) rfl
      ⟨rfl, fun x hx => absurd rfl hx⟩ (by decide) fixture.proof (by decide)).1⟩

/-- Witness of C33 on the 7-bit graph, the fixture key and nonce 8, whose U endpoint is
node 22. -/
theorem solver_verifier_same_graph_witness :
    cuckoo.CContext.node_u
      { cuckoo.CContext.create 7 with sip_keys := cuckoo.siphash_setkeys fixture.keybuf } 8 =
        22 :=
  ((cuckoo.solver_verifier_same_graph 7 (by decide) (by decide)
    (cuckoo.siphash_setkeys fixture.keybuf) 8).2.2.2.1).trans (by decide)

/-- Witness of C35 on the fixture proof, which `verify` accepts on the 7-bit graph. -/
theorem verify_ok_range_witness :
    cuckoo.verify fixture.proof fixture.keybuf 7 = some cuckoo.verify_code.POW_OK ∧
    ∀ m, m < 41 → fixture.proof.getD m 0 < 2 ^ 7 :=
  ⟨by decide, (cuckoo.verify_ok_range fixture.proof fixture.keybuf 7 (by decide)
    (by decide)).2.2.1⟩

/-- Witness of C36 on the fixture header and the regtest parameters with the 7-bit graph:
the first iteration finds the fixture proof for nonce 4831 and returns `true`. -/
theorem solve_never_false_witness :
    cuckoo.solve fixture.digests fixture.header fixture.params7 1 =
      some (cuckoo.solve_outcome.returned true, fixture.header) ∧
    CheckProofOfWork fixture.digests fixture.header (fixture.digests.GetHash fixture.header)
      fixture.header.nBits fixture.params7 = true :=
  ⟨by decide,
    ((cuckoo.solve_never_false fixture.digests fixture.header fixture.params7 (by decide) 1
      (cuckoo.solve_outcome.returned true, fixture.header) (by decide)).2.1 rfl).1⟩

/-- Witness of C37: main network, ten blocks after the fork at height 246500. -/
theorem Midas_post_fork_window_witness :
    Midas [⟨246509, 1600000000, 0x1c00ffff⟩] (fixture.candidate 1600000100)
      fixture.params_main = some 0x2000ffff ∧
    GetNextWorkRequired [⟨246509, 1600000000, 0x1c00ffff⟩] (fixture.candidate 1600000100)
      fixture.params_main = some 0x2000ffff :=
  ⟨((Midas_post_fork_window ⟨246509, 1600000000, 0x1c00ffff⟩ []
      (fixture.candidate 1600000100) fixture.params_main (by decide) (by decide)).1).trans
      (by decide),
    ((Midas_post_fork_window ⟨246509, 1600000000, 0x1c00ffff⟩ []
      (fixture.candidate 1600000100) fixture.params_main (by decide) (by decide)).2
      (by decide) (by decide) (by decide)).trans (by decide)⟩

/-- Witness of C38: a fee of 1 for 3 bytes gives the rate 333, whose fee for 3 bytes is
rounded up from 0 to 1; the rate -5 gives the fee -1 for 3 bytes. -/
theorem CFeeRate_round_trip_witness :
    ((CFeeRate.from_fee 1 3).bind (fun rate => rate.GetFee 3) = some 1 ∧
      (0 : Int) ≤ 1 ∧ (1 : Int) ≤ 1) ∧
    ((CFeeRate.mk (-5)).GetFee 3 = some (-1) ∧ (-1 : Int) ≤ -1) :=
  ⟨⟨by decide,
      (CFeeRate_round_trip 1 (-5) 3 (by decide) (by decide) (by decide) (by decide)).1 1
        (by decide)⟩,
    by decide,
    ((CFeeRate_round_trip 1 (-5) 3 (by decide) (by decide) (by decide) (by decide)).2.2.1
      (-1) (by decide)).2.2 (by decide)⟩

/-- Witness of C39: an MCP registration from an address that is IPv4 only, with a valid
version and name, is rejected at the address check. -/
theorem special_tx_address_check_witness :
    CheckMcpRegTx fixture.tx_types (fun _ => some fixture.mcp_reg) fixture.mcp_tx =
      tx_check.DoS 10 "bad-mcptx-ip-invalid" :=
  (special_tx_address_check fixture.tx_types (fun _ => some fixture.mcp_reg)
    (fun _ => none) (fun _ => none) fixture.mcp_tx).1.2 fixture.mcp_reg rfl rfl (Or.inr rfl)
